import Mathlib

/-!
The record mapper and the JSON token cursor of structurator.

A shallow embedding of the `stc` deserialisation library.

* Bytes of the input are natural numbers below 256, a `std::string_view` is the
  list of the bytes it still covers, and a pointer into the input buffer is the
  byte offset from `source_begin`.
* A function that throws returns an `outcome` next to the state it leaves
  behind; handlers invoked before the throw are logs inside that state.
* Loops whose termination depends on the cursor take a fuel argument and answer
  `outcome.out_of_fuel` when it is used up.
-/

namespace stc

/-- A run of input bytes (`std::string_view`, `std::string`). -/
abbrev bytes := List Nat

/-- The bytes of an ASCII text, used to write documents and keys legibly. -/
def ascii (s : String) : bytes := s.toList.map Char.toNat

/-- Result of a call that may throw: `doc_input.hpp` (`doc_input_exception`),
`doc_consumer.hpp` (`doc_consume_exception`). `aborted` is `std::abort()` or a
failed `assert`, `ill_formed` marks a schema for which the templates do not
compile, and `out_of_fuel` belongs to the embedding only. -/
inductive outcome (α : Type) where
  | ok (a : α)
  | doc_input_exception
  | doc_consume_exception
  | aborted
  | ill_formed
  | out_of_fuel
  deriving DecidableEq, Repr

/-- `doc_location` of `doc_input.hpp`. -/
structure doc_location where
  byte : Nat
  line : Nat
  deriving DecidableEq, Repr

/-- `doc_input::token_kind` of `doc_input.hpp`. -/
inductive token_kind where
  | eof
  | begin_mapping
  | end_mapping
  | begin_array
  | end_array
  | null
  | boolean
  | number
  | string
  deriving DecidableEq, Repr

/-- `doc_input::relative_loc` of `doc_input.hpp`. -/
inductive relative_loc where
  | value
  | key
  deriving DecidableEq, Repr

/-- `ref_string` of `ref_string.hpp`: the bytes `data()[0 .. size())` together
with the ownership bit of `length`. -/
structure ref_string where
  data : bytes
  is_allocated : Bool
  deriving DecidableEq, Repr

/-- `ref_string() = default`: null pointer, length zero. -/
def ref_string.empty : ref_string := ⟨[], false⟩

/-- `ref_string(std::string_view)`: non-owning. -/
def ref_string.of_view (source : bytes) : ref_string := ⟨source, false⟩

/-- `ref_string::make_copy`: owning copy. -/
def ref_string.make_copy (source : bytes) : ref_string := ⟨source, true⟩

/-- `skip_whitespaces` of `parse_utilities.hpp`; `line` is a 32-bit counter. -/
def skip_whitespaces : bytes → Nat → bytes × Nat
  | [], line => ([], line)
  | ch :: rest, line =>
    if ch ≠ 32 ∧ ch ≠ 9 ∧ ch ≠ 12 ∧ ch ≠ 13 ∧ ch ≠ 10 then (ch :: rest, line)
    else if ch = 10 then skip_whitespaces rest ((line + 1) % 2 ^ 32)
    else skip_whitespaces rest line

/-- One hexadecimal digit of `number_from_hex`. -/
def hex_digit (ch : Nat) : Option Nat :=
  if 48 ≤ ch ∧ ch ≤ 57 then some (ch - 48)
  else if 97 ≤ ch ∧ ch ≤ 102 then some (ch - 97 + 10)
  else if 65 ≤ ch ∧ ch ≤ 70 then some (ch - 65 + 10)
  else none

/-- `number_from_hex<T>` of `parse_utilities.hpp` with `n = sizeof(T) * CHAR_BIT / 4`
digits still to read and `bits` the width of `T`; `none` is the `false` return. -/
def number_from_hex (bits : Nat) : Nat → bytes → Nat → Option Nat
  | 0, _, value => some value
  | n + 1, ptr, value =>
    match hex_digit (ptr.headD 0) with
    | none => none
    | some digit => number_from_hex bits n ptr.tail ((value * 16 + digit) % 2 ^ bits)

/-- `number_validation_result` of `parse_utilities.hpp`. -/
inductive number_validation_result where
  | success
  | eof
  | invalid_char
  deriving DecidableEq, Repr

/-- The loop of `expect_digits`: drops leading decimal digits and counts them. -/
def skip_digits : bytes → Nat → bytes × Nat
  | [], count => ([], count)
  | ch :: rest, count =>
    if 48 ≤ ch ∧ ch ≤ 57 then skip_digits rest (count + 1) else (ch :: rest, count)

/-- `expect_digits` of `parse_utilities.cpp`. -/
def expect_digits (source : bytes) : number_validation_result × bytes :=
  let r := skip_digits source 0
  if r.2 = 0 then
    if r.1 = [] then (number_validation_result.eof, r.1)
    else (number_validation_result.invalid_char, r.1)
  else (number_validation_result.success, r.1)

/-- `expect_number` of `parse_utilities.cpp`. -/
def expect_number (source : bytes) : number_validation_result × bytes :=
  let source := if source.headD 0 = 45 then source.tail else source
  match expect_digits source with
  | (number_validation_result.success, source) =>
    let frac : number_validation_result × bytes :=
      if source ≠ [] ∧ source.headD 0 = 46 then expect_digits source.tail
      else (number_validation_result.success, source)
    match frac with
    | (number_validation_result.success, source) =>
      if source ≠ [] ∧ (source.headD 0 = 101 ∨ source.headD 0 = 69) then
        let source := source.tail
        if source = [] then (number_validation_result.eof, source)
        else
          let source := if source.headD 0 = 45 then source.tail else source
          expect_digits source
      else (number_validation_result.success, source)
    | (res, source) => (res, source)
  | (res, source) => (res, source)

/-- `is_surrogate1` of `utf8.hpp`. -/
def is_surrogate1 (cp : Nat) : Bool := cp >>> 10 = 0b110110

/-- `is_surrogate2` of `utf8.hpp`. -/
def is_surrogate2 (cp : Nat) : Bool := cp >>> 10 = 0b110111

/-- `from_surrogate_pair` of `utf8.hpp`. -/
def from_surrogate_pair (cp1 cp2 : Nat) : Nat :=
  (((cp1 &&& 0b1111111111) <<< 10) ||| (cp2 &&& 0b1111111111)) + 0x10000

/-- `encode_utf8` of `utf8.cpp`: the bytes appended for the code point `cp`. -/
def encode_utf8 (cp : Nat) : bytes :=
  if cp < 0x80 then [cp % 256]
  else if cp < 0x800 then [((cp >>> 6) ||| 0xC0) % 256, ((cp &&& 0x3F) ||| 0x80) % 256]
  else if cp < 0x10000 then
    [((cp >>> 12) ||| 0xE0) % 256, (((cp >>> 6) &&& 0x3F) ||| 0x80) % 256,
      ((cp &&& 0x3F) ||| 0x80) % 256]
  else
    [((cp >>> 18) ||| 0xF0) % 256, (((cp >>> 12) &&& 0x3F) ||| 0x80) % 256,
      (((cp >>> 6) &&& 0x3F) ||| 0x80) % 256, ((cp &&& 0x3F) ||| 0x80) % 256]

namespace json

/-- `max_errors` of `json_input.cpp`. -/
def max_errors : Nat := 16

/-- `parse_error::kind` of `json_input.hpp`. -/
inductive parse_error_kind where
  | eof_unexpected
  | expected_key
  | expected_colon
  | expected_separator
  | string_invalid_newline
  | string_invalid_char
  | string_invalid_escape
  deriving DecidableEq, Repr

/-- `parse_error` of `json_input.hpp`. -/
structure parse_error where
  what : parse_error_kind
  location : doc_location
  deriving DecidableEq, Repr

/-- `is_control_char` of `json_input.cpp`; bytes from 128 on are negative or at
least 128 as a `char`, so they are no control characters either way. -/
def is_control_char (c : Nat) : Bool := c < 32

/-- Position in `specials = "\"\\/bfnrt"` as `std::strchr` finds it; the
terminating zero byte of the C string is found too (index 8). -/
def specials_index (c : Nat) : Option Nat :=
  if c = 34 then some 0 else if c = 92 then some 1 else if c = 47 then some 2
  else if c = 98 then some 3 else if c = 102 then some 4 else if c = 110 then some 5
  else if c = 114 then some 6 else if c = 116 then some 7 else if c = 0 then some 8
  else none

/-- The byte `replacements[i]` for `replacements = "\"\\/\b\f\n\r\t"`. -/
def replacements (i : Nat) : Nat :=
  match i with
  | 0 => 34 | 1 => 92 | 2 => 47 | 3 => 8 | 4 => 12 | 5 => 10 | 6 => 13 | 7 => 9 | _ => 0

/-- The loop of `unescape_string` of `json_input.cpp`; every round removes at
least one byte, so `fuel = |string|` rounds are enough. -/
def unescape_string_loop : Nat → bytes → bytes → bytes
  | 0, _, result => result
  | fuel + 1, string, result =>
    match string with
    | [] => result
    | c0 :: rest0 =>
      if string.length < 2 ∨ c0 ≠ 92 then unescape_string_loop fuel rest0 (result ++ [c0])
      else
        let c1 := rest0.headD 0
        match specials_index c1 with
        | some i => unescape_string_loop fuel (string.drop 2) (result ++ [replacements i])
        | none =>
          let hex1 : Option Nat :=
            if 6 ≤ string.length ∧ (c1 = 117 ∨ c1 = 85) then
              number_from_hex 16 4 (string.drop 2) 0
            else none
          match hex1 with
          | some codepoint1 =>
            let hex2 : Option Nat :=
              if 12 ≤ string.length ∧ (string.drop 6).headD 0 = 92 ∧
                  ((string.drop 7).headD 0 = 117 ∨ (string.drop 7).headD 0 = 85) ∧
                  is_surrogate1 codepoint1 = true then
                match number_from_hex 16 4 (string.drop 8) 0 with
                | some codepoint2 => if is_surrogate2 codepoint2 = true then some codepoint2 else none
                | none => none
              else none
            match hex2 with
            | some codepoint2 =>
              unescape_string_loop fuel (string.drop 12)
                (result ++ encode_utf8 (from_surrogate_pair codepoint1 codepoint2))
            | none => unescape_string_loop fuel (string.drop 6) (result ++ encode_utf8 codepoint1)
          | none => unescape_string_loop fuel rest0 (result ++ [c0])

/-- `unescape_string` of `json_input.cpp`. -/
def unescape_string (string : bytes) : bytes :=
  unescape_string_loop string.length string []

/-- The scan of `parse_string_literal`: stops with `none` in front of the
closing quote, or with the error kind; also returns `needs_escape` and the
view that is left. -/
def string_literal_scan : bytes → Bool → Option parse_error_kind × Bool × bytes
  | [], needs_escape => (some parse_error_kind.eof_unexpected, needs_escape, [])
  | ch :: rest, needs_escape =>
    if ch ≠ 92 ∧ ch ≠ 34 ∧ is_control_char ch = false then string_literal_scan rest needs_escape
    else if ch = 10 then (some parse_error_kind.string_invalid_newline, needs_escape, ch :: rest)
    else if is_control_char ch = true then
      (some parse_error_kind.string_invalid_char, needs_escape, ch :: rest)
    else if ch = 92 then string_literal_scan rest true
    else (none, needs_escape, ch :: rest)

/-- `parse_string_literal` of `json_input.cpp`: the error kind or the literal,
and the view that is left. -/
def parse_string_literal (source : bytes) : (parse_error_kind ⊕ ref_string) × bytes :=
  match string_literal_scan source false with
  | (some error, _, rest) => (Sum.inl error, rest)
  | (none, needs_escape, rest) =>
    let all := source.take (source.length - rest.length)
    if needs_escape then (Sum.inr (ref_string.make_copy (unescape_string all)), rest.tail)
    else (Sum.inr (ref_string.of_view all), rest.tail)

/-- `skip_container` of `json_input.cpp`, with its locals `level`,
`inside_string` and `last_char` as arguments. -/
def skip_container_loop : bytes → Nat → Nat → Bool → Nat → bytes × Nat
  | [], line, _, _, _ => ([], line)
  | c :: rest, line, level, inside_string, last_char =>
    if level = 0 ∧ (c = 93 ∨ c = 125) then (rest, line)
    else if c = 91 ∨ c = 123 then skip_container_loop rest line (level + 1) inside_string c
    else if c = 93 ∨ c = 125 then
      skip_container_loop rest line (if inside_string then level else level - 1) inside_string c
    else if c = 34 then
      skip_container_loop rest line level (if last_char ≠ 92 then !inside_string else inside_string) c
    else if c = 10 then skip_container_loop rest ((line + 1) % 2 ^ 32) level false c
    else skip_container_loop rest line level inside_string c

/-- `skip_container` of `json_input.cpp`. -/
def skip_container (source : bytes) (line : Nat) : bytes × Nat :=
  skip_container_loop source line 0 false 0

/-- The member functions a `parse_func_t` can point to. -/
inductive parse_func where
  | parse_begin
  | parse_eof
  | parse_any
  | parse_property (allow_end : Bool)
  | parse_next_property
  | parse_array_entry (allow_end : Bool)
  | parse_next_array_entry
  deriving DecidableEq, Repr

/-- `parser::stack_entry`; `src` is the member `from`. -/
structure stack_entry where
  src : Nat
  next_call : parse_func
  line : Nat
  deriving DecidableEq, Repr

/-- `struct parser` of `json_input.cpp`. `buf` is the whole input
(`source_begin` points at its first byte), `source` the rest still to read,
`call_stack` has `back()` at its head, and `reported` lists the errors handed
to `error_handler`, oldest first. -/
structure parser where
  buf : bytes
  source : bytes
  reported : List parse_error
  line : Nat
  next_call : parse_func
  call_stack : List stack_entry
  property_begin : Option Nat
  value_begin : Option Nat
  current_property : ref_string
  current_string : ref_string
  current_number : ref_string
  current_bool : Bool
  error_count : Nat
  deriving DecidableEq, Repr

/-- The pointer `source.data()` as an offset from `source_begin`. -/
def parser.pos (p : parser) : Nat := p.buf.length - p.source.length

/-- The constructor `parser::parser`. -/
def parser.init (s : bytes) : parser :=
  let r := skip_whitespaces s 1
  { buf := s, source := r.1, reported := [], line := r.2,
    next_call := parse_func.parse_begin, call_stack := [],
    property_begin := none, value_begin := none,
    current_property := ref_string.empty, current_string := ref_string.empty,
    current_number := ref_string.empty, current_bool := false, error_count := 0 }

/-- `parser::location_at`: `unsigned(line - excess_lines)` is taken modulo 2^32. -/
def parser.location_at (p : parser) (relative_to : Nat) : doc_location :=
  let excess_lines := ((p.buf.drop relative_to).take (p.pos - relative_to)).count 10
  { byte := relative_to, line := (((p.line : Int) - (excess_lines : Int)) % 2 ^ 32).toNat }

/-- `parser::push_stack`. -/
def parser.push_stack (p : parser) : parser :=
  { p with call_stack := ⟨p.pos, p.next_call, p.line⟩ :: p.call_stack }

/-- `parser::pop_stack`. -/
def parser.pop_stack (p : parser) : parser :=
  match p.call_stack with
  | [] => p
  | rec :: stack => { p with next_call := rec.next_call, call_stack := stack }

/-- What a parse function returns and the parser it leaves. -/
abbrev parse_result := outcome token_kind × parser

/-- The loop `while(next_token() != token_kind::eof);` of `raise_error`. -/
def drain (next : parser → parse_result) : Nat → parser → outcome Unit × parser
  | 0, p => (outcome.out_of_fuel, p)
  | fuel + 1, p =>
    match next p with
    | (outcome.ok token_kind.eof, p) => (outcome.ok (), p)
    | (outcome.ok _, p) => drain next fuel p
    | (outcome.doc_input_exception, p) => (outcome.doc_input_exception, p)
    | (outcome.doc_consume_exception, p) => (outcome.doc_consume_exception, p)
    | (outcome.aborted, p) => (outcome.aborted, p)
    | (outcome.ill_formed, p) => (outcome.ill_formed, p)
    | (outcome.out_of_fuel, p) => (outcome.out_of_fuel, p)

/-- `parser::raise_error`; `next` is the recursive `next_token()` and `fuel`
bounds the rounds of the recovery loop. It never returns a token. -/
def parser.raise_error (next : parser → parse_result) (fuel : Nat) (what : parse_error_kind)
    (p : parser) : parse_result :=
  let p := { p with reported := p.reported ++ [parse_error.mk what (p.location_at p.pos)] }
  if p.error_count < max_errors ∧ 2 ≤ p.call_stack.length then
    match p.call_stack with
    | [] => (outcome.doc_input_exception, { p with next_call := parse_func.parse_eof })
    | rec :: stack =>
      let p := { p with error_count := p.error_count + 1 }
      let p := { p with source := p.buf.drop rec.src, line := rec.line,
                        next_call := rec.next_call, call_stack := stack }
      let r := skip_container p.source p.line
      let p := { p with source := r.1, line := r.2 }
      match drain next fuel p with
      | (outcome.ok _, p) =>
        (outcome.doc_input_exception, { p with next_call := parse_func.parse_eof })
      | (outcome.doc_input_exception, p) => (outcome.doc_input_exception, p)
      | (outcome.doc_consume_exception, p) => (outcome.doc_consume_exception, p)
      | (outcome.aborted, p) => (outcome.aborted, p)
      | (outcome.ill_formed, p) => (outcome.ill_formed, p)
      | (outcome.out_of_fuel, p) => (outcome.out_of_fuel, p)
  else (outcome.doc_input_exception, { p with next_call := parse_func.parse_eof })

/-- The handler of errors the parse functions are given: `raise_error` with its
recursion tied. -/
abbrev raiser := parse_error_kind → parser → parse_result

/-- `parser::parse_eof`. -/
def parser.parse_eof (p : parser) : parse_result := (outcome.ok token_kind.eof, p)

/-- `parser::parse_string`. -/
def parser.parse_string (raise : raiser) (p : parser) : parse_result :=
  let p := { p with source := p.source.tail }
  match parse_string_literal p.source with
  | (Sum.inl error, rest) => raise error { p with source := rest }
  | (Sum.inr s, rest) => (outcome.ok token_kind.string, { p with source := rest, current_string := s })

/-- `parser::parse_bool<Value>`. -/
def parser.parse_bool (value : Bool) (p : parser) : parse_result :=
  (outcome.ok token_kind.boolean,
    { p with source := p.source.drop (if value then 4 else 5), current_bool := value })

/-- `parser::parse_null`. -/
def parser.parse_null (p : parser) : parse_result :=
  (outcome.ok token_kind.null, { p with source := p.source.drop 4 })

/-- `parser::parse_number`. -/
def parser.parse_number (raise : raiser) (p : parser) : parse_result :=
  let begin := p.source
  match expect_number p.source with
  | (number_validation_result.eof, rest) =>
    raise parse_error_kind.eof_unexpected { p with source := rest }
  | (number_validation_result.invalid_char, rest) =>
    raise parse_error_kind.string_invalid_char { p with source := rest }
  | (number_validation_result.success, rest) =>
    (outcome.ok token_kind.number,
      { p with source := rest,
               current_number := ref_string.of_view (begin.take (begin.length - rest.length)) })

/-- `parser::parse_object`. -/
def parser.parse_object (raise : raiser) (p : parser) : parse_result :=
  let r := skip_whitespaces p.source.tail p.line
  let p := { p with source := r.1, line := r.2 }
  if p.source = [] then raise parse_error_kind.eof_unexpected p
  else
    let p := p.push_stack
    (outcome.ok token_kind.begin_mapping, { p with next_call := parse_func.parse_property true })

/-- `parser::parse_array`. -/
def parser.parse_array (raise : raiser) (p : parser) : parse_result :=
  let r := skip_whitespaces p.source.tail p.line
  let p := { p with source := r.1, line := r.2 }
  if p.source = [] then raise parse_error_kind.eof_unexpected p
  else
    let p := p.push_stack
    (outcome.ok token_kind.begin_array, { p with next_call := parse_func.parse_array_entry true })

/-- `parser::parse_any`. -/
def parser.parse_any (raise : raiser) (p : parser) : parse_result :=
  let r := skip_whitespaces p.source p.line
  let p := { p with source := r.1, line := r.2 }
  if p.source = [] then raise parse_error_kind.eof_unexpected p
  else
    let p := { p with value_begin := some p.pos }
    let ch := p.source.headD 0
    if ch = 123 then p.parse_object raise
    else if ch = 91 then p.parse_array raise
    else if ch = 34 then p.parse_string raise
    else if p.source.take 4 = [116, 114, 117, 101] then p.parse_bool true
    else if p.source.take 5 = [102, 97, 108, 115, 101] then p.parse_bool false
    else if p.source.take 4 = [110, 117, 108, 108] then p.parse_null
    else p.parse_number raise

/-- `parser::parse_begin`. -/
def parser.parse_begin (raise : raiser) (p : parser) : parse_result :=
  let p := { p with next_call := parse_func.parse_eof }
  if p.source = [] then p.parse_eof else p.parse_any raise

/-- `parser::parse_property<AllowEnd>`. -/
def parser.parse_property (raise : raiser) (allow_end : Bool) (p : parser) : parse_result :=
  let ch := p.source.headD 0
  if allow_end = true ∧ ch = 125 then
    let p := { p with value_begin := some p.pos }
    let p := { p with source := p.source.tail }
    (outcome.ok token_kind.end_mapping, p.pop_stack)
  else if ch ≠ 34 then raise parse_error_kind.expected_key p
  else
    let p := { p with source := p.source.tail }
    let p := { p with property_begin := some p.pos }
    match parse_string_literal p.source with
    | (Sum.inl error, rest) => raise error { p with source := rest }
    | (Sum.inr s, rest) =>
      let p := { p with source := rest, current_property := s }
      let r := skip_whitespaces p.source p.line
      let p := { p with source := r.1, line := r.2 }
      if p.source = [] then raise parse_error_kind.eof_unexpected p
      else if p.source.headD 0 ≠ 58 then raise parse_error_kind.expected_colon p
      else
        let p := { p with source := p.source.tail }
        let p := { p with next_call := parse_func.parse_next_property }
        p.parse_any raise

/-- `parser::parse_next_property`. -/
def parser.parse_next_property (raise : raiser) (p : parser) : parse_result :=
  let r := skip_whitespaces p.source p.line
  let p := { p with source := r.1, line := r.2 }
  if p.source = [] then raise parse_error_kind.eof_unexpected p
  else
    let ch := p.source.headD 0
    if ch ≠ 44 ∧ ch ≠ 125 then raise parse_error_kind.expected_separator p
    else if ch = 44 then
      let r := skip_whitespaces p.source.tail p.line
      let p := { p with source := r.1, line := r.2 }
      if p.source = [] then raise parse_error_kind.eof_unexpected p
      else p.parse_property raise false
    else p.parse_property raise true

/-- `parser::parse_array_entry<AllowEnd>`. -/
def parser.parse_array_entry (raise : raiser) (allow_end : Bool) (p : parser) : parse_result :=
  if allow_end = true ∧ p.source.headD 0 = 93 then
    let p := { p with value_begin := some p.pos }
    let p := { p with source := p.source.tail }
    (outcome.ok token_kind.end_array, p.pop_stack)
  else
    let p := { p with next_call := parse_func.parse_next_array_entry }
    p.parse_any raise

/-- `parser::parse_next_array_entry`. -/
def parser.parse_next_array_entry (raise : raiser) (p : parser) : parse_result :=
  let r := skip_whitespaces p.source p.line
  let p := { p with source := r.1, line := r.2 }
  if p.source = [] then raise parse_error_kind.eof_unexpected p
  else
    let ch := p.source.headD 0
    if ch ≠ 44 ∧ ch ≠ 93 then raise parse_error_kind.expected_separator p
    else if ch = 44 then
      let r := skip_whitespaces p.source.tail p.line
      let p := { p with source := r.1, line := r.2 }
      if p.source = [] then raise parse_error_kind.eof_unexpected p
      else p.parse_array_entry raise false
    else p.parse_array_entry raise true

/-- The call `(this->*next_call)()`. -/
def parser.call (raise : raiser) (p : parser) : parse_result :=
  match p.next_call with
  | parse_func.parse_begin => p.parse_begin raise
  | parse_func.parse_eof => p.parse_eof
  | parse_func.parse_any => p.parse_any raise
  | parse_func.parse_property allow_end => p.parse_property raise allow_end
  | parse_func.parse_next_property => p.parse_next_property raise
  | parse_func.parse_array_entry allow_end => p.parse_array_entry raise allow_end
  | parse_func.parse_next_array_entry => p.parse_next_array_entry raise

/-- `parser::next_token` with the recursion through `raise_error` bounded by
`fuel`. -/
def parser.next_token_fuel : Nat → parser → parse_result
  | 0, p => (outcome.out_of_fuel, p)
  | fuel + 1, p => p.call (parser.raise_error (parser.next_token_fuel fuel) fuel)

/-- `parser::next_token`. Recovery nests at most `max_errors` deep and a
recovery loop reads at most one token for each byte left, so this fuel is never
used up. -/
def parser.next_token (p : parser) : parse_result :=
  parser.next_token_fuel (p.buf.length + max_errors + 2) p

/-- `doc_input::hint`, which `parser` does not override. -/
def parser.hint (_p : parser) (_kind : token_kind) : Bool := false

/-- `parser::location`. The anchors are asserted to be non-null; offset 0
stands in for a null anchor. -/
def parser.location (p : parser) (rel : relative_loc) : doc_location :=
  match rel with
  | relative_loc.value => p.location_at (p.value_begin.getD 0)
  | relative_loc.key => p.location_at (p.property_begin.getD 0)

/-- `parser::mapping_key`: the string the returned rvalue reference names. -/
def parser.mapping_key (p : parser) : ref_string := p.current_property

/-- The parser after a caller has move-constructed a `ref_string` from
`mapping_key()`: `current_property` is left empty. -/
def parser.mapping_key_moved (p : parser) : parser :=
  { p with current_property := ref_string.empty }

/-- `parser::boolean`. -/
def parser.boolean (p : parser) : Bool := p.current_bool

/-- `parser::raw_number`. -/
def parser.raw_number (p : parser) : ref_string := p.current_number

/-- The parser after a caller has move-constructed from `raw_number()`. -/
def parser.raw_number_moved (p : parser) : parser :=
  { p with current_number := ref_string.empty }

/-- `parser::string`. -/
def parser.string (p : parser) : ref_string := p.current_string

/-- The parser after a caller has move-constructed from `string()`. -/
def parser.string_moved (p : parser) : parser :=
  { p with current_string := ref_string.empty }

/-- `stc::json::input`. -/
def input (source : bytes) : parser := parser.init source

end json

/-- `doc_error::kind` of `doc_consumer.hpp`. -/
inductive doc_error_kind where
  | type_mismatch
  | type_unspecified
  | value_invalid
  | value_out_of_bounds
  | value_too_small
  | value_too_big
  | value_unknown
  | length_too_small
  | length_too_big
  | too_few_elements
  | too_many_elements
  | key_unknown
  | key_duplicate
  | key_missing
  | index_out_of_bounds
  deriving DecidableEq, Repr

/-- `doc_error` of `doc_consumer.hpp`. -/
structure doc_error where
  location : doc_location
  what : doc_error_kind
  deriving DecidableEq, Repr

/-- Values of the C++ types the consumers produce: `bool`, the integer types,
`char`, `std::string`, `ref_string`, an empty (`absent`) or engaged (`present`)
`std::optional` or `std::unique_ptr`, `std::vector` and `std::array` (`seq`),
`std::map` with `std::string` keys in key order (`map`), and a declared class
with one entry for each declared member, in declaration order (`record`). -/
inductive Val where
  | boolean (b : Bool)
  | integer (i : Int)
  | character (c : Nat)
  | string (s : bytes)
  | ref (s : ref_string)
  | absent
  | present (v : Val)
  | seq (xs : List Val)
  | map (kvs : List (bytes × Val))
  | record (fields : List Val)
  deriving Repr

/-- `alt_mode` of `class_info.hpp`. -/
inductive alt_mode where
  | nest
  | no_nesting
  deriving DecidableEq, Repr

mutual
/-- The C++ types with a `consume()` overload in `native_consumers.hpp`,
`stdlib_consumers.hpp` and `object_consumer.hpp`: `bool`, an integer type of
the given signedness and width, `char`, `std::string`, `ref_string`,
`std::optional<T>`, `std::unique_ptr<T>`, `std::array<T, N>`, `std::vector<T>`,
`std::map<std::string, V>`, a class declared with `stc_declare_class`
(`class_info`: its members in order) and `validated_type<T, Validator>` of
`validation.hpp` (the validator is the function its `operator()` computes).
`variant` is a member type that only receives alternatives and has no overload
of its own. -/
inductive Ty where
  | boolean
  | integer (is_signed : Bool) (bits : Nat)
  | character
  | string
  | ref_string
  | optional (t : Ty)
  | unique_ptr (t : Ty)
  | array (t : Ty) (n : Nat)
  | vector (t : Ty)
  | map (v : Ty)
  | record (members : List member_info)
  | variant
  | validated (t : Ty) (validator : Val → Option doc_error_kind)
/-- `member_info` of `class_info.hpp` with its `member_options` spread out:
`name`, `options.flags`, the attributes `get_member_attr` finds for the tags
`member_alias_tag`, `member_short_tag` and `member_alts_tag`, the member type,
and the value the member has in a default-constructed object. The position in
the member list stands for `member_ptr`. -/
inductive member_info where
  | mk (name : bytes) (flags : Nat) (alias_name : Option bytes) (short_name : Option bytes)
      (alts : Option member_alts) (type : Ty) (init : Val)
/-- `member_alts` of `class_info.hpp`: `key`, `mode`, the type the
discriminating value is consumed as, and for each alternative its
`discriminative` value and its type. -/
inductive member_alts where
  | mk (key : bytes) (mode : alt_mode) (parse_type : Ty) (alternatives : List (Val × Ty))
end

/-- `member_alts::key`. -/
def member_alts.key : member_alts → bytes
  | member_alts.mk key _ _ _ => key

/-- `member_alts::mode`. -/
def member_alts.mode : member_alts → alt_mode
  | member_alts.mk _ mode _ _ => mode

/-- The `parse_type` of `try_consume_discriminator`. -/
def member_alts.parse_type : member_alts → Ty
  | member_alts.mk _ _ parse_type _ => parse_type

/-- `member_alts::alternatives`. -/
def member_alts.alternatives : member_alts → List (Val × Ty)
  | member_alts.mk _ _ _ alternatives => alternatives

/-- `member_info::name`. -/
def member_info.name : member_info → bytes
  | member_info.mk name _ _ _ _ _ _ => name

/-- `member_info::options.flags`. -/
def member_info.flags : member_info → Nat
  | member_info.mk _ flags _ _ _ _ _ => flags

/-- `get_member_attr<member_alias_tag>(minfo.options).alias_name`, or `none`
for `not_present`. -/
def member_info.alias_name : member_info → Option bytes
  | member_info.mk _ _ alias_name _ _ _ _ => alias_name

/-- `get_member_attr<member_short_tag>(minfo.options).short_name`, or `none`
for `not_present`. -/
def member_info.short_name : member_info → Option bytes
  | member_info.mk _ _ _ short_name _ _ _ => short_name

/-- `get_member_attr<member_alts_tag>(minfo.options)`, or `none` for
`not_present`. -/
def member_info.alts : member_info → Option member_alts
  | member_info.mk _ _ _ _ alts _ _ => alts

/-- `member_info::member_type`. -/
def member_info.type : member_info → Ty
  | member_info.mk _ _ _ _ _ type _ => type

/-- The member of a default-constructed object. -/
def member_info.init : member_info → Val
  | member_info.mk _ _ _ _ _ _ init => init

/-- `member_flag::maybe_default`. -/
def member_flag.maybe_default : Nat := 1

/-- `member_flag::additional_keys`. -/
def member_flag.additional_keys : Nat := 2

/-- `member_flag::first_of_multiple`. -/
def member_flag.first_of_multiple : Nat := 4

/-- `member_flag::last_of_multiple`. -/
def member_flag.last_of_multiple : Nat := 8

/-- `member_flag::multiple`. -/
def member_flag.multiple : Nat := 16

/-- The test `(flags & mask) != 0`. -/
def has_flag (flags mask : Nat) : Bool := flags &&& mask ≠ 0

/-- The state the consumers run in: the cursor and the errors handed to
`context.error_handler`, oldest first. -/
structure consume_state where
  input : json.parser
  errors : List doc_error
  deriving DecidableEq, Repr

/-- What a `consume()` returns and the state it leaves. -/
abbrev consume_result := outcome Val × consume_state

/-- A `consume()` overload for one type. -/
abbrev consumer := token_kind → consume_state → consume_result

/-- The statement pair `context.error_handler(doc_error{ location, kind });
throw doc_consume_exception();`. -/
def fail {α : Type} (st : consume_state) (location : doc_location) (kind : doc_error_kind) :
    outcome α × consume_state :=
  (outcome.doc_consume_exception, { st with errors := st.errors ++ [doc_error.mk location kind] })

/-- `input.next_token()` called by a consumer. -/
def consume_state.next_token (st : consume_state) : outcome token_kind × consume_state :=
  let r := st.input.next_token
  (r.1, { st with input := r.2 })

/-- Hands a thrown exception (or another stop) on to a caller with another
result type; an `ok` never gets here. -/
def outcome.rethrow {α β : Type} : outcome α → outcome β
  | outcome.ok _ => outcome.aborted
  | outcome.doc_input_exception => outcome.doc_input_exception
  | outcome.doc_consume_exception => outcome.doc_consume_exception
  | outcome.aborted => outcome.aborted
  | outcome.ill_formed => outcome.ill_formed
  | outcome.out_of_fuel => outcome.out_of_fuel

/-- `std::errc` as `std::from_chars` answers it. -/
inductive errc where
  | none
  | invalid_argument
  | result_out_of_range
  deriving DecidableEq, Repr

/-- `std::from_chars_result` with the value written through the reference
(`0` stands for a value left unwritten). -/
structure from_chars_result where
  ptr : bytes
  ec : errc
  value : Int
  deriving DecidableEq, Repr

/-- Whether `v` is a value of the integer type of the given signedness and
width (`std::numeric_limits<T>::min() ≤ v ≤ max()`). -/
def in_range (is_signed : Bool) (bits : Nat) (v : Int) : Bool :=
  if is_signed then decide (-(2 : Int) ^ (bits - 1) ≤ v ∧ v < (2 : Int) ^ (bits - 1))
  else decide (0 ≤ v ∧ v < (2 : Int) ^ bits)

/-- The number a run of decimal digits denotes. -/
def decimal_value (digits : bytes) : Nat :=
  digits.foldl (fun acc ch => acc * 10 + (ch - 48)) 0

/-- The standard library's `std::from_chars(first, last, value)` for an integer
type, base 10: an optional minus sign (signed types only) and the longest run
of digits; `invalid_argument` without a digit, `result_out_of_range` when the
number is no value of the type, and `ptr` behind the digits otherwise. -/
def from_chars (is_signed : Bool) (bits : Nat) (s : bytes) : from_chars_result :=
  let negative : Bool := is_signed && decide (s.headD 0 = 45 ∧ s ≠ [])
  let body := if negative then s.tail else s
  let r := skip_digits body 0
  if r.2 = 0 then { ptr := s, ec := errc.invalid_argument, value := 0 }
  else
    let magnitude : Int := decimal_value (body.take r.2)
    let v : Int := if negative then -magnitude else magnitude
    if in_range is_signed bits v then { ptr := r.1, ec := errc.none, value := v }
    else { ptr := r.1, ec := errc.result_out_of_range, value := 0 }

/-- `safe_integer_mul` of `arithmetic_utilities.hpp` in its
`__builtin_mul_overflow` form: the product, or `none` for the `false` return. -/
def safe_integer_mul (is_signed : Bool) (bits : Nat) (a b : Int) : Option Int :=
  if in_range is_signed bits (a * b) then some (a * b) else none

/-- The loop of `safe_integer_power`; `e` is halved each round, so the 32 rounds
the wrapper allows cover every `unsigned` exponent. -/
def safe_integer_power_loop (is_signed : Bool) (bits : Nat) : Nat → Int → Int → Nat → Option Int
  | 0, result, _, _ => some result
  | fuel + 1, result, b, e =>
    if e = 0 then some result
    else
      let step1 : Option Int :=
        if e % 2 = 1 then safe_integer_mul is_signed bits b result else some result
      match step1 with
      | none => none
      | some result =>
        let step2 : Option Int := if e > 1 then safe_integer_mul is_signed bits b b else some b
        match step2 with
        | none => none
        | some b => safe_integer_power_loop is_signed bits fuel result b (e / 2)

/-- `safe_integer_power` of `arithmetic_utilities.hpp`. -/
def safe_integer_power (is_signed : Bool) (bits : Nat) (b : Int) (e : Nat) : Option Int :=
  safe_integer_power_loop is_signed bits 32 1 b e

/-- `safe_integer_power10` of `arithmetic_utilities.hpp`. -/
def safe_integer_power10 (is_signed : Bool) (bits : Nat) (b : Int) (e : Nat) : Option Int :=
  match safe_integer_power is_signed bits 10 e with
  | none => none
  | some mul => safe_integer_mul is_signed bits b mul

/-- `consume(type_wrap<bool>, ...)` of `native_consumers.hpp`. -/
def consume_bool : consumer := fun first st =>
  if first ≠ token_kind.boolean ∧ st.input.hint token_kind.boolean = false then
    fail st (st.input.location relative_loc.value) doc_error_kind.type_mismatch
  else (outcome.ok (Val.boolean st.input.boolean), st)

/-- `consume(type_wrap<T>, ...)` of `native_consumers.hpp` for an integral `T`. -/
def consume_integer (is_signed : Bool) (bits : Nat) : consumer := fun first st =>
  if first ≠ token_kind.number ∧ st.input.hint token_kind.number = false then
    fail st (st.input.location relative_loc.value) doc_error_kind.type_mismatch
  else
    let n := st.input.raw_number
    let st := { st with input := st.input.raw_number_moved }
    if n.data = [] then (outcome.aborted, st)
    else if is_signed = false ∧ n.data.headD 0 = 45 then
      fail st (st.input.location relative_loc.value) doc_error_kind.value_too_small
    else
      let error := from_chars is_signed bits n.data
      match error.ec with
      | errc.invalid_argument => (outcome.aborted, st)
      | errc.result_out_of_range =>
        fail st (st.input.location relative_loc.value) doc_error_kind.value_out_of_bounds
      | errc.none =>
        if error.ptr = [] then (outcome.ok (Val.integer error.value), st)
        else if error.ptr.length < 2 then (outcome.aborted, st)
        else if error.ptr.headD 0 = 46 ∨ error.ptr.tail.headD 0 = 45 then
          fail st (st.input.location relative_loc.value) doc_error_kind.value_out_of_bounds
        else
          let exponent := from_chars false 32 error.ptr.tail
          match exponent.ec with
          | errc.invalid_argument => (outcome.aborted, st)
          | errc.result_out_of_range =>
            fail st (st.input.location relative_loc.value) doc_error_kind.value_out_of_bounds
          | errc.none =>
            match safe_integer_power10 is_signed bits error.value exponent.value.toNat with
            | none =>
              fail st (st.input.location relative_loc.value) doc_error_kind.value_out_of_bounds
            | some powered => (outcome.ok (Val.integer powered), st)

/-- `consume(type_wrap<char>, ...)` of `native_consumers.hpp`. -/
def consume_char : consumer := fun first st =>
  if first ≠ token_kind.string ∧ st.input.hint token_kind.string = false then
    fail st (st.input.location relative_loc.value) doc_error_kind.type_mismatch
  else
    let str := st.input.string.data
    if str.length ≠ 1 then
      fail st (st.input.location relative_loc.value) doc_error_kind.length_too_big
    else (outcome.ok (Val.character (str.headD 0)), st)

/-- `consume(type_wrap<ref_string>, ...)` of `native_consumers.hpp`. -/
def consume_ref_string : consumer := fun first st =>
  if first ≠ token_kind.string ∧ st.input.hint token_kind.string = false then
    fail st (st.input.location relative_loc.value) doc_error_kind.type_mismatch
  else (outcome.ok (Val.ref st.input.string), { st with input := st.input.string_moved })

/-- `consume(type_wrap<std::string>, ...)` of `stdlib_consumers.hpp`. -/
def consume_string : consumer := fun first st =>
  if first ≠ token_kind.string ∧ st.input.hint token_kind.string = false then
    fail st (st.input.location relative_loc.value) doc_error_kind.type_mismatch
  else (outcome.ok (Val.string st.input.string.data), st)

/-- `consume(type_wrap<std::optional<T>>, ...)` of `stdlib_consumers.hpp`;
`elem` is `consume(type_wrap<T>, ...)`. -/
def consume_optional (elem : consumer) : consumer := fun first st =>
  if first = token_kind.eof ∨ first = token_kind.null then (outcome.ok Val.absent, st)
  else
    match elem first st with
    | (outcome.ok v, st) => (outcome.ok (Val.present v), st)
    | (o, st) => (o.rethrow, st)

/-- `consume(type_wrap<std::unique_ptr<T>>, ...)` of `stdlib_consumers.hpp`. -/
def consume_unique_ptr (elem : consumer) : consumer := fun first st =>
  match elem first st with
  | (outcome.ok v, st) => (outcome.ok (Val.present v), st)
  | (o, st) => (o.rethrow, st)

/-- The assignment `array[std::min(count, N - 1)] = v` on the elements assigned
so far: the first `N` values fill the array in order, later ones overwrite the
last element. -/
def array_store (n : Nat) (array : List Val) (count : Nat) (v : Val) : List Val :=
  if count < n then array ++ [v] else array.dropLast ++ (if n = 0 then [] else [v])

/-- The `while` loop of the `std::array` consumer. -/
def consume_array_loop (elem : consumer) (n : Nat) :
    Nat → List Val → Nat → consume_state → outcome (List Val × Nat) × consume_state
  | 0, _, _, st => (outcome.out_of_fuel, st)
  | fuel + 1, array, count, st =>
    match st.next_token with
    | (outcome.ok token, st) =>
      if token = token_kind.end_array then (outcome.ok (array, count), st)
      else
        match elem token st with
        | (outcome.ok v, st) => consume_array_loop elem n fuel (array_store n array count v) (count + 1) st
        | (o, st) => (o.rethrow, st)
    | (o, st) => (o.rethrow, st)

/-- `consume(type_wrap<std::array<T, N>>, ...)` of `stdlib_consumers.hpp`. -/
def consume_array (elem : consumer) (n : Nat) (fuel : Nat) : consumer := fun first st =>
  if first ≠ token_kind.begin_array ∧ st.input.hint token_kind.begin_array = false then
    fail st (st.input.location relative_loc.value) doc_error_kind.type_mismatch
  else
    match consume_array_loop elem n fuel [] 0 st with
    | (outcome.ok (array, count), st) =>
      if count ≠ n then
        fail st (st.input.location relative_loc.value)
          (if count < n then doc_error_kind.too_few_elements else doc_error_kind.too_many_elements)
      else (outcome.ok (Val.seq array), st)
    | (o, st) => (o.rethrow, st)

/-- The `while` loop of the `std::vector` consumer. -/
def consume_vector_loop (elem : consumer) :
    Nat → List Val → consume_state → outcome (List Val) × consume_state
  | 0, _, st => (outcome.out_of_fuel, st)
  | fuel + 1, vector, st =>
    match st.next_token with
    | (outcome.ok token, st) =>
      if token = token_kind.end_array then (outcome.ok vector, st)
      else
        match elem token st with
        | (outcome.ok v, st) => consume_vector_loop elem fuel (vector ++ [v]) st
        | (o, st) => (o.rethrow, st)
    | (o, st) => (o.rethrow, st)

/-- `consume(type_wrap<std::vector<T>>, ...)` of `stdlib_consumers.hpp`. -/
def consume_vector (elem : consumer) (fuel : Nat) : consumer := fun first st =>
  if first ≠ token_kind.begin_array ∧ st.input.hint token_kind.begin_array = false then
    fail st (st.input.location relative_loc.value) doc_error_kind.type_mismatch
  else
    match consume_vector_loop elem fuel [] st with
    | (outcome.ok vector, st) => (outcome.ok (Val.seq vector), st)
    | (o, st) => (o.rethrow, st)

/-- `operator<` of `std::string`: lexicographic on the bytes. -/
def bytes_lt : bytes → bytes → Bool
  | [], [] => false
  | [], _ :: _ => true
  | _ :: _, [] => false
  | a :: as, b :: bs => if a < b then true else if b < a then false else bytes_lt as bs

/-- `map[key] = value` on a `std::map` kept in key order: an entry with an
equal key is overwritten. -/
def map_assign : List (bytes × Val) → bytes → Val → List (bytes × Val)
  | [], key, value => [(key, value)]
  | (k, v) :: rest, key, value =>
    if key = k then (k, value) :: rest
    else if bytes_lt key k then (key, value) :: (k, v) :: rest
    else (k, v) :: map_assign rest key value

/-- `map.emplace(std::pair(key, value))` on a `std::map` kept in key order: an
entry with an equal key stays as it is. -/
def map_emplace : List (bytes × Val) → bytes → Val → List (bytes × Val)
  | [], key, value => [(key, value)]
  | (k, v) :: rest, key, value =>
    if key = k then (k, v) :: rest
    else if bytes_lt key k then (key, value) :: (k, v) :: rest
    else (k, v) :: map_emplace rest key value

/-- The `while` loop of the `std::map` consumer. -/
def consume_map_loop (elem : consumer) :
    Nat → List (bytes × Val) → consume_state → outcome (List (bytes × Val)) × consume_state
  | 0, _, st => (outcome.out_of_fuel, st)
  | fuel + 1, map, st =>
    match st.next_token with
    | (outcome.ok token, st) =>
      if token = token_kind.end_mapping then (outcome.ok map, st)
      else
        let key := st.input.mapping_key
        let st := { st with input := st.input.mapping_key_moved }
        match elem token st with
        | (outcome.ok v, st) => consume_map_loop elem fuel (map_assign map key.data v) st
        | (o, st) => (o.rethrow, st)
    | (o, st) => (o.rethrow, st)

/-- `consume(type_wrap<std::map<K, V>>, ...)` of `stdlib_consumers.hpp`. -/
def consume_map (elem : consumer) (fuel : Nat) : consumer := fun first st =>
  if first ≠ token_kind.begin_mapping ∧ st.input.hint token_kind.begin_mapping = false then
    fail st (st.input.location relative_loc.value) doc_error_kind.type_mismatch
  else
    match consume_map_loop elem fuel [] st with
    | (outcome.ok map, st) => (outcome.ok (Val.map map), st)
    | (o, st) => (o.rethrow, st)

/-- The width of `size_t`, taken as 64 bits. -/
def size_t_bits : Nat := 64

/-- `range_bounded_checker<T, Min, Max>::operator()` of `range_bounded.hpp` for
an integer type `T` of at most `size_t_bits` bits. `Min` and `Max` are
`size_t` template parameters, so in `t > Max` and `t < Min` the usual
arithmetic conversions turn `t` into a `size_t`. -/
def range_bounded_checker (min max : Nat) : Val → Option doc_error_kind
  | Val.integer t =>
    let converted : Nat := (t % 2 ^ size_t_bits).toNat
    if converted > max then some doc_error_kind.value_too_big
    else if converted < min then some doc_error_kind.value_too_small
    else none
  | _ => none

/-- `range_bounded<T, Min, Max>` of `range_bounded.hpp`. The bounds are handed
on as `size_t` template arguments, a conversion that must not narrow, so they
are not negative. -/
def Ty.range_bounded (t : Ty) (min max : Nat) : Ty :=
  Ty.validated t (range_bounded_checker min max)

/-- `consume(type_wrap<validated_type<T, Validator>>, ...)` of `validation.hpp`;
`inner` is `consume(type_wrap<T>, ...)`. -/
def consume_validated (inner : consumer) (validator : Val → Option doc_error_kind) :
    consumer := fun first st =>
  match inner first st with
  | (outcome.ok t, st) =>
    match validator t with
    | some err => fail st (st.input.location relative_loc.value) err
    | none => (outcome.ok t, st)
  | (o, st) => (o.rethrow, st)

/-- The comparison `DiscrType(value) == discriminative` of
`try_consume_discriminator`: a `std::string_view` discriminant is read as a
`ref_string` and compared by its bytes; the other discriminant types compare
their values. -/
def discr_eq : Val → Val → Bool
  | Val.ref r, Val.string s => decide (r.data = s)
  | Val.string a, Val.string b => decide (a = b)
  | Val.boolean a, Val.boolean b => decide (a = b)
  | Val.integer a, Val.integer b => decide (a = b)
  | Val.character a, Val.character b => decide (a = b)
  | _, _ => false

/-- The fold over the alternatives in `try_consume_discriminator`: index and
type of the first alternative whose `discriminative` equals `value`. -/
def find_alternative (value : Val) : List (Val × Ty) → Nat → Option (Nat × Ty)
  | [], _ => none
  | (discriminative, alter_type) :: rest, idx =>
    if discr_eq value discriminative = true then some (idx, alter_type)
    else find_alternative value rest (idx + 1)

/-- `detail::alt_stat` of `object_consumer.hpp`. -/
inductive alt_stat where
  | success
  | skipped
  | consumed_remaining
  | unknown_alternative
  deriving DecidableEq, Repr

/-- `detail::fill_stat` of `object_consumer.hpp`. -/
inductive fill_stat where
  | success
  | key_unknown
  | key_duplicate
  | discriminator_missing
  deriving DecidableEq, Repr

/-- The locals of `consume_members`: `object` (one entry for each declared
member), `found_members`, and the index kept in each member's entry of
`discr_info` (`none` is `size_t(-1)`). -/
structure members_state where
  object : List Val
  found_members : List Bool
  discr_info : List (Option Nat)
  deriving Repr

/-- What one step of the member loop returns, with the locals and the state it
leaves. -/
abbrev members_result (α : Type) := outcome α × members_state × consume_state

/-- `detail::try_consume_discriminator` of `object_consumer.hpp` for the member
at index `idx`; `consume` is the overload set `consume(type_wrap<T>, ...)`. -/
def try_consume_discriminator (consume : Ty → consumer) (key : bytes) (idx : Nat)
    (minfo : member_info) (first : token_kind) (ms : members_state) (st : consume_state) :
    members_result alt_stat :=
  match minfo.alts with
  | none => (outcome.ok alt_stat.skipped, ms, st)
  | some member_alts =>
    if key ≠ member_alts.key then (outcome.ok alt_stat.skipped, ms, st)
    else
      match consume member_alts.parse_type first st with
      | (outcome.ok value, st) =>
        match member_alts.mode with
        | alt_mode.nest =>
          match find_alternative value member_alts.alternatives 0 with
          | some (alt_idx, _) =>
            (outcome.ok alt_stat.success,
              { ms with discr_info := ms.discr_info.set idx (some alt_idx) }, st)
          | none => (outcome.ok alt_stat.unknown_alternative, ms, st)
        | alt_mode.no_nesting =>
          let ms := { ms with found_members := ms.found_members.set idx true }
          match find_alternative value member_alts.alternatives 0 with
          | some (_, alter_type) =>
            match consume alter_type token_kind.begin_mapping st with
            | (outcome.ok member, st) =>
              (outcome.ok alt_stat.consumed_remaining,
                { ms with object := ms.object.set idx member }, st)
            | (o, st) => (o.rethrow, ms, st)
          | none => (outcome.ok alt_stat.unknown_alternative, ms, st)
      | (o, st) => (o.rethrow, ms, st)

/-- The first fold of `consume_members`: `try_consume_discriminator` for the
members from index `idx` on, until one answers something else than `skipped`. -/
def consume_discriminators (consume : Ty → consumer) (key : bytes) (first : token_kind) :
    List member_info → Nat → members_state → consume_state → members_result alt_stat
  | [], _, ms, st => (outcome.ok alt_stat.skipped, ms, st)
  | minfo :: rest, idx, ms, st =>
    match try_consume_discriminator consume key idx minfo first ms st with
    | (outcome.ok alt_stat.skipped, ms, st) =>
      consume_discriminators consume key first rest (idx + 1) ms st
    | r => r

/-- The name test of `detail::try_fill_member`. -/
def matching_name (minfo : member_info) (key : bytes) : Bool :=
  let by_alias : Bool :=
    match minfo.alias_name with
    | some alias_name => decide (key = alias_name)
    | none => false
  match minfo.short_name with
  | some short_name => by_alias || decide (key = short_name)
  | none => by_alias || decide (key = minfo.name)

/-- `member_type::value_type` for a member flagged `multiple`, which also has
to offer `emplace_back`. -/
def Ty.value_type : Ty → Option Ty
  | Ty.vector t => some t
  | _ => none

/-- `member_type::mapped_type` of the member that receives unknown keys. -/
def Ty.mapped_type : Ty → Option Ty
  | Ty.map v => some v
  | _ => none

/-- `detail::consume_discriminated` of `object_consumer.hpp`: consumes the
alternative the recorded index names; `none` is the `false` return. -/
def consume_discriminated (consume : Ty → consumer) (member_alts : member_alts)
    (discr_idx : Option Nat) (first : token_kind) (st : consume_state) :
    Option consume_result :=
  match discr_idx with
  | none => none
  | some alt_idx =>
    match member_alts.alternatives.get? alt_idx with
    | none => none
    | some (_, alter_type) => some (consume alter_type first st)

/-- `detail::try_fill_member<MemberIndex>` of `object_consumer.hpp`. -/
def try_fill_member (consume : Ty → consumer) (key : bytes) (idx : Nat) (minfo : member_info)
    (first : token_kind) (ms : members_state) (st : consume_state) : members_result fill_stat :=
  if matching_name minfo key = false then (outcome.ok fill_stat.key_unknown, ms, st)
  else
    let found_member := ms.found_members.getD idx false
    if found_member = true ∧ has_flag minfo.flags member_flag.first_of_multiple = true then
      (outcome.ok fill_stat.success, ms, st)
    else if found_member = true ∧
        has_flag minfo.flags (member_flag.last_of_multiple ||| member_flag.multiple) = false then
      (outcome.ok fill_stat.key_duplicate, ms, st)
    else if has_flag minfo.flags member_flag.maybe_default = true ∧ first = token_kind.null then
      (outcome.ok fill_stat.success, ms, st)
    else
      let ms := { ms with found_members := ms.found_members.set idx true }
      match minfo.alts with
      | some member_alts =>
        match consume_discriminated consume member_alts (ms.discr_info.getD idx none) first st with
        | some (outcome.ok member, st) =>
          (outcome.ok fill_stat.success, { ms with object := ms.object.set idx member }, st)
        | some (o, st) => (o.rethrow, ms, st)
        | none => (outcome.ok fill_stat.discriminator_missing, ms, st)
      | none =>
        if has_flag minfo.flags member_flag.multiple = true then
          match minfo.type.value_type with
          | none => (outcome.ill_formed, ms, st)
          | some type =>
            match consume type first st with
            | (outcome.ok v, st) =>
              match ms.object.getD idx Val.absent with
              | Val.seq member =>
                (outcome.ok fill_stat.success,
                  { ms with object := ms.object.set idx (Val.seq (member ++ [v])) }, st)
              | _ => (outcome.ill_formed, ms, st)
            | (o, st) => (o.rethrow, ms, st)
        else
          match consume minfo.type first st with
          | (outcome.ok member, st) =>
            (outcome.ok fill_stat.success, { ms with object := ms.object.set idx member }, st)
          | (o, st) => (o.rethrow, ms, st)

/-- The second fold of `consume_members`: `try_fill_member` for the members
from index `idx` on, until one answers something else than `key_unknown`. -/
def fill_members (consume : Ty → consumer) (key : bytes) (first : token_kind) :
    List member_info → Nat → members_state → consume_state → members_result fill_stat
  | [], _, ms, st => (outcome.ok fill_stat.key_unknown, ms, st)
  | minfo :: rest, idx, ms, st =>
    match try_fill_member consume key idx minfo first ms st with
    | (outcome.ok fill_stat.key_unknown, ms, st) =>
      fill_members consume key first rest (idx + 1) ms st
    | r => r

/-- `add_keys_idx` of `consume_members`: the least index of a member flagged
`additional_keys`, with `none` for `size_t(-1)`. -/
def add_keys_idx : List member_info → Nat → Option Nat
  | [], _ => none
  | minfo :: rest, idx =>
    if has_flag minfo.flags member_flag.additional_keys = true then some idx
    else add_keys_idx rest (idx + 1)

/-- The branch of `consume_members` for `key_unknown` and `key_duplicate`. -/
def consume_additional (consume : Ty → consumer) (members : List member_info) (key : ref_string)
    (status : fill_stat) (token : token_kind) (ms : members_state) (st : consume_state) :
    members_result Unit :=
  match add_keys_idx members 0 with
  | some add_idx =>
    match ((members.get? add_idx).map member_info.type).bind Ty.mapped_type with
    | none => (outcome.ill_formed, ms, st)
    | some value_type =>
      match consume value_type token st with
      | (outcome.ok value, st) =>
        match ms.object.getD add_idx Val.absent with
        | Val.map map_member =>
          (outcome.ok (),
            { ms with object := ms.object.set add_idx (Val.map (map_emplace map_member key.data value)) },
            st)
        | _ => (outcome.ill_formed, ms, st)
      | (o, st) => (o.rethrow, ms, st)
  | none =>
    let error :=
      if status = fill_stat.key_unknown then doc_error_kind.key_unknown
      else doc_error_kind.key_duplicate
    let r : outcome Unit × consume_state := fail st (st.input.location relative_loc.key) error
    (r.1, ms, r.2)

/-- The `while` loop of `consume_members` in `object_consumer.hpp`. -/
def consume_members_loop (consume : Ty → consumer) (members : List member_info) :
    Nat → members_state → consume_state → members_result Unit
  | 0, ms, st => (outcome.out_of_fuel, ms, st)
  | fuel + 1, ms, st =>
    match st.next_token with
    | (outcome.ok token, st) =>
      if token = token_kind.end_mapping then (outcome.ok (), ms, st)
      else
        let key := st.input.mapping_key
        let st := { st with input := st.input.mapping_key_moved }
        match consume_discriminators consume key.data token members 0 ms st with
        | (outcome.ok alt_stat.success, ms, st) => consume_members_loop consume members fuel ms st
        | (outcome.ok alt_stat.consumed_remaining, ms, st) => (outcome.ok (), ms, st)
        | (outcome.ok alt_stat.unknown_alternative, ms, st) =>
          let r : outcome Unit × consume_state :=
            fail st (st.input.location relative_loc.value) doc_error_kind.value_unknown
          (r.1, ms, r.2)
        | (outcome.ok alt_stat.skipped, ms, st) =>
          match fill_members consume key.data token members 0 ms st with
          | (outcome.ok fill_stat.success, ms, st) =>
            consume_members_loop consume members fuel ms st
          | (outcome.ok fill_stat.discriminator_missing, ms, st) =>
            let r : outcome Unit × consume_state :=
              fail st (st.input.location relative_loc.key) doc_error_kind.type_unspecified
            (r.1, ms, r.2)
          | (outcome.ok status, ms, st) =>
            match consume_additional consume members key status token ms st with
            | (outcome.ok _, ms, st) => consume_members_loop consume members fuel ms st
            | (o, ms, st) => (o.rethrow, ms, st)
          | (o, ms, st) => (o.rethrow, ms, st)
        | (o, ms, st) => (o.rethrow, ms, st)
    | (o, st) => (o.rethrow, ms, st)

/-- The test `found_all` of `consume_members`. -/
def found_all : List member_info → List Bool → Bool
  | [], _ => true
  | minfo :: rest, found_members =>
    (found_members.headD false ||
        has_flag minfo.flags (member_flag.maybe_default ||| member_flag.additional_keys)) &&
      found_all rest found_members.tail

/-- The locals of `consume_members` before its loop: a default-constructed
object, no member found, no alternative chosen. -/
def members_state.init (members : List member_info) : members_state :=
  { object := members.map member_info.init,
    found_members := members.map (fun _ => false),
    discr_info := members.map (fun _ => none) }

/-- `consume_members` of `object_consumer.hpp`. -/
def consume_members (consume : Ty → consumer) (members : List member_info) (fuel : Nat)
    (st : consume_state) : consume_result :=
  match consume_members_loop consume members fuel (members_state.init members) st with
  | (outcome.ok _, ms, st) =>
    if found_all members ms.found_members = false then
      fail st (st.input.location relative_loc.value) doc_error_kind.key_missing
    else (outcome.ok (Val.record ms.object), st)
  | (o, _, st) => (o.rethrow, st)

/-- `consume(type_wrap<T>, ...)` of `object_consumer.hpp` for a class with
class information; a class without members fails the `static_assert`. -/
def consume_class (consume : Ty → consumer) (members : List member_info) (fuel : Nat) :
    consumer := fun first st =>
  if members.isEmpty = true then (outcome.ill_formed, st)
  else if first ≠ token_kind.begin_mapping ∧ st.input.hint token_kind.begin_mapping = false then
    fail st (st.input.location relative_loc.value) doc_error_kind.type_mismatch
  else consume_members consume members fuel st

/-- The overload set `consume(type_wrap<T>, first, input, context)`: picks the
consumer of the type. `fuel` bounds the nesting of calls and the rounds of each
loop. -/
def consume : Nat → Ty → consumer
  | 0, _ => fun _ st => (outcome.out_of_fuel, st)
  | fuel + 1, ty =>
    match ty with
    | Ty.boolean => consume_bool
    | Ty.integer is_signed bits => consume_integer is_signed bits
    | Ty.character => consume_char
    | Ty.string => consume_string
    | Ty.ref_string => consume_ref_string
    | Ty.optional t => consume_optional (consume fuel t)
    | Ty.unique_ptr t => consume_unique_ptr (consume fuel t)
    | Ty.array t n => consume_array (consume fuel t) n fuel
    | Ty.vector t => consume_vector (consume fuel t) fuel
    | Ty.map v => consume_map (consume fuel v) fuel
    | Ty.record members => consume_class (consume fuel) members fuel
    | Ty.variant => fun _ st => (outcome.ill_formed, st)
    | Ty.validated t validator => consume_validated (consume fuel t) validator

/-- `from_input_with_context` of `object_mapper.hpp`: `ok none` is
`std::nullopt`; both exceptions are caught here. -/
def from_input_with_context (fuel : Nat) (T : Ty) (st : consume_state) :
    outcome (Option Val) × consume_state :=
  match st.next_token with
  | (outcome.ok first, st) =>
    if first ≠ token_kind.eof then
      match consume fuel T first st with
      | (outcome.ok v, st) => (outcome.ok (some v), st)
      | (outcome.doc_input_exception, st) => (outcome.ok none, st)
      | (outcome.doc_consume_exception, st) => (outcome.ok none, st)
      | (o, st) => (o.rethrow, st)
    else (outcome.ok none, st)
  | (outcome.doc_input_exception, st) => (outcome.ok none, st)
  | (outcome.doc_consume_exception, st) => (outcome.ok none, st)
  | (o, st) => (o.rethrow, st)

/-- `from_input` of `object_mapper.hpp`: starts with an empty error log. -/
def from_input (fuel : Nat) (T : Ty) (input : json.parser) :
    outcome (Option Val) × consume_state :=
  from_input_with_context fuel T { input := input, errors := [] }

/-- The key `key` names the member `minfo` at index `idx` of the record: the
name test of `minfo` accepts it, that of no earlier member does, and no
member's discriminator key equals it. -/
def names_member (members : List member_info) (key : bytes) (idx : Nat) (minfo : member_info) :
    Prop :=
  members.get? idx = some minfo ∧ matching_name minfo key = true ∧
    (∀ j, j < idx → (members.get? j).map (fun m => matching_name m key) ≠ some true) ∧
    (∀ m ∈ members, m.alts.map member_alts.key ≠ some key)

/-- The type a value for a member without alternatives is consumed as: the
element type for a member flagged `multiple`, the member type otherwise. -/
def member_info.consumed_type (minfo : member_info) : Option Ty :=
  if has_flag minfo.flags member_flag.multiple = true then minfo.type.value_type
  else some minfo.type

/-- The member after the value `v` has been stored: appended for a member
flagged `multiple`, assigned otherwise. -/
def member_info.stored (minfo : member_info) (old v : Val) : Val :=
  if has_flag minfo.flags member_flag.multiple = true then
    match old with
    | Val.seq xs => Val.seq (xs ++ [v])
    | _ => old
  else v

/-- Keys of a mapping as the cursor delivers them from the state `st` on: one
pair `(idx, v)` for each key in source order, where the key names the member at
`idx`, that member has no alternatives, the token is no null passed over for a
member flagged `maybe_default`, and the consumer the mapper calls for the
member returns `v`; `st_next` is the state after the last of these values. -/
def delivers_keys (consume : Ty → consumer) (members : List member_info) :
    consume_state → List (Nat × Val) → consume_state → Prop
  | st, [], st_next => st_next = st
  | st, (idx, v) :: rest, st_next =>
    ∃ token st1 minfo type st3,
      st.next_token = (outcome.ok token, st1) ∧ token ≠ token_kind.end_mapping ∧
      names_member members st1.input.mapping_key.data idx minfo ∧ minfo.alts = none ∧
      ¬ (has_flag minfo.flags member_flag.maybe_default = true ∧ token = token_kind.null) ∧
      minfo.consumed_type = some type ∧
      consume type token { st1 with input := st1.input.mapping_key_moved } = (outcome.ok v, st3) ∧
      delivers_keys consume members st3 rest st_next

/-- A whole mapping as the cursor delivers it from the state `st` on: the keys
of `delivers_keys` and then the token `end_mapping`, which leaves the state
`st_end`. -/
def delivers (consume : Ty → consumer) (members : List member_info) (st : consume_state)
    (entries : List (Nat × Val)) (st_end : consume_state) : Prop :=
  ∃ st_next, delivers_keys consume members st entries st_next ∧
    st_next.next_token = (outcome.ok token_kind.end_mapping, st_end)

/-- A member whose key may occur again: flagged `last_of_multiple` or
`multiple` and not `first_of_multiple`. -/
def repeatable (members : List member_info) (idx : Nat) : Prop :=
  ∃ m, members.get? idx = some m ∧
    has_flag m.flags (member_flag.last_of_multiple ||| member_flag.multiple) = true ∧
    has_flag m.flags member_flag.first_of_multiple = false

/-- Every delivered key that names a member already found names a repeatable one. -/
def repeats_allowed (members : List member_info) : List Bool → List (Nat × Val) → Prop
  | _, [] => True
  | found_members, (idx, _) :: rest =>
    (found_members.getD idx false = true → repeatable members idx) ∧
      repeats_allowed members (found_members.set idx true) rest

/-- The locals of `consume_members` after the value `v` for the member at `idx`
has been stored. -/
def members_state.fill (members : List member_info) (ms : members_state) (e : Nat × Val) :
    members_state :=
  match members.get? e.1 with
  | some minfo =>
    { ms with object := ms.object.set e.1 (minfo.stored (ms.object.getD e.1 Val.absent) e.2),
              found_members := ms.found_members.set e.1 true }
  | none => ms

/-- Whether a member has to be found: flagged neither `maybe_default` nor
`additional_keys`. -/
def member_info.required (minfo : member_info) : Bool :=
  !has_flag minfo.flags (member_flag.maybe_default ||| member_flag.additional_keys)

/-- Whether a value is a `std::vector`. -/
def Val.is_seq : Val → Bool
  | Val.seq _ => true
  | _ => false

/-- Every member flagged `multiple` holds a sequence. -/
def holds_sequences (members : List member_info) (object : List Val) : Prop :=
  ∀ i, i < members.length →
    (members.get? i).map (fun m => has_flag m.flags member_flag.multiple) = some true →
      (object.getD i Val.absent).is_seq = true

/-- A consumer that hands no error to the handler when it returns a value. -/
def quiet (c : consumer) : Prop :=
  ∀ first st v st', c first st = (outcome.ok v, st') → st'.errors = st.errors

/-- `my_class` of `examples/example1.cpp`: `int a; std::string b;`. The member
`a` has no initialiser; `0` stands for its indeterminate value. -/
def example1_members : List member_info :=
  [member_info.mk (ascii "a") 0 none none none (Ty.integer true 32) (Val.integer 0),
   member_info.mk (ascii "b") 0 none none none Ty.string (Val.string [])]

/-- The text `json_text` of `examples/example1.cpp`. -/
def example1_text : bytes :=
  ascii "\n        \x7b\n            \"a\": 1,\n            \"b\": \"text\"\n        \x7d\n    "

/-- The state of `from_input` on `example1_text` after its first token. -/
def example1_begin : consume_state :=
  (consume_state.next_token ⟨json.input example1_text, []⟩).2

/-- The key `key` is the discriminator key of the member `minfo` at index `idx`,
whose alternatives are `a`, and of no earlier member. -/
def names_discriminator (members : List member_info) (key : bytes) (idx : Nat)
    (minfo : member_info) (a : member_alts) : Prop :=
  members.get? idx = some minfo ∧ minfo.alts = some a ∧ a.key = key ∧
    (∀ j, j < idx →
      ((members.get? j).bind member_info.alts).map member_alts.key ≠ some key)

/-- The alternative at index `alt_idx` is the first whose discriminative value
equals `value`. -/
def first_alternative (value : Val) (alternatives : List (Val × Ty)) (alt_idx : Nat)
    (alter_type : Ty) : Prop :=
  (alternatives.get? alt_idx).map Prod.snd = some alter_type ∧
    (alternatives.get? alt_idx).map (fun alt => discr_eq value alt.1) = some true ∧
    (∀ i, i < alt_idx →
      (alternatives.get? i).map (fun alt => discr_eq value alt.1) ≠ some true)

/-- A class with the members `alice` and `bob` as `A` of
`tests/test_object_consumer.cpp` declares them: `bob` has the short name `b`,
the alias `Bob` and the flag `maybe_default`. -/
def bob_members : List member_info :=
  [member_info.mk (ascii "alice") 0 none none none (Ty.integer true 32) (Val.integer 0),
   member_info.mk (ascii "bob") member_flag.maybe_default (some (ascii "Bob")) (some (ascii "b"))
     none (Ty.integer true 32) (Val.integer 0)]

/-- The state in which the value of the next key is handed to a consumer: the
cursor has delivered the token and the key has been moved out of it. -/
def consume_state.at_value (st : consume_state) : consume_state :=
  { st.next_token.2 with input := st.next_token.2.input.mapping_key_moved }

/-- The state after the next key has been delivered and the consumer `c` has
read its value. -/
def consume_state.after_value (c : consumer) (st : consume_state) : consume_state :=
  match st.next_token.1 with
  | outcome.ok token => (c token st.at_value).2
  | _ => st.at_value

/-- The state `from_input` is in after the first token of the text `s`. -/
def begin_state (s : bytes) : consume_state :=
  (consume_state.next_token ⟨json.input s, []⟩).2

/-- A class with the one member `std::vector<std::string> options`, flagged
`multiple`. -/
def options_members : List member_info :=
  [member_info.mk (ascii "options") member_flag.multiple none none none (Ty.vector Ty.string)
    (Val.seq [])]

/-- The document `{"options":["a"]}`. -/
def options_array_text : bytes := ascii "\x7b\"options\":[\"a\"]\x7d"

/-- The document `{"a":1}`: `example1_text` without the member `b`. -/
def missing_b_text : bytes := ascii "\x7b\"a\":1\x7d"

/-- A class with the one member `int a`, without flags. -/
def single_members : List member_info :=
  [member_info.mk (ascii "a") 0 none none none (Ty.integer true 32) (Val.integer 0)]

/-- A class with the member `int a` and the member
`std::map<std::string, int> rest` flagged `additional_keys`. -/
def capture_members : List member_info :=
  [member_info.mk (ascii "a") 0 none none none (Ty.integer true 32) (Val.integer 0),
   member_info.mk (ascii "rest") member_flag.additional_keys none none none
     (Ty.map (Ty.integer true 32)) (Val.map [])]

/-- The document `{"a":1,"a":2}`. -/
def twice_text : bytes := ascii "\x7b\"a\":1,\"a\":2\x7d"

/-- A class with the one member `int x`, flagged `first_of_multiple`. -/
def first_members : List member_info :=
  [member_info.mk (ascii "x") member_flag.first_of_multiple none none none (Ty.integer true 32)
    (Val.integer 0)]

/-- A class with the one member `int a`, flagged `maybe_default`. -/
def default_members : List member_info :=
  [member_info.mk (ascii "a") member_flag.maybe_default none none none (Ty.integer true 32)
    (Val.integer 0)]

/-- The document `{"a":null,"a":5}`. -/
def null_first_text : bytes := ascii "\x7b\"a\":null,\"a\":5\x7d"

/-- The class of scenario S3 and of `my_class2` in `examples/example2.cpp`:
`std::vector<std::string> options`, flagged `multiple`, short name `opt`. -/
def opt_members : List member_info :=
  [member_info.mk (ascii "options") member_flag.multiple none (some (ascii "opt")) none
    (Ty.vector Ty.string) (Val.seq [])]

/-- The document `{"opt":"medium","opt":"with salami"}`. -/
def opt_text : bytes := ascii "\x7b\"opt\":\"medium\",\"opt\":\"with salami\"\x7d"

/-- A class with the member `std::vector<int> multiple`, flagged `multiple`, as
in `Complex` of `tests/test_object_consumer.cpp`. -/
def multiple_members : List member_info :=
  [member_info.mk (ascii "multiple") member_flag.multiple none none none
    (Ty.vector (Ty.integer true 32)) (Val.seq [])]

/-- The class `my_class1` of `examples/example2.cpp` and of scenario S2:
`bool flag = false` flagged `maybe_default` with alias `f`, and
`std::map<std::string, int> numbers` flagged `additional_keys`. -/
def numbers_members : List member_info :=
  [member_info.mk (ascii "flag") member_flag.maybe_default (some (ascii "f")) none none
     Ty.boolean (Val.boolean false),
   member_info.mk (ascii "numbers") member_flag.additional_keys none none none
     (Ty.map (Ty.integer true 32)) (Val.map [])]

/-- The document `{"one":1,"two":2,"three":3}`. -/
def numbers_text : bytes := ascii "\x7b\"one\":1,\"two\":2,\"three\":3\x7d"

/-- The document `{"c":1}`. -/
def unknown_text : bytes := ascii "\x7b\"c\":1\x7d"

/-- `write_entry` of `examples/example3.cpp`: `std::string new_content`. -/
def write_entry : Ty :=
  Ty.record [member_info.mk (ascii "new_content") 0 none none none Ty.string (Val.string [])]

/-- `delete_entry` of `examples/example3.cpp`: `bool immediatley`; the member
has no initialiser and `false` stands for its indeterminate value. -/
def delete_entry : Ty :=
  Ty.record [member_info.mk (ascii "immediatley") 0 none none none Ty.boolean
    (Val.boolean false)]

/-- The alternatives of `payload` in `examples/example3.cpp` and scenario S4:
key `type`, mode `nest`, `write` for `write_entry` and `delete` for
`delete_entry`. -/
def payload_alts : member_alts :=
  member_alts.mk (ascii "type") alt_mode.nest Ty.ref_string
    [(Val.string (ascii "write"), write_entry), (Val.string (ascii "delete"), delete_entry)]

/-- The class of scenario S4: `std::string file` and
`std::variant<write_entry, delete_entry> payload` with `payload_alts`; a
default-constructed variant holds a default `write_entry`. -/
def payload_members : List member_info :=
  [member_info.mk (ascii "file") 0 none none none Ty.string (Val.string []),
   member_info.mk (ascii "payload") 0 none none (some payload_alts) Ty.variant
     (Val.record [Val.string []])]

/-- The document `{"file":"R","type":"write","payload":{"new_content":"hi"}}`. -/
def payload_text : bytes :=
  ascii "\x7b\"file\":\"R\",\"type\":\"write\",\"payload\":\x7b\"new_content\":\"hi\"\x7d\x7d"

/-- The document `{"file":"R","payload":{"new_content":"hi"},"type":"write"}`. -/
def payload_early_text : bytes :=
  ascii "\x7b\"file\":\"R\",\"payload\":\x7b\"new_content\":\"hi\"\x7d,\"type\":\"write\"\x7d"

/-- The locals of `consume_members` for `payload_members` after `file` has been
filled with `R`. -/
def payload_file_filled : members_state :=
  (members_state.init payload_members).fill payload_members (0, Val.string (ascii "R"))

/-- The state after `"file":"R"` of `payload_text` has been read. -/
def payload_after_file : consume_state :=
  (begin_state payload_text).after_value (consume 3 Ty.string)

namespace json

/-- A handler of parse errors that never returns a token, as `raise_error`
does. -/
def raises (raise : raiser) : Prop :=
  ∀ what p t, (raise what p).1 ≠ outcome.ok t

end json

/-- The document `{"file":"R","type":"rename"}`: no alternative of
`payload_alts` has the discriminative `rename`. -/
def rename_text : bytes := ascii "\x7b\"file\":\"R\",\"type\":\"rename\"\x7d"

/-- `B` of `tests/test_object_consumer.cpp`: `int m1 = 0; int m2 = 0;`. -/
def B_members : List member_info :=
  [member_info.mk (ascii "m1") 0 none none none (Ty.integer true 32) (Val.integer 0),
   member_info.mk (ascii "m2") 0 none none none (Ty.integer true 32) (Val.integer 0)]

/-- The alternatives of `variant2` in `tests/test_object_consumer.cpp`: key
`kind2`, mode `no_nesting`, `number` for `int` and `B` for the class `B`. -/
def variant2_alts : member_alts :=
  member_alts.mk (ascii "kind2") alt_mode.no_nesting Ty.ref_string
    [(Val.string (ascii "number"), Ty.integer true 32),
     (Val.string (ascii "B"), Ty.record B_members)]

/-- A class with the one member `std::variant<int, B> variant2` as `Complex` of
`tests/test_object_consumer.cpp` declares it; a default-constructed variant
holds the `int` 0. -/
def variant2_members : List member_info :=
  [member_info.mk (ascii "variant2") 0 none none (some variant2_alts) Ty.variant (Val.integer 0)]

/-- The document `{"kind2":"B","m1":1,"m2":2}`. -/
def variant2_text : bytes := ascii "\x7b\"kind2\":\"B\",\"m1\":1,\"m2\":2\x7d"

namespace json

/-- What the outcome of a parser call says about the errors handed to the
parse-error handler: a token comes with no new error, the input failure with at
least one; the parser raises nothing else. -/
def sink_grows {α : Type} (o : outcome α) (reported reported' : List parse_error) : Prop :=
  match o with
  | outcome.ok _ => reported' = reported
  | outcome.doc_input_exception => ∃ es, es ≠ [] ∧ reported' = reported ++ es
  | outcome.out_of_fuel => ∃ es, reported' = reported ++ es
  | _ => False

/-- A handler of parse errors that, like `raise_error`, never returns a token
and raises the input failure only after an error was handed on. -/
def raises_reporting (raise : raiser) : Prop :=
  ∀ what p, (∀ t, (raise what p).1 ≠ outcome.ok t) ∧
    sink_grows (raise what p).1 p.reported (raise what p).2.reported

end json

/-- What an outcome says about the two error logs between the states `st` and
`st'`: a value comes with no new error in either; the consume failure with
exactly one new `doc_error`, located at an anchor of the cursor as it is left,
and no parse error; the input failure with at least one new parse error and no
`doc_error`. -/
def reports {α : Type} (o : outcome α) (st st' : consume_state) : Prop :=
  match o with
  | outcome.ok _ => st'.errors = st.errors ∧ st'.input.reported = st.input.reported
  | outcome.doc_consume_exception =>
    (∃ e, st'.errors = st.errors ++ [e] ∧ ∃ rel, e.location = st'.input.location rel) ∧
      st'.input.reported = st.input.reported
  | outcome.doc_input_exception =>
    st'.errors = st.errors ∧ ∃ es, es ≠ [] ∧ st'.input.reported = st.input.reported ++ es
  | outcome.aborted => st'.errors = st.errors ∧ st'.input.reported = st.input.reported
  | outcome.ill_formed => st'.errors = st.errors ∧ st'.input.reported = st.input.reported
  | outcome.out_of_fuel =>
    st'.errors = st.errors ∧ ∃ es, st'.input.reported = st.input.reported ++ es

/-- A consumer whose outcome and error logs agree as `reports` says. -/
def disciplined (c : consumer) : Prop :=
  ∀ first st, reports (c first st).1 st (c first st).2

/-- The token kind a consumer tests its first token against before it reads
anything else: `boolean` for `bool`, `number` for the integer types, `string`
for `char`, `std::string` and `ref_string`, `begin_array` for `std::array` and
`std::vector`, `begin_mapping` for `std::map` and for a declared class. The
other consumers have no such test of their own. -/
def Ty.required_token : Ty → Option token_kind
  | Ty.boolean => some token_kind.boolean
  | Ty.integer _ _ => some token_kind.number
  | Ty.character => some token_kind.string
  | Ty.string => some token_kind.string
  | Ty.ref_string => some token_kind.string
  | Ty.array _ _ => some token_kind.begin_array
  | Ty.vector _ => some token_kind.begin_array
  | Ty.map _ => some token_kind.begin_mapping
  | Ty.record members => if members.isEmpty then none else some token_kind.begin_mapping
  | _ => none

/-- A non-empty run of the decimal digits `0` to `9`. -/
def is_digits (ds : bytes) : Prop :=
  ds ≠ [] ∧ ∀ c ∈ ds, 48 ≤ c ∧ c ≤ 57

/-- The number lexeme with an optional minus sign, the digits of the mantissa
and an optional exponent part: the exponent character and the exponent's
digits. -/
def number_lexeme (negative : Bool) (m_digits : bytes) (exponent : Option (Nat × bytes)) : bytes :=
  (if negative then [45] else []) ++ m_digits ++
    (match exponent with
     | none => []
     | some (e, k_digits) => e :: k_digits)

/-- The integer `m` the sign and the mantissa digits of a lexeme denote. -/
def lexeme_mantissa (negative : Bool) (m_digits : bytes) : Int :=
  if negative then -(decimal_value m_digits : Int) else (decimal_value m_digits : Int)

/-- The exponent `k` a lexeme denotes, 0 for a lexeme without exponent part. -/
def lexeme_exponent (exponent : Option (Nat × bytes)) : Nat :=
  match exponent with
  | none => 0
  | some (_, k_digits) => decimal_value k_digits

/-- The class of scenario S6 with the member `height` of `person` in
`examples/example4.cpp`: `range_bounded<unsigned int, 30, 300> height`. -/
def height_members : List member_info :=
  [member_info.mk (ascii "height") 0 none none none
    (Ty.range_bounded (Ty.integer false 32) 30 300) (Val.integer 0)]

/-- A class with the member `bounded` of `Complex` in
`tests/test_object_consumer.cpp`: `range_bounded<int, 1, 10> bounded`. -/
def bounded_members : List member_info :=
  [member_info.mk (ascii "bounded") 0 none none none
    (Ty.range_bounded (Ty.integer true 32) 1 10) (Val.integer 0)]

/-- The fraction part of a number text: nothing, or a dot and the digits `f`. -/
def fraction_text : Option bytes → bytes
  | none => []
  | some f => 46 :: f

/-- The exponent part of a number text: nothing, or the exponent letter, an
optional minus sign and the digits `k`. -/
def exponent_text : Option (Nat × Bool × bytes) → bytes
  | none => []
  | some (e, neg, k) => e :: ((if neg then [45] else []) ++ k)

/-- A text of the grammar `-? digits (. digits)? ([eE] -? digits)?`, from its
parts: the sign, the digits of the integer part, the digits of the fraction
when there is one, and for an exponent part its letter, its sign and its
digits. -/
def number_text (negative : Bool) (int_digits : bytes) (fraction : Option bytes)
    (exponent : Option (Nat × Bool × bytes)) : bytes :=
  (if negative then [45] else []) ++ (int_digits ++ (fraction_text fraction ++ exponent_text exponent))

/-- The texts of the number grammar: every run of digits is non-empty and the
exponent letter is `e` or `E`. -/
def is_number_text (n : bytes) : Prop :=
  ∃ (negative : Bool) (int_digits : bytes) (fraction : Option bytes)
    (exponent : Option (Nat × Bool × bytes)),
    is_digits int_digits ∧ (∀ f, fraction = some f → is_digits f) ∧
    (∀ e neg k, exponent = some (e, neg, k) → (e = 101 ∨ e = 69) ∧ is_digits k) ∧
    n = number_text negative int_digits fraction exponent

namespace json

/-- What a parse function stands for as a frame of the parser: the top level
(`parse_begin`, `parse_eof`), the inside of a mapping, the inside of an array,
or a bare value (`parse_any`). -/
inductive frame_kind where
  | top
  | mapping
  | array
  | value
  deriving DecidableEq, Repr

/-- The frame a `parse_func_t` belongs to. -/
def parse_func.kind : parse_func → frame_kind
  | parse_func.parse_begin => frame_kind.top
  | parse_func.parse_eof => frame_kind.top
  | parse_func.parse_any => frame_kind.value
  | parse_func.parse_property _ => frame_kind.mapping
  | parse_func.parse_next_property => frame_kind.mapping
  | parse_func.parse_array_entry _ => frame_kind.array
  | parse_func.parse_next_array_entry => frame_kind.array

/-- The frames of a parser, innermost first: the one of `next_call` and the
ones saved on `call_stack`. -/
def parser.frames (p : parser) : List frame_kind :=
  p.next_call.kind :: p.call_stack.map (fun e => e.next_call.kind)

/-- The first byte of the text of a token, for the tokens that have a fixed
one. -/
def opens_with : token_kind → Nat → Prop
  | token_kind.begin_mapping, c => c = 123
  | token_kind.end_mapping, c => c = 125
  | token_kind.begin_array, c => c = 91
  | token_kind.end_array, c => c = 93
  | token_kind.string, c => c = 34
  | _, _ => True

/-- How the frames of the parser `p'` that delivered the token `t` come from
the frames of the parser `p` before the call. -/
def frames_step (t : token_kind) (p p' : parser) : Prop :=
  match t with
  | token_kind.begin_mapping => p'.frames = frame_kind.mapping :: p.frames
  | token_kind.begin_array => p'.frames = frame_kind.array :: p.frames
  | token_kind.end_mapping =>
    p.next_call.kind = frame_kind.mapping ∧ (p.call_stack ≠ [] → p'.frames = p.frames.tail)
  | token_kind.end_array =>
    p.next_call.kind = frame_kind.array ∧ (p.call_stack ≠ [] → p'.frames = p.frames.tail)
  | token_kind.eof => p.next_call.kind = frame_kind.top ∧ p'.frames = p.frames
  | _ => p'.frames = p.frames

/-- What a call that delivers the token `t` does to the parser: the document and
the reported errors stay, the view shrinks, the value anchor is the offset of
the first byte of the token (`eof` leaves it), the key anchor stays or is an
offset passed during the call, and the frames follow `frames_step`. -/
def ok_step (t : token_kind) (p p' : parser) : Prop :=
  p'.buf = p.buf ∧ p'.reported = p.reported ∧ p'.source <:+ p.source ∧
  ((t = token_kind.eof ∧ p'.value_begin = p.value_begin) ∨
    ∃ src : bytes, src <:+ p.source ∧ p'.source <:+ src ∧ p'.source.length < src.length ∧
      p'.value_begin = some (p.buf.length - src.length) ∧ opens_with t (src.headD 0)) ∧
  (p'.property_begin = p.property_begin ∨
    ∃ src : bytes, src <:+ p.source ∧ p'.source <:+ src ∧
      p'.property_begin = some (p.buf.length - src.length)) ∧
  frames_step t p p'

end json

/-- The elements of an array as the cursor delivers them from the state `st`
on: for each element, in source order, a token other than `end_array` and the
value `v` the element consumer returns for it; `st_next` is the state after the
last element. -/
def delivers_entries (elem : consumer) : consume_state → List Val → consume_state → Prop
  | st, [], st_next => st_next = st
  | st, v :: rest, st_next =>
    ∃ token st1 st2,
      st.next_token = (outcome.ok token, st1) ∧ token ≠ token_kind.end_array ∧
      elem token st1 = (outcome.ok v, st2) ∧ delivers_entries elem st2 rest st_next

/-- The frame a token opens: a mapping for `begin_mapping`, an array for
`begin_array`. -/
def token_kind.frame : token_kind → json.frame_kind
  | token_kind.begin_mapping => json.frame_kind.mapping
  | token_kind.begin_array => json.frame_kind.array
  | _ => json.frame_kind.value

/-- One token against the begin tokens that are still open, innermost first: a
begin token is opened, an end token closes the innermost open token, which must
be the begin token of its family, and any other token leaves them. `none`: the
end token has no begin to close. -/
def bracket_step (t : token_kind) (opened : List token_kind) : Option (List token_kind) :=
  match t with
  | token_kind.begin_mapping => some (token_kind.begin_mapping :: opened)
  | token_kind.begin_array => some (token_kind.begin_array :: opened)
  | token_kind.end_mapping =>
    match opened with
    | token_kind.begin_mapping :: rest => some rest
    | _ => none
  | token_kind.end_array =>
    match opened with
    | token_kind.begin_array :: rest => some rest
    | _ => none
  | _ => some opened

/-- A token sequence is well-bracketed from the open begin tokens `opened`:
every end token closes the innermost open begin token of its family, and
nothing is left open at the end. -/
def well_bracketed : List token_kind → List token_kind → Bool
  | [], opened => opened.isEmpty
  | t :: ts, opened =>
    match bracket_step t opened with
    | some o => well_bracketed ts o
    | none => false

namespace json

/-- The tokens a user of the cursor reads by calling `next_token` until it
answers `eof`, with the parser that is left; `none` when a call raises instead
of returning a token, or when `fuel` calls did not reach `eof`. -/
def tokens_until_eof : Nat → parser → Option (List token_kind × parser)
  | 0, _ => none
  | fuel + 1, p =>
    match p.next_token with
    | (outcome.ok t, p') =>
      if t = token_kind.eof then some ([token_kind.eof], p')
      else
        match tokens_until_eof fuel p' with
        | some (ts, q) => some (t :: ts, q)
        | none => none
    | _ => none

end json

/-- The document `{"a":[1,{"b":[]}],"c":null}`. -/
def nested_text : bytes := ascii "\x7b\"a\":[1,\x7b\"b\":[]\x7d],\"c\":null\x7d"

/-- The tokens of `nested_text`. -/
def nested_tokens : List token_kind :=
  [token_kind.begin_mapping, token_kind.begin_array, token_kind.number,
   token_kind.begin_mapping, token_kind.begin_array, token_kind.end_array,
   token_kind.end_mapping, token_kind.end_array, token_kind.null,
   token_kind.end_mapping, token_kind.eof]

/-- The parser after the tokens of `nested_text` have been read. -/
def nested_end : json.parser :=
  { buf := nested_text, source := [], reported := [], line := 1,
    next_call := json.parse_func.parse_eof, call_stack := [],
    property_begin := some 19, value_begin := some 26,
    current_property := ⟨ascii "c", false⟩, current_string := ⟨[], false⟩,
    current_number := ⟨ascii "1", false⟩, current_bool := false, error_count := 0 }

/-- The line of the byte at `offset` of the document `text`: one plus the
number of LF bytes before it. -/
def line_at (text : bytes) (offset : Nat) : Nat := 1 + (text.take offset).count 10

/-- A location of the document `text`: the offset is within the text or its
end, and the line is the 32-bit counter value of that offset's line. -/
def location_ok (text : bytes) (loc : doc_location) : Prop :=
  loc.byte ≤ text.length ∧ loc.line = line_at text loc.byte % 2 ^ 32

namespace json

/-- The view `source` is a rest of the document `buf` and `line` is the 32-bit
counter value of the line at which it starts. -/
def synced (buf source : bytes) (line : Nat) : Prop :=
  ∃ pre : bytes, buf = pre ++ source ∧ line = (1 + pre.count 10) % 2 ^ 32

/-- The bytes between the views `s` and `s'` hold no LF. -/
def quiet_between (s s' : bytes) : Prop :=
  ∃ pre : bytes, s = pre ++ s' ∧ 10 ∉ pre

/-- A saved frame names an offset of the document and the line of that
offset. -/
def entry_ok (buf : bytes) (e : stack_entry) : Prop :=
  e.src ≤ buf.length ∧ e.line = line_at buf e.src % 2 ^ 32

/-- The bookkeeping of a parser is sound: view and line counter agree, every
saved frame is sound, and every reported error carries a location of the
document. -/
def tracked (p : parser) : Prop :=
  synced p.buf p.source p.line ∧ (∀ e ∈ p.call_stack, entry_ok p.buf e) ∧
    (∀ e ∈ p.reported, location_ok p.buf e.location)

/-- A call leaves a parser with sound bookkeeping on the same document. -/
def keeps_track (p : parser) (r : parse_result) : Prop :=
  tracked r.2 ∧ r.2.buf = p.buf

/-- A handler of parse errors that keeps the bookkeeping sound. -/
def handles (raise : raiser) : Prop :=
  ∀ what p, tracked p → keeps_track p (raise what p)

/-- The parser after `n` calls of `next_token` by a user who goes on after a
raised failure. -/
def parser.calls : Nat → parser → parser
  | 0, p => p
  | n + 1, p => parser.calls n p.next_token.2

/-- The parser after `n` calls of `next_token` that all returned a token;
`none` when one of them raised. -/
def parser.after_tokens : Nat → parser → Option parser
  | 0, p => some p
  | n + 1, p =>
    match p.next_token with
    | (outcome.ok _, p') => parser.after_tokens n p'
    | _ => none

end json

/-- The document of the test `Error handling and recovery` in
`tests/test_json.cpp`. -/
def recovery_text : bytes :=
  ascii "[\n        \x7b\n            \"a\" : 456,\n            \"b\" : \"no end quote,\n            \"c\" : null\n        \x7d,\n        \x7b\n            abc\n        \x7d\n        "

/-- The document `[["]",x]]`: a string that holds a closing bracket, followed by
a syntax error in the same array. -/
def bracket_in_string_text : bytes := ascii "[[\"]\",x]]"

namespace json

/-- The parser `q` a parse function hands to the error handler when it was
called on `p`: the same document, reported errors, error count and saved frames,
and a view that is a rest of the view of `p`. -/
def raised_from (p q : parser) : Prop :=
  q.buf = p.buf ∧ q.reported = p.reported ∧ q.error_count = p.error_count ∧
    q.call_stack = p.call_stack ∧ q.source <:+ p.source

/-- The two ways a parse function called on `p` ends, whatever the error
handler is: it returns a token of its own, or it hands one error to the handler
and returns what the handler returns. -/
def shaped (f : raiser → parse_result) (p : parser) : Prop :=
  (∃ t p', (∀ raise, f raise = (outcome.ok t, p')) ∧ p'.error_count = p.error_count) ∨
  (∃ what q, (∀ raise, f raise = raise what q) ∧ raised_from p q)

/-- The parser on which `parse_any` dispatches: whitespace skipped and the
value anchor set to the first byte of the value. -/
def parser.value_start (p : parser) : parser :=
  { p with source := (skip_whitespaces p.source p.line).1,
           line := (skip_whitespaces p.source p.line).2,
           value_begin := some (p.buf.length - (skip_whitespaces p.source p.line).1.length) }

end json

namespace json

/-- The count of a parser is sound: at most `max_errors` recoveries, one
reported error for each recovery, and one more only when the parser has been
stopped for good. -/
def counted (p : parser) : Prop :=
  p.error_count ≤ max_errors ∧
    (p.reported.length = p.error_count ∨
      (p.reported.length = p.error_count + 1 ∧ p.next_call = parse_func.parse_eof))

end json

namespace json

/-- The tokens of `n` calls of `next_token` that all returned a token, with the
parser that is left; `none` when one of the calls raised. -/
def parser.tokens_read : Nat → parser → Option (List token_kind × parser)
  | 0, p => some ([], p)
  | n + 1, p =>
    match p.next_token with
    | (outcome.ok t, p') =>
      match parser.tokens_read n p' with
      | some (ts, q) => some (t :: ts, q)
      | none => none
    | _ => none

end json

/-- The begin tokens that are open after the tokens `ts`, innermost first,
when `opened` were open before; `none` when an end token has no begin. -/
def opened_after : List token_kind → List token_kind → Option (List token_kind)
  | [], opened => some opened
  | t :: ts, opened =>
    match bracket_step t opened with
    | some o => opened_after ts o
    | none => none

/-- The test of the `consume()` overload of `size_bounded<T, MinSize, MaxSize>`
in `size_bounded.hpp` on the size of the consumed container. -/
def size_bounded_checker (min_size max_size : Nat) : Val → Option doc_error_kind
  | Val.string s =>
    if s.length < min_size ∨ s.length > max_size then
      some (if s.length < min_size then doc_error_kind.length_too_small
        else doc_error_kind.length_too_big)
    else none
  | Val.seq xs =>
    if xs.length < min_size ∨ xs.length > max_size then
      some (if xs.length < min_size then doc_error_kind.length_too_small
        else doc_error_kind.length_too_big)
    else none
  | _ => none

/-- `size_bounded<T, MinSize, MaxSize>` of `size_bounded.hpp`: its `consume()`
overload has the shape of the one of `validated_type`, with the size test as
the validator. -/
def Ty.size_bounded (t : Ty) (min_size max_size : Nat) : Ty :=
  Ty.validated t (size_bounded_checker min_size max_size)

/-- `my_validator` of `examples/example4.cpp`. -/
def my_validator : Val → Option doc_error_kind
  | Val.integer i => if i > 10 then some doc_error_kind.value_too_big else none
  | _ => none

/-- The class `person` of `examples/example4.cpp`. -/
def person_members : List member_info :=
  [member_info.mk (ascii "name") 0 none none none
     (Ty.size_bounded Ty.string 1 (2 ^ size_t_bits - 1)) (Val.string []),
   member_info.mk (ascii "height") 0 none none none
     (Ty.range_bounded (Ty.integer false 32) 30 300) (Val.integer 0),
   member_info.mk (ascii "custom") 0 none none none
     (Ty.validated (Ty.integer true 32) my_validator) (Val.integer 0)]

/-- The document `json_text1` of `examples/example4.cpp`, written without the
blanks and line breaks; `ö` is the two bytes C3 B6. -/
def example4_compact : bytes :=
  ascii "[\x7b\"name\":\"R" ++ [195, 182] ++
    ascii "lf\",\"height\":180,????\x7d,\x7b\"name\":\"Bert\",\"height\" 170,\"custom\":9\x7d]"

/-- The document `json_text1` of `examples/example4.cpp` as it is written there. -/
def example4_text : bytes :=
  ascii "\n        [\n            \x7b \"name\": \"R" ++ [195, 182] ++
    ascii "lf\", \"height\": 180, ???? \x7d,\n            \x7b \"name\": \"Bert\", \"height\" 170, \"custom\": 9 \x7d\n        ]\n    "

/-- Whether `from_input` returned `std::nullopt`. -/
def returned_nothing (r : outcome (Option Val) × consume_state) : Bool :=
  match r.1 with
  | outcome.ok none => true
  | _ => false

/-- Texts in which every opening bracket or brace is closed by a later closing
bracket or brace, and none is closed that was not opened (`[` and `{` count
alike, as do `]` and `}`). -/
inductive balanced : bytes → Prop where
  | nil : balanced []
  | other (c : Nat) (rest : bytes) : c ≠ 91 → c ≠ 123 → c ≠ 93 → c ≠ 125 → balanced rest →
      balanced (c :: rest)
  | nest (o cl : Nat) (inner rest : bytes) : (o = 91 ∨ o = 123) → (cl = 93 ∨ cl = 125) →
      balanced inner → balanced rest → balanced (o :: (inner ++ cl :: rest))

/-- An object of the class `ref_string` of `ref_string.hpp` with its two data
members: the characters `begin` points to and the word `length`, whose highest
bit tells whether the string is owned. -/
structure ref_string_object where
  begin : bytes
  length : Nat
  deriving DecidableEq, Repr

/-- `ref_string::allocated_bit` for a `size_t` of `w` bits:
`size_t(1) << (sizeof(size_t) * CHAR_BIT - 1)`. -/
def allocated_bit (w : Nat) : Nat := (1 <<< (w - 1)) % 2 ^ w

/-- The constructor `ref_string(std::string_view source)`; it asserts
`length < allocated_bit`. -/
def ref_string_object.of_view (w : Nat) (source : bytes) : ref_string_object :=
  { begin := source, length := source.length % 2 ^ w }

/-- `ref_string::make_copy`; it asserts `source.size() < allocated_bit`. -/
def ref_string_object.make_copy (w : Nat) (source : bytes) : ref_string_object :=
  { begin := source, length := (source.length % 2 ^ w) ||| allocated_bit w }

/-- `ref_string::is_allocated`. -/
def ref_string_object.is_allocated (w : Nat) (r : ref_string_object) : Bool :=
  r.length &&& allocated_bit w ≠ 0

/-- `ref_string::size`: `length & ~allocated_bit`. -/
def ref_string_object.size (w : Nat) (r : ref_string_object) : Nat :=
  r.length &&& (2 ^ w - 1 - allocated_bit w)

/-- `ref_string::operator std::string_view`: `std::string_view(data(), size())`. -/
def ref_string_object.view (w : Nat) (r : ref_string_object) : bytes :=
  r.begin.take (r.size w)

/-- `ref_string::operator==`: the views are compared. -/
def ref_string_object.equal (w : Nat) (a b : ref_string_object) : Bool :=
  decide (a.view w = b.view w)

/-- `ref_string::operator<`: the views are compared, as `std::string_view`
does, lexicographically by unsigned bytes. -/
def ref_string_object.less (w : Nat) (a b : ref_string_object) : Bool :=
  bytes_lt (a.view w) (b.view w)

/-- What the embedding keeps of a `ref_string`: its bytes and whether it is
owned. -/
def ref_string_object.abstract (w : Nat) (r : ref_string_object) : ref_string :=
  ⟨r.view w, r.is_allocated w⟩

/-- The value a map holds for `key` (`std::map::find`). -/
def map_find : List (bytes × Val) → bytes → Option Val
  | [], _ => none
  | (k, v) :: rest, key => if key = k then some v else map_find rest key

/-- A map is kept in key order: every key is less than the keys behind it. -/
def map_sorted (m : List (bytes × Val)) : Prop :=
  m.Pairwise (fun a b => bytes_lt a.1 b.1 = true)

/-- A class with the one member `std::map<std::string, int> rest`, flagged
`additional_keys`. -/
def rest_members : List member_info :=
  [member_info.mk (ascii "rest") member_flag.additional_keys none none none
     (Ty.map (Ty.integer true 32)) (Val.map [])]

/-- The document `{"x":1,"y":2,"x":3}`. -/
def repeated_text : bytes := ascii "\x7b\"x\":1,\"y\":2,\"x\":3\x7d"

/-- The document `[["[\""]]`: an array holding an array holding the one string
of the two characters `[` and `"`. -/
def quoted_bracket_text : bytes := ascii "[[\"[\\\"\"]]"

/-- A class with the one member `std::vector<int> xs`, flagged `multiple` and
`maybe_default`. -/
def xs_members : List member_info :=
  [member_info.mk (ascii "xs") (member_flag.multiple ||| member_flag.maybe_default) none none
    none (Ty.vector (Ty.integer true 32)) (Val.seq [])]

/-- A class with the one member `std::vector<std::optional<int>> xs`, flagged
`multiple` and `maybe_default`. -/
def xs_optional_members : List member_info :=
  [member_info.mk (ascii "xs") (member_flag.multiple ||| member_flag.maybe_default) none none
    none (Ty.vector (Ty.optional (Ty.integer true 32))) (Val.seq [])]

/-- The document `{"xs":1,"xs":null,"xs":3}`. -/
def xs_null_text : bytes := ascii "\x7b\"xs\":1,\"xs\":null,\"xs\":3\x7d"

/-- The class of `payload_members` with `payload` flagged `maybe_default`. -/
def payload_default_members : List member_info :=
  [member_info.mk (ascii "file") 0 none none none Ty.string (Val.string []),
   member_info.mk (ascii "payload") member_flag.maybe_default none none (some payload_alts)
     Ty.variant (Val.record [Val.string []])]

/-- The document
`{"file":"R","payload":null,"type":"write","payload":{"new_content":"hi"}}`. -/
def payload_null_first_text : bytes :=
  ascii "\x7b\"file\":\"R\",\"payload\":null,\"type\":\"write\",\"payload\":\x7b\"new_content\":\"hi\"\x7d\x7d"

/-- The document `{"file":"R","payload":null}`. -/
def payload_only_null_text : bytes := ascii "\x7b\"file\":\"R\",\"payload\":null\x7d"

theorem skip_whitespaces_suffix : ∀ (s : bytes) (line : Nat), (skip_whitespaces s line).1 <:+ s := by
  intro s
  induction s with
  | nil => intro line; exact List.suffix_refl _
  | cons ch rest ih =>
    intro line
    unfold skip_whitespaces
    split
    · exact List.suffix_refl _
    · split
      · exact (ih _).trans (List.suffix_cons _ _)
      · exact (ih _).trans (List.suffix_cons _ _)

namespace json

theorem parser.raise_error_raises (next : parser → parse_result) (fuel : Nat) :
    raises (parser.raise_error next fuel) := by
  intro what p t
  unfold parser.raise_error
  simp only
  split
  · split
    · simp
    · split <;> simp
  · simp

theorem parser.parse_any_not_end_mapping (raise : raiser) (h : raises raise) (p : parser) :
    (p.parse_any raise).1 ≠ outcome.ok token_kind.end_mapping := by
  unfold parser.parse_any
  simp only
  split
  · exact h _ _ _
  · split
    · unfold parser.parse_object
      simp only
      split
      · exact h _ _ _
      · simp
    · split
      · unfold parser.parse_array
        simp only
        split
        · exact h _ _ _
        · simp
      · split
        · unfold parser.parse_string
          simp only
          split
          · exact h _ _ _
          · simp
        · split
          · simp [parser.parse_bool]
          · split
            · simp [parser.parse_bool]
            · split
              · simp [parser.parse_null]
              · unfold parser.parse_number
                simp only
                split
                · exact h _ _ _
                · exact h _ _ _
                · simp

theorem parser.pop_stack_fields (p : parser) :
    p.pop_stack.buf = p.buf ∧ p.pop_stack.source = p.source ∧
      p.pop_stack.value_begin = p.value_begin := by
  unfold parser.pop_stack
  cases p.call_stack <;> simp

theorem parser.parse_property_end_mapping (raise : raiser) (h : raises raise)
    (allow_end : Bool) (p p' : parser)
    (h_tok : p.parse_property raise allow_end = (outcome.ok token_kind.end_mapping, p')) :
    p.source.headD 0 = 125 ∧ p'.buf = p.buf ∧ p'.source = p.source.tail ∧
      p'.value_begin = some p.pos := by
  unfold parser.parse_property at h_tok
  simp only at h_tok
  split at h_tok
  · rename_i hc
    have := parser.pop_stack_fields
      { p with value_begin := some p.pos, source := p.source.tail }
    have hp : p' = parser.pop_stack
        { p with value_begin := some p.pos, source := p.source.tail } := by
      simpa using (congrArg Prod.snd h_tok).symm
    rw [hp]
    exact ⟨hc.2, this.1, this.2.1, this.2.2⟩
  · exfalso
    split at h_tok
    · exact h _ _ _ (congrArg Prod.fst h_tok)
    · split at h_tok
      · exact h _ _ _ (congrArg Prod.fst h_tok)
      · split at h_tok
        · exact h _ _ _ (congrArg Prod.fst h_tok)
        · split at h_tok
          · exact h _ _ _ (congrArg Prod.fst h_tok)
          · exact parser.parse_any_not_end_mapping raise h _ (congrArg Prod.fst h_tok)

theorem parser.call_end_mapping (raise : raiser) (h : raises raise) (p p' : parser)
    (h_tok : p.call raise = (outcome.ok token_kind.end_mapping, p')) :
    ∃ src : bytes, src <:+ p.source ∧ src.headD 0 = 125 ∧ p'.buf = p.buf ∧
      p'.source = src.tail ∧ p'.value_begin = some (p.buf.length - src.length) := by
  unfold parser.call at h_tok
  split at h_tok
  · exfalso
    unfold parser.parse_begin at h_tok
    simp only at h_tok
    split at h_tok
    · simp [parser.parse_eof] at h_tok
    · exact parser.parse_any_not_end_mapping raise h _ (congrArg Prod.fst h_tok)
  · simp [parser.parse_eof] at h_tok
  · exact absurd (congrArg Prod.fst h_tok) (parser.parse_any_not_end_mapping raise h _)
  · obtain ⟨h1, h2, h3, h4⟩ := parser.parse_property_end_mapping raise h _ p p' h_tok
    exact ⟨p.source, List.suffix_refl _, h1, h2, h3, h4⟩
  · unfold parser.parse_next_property at h_tok
    simp only at h_tok
    split at h_tok
    · exact absurd (congrArg Prod.fst h_tok) (h _ _ _)
    · split at h_tok
      · exact absurd (congrArg Prod.fst h_tok) (h _ _ _)
      · split at h_tok
        · split at h_tok
          · exact absurd (congrArg Prod.fst h_tok) (h _ _ _)
          · obtain ⟨h1, h2, h3, h4⟩ := parser.parse_property_end_mapping raise h _ _ p' h_tok
            exact ⟨_, ((skip_whitespaces_suffix _ _).trans (List.tail_suffix _)).trans
              (skip_whitespaces_suffix _ _), h1, h2, h3, h4⟩
        · obtain ⟨h1, h2, h3, h4⟩ := parser.parse_property_end_mapping raise h _ _ p' h_tok
          exact ⟨_, skip_whitespaces_suffix _ _, h1, h2, h3, h4⟩
  · exfalso
    unfold parser.parse_array_entry at h_tok
    simp only at h_tok
    split at h_tok
    · simp at h_tok
    · exact parser.parse_any_not_end_mapping raise h _ (congrArg Prod.fst h_tok)
  · exfalso
    unfold parser.parse_next_array_entry at h_tok
    simp only at h_tok
    split at h_tok
    · exact h _ _ _ (congrArg Prod.fst h_tok)
    · split at h_tok
      · exact h _ _ _ (congrArg Prod.fst h_tok)
      · split at h_tok
        · split at h_tok
          · exact h _ _ _ (congrArg Prod.fst h_tok)
          · unfold parser.parse_array_entry at h_tok
            simp only at h_tok
            split at h_tok
            · simp at h_tok
            · exact parser.parse_any_not_end_mapping raise h _ (congrArg Prod.fst h_tok)
        · unfold parser.parse_array_entry at h_tok
          simp only at h_tok
          split at h_tok
          · simp at h_tok
          · exact parser.parse_any_not_end_mapping raise h _ (congrArg Prod.fst h_tok)

/-- When `next_token` answers `end_mapping`, the value anchor is the offset of
a `}` in the document. -/
theorem parser.next_token_end_mapping (p p' : parser) (h_suffix : p.source <:+ p.buf)
    (h_tok : p.next_token = (outcome.ok token_kind.end_mapping, p')) :
    p'.buf = p.buf ∧ p'.buf.get? (p'.location relative_loc.value).byte = some 125 := by
  unfold parser.next_token at h_tok
  rw [show p.buf.length + max_errors + 2 = (p.buf.length + max_errors + 1) + 1 from rfl] at h_tok
  unfold parser.next_token_fuel at h_tok
  obtain ⟨src, h1, h2, h3, h4, h5⟩ :=
    parser.call_end_mapping _ (parser.raise_error_raises _ _) p p' h_tok
  refine ⟨h3, ?_⟩
  obtain ⟨pre, hpre⟩ := h1.trans h_suffix
  have hlen : p.buf.length - src.length = pre.length := by
    rw [← hpre, List.length_append]
    omega
  simp only [parser.location, parser.location_at, h5, Option.getD_some, h3, hlen]
  rw [← hpre, List.get?_eq_getElem?, List.getElem?_append_right (le_refl _)]
  cases src with
  | nil => simp at h2
  | cons c rest => simpa using h2

end json

theorem outcome.rethrow_ne_ok {α β : Type} (o : outcome α) (b : β) :
    (o.rethrow : outcome β) ≠ outcome.ok b := by
  cases o <;> simp [outcome.rethrow]

theorem consume_discriminators_skipped (consume : Ty → consumer) (key : bytes)
    (first : token_kind) (members : List member_info)
    (h : ∀ m ∈ members, m.alts.map member_alts.key ≠ some key) (idx : Nat) (ms : members_state)
    (st : consume_state) :
    consume_discriminators consume key first members idx ms st
      = (outcome.ok alt_stat.skipped, ms, st) := by
  induction members generalizing idx with
  | nil => rfl
  | cons m rest ih =>
    have hm : try_consume_discriminator consume key idx m first ms st
        = (outcome.ok alt_stat.skipped, ms, st) := by
      unfold try_consume_discriminator
      cases ha : m.alts with
      | none => rfl
      | some a =>
        have hk : key ≠ a.key := fun e => h m (List.mem_cons_self _ _) (by rw [ha, e]; rfl)
        simp [hk]
    simp only [consume_discriminators, hm]
    exact ih (fun m' hm' => h m' (List.mem_cons_of_mem _ hm')) (idx + 1)

theorem try_fill_member_no_match (consume : Ty → consumer) (key : bytes) (idx : Nat)
    (minfo : member_info) (first : token_kind) (ms : members_state) (st : consume_state)
    (h : matching_name minfo key = false) :
    try_fill_member consume key idx minfo first ms st = (outcome.ok fill_stat.key_unknown, ms, st) := by
  simp [try_fill_member, h]

theorem fill_members_no_match (consume : Ty → consumer) (key : bytes) (first : token_kind)
    (members : List member_info) (h : ∀ m ∈ members, matching_name m key = false) (idx : Nat)
    (ms : members_state) (st : consume_state) :
    fill_members consume key first members idx ms st
      = (outcome.ok fill_stat.key_unknown, ms, st) := by
  induction members generalizing idx with
  | nil => rfl
  | cons m rest ih =>
    simp only [fill_members,
      try_fill_member_no_match consume key idx m first ms st (h m (List.mem_cons_self _ _))]
    exact ih (fun m' hm' => h m' (List.mem_cons_of_mem _ hm')) (idx + 1)

theorem fill_members_first_match (consume : Ty → consumer) (key : bytes) (first : token_kind)
    (members : List member_info) (k : Nat) (m : member_info) (h_get : members.get? k = some m)
    (h_before : ∀ j, j < k → (members.get? j).map (fun m => matching_name m key) ≠ some true)
    (base : Nat) (ms : members_state) (st : consume_state)
    (h_ne : (try_fill_member consume key (base + k) m first ms st).1
      ≠ outcome.ok fill_stat.key_unknown) :
    fill_members consume key first members base ms st
      = try_fill_member consume key (base + k) m first ms st := by
  induction members generalizing k base with
  | nil => simp at h_get
  | cons a rest ih =>
    cases k with
    | zero =>
      simp at h_get
      subst h_get
      simp only [fill_members]
      simp only [Nat.add_zero] at h_ne ⊢
      split
      · rename_i heq
        rw [heq] at h_ne
        exact absurd rfl h_ne
      · rfl
    | succ k' =>
      have ha : matching_name a key = false := by
        have := h_before 0 (Nat.succ_pos _)
        simpa using this
      simp only [fill_members, try_fill_member_no_match consume key base a first ms st ha]
      have := ih k' (by simpa using h_get)
        (fun j hj => by simpa using h_before (j + 1) (Nat.succ_lt_succ hj))
        (base + 1) (by rwa [Nat.add_assoc, Nat.add_comm 1 k'])
      rw [this, Nat.add_assoc, Nat.add_comm 1 k']

theorem try_fill_member_stores (consume : Ty → consumer) (key : bytes) (idx : Nat)
    (m : member_info) (first : token_kind) (ms : members_state) (st st3 : consume_state)
    (type : Ty) (v : Val)
    (h_name : matching_name m key = true) (h_alts : m.alts = none)
    (h_rep : ms.found_members.getD idx false = true →
      has_flag m.flags (member_flag.last_of_multiple ||| member_flag.multiple) = true ∧
        has_flag m.flags member_flag.first_of_multiple = false)
    (h_null : ¬ (has_flag m.flags member_flag.maybe_default = true ∧ first = token_kind.null))
    (h_type : m.consumed_type = some type)
    (h_seq : has_flag m.flags member_flag.multiple = true →
      ∃ xs, ms.object.getD idx Val.absent = Val.seq xs)
    (h_consume : consume type first st = (outcome.ok v, st3)) :
    try_fill_member consume key idx m first ms st
      = (outcome.ok fill_stat.success,
          { object := ms.object.set idx (m.stored (ms.object.getD idx Val.absent) v),
            found_members := ms.found_members.set idx true,
            discr_info := ms.discr_info }, st3) := by
  unfold try_fill_member
  have h1 : ¬ (ms.found_members.getD idx false = true ∧
      has_flag m.flags member_flag.first_of_multiple = true) := by
    rintro ⟨hf, hfirst⟩
    have := (h_rep hf).2
    rw [hfirst] at this
    exact Bool.noConfusion this
  have h2 : ¬ (ms.found_members.getD idx false = true ∧
      has_flag m.flags (member_flag.last_of_multiple ||| member_flag.multiple) = false) := by
    rintro ⟨hf, hnone⟩
    have := (h_rep hf).1
    rw [hnone] at this
    exact Bool.noConfusion this
  simp only [h_name, h1, h2, h_null, h_alts, if_false, Bool.true_eq_false]
  unfold member_info.consumed_type at h_type
  unfold member_info.stored
  by_cases hm : has_flag m.flags member_flag.multiple = true
  · obtain ⟨xs, hxs⟩ := h_seq hm
    simp only [hm, if_true] at h_type ⊢
    simp only [h_type, h_consume, hxs]
  · simp only [hm, if_false] at h_type ⊢
    cases h_type
    simp [h_consume]

theorem consume_state.next_token_errors (st : consume_state) :
    st.next_token.2.errors = st.errors := rfl

theorem consume_members_loop_stores (consume : Ty → consumer) (members : List member_info)
    (fuel : Nat) (ms : members_state) (st st1 st3 : consume_state) (token : token_kind)
    (idx : Nat) (m : member_info) (type : Ty) (v : Val)
    (h_token : st.next_token = (outcome.ok token, st1))
    (h_end : token ≠ token_kind.end_mapping)
    (h_member : names_member members st1.input.mapping_key.data idx m)
    (h_alts : m.alts = none)
    (h_rep : ms.found_members.getD idx false = true →
      has_flag m.flags (member_flag.last_of_multiple ||| member_flag.multiple) = true ∧
        has_flag m.flags member_flag.first_of_multiple = false)
    (h_null : ¬ (has_flag m.flags member_flag.maybe_default = true ∧ token = token_kind.null))
    (h_type : m.consumed_type = some type)
    (h_seq : has_flag m.flags member_flag.multiple = true →
      ∃ xs, ms.object.getD idx Val.absent = Val.seq xs)
    (h_consume : consume type token { st1 with input := st1.input.mapping_key_moved }
      = (outcome.ok v, st3)) :
    consume_members_loop consume members (fuel + 1) ms st
      = consume_members_loop consume members fuel (ms.fill members (idx, v)) st3 := by
  obtain ⟨h_get, h_name, h_before, h_discr⟩ := h_member
  have h_fill := try_fill_member_stores consume st1.input.mapping_key.data idx m token ms
    { st1 with input := st1.input.mapping_key_moved } st3 type v h_name h_alts h_rep h_null
    h_type h_seq h_consume
  have h_fm := fill_members_first_match consume st1.input.mapping_key.data token members idx m
    h_get h_before 0 ms { st1 with input := st1.input.mapping_key_moved }
    (by rw [Nat.zero_add, h_fill]; simp)
  rw [Nat.zero_add, h_fill] at h_fm
  rw [consume_members_loop]
  simp only [h_token, h_end, if_false,
    consume_discriminators_skipped consume st1.input.mapping_key.data token members h_discr, h_fm]
  simp only [members_state.fill, h_get]

theorem Val.is_seq_iff (v : Val) : v.is_seq = true ↔ ∃ xs, v = Val.seq xs := by
  cases v <;> simp [Val.is_seq]

theorem holds_sequences_get (members : List member_info) (object : List Val)
    (h : holds_sequences members object) (i : Nat) (m : member_info)
    (hi : members.get? i = some m) (hm : has_flag m.flags member_flag.multiple = true) :
    ∃ xs, object.getD i Val.absent = Val.seq xs := by
  apply (Val.is_seq_iff _).mp
  apply h i
  · rw [List.get?_eq_getElem?] at hi
    exact (List.getElem?_eq_some_iff.mp hi).1
  · rw [hi]; simp [hm]

theorem holds_sequences_fill (members : List member_info) (ms : members_state) (idx : Nat)
    (v : Val) (h : holds_sequences members ms.object) :
    holds_sequences members (ms.fill members (idx, v)).object := by
  intro i hi hm
  obtain ⟨m, hget⟩ : ∃ m, members.get? i = some m := by
    cases hg : members.get? i with
    | none => rw [hg] at hm; cases hm
    | some m => exact ⟨m, rfl⟩
  have hflag : has_flag m.flags member_flag.multiple = true := by
    rw [hget] at hm
    simpa using hm
  obtain ⟨xs, hxs⟩ := holds_sequences_get members ms.object h i m hget hflag
  rw [Val.is_seq_iff]
  unfold members_state.fill
  by_cases hidx : idx = i
  · subst hidx
    simp only [hget]
    have hlt : idx < ms.object.length := by
      by_contra hge
      rw [List.getD_eq_getElem?_getD, List.getElem?_eq_none (Nat.le_of_not_lt hge)] at hxs
      cases hxs
    refine ⟨xs ++ [v], ?_⟩
    rw [List.getD_eq_getElem?_getD, List.getElem?_set, if_pos rfl, if_pos hlt]
    simp only [member_info.stored, hflag, hxs, if_true, Option.getD_some]
  · refine ⟨xs, ?_⟩
    cases members.get? idx with
    | none => exact hxs
    | some mi =>
      simp only
      rw [List.getD_eq_getElem?_getD, List.getElem?_set, if_neg hidx,
        ← List.getD_eq_getElem?_getD]
      exact hxs

theorem consume_members_loop_keys (consume : Ty → consumer) (members : List member_info)
    (entries : List (Nat × Val)) :
    ∀ (ms : members_state) (st st_next : consume_state) (fuel : Nat),
      delivers_keys consume members st entries st_next →
      repeats_allowed members ms.found_members entries →
      holds_sequences members ms.object →
      consume_members_loop consume members (fuel + entries.length) ms st
        = consume_members_loop consume members fuel
            (entries.foldl (members_state.fill members) ms) st_next := by
  induction entries with
  | nil =>
    intro ms st st_next fuel hd _ _
    simp only [delivers_keys] at hd
    subst hd
    rfl
  | cons e rest ih =>
    intro ms st st_next fuel hd hrep hseq
    obtain ⟨idx, v⟩ := e
    simp only [delivers_keys] at hd
    obtain ⟨token, st1, m, type, st3, h_token, h_end, h_member, h_alts, h_null, h_type,
      h_consume, h_rest⟩ := hd
    simp only [repeats_allowed] at hrep
    have h_rep : ms.found_members.getD idx false = true →
        has_flag m.flags (member_flag.last_of_multiple ||| member_flag.multiple) = true ∧
          has_flag m.flags member_flag.first_of_multiple = false := by
      intro hf
      obtain ⟨m', hm', h1, h2⟩ := hrep.1 hf
      rw [h_member.1] at hm'
      cases hm'
      exact ⟨h1, h2⟩
    rw [List.length_cons, ← Nat.add_assoc,
      consume_members_loop_stores consume members (fuel + rest.length) ms st st1 st3 token idx m
        type v h_token h_end h_member h_alts h_rep h_null h_type
        (holds_sequences_get members ms.object hseq idx m h_member.1) h_consume]
    have hfound : (ms.fill members (idx, v)).found_members = ms.found_members.set idx true := by
      unfold members_state.fill
      rw [h_member.1]
    rw [List.foldl_cons]
    exact ih (ms.fill members (idx, v)) st3 st_next fuel h_rest (by rw [hfound]; exact hrep.2)
      (holds_sequences_fill members ms idx v hseq)

theorem consume_members_loop_delivers (consume : Ty → consumer) (members : List member_info)
    (entries : List (Nat × Val)) (ms : members_state) (st st_end : consume_state) (fuel : Nat)
    (hd : delivers consume members st entries st_end)
    (hrep : repeats_allowed members ms.found_members entries)
    (hseq : holds_sequences members ms.object)
    (hfuel : entries.length < fuel) :
    consume_members_loop consume members fuel ms st
      = (outcome.ok (), entries.foldl (members_state.fill members) ms, st_end) := by
  obtain ⟨st_next, h_keys, h_last⟩ := hd
  obtain ⟨f, rfl⟩ : ∃ f, fuel = (f + 1) + entries.length :=
    ⟨fuel - entries.length - 1, by omega⟩
  rw [consume_members_loop_keys consume members entries ms st st_next (f + 1) h_keys hrep hseq,
    consume_members_loop]
  simp [h_last]

theorem members_state.fill_lengths (members : List member_info) (ms : members_state)
    (e : Nat × Val) :
    (ms.fill members e).object.length = ms.object.length ∧
      (ms.fill members e).found_members.length = ms.found_members.length := by
  unfold members_state.fill
  cases members.get? e.1 <;> simp

theorem members_state.foldl_fill_lengths (members : List member_info) (entries : List (Nat × Val)) :
    ∀ ms : members_state,
      (entries.foldl (members_state.fill members) ms).object.length = ms.object.length ∧
      (entries.foldl (members_state.fill members) ms).found_members.length
        = ms.found_members.length := by
  induction entries with
  | nil => intro ms; exact ⟨rfl, rfl⟩
  | cons e rest ih =>
    intro ms
    rw [List.foldl_cons]
    have h1 := ih (ms.fill members e)
    have h2 := members_state.fill_lengths members ms e
    exact ⟨h1.1.trans h2.1, h1.2.trans h2.2⟩

theorem members_state.fill_other (members : List member_info) (ms : members_state)
    (e : Nat × Val) (i : Nat) (h : e.1 ≠ i) :
    (ms.fill members e).object[i]? = ms.object[i]? ∧
      (ms.fill members e).found_members[i]? = ms.found_members[i]? := by
  unfold members_state.fill
  cases members.get? e.1 with
  | none => exact ⟨rfl, rfl⟩
  | some m => simp [List.getElem?_set, h]

theorem members_state.foldl_fill_other (members : List member_info) (entries : List (Nat × Val))
    (i : Nat) (h : i ∉ entries.map Prod.fst) :
    ∀ ms : members_state,
      (entries.foldl (members_state.fill members) ms).object[i]? = ms.object[i]? ∧
      (entries.foldl (members_state.fill members) ms).found_members[i]? = ms.found_members[i]? := by
  induction entries with
  | nil => intro ms; exact ⟨rfl, rfl⟩
  | cons e rest ih =>
    intro ms
    rw [List.foldl_cons]
    have hne : e.1 ≠ i := fun heq => h (by simp [heq])
    have hrest : i ∉ rest.map Prod.fst := fun hmem => h (by simp at hmem ⊢; exact Or.inr hmem)
    have h1 := ih hrest (ms.fill members e)
    have h2 := members_state.fill_other members ms e i hne
    exact ⟨h1.1.trans h2.1, h1.2.trans h2.2⟩

theorem members_state.fill_found_mono (members : List member_info) (ms : members_state)
    (e : Nat × Val) (i : Nat) (h : ms.found_members[i]? = some true) :
    (ms.fill members e).found_members[i]? = some true := by
  have hlt : i < ms.found_members.length := by
    by_contra hge
    rw [List.getElem?_eq_none (Nat.le_of_not_lt hge)] at h
    cases h
  unfold members_state.fill
  cases members.get? e.1 with
  | none => exact h
  | some m =>
    simp only
    rw [List.getElem?_set]
    by_cases hi : e.1 = i
    · rw [if_pos hi, hi, if_pos hlt]
    · rw [if_neg hi]; exact h

theorem members_state.foldl_fill_found_mono (members : List member_info)
    (entries : List (Nat × Val)) (i : Nat) :
    ∀ ms : members_state, ms.found_members[i]? = some true →
      (entries.foldl (members_state.fill members) ms).found_members[i]? = some true := by
  induction entries with
  | nil => intro ms h; exact h
  | cons e rest ih =>
    intro ms h
    rw [List.foldl_cons]
    exact ih (ms.fill members e) (members_state.fill_found_mono members ms e i h)

theorem members_state.foldl_fill_found (members : List member_info) (entries : List (Nat × Val))
    (i : Nat) (m : member_info) (h_mem : i ∈ entries.map Prod.fst)
    (h_get : members.get? i = some m) :
    ∀ ms : members_state, i < ms.found_members.length →
      (entries.foldl (members_state.fill members) ms).found_members[i]? = some true := by
  induction entries with
  | nil => simp at h_mem
  | cons e rest ih =>
    intro ms hlt
    rw [List.foldl_cons]
    by_cases he : e.1 = i
    · apply members_state.foldl_fill_found_mono
      unfold members_state.fill
      rw [he, h_get]
      simp only
      rw [List.getElem?_set, if_pos rfl, if_pos hlt]
    · have hrest : i ∈ rest.map Prod.fst := by
        rw [List.map_cons] at h_mem
        rcases List.mem_cons.mp h_mem with h | h
        · exact absurd h.symm he
        · exact h
      exact ih hrest (ms.fill members e)
        (by rw [(members_state.fill_lengths members ms e).2]; exact hlt)

theorem members_state.foldl_fill_stored (members : List member_info) (entries : List (Nat × Val))
    (i : Nat) (v : Val) (m : member_info) (h_mem : (i, v) ∈ entries)
    (h_nodup : (entries.map Prod.fst).Nodup) (h_get : members.get? i = some m) :
    ∀ ms : members_state, i < ms.object.length →
      (entries.foldl (members_state.fill members) ms).object[i]?
        = some (m.stored (ms.object.getD i Val.absent) v) := by
  induction entries with
  | nil => simp at h_mem
  | cons e rest ih =>
    intro ms hlt
    rw [List.foldl_cons]
    rw [List.map_cons, List.nodup_cons] at h_nodup
    rcases List.mem_cons.mp h_mem with h | h
    · subst h
      rw [(members_state.foldl_fill_other members rest i h_nodup.1 _).1]
      unfold members_state.fill
      simp only [h_get]
      rw [List.getElem?_set, if_pos rfl, if_pos hlt]
    · have hne : e.1 ≠ i := by
        intro heq
        apply h_nodup.1
        rw [heq]
        exact List.mem_map.mpr ⟨(i, v), h, rfl⟩
      have h1 := ih h h_nodup.2 (ms.fill members e)
        (by rw [(members_state.fill_lengths members ms e).1]; exact hlt)
      rw [h1, List.getD_eq_getElem?_getD, List.getD_eq_getElem?_getD,
        (members_state.fill_other members ms e i hne).1]

theorem found_all_iff (members : List member_info) :
    ∀ found_members : List Bool,
      found_all members found_members = true ↔
        ∀ i, i < members.length →
          (members.get? i).map member_info.required = some true →
            found_members.getD i false = true := by
  induction members with
  | nil => intro f; simp [found_all]
  | cons m rest ih =>
    intro f
    simp only [found_all, Bool.and_eq_true, Bool.or_eq_true, ih]
    constructor
    · rintro ⟨h0, hrest⟩ i hi hreq
      cases i with
      | zero =>
        simp [member_info.required] at hreq
        rcases h0 with h0 | h0
        · cases f <;> simp_all
        · rw [h0] at hreq; cases hreq
      | succ i' =>
        have := hrest i' (by simpa using hi) (by simpa using hreq)
        cases f <;> simp_all
    · intro h
      constructor
      · by_cases hreq : has_flag m.flags (member_flag.maybe_default ||| member_flag.additional_keys) = true
        · exact Or.inr hreq
        · left
          have := h 0 (by simp) (by simp [member_info.required, hreq])
          cases f <;> simp_all
      · intro i hi hreq
        have := h (i + 1) (by simpa using hi) (by simpa using hreq)
        cases f <;> simp_all

theorem fail_ne_ok {α : Type} (st st' : consume_state) (location : doc_location)
    (kind : doc_error_kind) (a : α) : fail st location kind ≠ (outcome.ok a, st') := by
  simp [fail]

theorem quiet_consume_bool : quiet consume_bool := by
  intro first st v st' h
  unfold consume_bool at h
  split at h
  · exact absurd h (fail_ne_ok _ _ _ _ _)
  · cases h; rfl

theorem quiet_consume_integer (is_signed : Bool) (bits : Nat) :
    quiet (consume_integer is_signed bits) := by
  intro first st v st' h
  unfold consume_integer at h
  simp only at h
  repeat' split at h
  all_goals first
    | exact absurd h (fail_ne_ok _ _ _ _ _)
    | (cases h; rfl)
    | (simp at h)

theorem quiet_consume_char : quiet consume_char := by
  intro first st v st' h
  unfold consume_char at h
  simp only at h
  repeat' split at h
  all_goals first
    | exact absurd h (fail_ne_ok _ _ _ _ _)
    | (cases h; rfl)

theorem quiet_consume_ref_string : quiet consume_ref_string := by
  intro first st v st' h
  unfold consume_ref_string at h
  split at h
  · exact absurd h (fail_ne_ok _ _ _ _ _)
  · cases h; rfl

theorem quiet_consume_string : quiet consume_string := by
  intro first st v st' h
  unfold consume_string at h
  split at h
  · exact absurd h (fail_ne_ok _ _ _ _ _)
  · cases h; rfl

theorem quiet_consume_optional (elem : consumer) (h_elem : quiet elem) :
    quiet (consume_optional elem) := by
  intro first st v st' h
  unfold consume_optional at h
  split at h
  · cases h; rfl
  · split at h
    · rename_i heq
      cases h
      exact h_elem _ _ _ _ heq
    · simp [outcome.rethrow_ne_ok] at h

theorem quiet_consume_unique_ptr (elem : consumer) (h_elem : quiet elem) :
    quiet (consume_unique_ptr elem) := by
  intro first st v st' h
  unfold consume_unique_ptr at h
  split at h
  · rename_i heq
    cases h
    exact h_elem _ _ _ _ heq
  · simp [outcome.rethrow_ne_ok] at h

theorem consume_state.next_token_errors_eq (st st1 : consume_state) (o : outcome token_kind)
    (h : st.next_token = (o, st1)) : st1.errors = st.errors := by
  have := congrArg (fun r => r.2.errors) h
  exact this.symm

theorem consume_array_loop_quiet (elem : consumer) (n : Nat) (h_elem : quiet elem) :
    ∀ (fuel : Nat) (array : List Val) (count : Nat) (st st' : consume_state)
      (r : List Val × Nat),
      consume_array_loop elem n fuel array count st = (outcome.ok r, st') →
        st'.errors = st.errors := by
  intro fuel
  induction fuel with
  | zero => intro array count st st' r h; simp [consume_array_loop] at h
  | succ f ih =>
    intro array count st st' r h
    rw [consume_array_loop] at h
    split at h
    · rename_i token st1 htok
      have h1 := consume_state.next_token_errors_eq st st1 _ htok
      split at h
      · cases h; exact h1
      · split at h
        · rename_i v st2 helem
          rw [ih _ _ _ _ _ h, h_elem _ _ _ _ helem, h1]
        · simp [outcome.rethrow_ne_ok] at h
    · simp [outcome.rethrow_ne_ok] at h

theorem quiet_consume_array (elem : consumer) (n fuel : Nat) (h_elem : quiet elem) :
    quiet (consume_array elem n fuel) := by
  intro first st v st' h
  unfold consume_array at h
  split at h
  · exact absurd h (fail_ne_ok _ _ _ _ _)
  · split at h
    · rename_i array count st1 hloop
      split at h
      · exact absurd h (fail_ne_ok _ _ _ _ _)
      · cases h
        exact consume_array_loop_quiet elem n h_elem _ _ _ _ _ _ hloop
    · simp [outcome.rethrow_ne_ok] at h

theorem consume_vector_loop_quiet (elem : consumer) (h_elem : quiet elem) :
    ∀ (fuel : Nat) (vector : List Val) (st st' : consume_state) (r : List Val),
      consume_vector_loop elem fuel vector st = (outcome.ok r, st') →
        st'.errors = st.errors := by
  intro fuel
  induction fuel with
  | zero => intro vector st st' r h; simp [consume_vector_loop] at h
  | succ f ih =>
    intro vector st st' r h
    rw [consume_vector_loop] at h
    split at h
    · rename_i token st1 htok
      have h1 := consume_state.next_token_errors_eq st st1 _ htok
      split at h
      · cases h; exact h1
      · split at h
        · rename_i v st2 helem
          rw [ih _ _ _ _ h, h_elem _ _ _ _ helem, h1]
        · simp [outcome.rethrow_ne_ok] at h
    · simp [outcome.rethrow_ne_ok] at h

theorem quiet_consume_vector (elem : consumer) (fuel : Nat) (h_elem : quiet elem) :
    quiet (consume_vector elem fuel) := by
  intro first st v st' h
  unfold consume_vector at h
  split at h
  · exact absurd h (fail_ne_ok _ _ _ _ _)
  · split at h
    · rename_i vector st1 hloop
      cases h
      exact consume_vector_loop_quiet elem h_elem _ _ _ _ _ hloop
    · simp [outcome.rethrow_ne_ok] at h

theorem consume_map_loop_quiet (elem : consumer) (h_elem : quiet elem) :
    ∀ (fuel : Nat) (map : List (bytes × Val)) (st st' : consume_state)
      (r : List (bytes × Val)),
      consume_map_loop elem fuel map st = (outcome.ok r, st') → st'.errors = st.errors := by
  intro fuel
  induction fuel with
  | zero => intro map st st' r h; simp [consume_map_loop] at h
  | succ f ih =>
    intro map st st' r h
    rw [consume_map_loop] at h
    split at h
    · rename_i token st1 htok
      have h1 := consume_state.next_token_errors_eq st st1 _ htok
      split at h
      · cases h; exact h1
      · simp only at h
        split at h
        · rename_i v st2 helem
          rw [ih _ _ _ _ h, h_elem _ _ _ _ helem, h1]
        · simp [outcome.rethrow_ne_ok] at h
    · simp [outcome.rethrow_ne_ok] at h

theorem quiet_consume_map (elem : consumer) (fuel : Nat) (h_elem : quiet elem) :
    quiet (consume_map elem fuel) := by
  intro first st v st' h
  unfold consume_map at h
  split at h
  · exact absurd h (fail_ne_ok _ _ _ _ _)
  · split at h
    · rename_i map st1 hloop
      cases h
      exact consume_map_loop_quiet elem h_elem _ _ _ _ _ hloop
    · simp [outcome.rethrow_ne_ok] at h

theorem try_consume_discriminator_quiet (consume : Ty → consumer) (h_c : ∀ ty, quiet (consume ty))
    (key : bytes) (idx : Nat) (minfo : member_info) (first : token_kind) (ms ms' : members_state)
    (st st' : consume_state) (r : alt_stat)
    (h : try_consume_discriminator consume key idx minfo first ms st = (outcome.ok r, ms', st')) :
    st'.errors = st.errors := by
  unfold try_consume_discriminator at h
  split at h
  · cases h; rfl
  · split at h
    · cases h; rfl
    · split at h
      · rename_i value st1 hdis
        have h1 := h_c _ _ _ _ _ hdis
        split at h
        · split at h <;> (cases h; exact h1)
        · simp only at h
          split at h
          · split at h
            · rename_i member st2 halt
              cases h
              rw [h_c _ _ _ _ _ halt, h1]
            · simp [outcome.rethrow_ne_ok] at h
          · cases h; exact h1
      · simp [outcome.rethrow_ne_ok] at h

theorem consume_discriminators_quiet (consume : Ty → consumer) (h_c : ∀ ty, quiet (consume ty))
    (key : bytes) (first : token_kind) (members : List member_info) :
    ∀ (idx : Nat) (ms ms' : members_state) (st st' : consume_state) (r : alt_stat),
      consume_discriminators consume key first members idx ms st = (outcome.ok r, ms', st') →
        st'.errors = st.errors := by
  induction members with
  | nil => intro idx ms ms' st st' r h; simp [consume_discriminators] at h; rw [h.2.2]
  | cons m rest ih =>
    intro idx ms ms' st st' r h
    rw [consume_discriminators] at h
    split at h
    · rename_i ms1 st1 hm
      rw [ih _ _ _ _ _ _ h]
      exact try_consume_discriminator_quiet consume h_c _ _ _ _ _ _ _ _ _ hm
    · exact try_consume_discriminator_quiet consume h_c _ _ _ _ _ _ _ _ _ h

theorem try_fill_member_quiet (consume : Ty → consumer) (h_c : ∀ ty, quiet (consume ty))
    (key : bytes) (idx : Nat) (minfo : member_info) (first : token_kind) (ms ms' : members_state)
    (st st' : consume_state) (r : fill_stat)
    (h : try_fill_member consume key idx minfo first ms st = (outcome.ok r, ms', st')) :
    st'.errors = st.errors := by
  unfold try_fill_member at h
  simp only at h
  split at h
  · cases h; rfl
  · split at h
    · cases h; rfl
    · split at h
      · cases h; rfl
      · split at h
        · cases h; rfl
        · split at h
          · unfold consume_discriminated at h
            split at h
            · rename_i member st1 hd
              cases h
              split at hd
              · cases hd
              · split at hd
                · cases hd
                · simp only [Option.some.injEq] at hd
                  exact h_c _ _ _ _ _ hd
            · simp [outcome.rethrow_ne_ok] at h
            · cases h; rfl
          · split at h
            · split at h
              · cases h
              · split at h
                · rename_i v st1 hv
                  split at h
                  · cases h; exact h_c _ _ _ _ _ hv
                  · cases h
                · simp [outcome.rethrow_ne_ok] at h
            · split at h
              · rename_i v st1 hv
                cases h; exact h_c _ _ _ _ _ hv
              · simp [outcome.rethrow_ne_ok] at h

theorem fill_members_quiet (consume : Ty → consumer) (h_c : ∀ ty, quiet (consume ty))
    (key : bytes) (first : token_kind) (members : List member_info) :
    ∀ (idx : Nat) (ms ms' : members_state) (st st' : consume_state) (r : fill_stat),
      fill_members consume key first members idx ms st = (outcome.ok r, ms', st') →
        st'.errors = st.errors := by
  induction members with
  | nil => intro idx ms ms' st st' r h; simp [fill_members] at h; rw [h.2.2]
  | cons m rest ih =>
    intro idx ms ms' st st' r h
    rw [fill_members] at h
    split at h
    · rename_i ms1 st1 hm
      rw [ih _ _ _ _ _ _ h]
      exact try_fill_member_quiet consume h_c _ _ _ _ _ _ _ _ _ hm
    · exact try_fill_member_quiet consume h_c _ _ _ _ _ _ _ _ _ h

theorem consume_additional_quiet (consume : Ty → consumer) (h_c : ∀ ty, quiet (consume ty))
    (members : List member_info) (key : ref_string) (status : fill_stat) (token : token_kind)
    (ms ms' : members_state) (st st' : consume_state) (r : Unit)
    (h : consume_additional consume members key status token ms st = (outcome.ok r, ms', st')) :
    st'.errors = st.errors := by
  unfold consume_additional at h
  split at h
  · split at h
    · cases h
    · split at h
      · rename_i v st1 hv
        split at h
        · cases h; exact h_c _ _ _ _ _ hv
        · cases h
      · simp [outcome.rethrow_ne_ok] at h
  · simp [fail] at h

theorem consume_members_loop_quiet (consume : Ty → consumer) (h_c : ∀ ty, quiet (consume ty))
    (members : List member_info) :
    ∀ (fuel : Nat) (ms ms' : members_state) (st st' : consume_state) (r : Unit),
      consume_members_loop consume members fuel ms st = (outcome.ok r, ms', st') →
        st'.errors = st.errors := by
  intro fuel
  induction fuel with
  | zero => intro ms ms' st st' r h; simp [consume_members_loop] at h
  | succ f ih =>
    intro ms ms' st st' r h
    rw [consume_members_loop] at h
    split at h
    · rename_i token st1 htok
      have h1 := consume_state.next_token_errors_eq st st1 _ htok
      split at h
      · cases h; exact h1
      · simp only at h
        split at h
        · rename_i ms2 st2 hd
          have h2 := consume_discriminators_quiet consume h_c _ _ _ _ _ _ _ _ _ hd
          rw [ih _ _ _ _ _ h, h2]; exact h1
        · rename_i ms2 st2 hd
          have h2 := consume_discriminators_quiet consume h_c _ _ _ _ _ _ _ _ _ hd
          cases h
          rw [h2]; exact h1
        · simp [fail] at h
        · rename_i ms2 st2 hd
          have h2 := consume_discriminators_quiet consume h_c _ _ _ _ _ _ _ _ _ hd
          split at h
          · rename_i ms3 st3 hf
            have h3 := fill_members_quiet consume h_c _ _ _ _ _ _ _ _ _ hf
            rw [ih _ _ _ _ _ h, h3, h2]; exact h1
          · simp [fail] at h
          · rename_i status ms3 st3 hf
            have h3 := fill_members_quiet consume h_c _ _ _ _ _ _ _ _ _ hf
            split at h
            · rename_i u ms4 st4 ha
              have h4 := consume_additional_quiet consume h_c _ _ _ _ _ _ _ _ _ ha
              rw [ih _ _ _ _ _ h, h4, h3, h2]; exact h1
            · simp [outcome.rethrow_ne_ok] at h
          · simp [outcome.rethrow_ne_ok] at h
        · simp [outcome.rethrow_ne_ok] at h
    · simp [outcome.rethrow_ne_ok] at h

theorem quiet_consume_class (consume : Ty → consumer) (h_c : ∀ ty, quiet (consume ty))
    (members : List member_info) (fuel : Nat) : quiet (consume_class consume members fuel) := by
  intro first st v st' h
  unfold consume_class at h
  split at h
  · cases h
  · split at h
    · exact absurd h (fail_ne_ok _ _ _ _ _)
    · unfold consume_members at h
      split at h
      · rename_i u ms1 st1 hloop
        split at h
        · exact absurd h (fail_ne_ok _ _ _ _ _)
        · cases h
          exact consume_members_loop_quiet consume h_c members _ _ _ _ _ _ hloop
      · simp [outcome.rethrow_ne_ok] at h

theorem quiet_consume_validated (inner : consumer) (validator : Val → Option doc_error_kind)
    (h_inner : quiet inner) : quiet (consume_validated inner validator) := by
  intro first st v st' h
  unfold consume_validated at h
  split at h
  · rename_i t st1 heq
    split at h
    · exact absurd h (fail_ne_ok _ _ _ _ _)
    · cases h
      exact h_inner _ _ _ _ heq
  · simp [outcome.rethrow_ne_ok] at h

theorem quiet_consume : ∀ (fuel : Nat) (ty : Ty), quiet (consume fuel ty) := by
  intro fuel
  induction fuel with
  | zero => intro ty first st v st' h; simp [consume] at h
  | succ f ih =>
    intro ty
    cases ty with
    | boolean => exact quiet_consume_bool
    | integer is_signed bits => exact quiet_consume_integer is_signed bits
    | character => exact quiet_consume_char
    | string => exact quiet_consume_string
    | ref_string => exact quiet_consume_ref_string
    | optional t => exact quiet_consume_optional _ (ih t)
    | unique_ptr t => exact quiet_consume_unique_ptr _ (ih t)
    | array t n => exact quiet_consume_array _ n f (ih t)
    | vector t => exact quiet_consume_vector _ f (ih t)
    | map v => exact quiet_consume_map _ f (ih v)
    | record members => exact quiet_consume_class _ ih members f
    | variant => intro first st v st' h; simp [consume] at h
    | validated t validator => exact quiet_consume_validated _ validator (ih t)

theorem repeats_allowed_of_nodup (members : List member_info) (entries : List (Nat × Val)) :
    ∀ found_members : List Bool,
      (∀ i ∈ entries.map Prod.fst, found_members.getD i false = false) →
      (entries.map Prod.fst).Nodup → repeats_allowed members found_members entries := by
  induction entries with
  | nil => intro f _ _; trivial
  | cons e rest ih =>
    intro f hf hnd
    obtain ⟨i, v⟩ := e
    rw [List.map_cons, List.nodup_cons] at hnd
    refine ⟨fun h => ?_, ih _ (fun j hj => ?_) hnd.2⟩
    · rw [hf i (by simp)] at h
      cases h
    · have hne : i ≠ j := fun heq => hnd.1 (heq ▸ hj)
      rw [List.getD_eq_getElem?_getD, List.getElem?_set, if_neg hne, ← List.getD_eq_getElem?_getD]
      exact hf j (by simp only [List.map_cons, List.mem_cons]; exact Or.inr hj)

theorem members_state.init_found (members : List member_info) (i : Nat) :
    (members_state.init members).found_members.getD i false = false := by
  unfold members_state.init
  simp only
  rw [List.getD_eq_getElem?_getD, List.getElem?_map]
  cases members[i]? <;> rfl

theorem delivers_keys_members (consume : Ty → consumer) (members : List member_info)
    (entries : List (Nat × Val)) :
    ∀ st st_next, delivers_keys consume members st entries st_next →
      ∀ i ∈ entries.map Prod.fst, i < members.length ∧
        (members.get? i).map member_info.alts = some none := by
  induction entries with
  | nil => intro st st_next _ i hi; simp at hi
  | cons e rest ih =>
    intro st st_next hd i hi
    obtain ⟨idx, v⟩ := e
    simp only [delivers_keys] at hd
    obtain ⟨token, st1, m, type, st3, _, _, h_member, h_alts, _, _, _, h_rest⟩ := hd
    rw [List.map_cons] at hi
    rcases List.mem_cons.mp hi with h | h
    · subst h
      have := h_member.1
      refine ⟨?_, by rw [this, Option.map_some', h_alts]⟩
      rw [List.get?_eq_getElem?] at this
      exact (List.getElem?_eq_some_iff.mp this).1
    · exact ih st3 st_next h_rest i h

theorem delivers_members (consume : Ty → consumer) (members : List member_info)
    (entries : List (Nat × Val)) (st st_end : consume_state)
    (hd : delivers consume members st entries st_end) :
    ∀ i ∈ entries.map Prod.fst, i < members.length := by
  obtain ⟨st_next, h_keys, _⟩ := hd
  exact fun i hi => (delivers_keys_members consume members entries st st_next h_keys i hi).1

theorem consume_members_run (consume : Ty → consumer) (members : List member_info)
    (entries : List (Nat × Val)) (st st_end : consume_state) (fuel : Nat)
    (h_seq : holds_sequences members (members.map member_info.init))
    (h_delivers : delivers consume members st entries st_end)
    (h_once : (entries.map Prod.fst).Nodup)
    (h_fuel : entries.length < fuel) :
    consume_members_loop consume members fuel (members_state.init members) st
      = (outcome.ok (), entries.foldl (members_state.fill members) (members_state.init members),
          st_end) :=
  consume_members_loop_delivers consume members entries (members_state.init members) st st_end
    fuel h_delivers
    (repeats_allowed_of_nodup members entries _
      (fun i _ => members_state.init_found members i) h_once)
    h_seq h_fuel

/-- C1: a record schema (at least one member; the default of a member flagged
`multiple` is a sequence) read from a JSON object that lists the key of every
required member, no key twice, each key naming a member without alternatives
whose consumer accepts the value: `from_input` returns a record, nothing is
reported, every listed member holds the consumed value and every other member
its default. -/
theorem from_input_required_members_once (members : List member_info) (p : json.parser)
    (fuel : Nat) (st st_end : consume_state) (entries : List (Nat × Val))
    (h_members : members.isEmpty = false)
    (h_seq : holds_sequences members (members.map member_info.init))
    (h_first : consume_state.next_token ⟨p, []⟩ = (outcome.ok token_kind.begin_mapping, st))
    (h_delivers : delivers (consume fuel) members st entries st_end)
    (h_once : (entries.map Prod.fst).Nodup)
    (h_required : ∀ i, i < members.length →
      (members.get? i).map member_info.required = some true → i ∈ entries.map Prod.fst)
    (h_fuel : entries.length < fuel) :
    ∃ fields,
      from_input (fuel + 1) (Ty.record members) p
        = (outcome.ok (some (Val.record fields)), st_end) ∧
      st_end.errors = [] ∧ fields.length = members.length ∧
      (∀ i v m, (i, v) ∈ entries → members.get? i = some m →
        fields.get? i = some (m.stored m.init v)) ∧
      (∀ i m, members.get? i = some m → i ∉ entries.map Prod.fst →
        fields.get? i = some m.init) := by
  have h_loop := consume_members_run (consume fuel) members entries st st_end fuel h_seq
    h_delivers h_once h_fuel
  have h_len := members_state.foldl_fill_lengths members entries (members_state.init members)
  have h_init_obj : (members_state.init members).object.length = members.length := by
    simp [members_state.init]
  have h_init_found : (members_state.init members).found_members.length = members.length := by
    simp [members_state.init]
  have h_st : st.errors = [] := consume_state.next_token_errors_eq _ st _ h_first
  have h_found : found_all members
      (entries.foldl (members_state.fill members) (members_state.init members)).found_members
        = true := by
    rw [found_all_iff]
    intro i hi hreq
    have hmem := h_required i hi hreq
    obtain ⟨m, hm⟩ : ∃ m, members.get? i = some m := by
      cases hg : members.get? i with
      | none => rw [hg] at hreq; cases hreq
      | some m => exact ⟨m, rfl⟩
    have := members_state.foldl_fill_found members entries i m hmem hm
      (members_state.init members) (by rw [h_init_found]; exact hi)
    rw [List.getD_eq_getElem?_getD, this]
    rfl
  refine ⟨(entries.foldl (members_state.fill members) (members_state.init members)).object,
    ?_, ?_, ?_, ?_, ?_⟩
  · simp [from_input, from_input_with_context, h_first, consume, consume_class, h_members,
      consume_members, h_loop, h_found]
  · rw [consume_members_loop_quiet (consume fuel) (quiet_consume fuel) members _ _ _ _ _ _ h_loop]
    exact h_st
  · rw [h_len.1, h_init_obj]
  · intro i v m hmem hm
    have hi : i < members.length :=
      delivers_members (consume fuel) members entries st st_end h_delivers i
        (List.mem_map.mpr ⟨(i, v), hmem, rfl⟩)
    rw [List.get?_eq_getElem?,
      members_state.foldl_fill_stored members entries i v m hmem h_once hm
        (members_state.init members) (by rw [h_init_obj]; exact hi)]
    have : (members_state.init members).object.getD i Val.absent = m.init := by
      rw [List.get?_eq_getElem?] at hm
      simp [members_state.init, List.getD_eq_getElem?_getD, hm]
    rw [this]
  · intro i m hm hnot
    rw [List.get?_eq_getElem?,
      (members_state.foldl_fill_other members entries i hnot (members_state.init members)).1]
    rw [List.get?_eq_getElem?] at hm
    simp [members_state.init, hm]

theorem example1_delivers :
    delivers (consume 3) example1_members example1_begin
      [(0, Val.integer 1), (1, Val.string (ascii "text"))]
      (from_input 4 (Ty.record example1_members) (json.input example1_text)).2 := by
  refine ⟨_, ⟨token_kind.number, _, _, Ty.integer true 32, _, rfl, by decide,
    ⟨rfl, rfl, by decide, by decide⟩, rfl, by decide, rfl, rfl,
    token_kind.string, _, _, Ty.string, _, rfl, by decide,
    ⟨rfl, rfl, by decide, by decide⟩, rfl, by decide, rfl, rfl, rfl⟩, ?_⟩
  rfl

theorem from_input_required_members_once_witness :
    (∃ fields,
      from_input 4 (Ty.record example1_members) (json.input example1_text)
        = (outcome.ok (some (Val.record fields)),
            (from_input 4 (Ty.record example1_members) (json.input example1_text)).2) ∧
      (from_input 4 (Ty.record example1_members) (json.input example1_text)).2.errors = [] ∧
      fields.length = example1_members.length ∧
      (∀ i v m, (i, v) ∈ [(0, Val.integer 1), (1, Val.string (ascii "text"))] →
        example1_members.get? i = some m → fields.get? i = some (m.stored m.init v)) ∧
      (∀ i m, example1_members.get? i = some m →
        i ∉ [(0, Val.integer 1), (1, Val.string (ascii "text"))].map Prod.fst →
        fields.get? i = some m.init)) ∧
    (from_input 4 (Ty.record example1_members) (json.input example1_text)).1
      = outcome.ok (some (Val.record [Val.integer 1, Val.string (ascii "text")])) :=
  ⟨from_input_required_members_once example1_members (json.input example1_text) 3
    example1_begin _ [(0, Val.integer 1), (1, Val.string (ascii "text"))]
    (by decide) (by unfold holds_sequences; decide)
    rfl example1_delivers (by decide) (by decide) (by decide), rfl⟩

theorem found_all_eq_false_iff (members : List member_info) (found_members : List Bool) :
    found_all members found_members = false ↔
      ∃ i, i < members.length ∧ (members.get? i).map member_info.required = some true ∧
        found_members.getD i false = false := by
  rw [← Bool.not_eq_true, found_all_iff]
  constructor
  · intro h
    by_contra hne
    apply h
    intro i hi hreq
    by_contra hf
    exact hne ⟨i, hi, hreq, by simpa using hf⟩
  · rintro ⟨i, hi, hreq, hf⟩ h
    rw [h i hi hreq] at hf
    cases hf

/-- C2: `consume_members` after its loop has reached the end of the mapping:
it reports `key_missing` at the cursor's value anchor and throws if and only if
some member flagged neither `maybe_default` nor `additional_keys` was not
found, and returns the object otherwise; so a document that lists members once
each but leaves out a required one yields `key_missing`. The value anchor of
a cursor that has just answered `end_mapping` is the offset of the closing
brace (byte 125) in the document. -/
theorem consume_members_key_missing (consume : Ty → consumer) (members : List member_info)
    (fuel : Nat) (st : consume_state) :
    (∀ ms st1,
      consume_members_loop consume members fuel (members_state.init members) st
        = (outcome.ok (), ms, st1) →
      (consume_members consume members fuel st
          = (outcome.doc_consume_exception,
              { st1 with errors := st1.errors ++
                [doc_error.mk (st1.input.location relative_loc.value) doc_error_kind.key_missing] })
        ↔ ∃ i, i < members.length ∧ (members.get? i).map member_info.required = some true ∧
            ms.found_members.getD i false = false) ∧
      (consume_members consume members fuel st = (outcome.ok (Val.record ms.object), st1)
        ↔ ¬ ∃ i, i < members.length ∧ (members.get? i).map member_info.required = some true ∧
            ms.found_members.getD i false = false)) ∧
    (∀ entries st_end,
      holds_sequences members (members.map member_info.init) →
      delivers consume members st entries st_end →
      (entries.map Prod.fst).Nodup →
      entries.length < fuel →
      (∃ i, i < members.length ∧ (members.get? i).map member_info.required = some true ∧
        i ∉ entries.map Prod.fst) →
      consume_members consume members fuel st
        = (outcome.doc_consume_exception,
            { st_end with errors := st_end.errors ++
              [doc_error.mk (st_end.input.location relative_loc.value)
                doc_error_kind.key_missing] })) ∧
    (∀ st_next st_end : consume_state,
      st_next.input.source <:+ st_next.input.buf →
      st_next.next_token = (outcome.ok token_kind.end_mapping, st_end) →
      st_end.input.buf = st_next.input.buf ∧
      st_end.input.buf.get? (st_end.input.location relative_loc.value).byte = some 125) := by
  have h_state : ∀ ms st1,
      consume_members_loop consume members fuel (members_state.init members) st
        = (outcome.ok (), ms, st1) →
      (found_all members ms.found_members = false →
        consume_members consume members fuel st
          = (outcome.doc_consume_exception,
              { st1 with errors := st1.errors ++
                [doc_error.mk (st1.input.location relative_loc.value)
                  doc_error_kind.key_missing] })) ∧
      (found_all members ms.found_members = true →
        consume_members consume members fuel st = (outcome.ok (Val.record ms.object), st1)) := by
    intro ms st1 h_loop
    constructor
    · intro hf
      simp [consume_members, h_loop, hf, fail]
    · intro hf
      simp [consume_members, h_loop, hf]
  refine ⟨fun ms st1 h_loop => ⟨⟨fun h => ?_, fun h => ?_⟩, ⟨fun h => ?_, fun h => ?_⟩⟩, ?_, ?_⟩
  rotate_right
  · intro st_next st_end h_suffix h_tok
    unfold consume_state.next_token at h_tok
    simp only [Prod.mk.injEq] at h_tok
    obtain ⟨h_kind, h_st⟩ := h_tok
    subst h_st
    exact json.parser.next_token_end_mapping st_next.input _ h_suffix (Prod.ext h_kind rfl)
  · rw [← found_all_eq_false_iff]
    cases hf : found_all members ms.found_members with
    | false => rfl
    | true =>
      rw [(h_state ms st1 h_loop).2 hf] at h
      cases h
  · exact (h_state ms st1 h_loop).1 ((found_all_eq_false_iff _ _).mpr h)
  · rw [← found_all_eq_false_iff]
    cases hf : found_all members ms.found_members with
    | true => simp
    | false =>
      rw [(h_state ms st1 h_loop).1 hf] at h
      cases h
  · rw [← found_all_eq_false_iff] at h
    exact (h_state ms st1 h_loop).2 (by simpa using h)
  · rintro entries st_end h_seq h_delivers h_once h_fuel ⟨i, hi, hreq, hnot⟩
    have h_loop := consume_members_run consume members entries st st_end fuel h_seq
      h_delivers h_once h_fuel
    apply (h_state _ _ h_loop).1
    rw [found_all_eq_false_iff]
    refine ⟨i, hi, hreq, ?_⟩
    rw [List.getD_eq_getElem?_getD,
      (members_state.foldl_fill_other members entries i hnot (members_state.init members)).2,
      ← List.getD_eq_getElem?_getD]
    exact members_state.init_found members i

theorem consume_state.next_token_errors_of (st st1 : consume_state) (token : token_kind)
    (h : st.next_token = (outcome.ok token, st1)) : st1.errors = st.errors :=
  consume_state.next_token_errors_eq st st1 _ h

theorem add_keys_idx_none_consume_additional (consume : Ty → consumer)
    (members : List member_info) (key : ref_string) (status : fill_stat) (token : token_kind)
    (ms : members_state) (st : consume_state) (h : add_keys_idx members 0 = none) :
    consume_additional consume members key status token ms st
      = (outcome.doc_consume_exception, ms,
          { st with errors := st.errors ++
            [doc_error.mk (st.input.location relative_loc.key)
              (if status = fill_stat.key_unknown then doc_error_kind.key_unknown
               else doc_error_kind.key_duplicate)] }) := by
  simp [consume_additional, h, fail]

theorem try_fill_member_duplicate (consume : Ty → consumer) (key : bytes) (idx : Nat)
    (m : member_info) (first : token_kind) (ms : members_state) (st : consume_state)
    (h_name : matching_name m key = true)
    (h_found : ms.found_members.getD idx false = true)
    (h_first : has_flag m.flags member_flag.first_of_multiple = false)
    (h_multi : has_flag m.flags (member_flag.last_of_multiple ||| member_flag.multiple) = false) :
    try_fill_member consume key idx m first ms st = (outcome.ok fill_stat.key_duplicate, ms, st) := by
  unfold try_fill_member
  simp only [h_name, h_found, h_first, h_multi, Bool.true_eq_false, Bool.false_eq_true,
    and_false, and_self, if_false, if_true]

/-- C3 (amended): in a record without a member flagged `additional_keys`, a key
that names a member already found and flagged none of `first_of_multiple`,
`last_of_multiple`, `multiple` makes the member loop report `key_duplicate` at
the key anchor, once, and throw. -/
theorem consume_members_loop_key_duplicate (consume : Ty → consumer)
    (members : List member_info) (fuel : Nat) (ms : members_state) (st st1 : consume_state)
    (token : token_kind) (idx : Nat) (m : member_info)
    (h_token : st.next_token = (outcome.ok token, st1))
    (h_end : token ≠ token_kind.end_mapping)
    (h_member : names_member members st1.input.mapping_key.data idx m)
    (h_found : ms.found_members.getD idx false = true)
    (h_first : has_flag m.flags member_flag.first_of_multiple = false)
    (h_multi : has_flag m.flags (member_flag.last_of_multiple ||| member_flag.multiple) = false)
    (h_add : add_keys_idx members 0 = none) :
    consume_members_loop consume members (fuel + 1) ms st
      = (outcome.doc_consume_exception, ms,
          { input := st1.input.mapping_key_moved,
            errors := st.errors ++
              [doc_error.mk (st1.input.location relative_loc.key) doc_error_kind.key_duplicate] }) := by
  obtain ⟨h_get, h_name, h_before, h_discr⟩ := h_member
  have h_dup := try_fill_member_duplicate consume st1.input.mapping_key.data idx m token ms
    { st1 with input := st1.input.mapping_key_moved } h_name h_found h_first h_multi
  have h_fm := fill_members_first_match consume st1.input.mapping_key.data token members idx m
    h_get h_before 0 ms { st1 with input := st1.input.mapping_key_moved }
    (by rw [Nat.zero_add, h_dup]; simp)
  rw [Nat.zero_add, h_dup] at h_fm
  have h_err := consume_state.next_token_errors_of st st1 token h_token
  rw [consume_members_loop]
  simp only [h_token, h_end, if_false,
    consume_discriminators_skipped consume st1.input.mapping_key.data token members h_discr, h_fm,
    add_keys_idx_none_consume_additional consume members _ _ _ _ _ h_add]
  simp [outcome.rethrow, h_err, json.parser.location, json.parser.mapping_key_moved,
    json.parser.location_at, json.parser.pos]

theorem try_fill_member_null (consume : Ty → consumer) (key : bytes) (idx : Nat)
    (m : member_info) (ms : members_state) (st : consume_state)
    (h_name : matching_name m key = true)
    (h_found : ms.found_members.getD idx false = false)
    (h_default : has_flag m.flags member_flag.maybe_default = true) :
    try_fill_member consume key idx m token_kind.null ms st
      = (outcome.ok fill_stat.success, ms, st) := by
  unfold try_fill_member
  simp only [h_name, h_found, h_default, Bool.true_eq_false, Bool.false_eq_true,
    false_and, and_self, if_false, if_true]

/-- C6 (amended): for a member flagged `maybe_default` that has not been found,
a key whose value is null is passed over: the loop goes on to the next key with
the object and the found marks as they were, so the member is still not marked
present. -/
theorem consume_members_loop_null_passed_over (consume : Ty → consumer)
    (members : List member_info) (fuel : Nat) (ms : members_state) (st st1 : consume_state)
    (idx : Nat) (m : member_info)
    (h_token : st.next_token = (outcome.ok token_kind.null, st1))
    (h_member : names_member members st1.input.mapping_key.data idx m)
    (h_found : ms.found_members.getD idx false = false)
    (h_default : has_flag m.flags member_flag.maybe_default = true) :
    consume_members_loop consume members (fuel + 1) ms st
      = consume_members_loop consume members fuel ms
          { st1 with input := st1.input.mapping_key_moved } := by
  obtain ⟨h_get, h_name, h_before, h_discr⟩ := h_member
  have h_null := try_fill_member_null consume st1.input.mapping_key.data idx m ms
    { st1 with input := st1.input.mapping_key_moved } h_name h_found h_default
  have h_fm := fill_members_first_match consume st1.input.mapping_key.data token_kind.null
    members idx m h_get h_before 0 ms { st1 with input := st1.input.mapping_key_moved }
    (by rw [Nat.zero_add, h_null]; simp)
  rw [Nat.zero_add, h_null] at h_fm
  rw [consume_members_loop]
  have h_end : token_kind.null ≠ token_kind.end_mapping := by decide
  simp only [h_token, h_end, if_false,
    consume_discriminators_skipped consume st1.input.mapping_key.data _ members h_discr, h_fm]

/-- C8: a key that is no discriminator key and that the name test of no member
accepts. With a member flagged `additional_keys` (the first such, a map with
element type `value_type`) the value is consumed as `value_type`; when that
returns a value it is emplaced under the key, nothing is reported and the loop
goes on. Without such a member exactly one `key_unknown` is reported at the
key anchor and the loop throws. -/
theorem consume_members_loop_unknown_key (consume : Ty → consumer)
    (members : List member_info) (fuel : Nat) (ms : members_state) (st st1 : consume_state)
    (token : token_kind)
    (h_token : st.next_token = (outcome.ok token, st1))
    (h_end : token ≠ token_kind.end_mapping)
    (h_discr : ∀ m ∈ members, m.alts.map member_alts.key ≠ some st1.input.mapping_key.data)
    (h_unknown : ∀ m ∈ members, matching_name m st1.input.mapping_key.data = false) :
    (add_keys_idx members 0 = none →
      consume_members_loop consume members (fuel + 1) ms st
        = (outcome.doc_consume_exception, ms,
            { input := st1.input.mapping_key_moved,
              errors := st.errors ++
                [doc_error.mk (st1.input.location relative_loc.key) doc_error_kind.key_unknown] })) ∧
    (∀ add_idx minfo value_type map_member v st3,
      add_keys_idx members 0 = some add_idx →
      members.get? add_idx = some minfo →
      minfo.type = Ty.map value_type →
      ms.object.getD add_idx Val.absent = Val.map map_member →
      consume value_type token { st1 with input := st1.input.mapping_key_moved }
        = (outcome.ok v, st3) →
      consume_members_loop consume members (fuel + 1) ms st
        = consume_members_loop consume members fuel
            { ms with
              object := ms.object.set add_idx
                (Val.map (map_emplace map_member st1.input.mapping_key.data v)) } st3) := by
  have h_fm := fill_members_no_match consume st1.input.mapping_key.data token members h_unknown 0
    ms { st1 with input := st1.input.mapping_key_moved }
  have h_err := consume_state.next_token_errors_of st st1 token h_token
  constructor
  · intro h_add
    rw [consume_members_loop]
    simp only [h_token, h_end, if_false,
      consume_discriminators_skipped consume st1.input.mapping_key.data token members h_discr,
      h_fm, add_keys_idx_none_consume_additional consume members _ _ _ _ _ h_add]
    simp [outcome.rethrow, h_err, json.parser.location, json.parser.mapping_key_moved,
      json.parser.location_at, json.parser.pos]
  · intro add_idx minfo value_type map_member v st3 h_add h_get h_type h_map h_consume
    have h_ca : consume_additional consume members st1.input.mapping_key
        fill_stat.key_unknown token ms { st1 with input := st1.input.mapping_key_moved }
        = (outcome.ok (),
            { ms with
              object := ms.object.set add_idx
                (Val.map (map_emplace map_member st1.input.mapping_key.data v)) }, st3) := by
      unfold consume_additional
      simp only [h_add, h_get, Option.map_some', h_type, h_map]
      simp only [Option.bind, Ty.mapped_type, h_consume]
    rw [consume_members_loop]
    simp only [h_token, h_end, if_false,
      consume_discriminators_skipped consume st1.input.mapping_key.data token members h_discr,
      h_fm]
    simp only [json.parser.mapping_key] at h_ca ⊢
    rw [h_ca]

theorem members_state.fill_discr_info (members : List member_info) (ms : members_state)
    (e : Nat × Val) : (ms.fill members e).discr_info = ms.discr_info := by
  unfold members_state.fill
  cases members.get? e.1 <;> rfl

theorem members_state.foldl_fill_discr_info (members : List member_info)
    (entries : List (Nat × Val)) :
    ∀ ms : members_state,
      (entries.foldl (members_state.fill members) ms).discr_info = ms.discr_info := by
  induction entries with
  | nil => intro ms; rfl
  | cons e rest ih =>
    intro ms
    rw [List.foldl_cons, ih, members_state.fill_discr_info]

theorem try_fill_member_unspecified (consume : Ty → consumer) (key : bytes) (idx : Nat)
    (m : member_info) (a : member_alts) (first : token_kind) (ms : members_state)
    (st : consume_state)
    (h_name : matching_name m key = true)
    (h_found : ms.found_members.getD idx false = false)
    (h_null : ¬ (has_flag m.flags member_flag.maybe_default = true ∧ first = token_kind.null))
    (h_alts : m.alts = some a)
    (h_discr : ms.discr_info.getD idx none = none) :
    try_fill_member consume key idx m first ms st
      = (outcome.ok fill_stat.discriminator_missing,
          { ms with found_members := ms.found_members.set idx true }, st) := by
  unfold try_fill_member
  simp only [h_name, h_found, h_null, h_alts, h_discr, consume_discriminated,
    Bool.true_eq_false, Bool.false_eq_true, false_and, if_false]

theorem consume_members_loop_unspecified (consume : Ty → consumer)
    (members : List member_info) (fuel : Nat) (ms : members_state) (st st1 : consume_state)
    (token : token_kind) (idx : Nat) (m : member_info) (a : member_alts)
    (h_token : st.next_token = (outcome.ok token, st1))
    (h_end : token ≠ token_kind.end_mapping)
    (h_member : names_member members st1.input.mapping_key.data idx m)
    (h_alts : m.alts = some a)
    (h_found : ms.found_members.getD idx false = false)
    (h_null : ¬ (has_flag m.flags member_flag.maybe_default = true ∧ token = token_kind.null))
    (h_discr : ms.discr_info.getD idx none = none) :
    consume_members_loop consume members (fuel + 1) ms st
      = (outcome.doc_consume_exception,
          { ms with found_members := ms.found_members.set idx true },
          { input := st1.input.mapping_key_moved,
            errors := st.errors ++
              [doc_error.mk (st1.input.location relative_loc.key)
                doc_error_kind.type_unspecified] }) := by
  obtain ⟨h_get, h_name, h_before, h_nodiscr⟩ := h_member
  have h_un := try_fill_member_unspecified consume st1.input.mapping_key.data idx m a token ms
    { st1 with input := st1.input.mapping_key_moved } h_name h_found h_null h_alts h_discr
  have h_fm := fill_members_first_match consume st1.input.mapping_key.data token members idx m
    h_get h_before 0 ms { st1 with input := st1.input.mapping_key_moved }
    (by rw [Nat.zero_add, h_un]; simp)
  rw [Nat.zero_add, h_un] at h_fm
  have h_err := consume_state.next_token_errors_of st st1 token h_token
  rw [consume_members_loop]
  simp only [h_token, h_end, if_false,
    consume_discriminators_skipped consume st1.input.mapping_key.data token members h_nodiscr,
    h_fm]
  simp [fail, h_err, json.parser.location, json.parser.mapping_key_moved,
    json.parser.location_at, json.parser.pos]

/-- The own key of a member with alternatives before its discriminator key,
with a value that is no null passed over (the first part of C10): in a mapping
whose keys so far named members without alternatives
(so none was a discriminator key), a key that names a member with an `alts`
attribute, with a value that is no null passed over under `maybe_default`,
makes `consume_members` report `type_unspecified` at the key anchor, once, and
throw. -/
theorem consume_members_type_unspecified (consume : Ty → consumer)
    (members : List member_info) (fuel : Nat) (st0 st st1 : consume_state)
    (entries : List (Nat × Val)) (token : token_kind) (idx : Nat) (m : member_info)
    (a : member_alts)
    (h_seq : holds_sequences members (members.map member_info.init))
    (h_keys : delivers_keys consume members st0 entries st)
    (h_rep : repeats_allowed members (members_state.init members).found_members entries)
    (h_token : st.next_token = (outcome.ok token, st1))
    (h_end : token ≠ token_kind.end_mapping)
    (h_member : names_member members st1.input.mapping_key.data idx m)
    (h_alts : m.alts = some a)
    (h_null : ¬ (has_flag m.flags member_flag.maybe_default = true ∧ token = token_kind.null))
    (h_fuel : entries.length < fuel) :
    consume_members consume members fuel st0
      = (outcome.doc_consume_exception,
          { input := st1.input.mapping_key_moved,
            errors := st.errors ++
              [doc_error.mk (st1.input.location relative_loc.key)
                doc_error_kind.type_unspecified] }) := by
  obtain ⟨f, rfl⟩ : ∃ f, fuel = (f + 1) + entries.length :=
    ⟨fuel - entries.length - 1, by omega⟩
  have h_not : idx ∉ entries.map Prod.fst := by
    intro hmem
    have := (delivers_keys_members consume members entries st0 st h_keys idx hmem).2
    rw [h_member.1, Option.map_some', h_alts] at this
    cases this
  have h_found : (entries.foldl (members_state.fill members)
      (members_state.init members)).found_members.getD idx false = false := by
    rw [List.getD_eq_getElem?_getD,
      (members_state.foldl_fill_other members entries idx h_not _).2,
      ← List.getD_eq_getElem?_getD]
    exact members_state.init_found members idx
  have h_discr : (entries.foldl (members_state.fill members)
      (members_state.init members)).discr_info.getD idx none = none := by
    rw [members_state.foldl_fill_discr_info, List.getD_eq_getElem?_getD]
    simp only [members_state.init, List.getElem?_map]
    cases members[idx]? <;> rfl
  unfold consume_members
  rw [consume_members_loop_keys consume members entries (members_state.init members) st0 st
      (f + 1) h_keys h_rep h_seq,
    consume_members_loop_unspecified consume members f _ st st1 token idx m a h_token h_end
      h_member h_alts h_found h_null h_discr]
  rfl

theorem find_alternative_first (value : Val) (alternatives : List (Val × Ty)) :
    ∀ (alt_idx : Nat) (alter_type : Ty) (base : Nat),
      first_alternative value alternatives alt_idx alter_type →
      find_alternative value alternatives base = some (base + alt_idx, alter_type) := by
  induction alternatives with
  | nil => intro j ty base h; simp [first_alternative] at h
  | cons alt rest ih =>
    intro j ty base h
    obtain ⟨d, t⟩ := alt
    obtain ⟨h_ty, h_eq, h_before⟩ := h
    cases j with
    | zero =>
      simp at h_ty h_eq
      simp [find_alternative, h_eq, h_ty]
    | succ j' =>
      have h0 : discr_eq value d = false := by
        have := h_before 0 (Nat.succ_pos _)
        simpa using this
      simp only [find_alternative, h0, Bool.false_eq_true, if_false]
      rw [ih j' ty (base + 1) ⟨by simpa using h_ty, by simpa using h_eq,
        fun i hi => by simpa using h_before (i + 1) (Nat.succ_lt_succ hi)⟩]
      rw [Nat.add_assoc, Nat.add_comm 1 j']

theorem try_consume_discriminator_other_key (consume : Ty → consumer) (key : bytes) (idx : Nat)
    (m : member_info) (first : token_kind) (ms : members_state) (st : consume_state)
    (h : m.alts.map member_alts.key ≠ some key) :
    try_consume_discriminator consume key idx m first ms st
      = (outcome.ok alt_stat.skipped, ms, st) := by
  unfold try_consume_discriminator
  cases ha : m.alts with
  | none => rfl
  | some a =>
    have hk : key ≠ a.key := fun e => h (by rw [ha, e]; rfl)
    simp [hk]

theorem consume_discriminators_first_match (consume : Ty → consumer) (key : bytes)
    (first : token_kind) (members : List member_info) (k : Nat) (m : member_info)
    (h_get : members.get? k = some m)
    (h_before : ∀ j, j < k →
      ((members.get? j).bind member_info.alts).map member_alts.key ≠ some key)
    (base : Nat) (ms : members_state) (st : consume_state)
    (h_ne : (try_consume_discriminator consume key (base + k) m first ms st).1
      ≠ outcome.ok alt_stat.skipped) :
    consume_discriminators consume key first members base ms st
      = try_consume_discriminator consume key (base + k) m first ms st := by
  induction members generalizing k base with
  | nil => simp at h_get
  | cons a rest ih =>
    cases k with
    | zero =>
      simp at h_get
      subst h_get
      simp only [consume_discriminators]
      simp only [Nat.add_zero] at h_ne ⊢
      split
      · rename_i heq
        rw [heq] at h_ne
        exact absurd rfl h_ne
      · rfl
    | succ k' =>
      have ha : a.alts.map member_alts.key ≠ some key := by
        have := h_before 0 (Nat.succ_pos _)
        simpa [Option.map, Option.bind] using this
      simp only [consume_discriminators,
        try_consume_discriminator_other_key consume key base a first ms st ha]
      have := ih k' (by simpa using h_get)
        (fun j hj => by simpa using h_before (j + 1) (Nat.succ_lt_succ hj))
        (base + 1) (by rwa [Nat.add_assoc, Nat.add_comm 1 k'])
      rw [this, Nat.add_assoc, Nat.add_comm 1 k']

theorem consume_members_loop_records (consume : Ty → consumer) (members : List member_info)
    (fuel : Nat) (ms : members_state) (st st1 st3 : consume_state) (token : token_kind)
    (idx : Nat) (m : member_info) (a : member_alts) (value : Val) (alt_idx : Nat)
    (alter_type : Ty)
    (h_token : st.next_token = (outcome.ok token, st1))
    (h_end : token ≠ token_kind.end_mapping)
    (h_key : names_discriminator members st1.input.mapping_key.data idx m a)
    (h_mode : a.mode = alt_mode.nest)
    (h_value : consume a.parse_type token { st1 with input := st1.input.mapping_key_moved }
      = (outcome.ok value, st3))
    (h_first : first_alternative value a.alternatives alt_idx alter_type) :
    consume_members_loop consume members (fuel + 1) ms st
      = consume_members_loop consume members fuel
          { ms with discr_info := ms.discr_info.set idx (some alt_idx) } st3 := by
  obtain ⟨h_get, h_alts, h_akey, h_before⟩ := h_key
  have h_find := find_alternative_first value a.alternatives alt_idx alter_type 0 h_first
  rw [Nat.zero_add] at h_find
  have h_try : try_consume_discriminator consume st1.input.mapping_key.data idx m token ms
      { st1 with input := st1.input.mapping_key_moved }
      = (outcome.ok alt_stat.success,
          { ms with discr_info := ms.discr_info.set idx (some alt_idx) }, st3) := by
    unfold try_consume_discriminator
    simp only [h_alts, h_akey, ne_eq, not_true_eq_false, if_false, h_value, h_mode, h_find]
  have h_cd := consume_discriminators_first_match consume st1.input.mapping_key.data token
    members idx m h_get h_before 0 ms { st1 with input := st1.input.mapping_key_moved }
    (by rw [Nat.zero_add, h_try]; simp)
  rw [Nat.zero_add, h_try] at h_cd
  rw [consume_members_loop]
  simp only [h_token, h_end, if_false, h_cd]

theorem try_fill_member_alternative (consume : Ty → consumer) (key : bytes) (idx : Nat)
    (m : member_info) (a : member_alts) (first : token_kind) (ms : members_state)
    (st st3 : consume_state) (alt_idx : Nat) (alter_type : Ty) (v : Val)
    (h_name : matching_name m key = true)
    (h_found : ms.found_members.getD idx false = false)
    (h_null : ¬ (has_flag m.flags member_flag.maybe_default = true ∧ first = token_kind.null))
    (h_alts : m.alts = some a)
    (h_discr : ms.discr_info.getD idx none = some alt_idx)
    (h_alt : (a.alternatives.get? alt_idx).map Prod.snd = some alter_type)
    (h_consume : consume alter_type first st = (outcome.ok v, st3)) :
    try_fill_member consume key idx m first ms st
      = (outcome.ok fill_stat.success,
          { ms with object := ms.object.set idx v,
                    found_members := ms.found_members.set idx true }, st3) := by
  obtain ⟨alt, h_get, h_snd⟩ : ∃ alt, a.alternatives.get? alt_idx = some alt ∧ alt.2 = alter_type := by
    cases hg : a.alternatives.get? alt_idx with
    | none => rw [hg] at h_alt; cases h_alt
    | some alt => rw [hg] at h_alt; exact ⟨alt, rfl, by simpa using h_alt⟩
  obtain ⟨d, t⟩ := alt
  simp only at h_snd
  subst h_snd
  unfold try_fill_member
  simp only [h_name, h_found, h_null, h_alts, h_discr, consume_discriminated, h_get, h_consume,
    Bool.true_eq_false, Bool.false_eq_true, false_and, if_false]

theorem consume_members_loop_alternative (consume : Ty → consumer)
    (members : List member_info) (fuel : Nat) (ms : members_state) (st st1 st3 : consume_state)
    (token : token_kind) (idx : Nat) (m : member_info) (a : member_alts) (alt_idx : Nat)
    (alter_type : Ty) (v : Val)
    (h_token : st.next_token = (outcome.ok token, st1))
    (h_end : token ≠ token_kind.end_mapping)
    (h_member : names_member members st1.input.mapping_key.data idx m)
    (h_alts : m.alts = some a)
    (h_found : ms.found_members.getD idx false = false)
    (h_null : ¬ (has_flag m.flags member_flag.maybe_default = true ∧ token = token_kind.null))
    (h_discr : ms.discr_info.getD idx none = some alt_idx)
    (h_alt : (a.alternatives.get? alt_idx).map Prod.snd = some alter_type)
    (h_consume : consume alter_type token { st1 with input := st1.input.mapping_key_moved }
      = (outcome.ok v, st3)) :
    consume_members_loop consume members (fuel + 1) ms st
      = consume_members_loop consume members fuel
          { ms with object := ms.object.set idx v,
                    found_members := ms.found_members.set idx true } st3 := by
  obtain ⟨h_get, h_name, h_before, h_nodiscr⟩ := h_member
  have h_try := try_fill_member_alternative consume st1.input.mapping_key.data idx m a token ms
    { st1 with input := st1.input.mapping_key_moved } st3 alt_idx alter_type v h_name h_found
    h_null h_alts h_discr h_alt h_consume
  have h_fm := fill_members_first_match consume st1.input.mapping_key.data token members idx m
    h_get h_before 0 ms { st1 with input := st1.input.mapping_key_moved }
    (by rw [Nat.zero_add, h_try]; simp)
  rw [Nat.zero_add, h_try] at h_fm
  rw [consume_members_loop]
  simp only [h_token, h_end, if_false,
    consume_discriminators_skipped consume st1.input.mapping_key.data token members h_nodiscr,
    h_fm]

theorem members_state.foldl_fill_with_discr_info (members : List member_info)
    (entries : List (Nat × Val)) :
    ∀ (ms0 : members_state) (d : List (Option Nat)),
      entries.foldl (members_state.fill members) { ms0 with discr_info := d }
        = { entries.foldl (members_state.fill members) ms0 with discr_info := d } := by
  induction entries with
  | nil => intro ms0 d; rfl
  | cons e rest ih =>
    intro ms0 d
    rw [List.foldl_cons, List.foldl_cons]
    have : members_state.fill members { ms0 with discr_info := d } e
        = { members_state.fill members ms0 e with discr_info := d } := by
      unfold members_state.fill
      cases members.get? e.1 <;> rfl
    rw [this, ih]

/-- Discriminator key and own name with a value that is no null passed over
(part of C9): a member with an `alts` attribute in mode `nest` that has not
been found. When its discriminator key comes with a value that `parse_type` accepts
and `alt_idx` is the first alternative whose discriminative equals that value,
`alt_idx` is recorded for the member. When, after any keys that name members
without alternatives, the member's own name comes with a value (no null passed
over under `maybe_default`) that the type of alternative `alt_idx` accepts,
that value is stored in the field and the member is marked found; the loop goes
on behind it. -/
theorem consume_members_loop_nest_alternative (consume : Ty → consumer)
    (members : List member_info) (fuel : Nat) (ms : members_state)
    (st st1 st3 sta sta1 sta3 : consume_state) (token token2 : token_kind) (idx : Nat)
    (m : member_info) (a : member_alts) (value : Val) (alt_idx : Nat) (alter_type : Ty)
    (entries : List (Nat × Val)) (v : Val)
    (h_token : st.next_token = (outcome.ok token, st1))
    (h_end : token ≠ token_kind.end_mapping)
    (h_key : names_discriminator members st1.input.mapping_key.data idx m a)
    (h_mode : a.mode = alt_mode.nest)
    (h_value : consume a.parse_type token { st1 with input := st1.input.mapping_key_moved }
      = (outcome.ok value, st3))
    (h_first : first_alternative value a.alternatives alt_idx alter_type)
    (h_len : idx < ms.discr_info.length)
    (h_found : ms.found_members.getD idx false = false)
    (h_seq : holds_sequences members ms.object)
    (h_keys : delivers_keys consume members st3 entries sta)
    (h_rep : repeats_allowed members ms.found_members entries)
    (h_token2 : sta.next_token = (outcome.ok token2, sta1))
    (h_end2 : token2 ≠ token_kind.end_mapping)
    (h_member : names_member members sta1.input.mapping_key.data idx m)
    (h_null : ¬ (has_flag m.flags member_flag.maybe_default = true ∧ token2 = token_kind.null))
    (h_consume : consume alter_type token2 { sta1 with input := sta1.input.mapping_key_moved }
      = (outcome.ok v, sta3)) :
    consume_members_loop consume members (fuel + 1 + entries.length + 1) ms st
      = consume_members_loop consume members (fuel + 1 + entries.length)
          { ms with discr_info := ms.discr_info.set idx (some alt_idx) } st3 ∧
    consume_members_loop consume members (fuel + 1 + entries.length + 1) ms st
      = consume_members_loop consume members fuel
          { object := (entries.foldl (members_state.fill members) ms).object.set idx v,
            found_members :=
              (entries.foldl (members_state.fill members) ms).found_members.set idx true,
            discr_info := ms.discr_info.set idx (some alt_idx) } sta3 := by
  have h1 := consume_members_loop_records consume members (fuel + 1 + entries.length) ms st st1
    st3 token idx m a value alt_idx alter_type h_token h_end h_key h_mode h_value h_first
  refine ⟨h1, ?_⟩
  have h_not : idx ∉ entries.map Prod.fst := by
    intro hmem
    have := (delivers_keys_members consume members entries st3 sta h_keys idx hmem).2
    rw [h_member.1, Option.map_some', h_key.2.1] at this
    cases this
  have h_found2 : (entries.foldl (members_state.fill members) ms).found_members.getD idx false
      = false := by
    rw [List.getD_eq_getElem?_getD,
      (members_state.foldl_fill_other members entries idx h_not ms).2,
      ← List.getD_eq_getElem?_getD]
    exact h_found
  have h_discr : (ms.discr_info.set idx (some alt_idx)).getD idx none = some alt_idx := by
    rw [List.getD_eq_getElem?_getD, List.getElem?_set, if_pos rfl, if_pos h_len]
    rfl
  rw [h1, consume_members_loop_keys consume members entries
      { ms with discr_info := ms.discr_info.set idx (some alt_idx) } st3 sta (fuel + 1) h_keys
      h_rep h_seq,
    members_state.foldl_fill_with_discr_info]
  exact consume_members_loop_alternative consume members fuel
    { entries.foldl (members_state.fill members) ms with
      discr_info := ms.discr_info.set idx (some alt_idx) }
    sta sta1 sta3 token2 idx m a alt_idx
    alter_type v h_token2 h_end2 h_member h_key.2.1 h_found2 h_null h_discr h_first.1 h_consume

theorem members_state.foldl_fill_appended (members : List member_info) (idx : Nat)
    (m : member_info) (h_get : members.get? idx = some m)
    (h_multi : has_flag m.flags member_flag.multiple = true) (entries : List (Nat × Val)) :
    ∀ (ms : members_state) (ys : List Val), ms.object[idx]? = some (Val.seq ys) →
      (entries.foldl (members_state.fill members) ms).object[idx]?
        = some (Val.seq (ys ++ (entries.filter (fun e => decide (e.1 = idx))).map Prod.snd)) := by
  induction entries with
  | nil => intro ms ys h; simpa using h
  | cons e rest ih =>
    intro ms ys h
    rw [List.foldl_cons]
    have hlt : idx < ms.object.length := by
      by_contra hge
      rw [List.getElem?_eq_none (Nat.le_of_not_lt hge)] at h
      cases h
    by_cases he : e.1 = idx
    · have h1 : (ms.fill members e).object[idx]? = some (Val.seq (ys ++ [e.2])) := by
        unfold members_state.fill
        rw [he, h_get]
        simp only
        rw [List.getElem?_set, if_pos rfl, if_pos hlt, List.getD_eq_getElem?_getD, h]
        simp only [member_info.stored, h_multi, if_true, Option.getD_some]
      rw [ih _ _ h1, List.filter_cons_of_pos (by simpa using he), List.map_cons,
        List.append_assoc]
      rfl
    · have h1 : (ms.fill members e).object[idx]? = some (Val.seq ys) := by
        rw [(members_state.fill_other members ms e idx he).1]
        exact h
      rw [ih _ _ h1, List.filter_cons_of_neg (by simpa using he)]

/-- The occurrences of a member flagged `multiple` in a mapping without a null
passed over (the first part of C5): a member flagged `multiple` whose default
is the sequence `xs`, in a
mapping whose keys name members without alternatives (a key may come again only
for a member flagged `last_of_multiple` or `multiple` and not
`first_of_multiple`; no value is a null passed over under `maybe_default`) and
list every required member: each occurrence of the member's key has one value
of the element type consumed, and the record `consume_members` returns holds
`xs` followed by these values in source order. -/
theorem consume_members_multiple_in_order (consume : Ty → consumer)
    (members : List member_info) (fuel : Nat) (st st_end : consume_state)
    (entries : List (Nat × Val)) (idx : Nat) (m : member_info) (xs : List Val)
    (h_get : members.get? idx = some m)
    (h_multi : has_flag m.flags member_flag.multiple = true)
    (h_init : m.init = Val.seq xs)
    (h_seq : holds_sequences members (members.map member_info.init))
    (h_delivers : delivers consume members st entries st_end)
    (h_rep : repeats_allowed members (members_state.init members).found_members entries)
    (h_required : ∀ i, i < members.length →
      (members.get? i).map member_info.required = some true → i ∈ entries.map Prod.fst)
    (h_fuel : entries.length < fuel) :
    ∃ fields,
      consume_members consume members fuel st = (outcome.ok (Val.record fields), st_end) ∧
      fields.get? idx
        = some (Val.seq (xs ++ (entries.filter (fun e => decide (e.1 = idx))).map Prod.snd)) := by
  have h_loop := consume_members_loop_delivers consume members entries
    (members_state.init members) st st_end fuel h_delivers h_rep h_seq h_fuel
  have h_init_found : (members_state.init members).found_members.length = members.length := by
    simp [members_state.init]
  have h_found : found_all members
      (entries.foldl (members_state.fill members) (members_state.init members)).found_members
        = true := by
    rw [found_all_iff]
    intro i hi hreq
    have hmem := h_required i hi hreq
    obtain ⟨mi, hm⟩ : ∃ mi, members.get? i = some mi := by
      cases hg : members.get? i with
      | none => rw [hg] at hreq; cases hreq
      | some mi => exact ⟨mi, rfl⟩
    have := members_state.foldl_fill_found members entries i mi hmem hm
      (members_state.init members) (by rw [h_init_found]; exact hi)
    rw [List.getD_eq_getElem?_getD, this]
    rfl
  refine ⟨(entries.foldl (members_state.fill members) (members_state.init members)).object,
    ?_, ?_⟩
  · simp [consume_members, h_loop, h_found]
  · rw [List.get?_eq_getElem?]
    apply members_state.foldl_fill_appended members idx m h_get h_multi
    rw [List.get?_eq_getElem?] at h_get
    simp [members_state.init, h_get, h_init]

theorem matching_name_iff (minfo : member_info) (key : bytes) :
    matching_name minfo key = true ↔
      (minfo.alias_name = some key ∨ minfo.short_name = some key ∨
        (minfo.short_name = none ∧ minfo.name = key)) := by
  unfold matching_name
  cases minfo.alias_name <;> cases minfo.short_name <;>
    simp only [Bool.or_eq_true, decide_eq_true_eq, Bool.false_eq_true, false_or,
      Option.some.injEq, reduceCtorEq, false_and, or_false, true_and, eq_comm (a := key)]

theorem try_fill_member_known (consume : Ty → consumer) (key : bytes) (idx : Nat)
    (minfo : member_info) (first : token_kind) (ms : members_state) (st : consume_state)
    (h : matching_name minfo key = true) :
    (try_fill_member consume key idx minfo first ms st).1 ≠ outcome.ok fill_stat.key_unknown := by
  unfold try_fill_member
  simp only [h, Bool.true_eq_false, if_false]
  unfold consume_discriminated
  repeat' split
  all_goals simp [outcome.rethrow_ne_ok]

/-- C7: `try_fill_member` takes a key for its member (answers something else
than `key_unknown`) if and only if the key equals the alias, or the short name,
or, when no short name is set, the canonical name; the comparison is of the
bytes. The member `bob` with short name `b` and alias `Bob` is filled by `b`
and by `Bob`, and `bob` and `B` are unknown keys. -/
theorem try_fill_member_matches_iff :
    (∀ (consume : Ty → consumer) (key : bytes) (idx : Nat) (minfo : member_info)
      (first : token_kind) (ms : members_state) (st : consume_state),
      (try_fill_member consume key idx minfo first ms st).1 ≠ outcome.ok fill_stat.key_unknown ↔
        (minfo.alias_name = some key ∨ minfo.short_name = some key ∨
          (minfo.short_name = none ∧ minfo.name = key))) ∧
    (∀ (consume : Ty → consumer) (key short_name : bytes) (idx : Nat) (minfo : member_info)
      (first : token_kind) (ms : members_state) (st : consume_state),
      minfo.short_name = some short_name → minfo.name = key → key ≠ short_name →
      minfo.alias_name ≠ some key →
      try_fill_member consume key idx minfo first ms st
        = (outcome.ok fill_stat.key_unknown, ms, st)) ∧
    (from_input 4 (Ty.record bob_members)
        (json.input (ascii "\x7b\"alice\":4,\"b\":5\x7d"))).1
      = outcome.ok (some (Val.record [Val.integer 4, Val.integer 5])) ∧
    (from_input 4 (Ty.record bob_members)
        (json.input (ascii "\x7b\"alice\":4,\"Bob\":5\x7d"))).1
      = outcome.ok (some (Val.record [Val.integer 4, Val.integer 5])) ∧
    (from_input 4 (Ty.record bob_members)
        (json.input (ascii "\x7b\"alice\":4,\"bob\":5\x7d"))).2.errors
      = [doc_error.mk ⟨12, 1⟩ doc_error_kind.key_unknown] ∧
    (from_input 4 (Ty.record bob_members)
        (json.input (ascii "\x7b\"alice\":4,\"B\":5\x7d"))).2.errors
      = [doc_error.mk ⟨12, 1⟩ doc_error_kind.key_unknown] := by
  refine ⟨fun consume key idx minfo first ms st => ?_, ?_, rfl, rfl, by decide!, by decide!⟩
  · rw [← matching_name_iff]
    constructor
    · intro h
      by_contra hm
      rw [Bool.not_eq_true] at hm
      rw [try_fill_member_no_match consume key idx minfo first ms st hm] at h
      exact h rfl
    · exact try_fill_member_known consume key idx minfo first ms st
  · intro consume key short_name idx minfo first ms st hs hn hne ha
    apply try_fill_member_no_match
    rw [← Bool.not_eq_true, matching_name_iff]
    rintro (h | h | h)
    · exact ha h
    · rw [hs] at h
      exact hne (Option.some.inj h).symm
    · rw [hs] at h
      cases h.1

/-- C1 (counterexample): the class with the required member `options`, a
`std::vector<std::string>` flagged `multiple`, and the document
`{"options":["a"]}`. The field type accepts the value, yet `from_input`
reports `type_mismatch` and returns nothing, because the value is consumed as
the element type. -/
theorem from_input_multiple_array_rejected :
    (begin_state options_array_text).next_token.1 = outcome.ok token_kind.begin_array ∧
    (consume 3 (Ty.vector Ty.string) token_kind.begin_array
        (begin_state options_array_text).at_value).1
      = outcome.ok (Val.seq [Val.string (ascii "a")]) ∧
    (from_input 4 (Ty.record options_members) (json.input options_array_text)).1
      = outcome.ok none ∧
    (from_input 4 (Ty.record options_members) (json.input options_array_text)).2.errors
      = [doc_error.mk ⟨11, 1⟩ doc_error_kind.type_mismatch] :=
  ⟨by decide!, rfl, rfl, by decide!⟩

theorem missing_b_delivers :
    delivers (consume 3) example1_members (begin_state missing_b_text) [(0, Val.integer 1)]
      ((begin_state missing_b_text).after_value (consume 3 (Ty.integer true 32))).next_token.2 := by
  refine ⟨_, ⟨token_kind.number, _, _, Ty.integer true 32, _, rfl, by decide,
    ⟨rfl, rfl, by decide, by decide⟩, rfl, by decide, rfl, rfl, rfl⟩, ?_⟩
  rfl

theorem consume_members_key_missing_witness :
    consume_members (consume 3) example1_members 3 (begin_state missing_b_text)
      = (outcome.doc_consume_exception,
          { ((begin_state missing_b_text).after_value (consume 3 (Ty.integer true 32))).next_token.2 with
            errors := [doc_error.mk ⟨6, 1⟩ doc_error_kind.key_missing] }) ∧
    missing_b_text.get? 6 = some 125 ∧
    (from_input 4 (Ty.record example1_members) (json.input missing_b_text)).1
      = outcome.ok none :=
  ⟨(consume_members_key_missing (consume 3) example1_members 3 (begin_state missing_b_text)).2.1
      [(0, Val.integer 1)] _ (by unfold holds_sequences; decide) missing_b_delivers
      (by decide) (by decide) ⟨1, by decide, by decide, by decide⟩,
    by decide, rfl⟩

/-- C3 (counterexample): the member `a` has no flags and the record has a
member flagged `additional_keys`; on `{"a":1,"a":2}` nothing is reported and
`from_input` returns a record in which `a` is 1 and the map holds `a ↦ 2`. -/
theorem from_input_duplicate_captured :
    (from_input 4 (Ty.record capture_members) (json.input twice_text)).1
      = outcome.ok (some (Val.record
          [Val.integer 1, Val.map [(ascii "a", Val.integer 2)]])) ∧
    (from_input 4 (Ty.record capture_members) (json.input twice_text)).2.errors = [] :=
  ⟨rfl, by decide!⟩

theorem consume_members_loop_key_duplicate_witness :
    consume_members_loop (consume 3) single_members (1 + 1)
        ((members_state.init single_members).fill single_members (0, Val.integer 1))
        ((begin_state twice_text).after_value (consume 3 (Ty.integer true 32)))
      = (outcome.doc_consume_exception,
          (members_state.init single_members).fill single_members (0, Val.integer 1),
          { input :=
              ((begin_state twice_text).after_value
                (consume 3 (Ty.integer true 32))).next_token.2.input.mapping_key_moved,
            errors := [doc_error.mk ⟨8, 1⟩ doc_error_kind.key_duplicate] }) ∧
    (from_input 4 (Ty.record single_members) (json.input twice_text)).1 = outcome.ok none ∧
    (from_input 4 (Ty.record single_members) (json.input twice_text)).2.errors
      = [doc_error.mk ⟨8, 1⟩ doc_error_kind.key_duplicate] :=
  ⟨consume_members_loop_key_duplicate (consume 3) single_members 1
      ((members_state.init single_members).fill single_members (0, Val.integer 1))
      ((begin_state twice_text).after_value (consume 3 (Ty.integer true 32))) _
      token_kind.number 0 _ rfl (by decide) ⟨rfl, rfl, by decide, by decide⟩ rfl rfl rfl rfl,
    rfl, by decide!⟩

/-- C4 (failing input): the member `x` is flagged `first_of_multiple`. On
`{"x":1,"x":[2]}` the second value is not read off the cursor: its element `2`
comes as the next key, `key_unknown` is reported and `from_input` returns
nothing. With the scalar `{"x":1,"x":2}` the record holds the first value. -/
theorem from_input_first_of_multiple_array :
    (from_input 4 (Ty.record first_members)
        (json.input (ascii "\x7b\"x\":1,\"x\":[2]\x7d"))).1 = outcome.ok none ∧
    (from_input 4 (Ty.record first_members)
        (json.input (ascii "\x7b\"x\":1,\"x\":[2]\x7d"))).2.errors
      = [doc_error.mk ⟨8, 1⟩ doc_error_kind.key_unknown] ∧
    (from_input 4 (Ty.record first_members)
        (json.input (ascii "\x7b\"x\":1,\"x\":\x7b\"y\":2\x7d\x7d"))).2.errors
      = [doc_error.mk ⟨13, 1⟩ doc_error_kind.key_unknown] ∧
    (from_input 4 (Ty.record first_members)
        (json.input (ascii "\x7b\"x\":1,\"x\":2\x7d"))).1
      = outcome.ok (some (Val.record [Val.integer 1])) :=
  ⟨rfl, by decide!, by decide!, rfl⟩

/-- C6 (counterexample): the member `a` is flagged `maybe_default` and has no
multiplicity flag; on `{"a":null,"a":5}` the second occurrence is no duplicate:
nothing is reported and the record holds 5. -/
theorem from_input_null_not_marked :
    (from_input 4 (Ty.record default_members) (json.input null_first_text)).1
      = outcome.ok (some (Val.record [Val.integer 5])) ∧
    (from_input 4 (Ty.record default_members) (json.input null_first_text)).2.errors = [] :=
  ⟨rfl, by decide!⟩

theorem consume_members_loop_null_passed_over_witness :
    consume_members_loop (consume 3) default_members (2 + 1)
        (members_state.init default_members) (begin_state null_first_text)
      = consume_members_loop (consume 3) default_members 2
        (members_state.init default_members) (begin_state null_first_text).at_value :=
  consume_members_loop_null_passed_over (consume 3) default_members 2
    (members_state.init default_members) (begin_state null_first_text) _ 0 _
    rfl ⟨rfl, rfl, by decide, by decide⟩ rfl rfl

theorem opt_delivers :
    delivers (consume 3) opt_members (begin_state opt_text)
      [(0, Val.string (ascii "medium")), (0, Val.string (ascii "with salami"))]
      (((begin_state opt_text).after_value (consume 3 Ty.string)).after_value
        (consume 3 Ty.string)).next_token.2 := by
  refine ⟨_, ⟨token_kind.string, _, _, Ty.string, _, rfl, by decide,
    ⟨rfl, rfl, by decide, by decide⟩, rfl, by decide, rfl, rfl,
    token_kind.string, _, _, Ty.string, _, rfl, by decide,
    ⟨rfl, rfl, by decide, by decide⟩, rfl, by decide, rfl, rfl, rfl⟩, ?_⟩
  rfl

theorem consume_members_multiple_in_order_witness :
    (∃ fields,
      consume_members (consume 3) opt_members 3 (begin_state opt_text)
        = (outcome.ok (Val.record fields),
            (((begin_state opt_text).after_value (consume 3 Ty.string)).after_value
              (consume 3 Ty.string)).next_token.2) ∧
      fields.get? 0
        = some (Val.seq ([] ++
            ([(0, Val.string (ascii "medium")), (0, Val.string (ascii "with salami"))].filter
              (fun e => decide (e.1 = 0))).map Prod.snd))) ∧
    (from_input 4 (Ty.record opt_members) (json.input opt_text)).1
      = outcome.ok (some (Val.record
          [Val.seq [Val.string (ascii "medium"), Val.string (ascii "with salami")]])) ∧
    (from_input 5 (Ty.record multiple_members)
        (json.input (ascii "\x7b\"multiple\":0,\"multiple\":1,\"multiple\":2\x7d"))).1
      = outcome.ok (some (Val.record
          [Val.seq [Val.integer 0, Val.integer 1, Val.integer 2]])) :=
  ⟨consume_members_multiple_in_order (consume 3) opt_members 3 (begin_state opt_text) _
      [(0, Val.string (ascii "medium")), (0, Val.string (ascii "with salami"))] 0 _ []
      rfl rfl rfl (by unfold holds_sequences; decide) opt_delivers
      ⟨fun h => absurd h (by decide), fun _ => ⟨_, rfl, rfl, rfl⟩, trivial⟩
      (by decide) (by decide),
    rfl, rfl⟩

theorem consume_members_loop_unknown_key_witness :
    consume_members_loop (consume 3) numbers_members (3 + 1)
        (members_state.init numbers_members) (begin_state numbers_text)
      = consume_members_loop (consume 3) numbers_members 3
          { members_state.init numbers_members with
            object := (members_state.init numbers_members).object.set 1
              (Val.map (map_emplace [] (ascii "one") (Val.integer 1))) }
          ((begin_state numbers_text).after_value (consume 3 (Ty.integer true 32))) ∧
    consume_members_loop (consume 3) example1_members (3 + 1)
        (members_state.init example1_members) (begin_state unknown_text)
      = (outcome.doc_consume_exception, members_state.init example1_members,
          { input := (begin_state unknown_text).next_token.2.input.mapping_key_moved,
            errors := [doc_error.mk ⟨2, 1⟩ doc_error_kind.key_unknown] }) ∧
    (from_input 5 (Ty.record numbers_members) (json.input numbers_text)).1
      = outcome.ok (some (Val.record [Val.boolean false,
          Val.map [(ascii "one", Val.integer 1), (ascii "three", Val.integer 3),
            (ascii "two", Val.integer 2)]])) ∧
    (from_input 5 (Ty.record numbers_members) (json.input numbers_text)).2.errors = [] :=
  ⟨(consume_members_loop_unknown_key (consume 3) numbers_members 3
      (members_state.init numbers_members) (begin_state numbers_text) _ token_kind.number
      rfl (by decide) (by decide) (by decide)).2 1 _ (Ty.integer true 32) [] (Val.integer 1) _
      rfl rfl rfl rfl rfl,
    (consume_members_loop_unknown_key (consume 3) example1_members 3
      (members_state.init example1_members) (begin_state unknown_text) _ token_kind.number
      rfl (by decide) (by decide) (by decide)).1 rfl,
    rfl, by decide!⟩

theorem consume_members_loop_nest_alternative_witness :
    (consume_members_loop (consume 3) payload_members (1 + 1 + 0 + 1) payload_file_filled
        payload_after_file
      = consume_members_loop (consume 3) payload_members (1 + 1 + 0)
          { payload_file_filled with
            discr_info := payload_file_filled.discr_info.set 1 (some 0) }
          (payload_after_file.after_value (consume 3 Ty.ref_string)) ∧
    consume_members_loop (consume 3) payload_members (1 + 1 + 0 + 1) payload_file_filled
        payload_after_file
      = consume_members_loop (consume 3) payload_members 1
          { object := payload_file_filled.object.set 1 (Val.record [Val.string (ascii "hi")]),
            found_members := payload_file_filled.found_members.set 1 true,
            discr_info := payload_file_filled.discr_info.set 1 (some 0) }
          ((payload_after_file.after_value (consume 3 Ty.ref_string)).after_value
            (consume 3 write_entry))) ∧
    (from_input 5 (Ty.record payload_members) (json.input payload_text)).1
      = outcome.ok (some (Val.record
          [Val.string (ascii "R"), Val.record [Val.string (ascii "hi")]])) ∧
    (from_input 5 (Ty.record payload_members) (json.input payload_text)).2.errors = [] :=
  ⟨consume_members_loop_nest_alternative (consume 3) payload_members 1 payload_file_filled
      payload_after_file _ _ (payload_after_file.after_value (consume 3 Ty.ref_string)) _ _
      token_kind.string token_kind.begin_mapping 1 _ payload_alts
      (Val.ref ⟨ascii "write", false⟩) 0 write_entry [] (Val.record [Val.string (ascii "hi")])
      rfl (by decide) ⟨rfl, rfl, rfl, by decide⟩ rfl rfl ⟨rfl, rfl, by decide⟩
      (by decide) rfl (by unfold holds_sequences; decide) rfl trivial
      rfl (by decide) ⟨rfl, rfl, by decide, by decide⟩ (by decide) rfl,
    rfl, by decide!⟩

theorem payload_early_keys :
    delivers_keys (consume 3) payload_members (begin_state payload_early_text)
      [(0, Val.string (ascii "R"))]
      ((begin_state payload_early_text).after_value (consume 3 Ty.string)) :=
  ⟨token_kind.string, _, _, Ty.string, _, rfl, by decide,
    ⟨rfl, rfl, by decide, by decide⟩, rfl, by decide, rfl, rfl, rfl⟩

theorem consume_members_type_unspecified_witness :
    consume_members (consume 3) payload_members 3 (begin_state payload_early_text)
      = (outcome.doc_consume_exception,
          { input := ((begin_state payload_early_text).after_value
              (consume 3 Ty.string)).next_token.2.input.mapping_key_moved,
            errors := [doc_error.mk ⟨13, 1⟩ doc_error_kind.type_unspecified] }) ∧
    (from_input 4 (Ty.record payload_members) (json.input payload_early_text)).1
      = outcome.ok none ∧
    (from_input 4 (Ty.record payload_members) (json.input payload_early_text)).2.errors
      = [doc_error.mk ⟨13, 1⟩ doc_error_kind.type_unspecified] :=
  ⟨consume_members_type_unspecified (consume 3) payload_members 3
      (begin_state payload_early_text)
      ((begin_state payload_early_text).after_value (consume 3 Ty.string)) _
      [(0, Val.string (ascii "R"))] token_kind.begin_mapping 1 _ payload_alts
      (by unfold holds_sequences; decide) payload_early_keys
      ⟨fun h => absurd h (by decide), trivial⟩
      rfl (by decide) ⟨rfl, rfl, by decide, by decide⟩ rfl (by decide) (by decide),
    rfl, by decide!⟩

theorem find_alternative_none (value : Val) (alternatives : List (Val × Ty))
    (h : ∀ alt ∈ alternatives, discr_eq value alt.1 = false) :
    ∀ base, find_alternative value alternatives base = none := by
  induction alternatives with
  | nil => intro base; rfl
  | cons alt rest ih =>
    intro base
    obtain ⟨d, t⟩ := alt
    have h0 : discr_eq value d = false := h (d, t) (List.mem_cons_self _ _)
    simp only [find_alternative, h0, Bool.false_eq_true, if_false]
    exact ih (fun alt h_mem => h alt (List.mem_cons_of_mem _ h_mem)) _

/-- C11 (amended): when a discriminator key comes with a value that
`parse_type` accepts and that equals the discriminative of no alternative, the
member loop reports `value_unknown` once, at the value anchor the cursor has
after the discriminating value was consumed, and throws; this holds in both
modes. -/
theorem consume_members_loop_value_unknown (consume : Ty → consumer)
    (members : List member_info) (fuel : Nat) (ms : members_state)
    (st st1 st3 : consume_state) (token : token_kind) (idx : Nat)
    (m : member_info) (a : member_alts) (value : Val)
    (h_token : st.next_token = (outcome.ok token, st1))
    (h_end : token ≠ token_kind.end_mapping)
    (h_key : names_discriminator members st1.input.mapping_key.data idx m a)
    (h_value : consume a.parse_type token { st1 with input := st1.input.mapping_key_moved }
      = (outcome.ok value, st3))
    (h_none : ∀ alt ∈ a.alternatives, discr_eq value alt.1 = false) :
    (consume_members_loop consume members (fuel + 1) ms st).1 = outcome.doc_consume_exception ∧
    (consume_members_loop consume members (fuel + 1) ms st).2.2
      = { st3 with errors := st3.errors ++
            [doc_error.mk (st3.input.location relative_loc.value) doc_error_kind.value_unknown] } := by
  obtain ⟨h_get, h_alts, h_akey, h_before⟩ := h_key
  have h_find := find_alternative_none value a.alternatives h_none 0
  have h_try : ∃ ms', try_consume_discriminator consume st1.input.mapping_key.data idx m token ms
      { st1 with input := st1.input.mapping_key_moved }
      = (outcome.ok alt_stat.unknown_alternative, ms', st3) := by
    unfold try_consume_discriminator
    simp only [h_alts, h_akey, ne_eq, not_true_eq_false, if_false, h_value, h_find]
    cases a.mode
    · exact ⟨_, rfl⟩
    · exact ⟨_, rfl⟩
  obtain ⟨ms', h_try⟩ := h_try
  have h_cd := consume_discriminators_first_match consume st1.input.mapping_key.data token
    members idx m h_get h_before 0 ms { st1 with input := st1.input.mapping_key_moved }
    (by rw [Nat.zero_add, h_try]; simp)
  rw [Nat.zero_add, h_try] at h_cd
  have h_loop : consume_members_loop consume members (fuel + 1) ms st
      = (outcome.doc_consume_exception, ms',
          { st3 with errors := st3.errors ++
            [doc_error.mk (st3.input.location relative_loc.value) doc_error_kind.value_unknown] }) := by
    rw [consume_members_loop]
    simp only [h_token, h_end, if_false, h_cd, fail]
  rw [h_loop]
  exact ⟨rfl, rfl⟩

/-- C12: a member with an `alts` attribute in mode `no_nesting`. When its
discriminator key comes with a value that `parse_type` accepts and `alt_idx` is
the first alternative whose discriminative equals that value, the type of that
alternative is consumed with `begin_mapping` as its first token from the state
behind the discriminating value; the result is stored in the member, the member
is marked found and the loop ends in the state that consumer left, so the outer
record reads no further key. For a declared class the consumer called this way
is `consume_members` of that class, which reads keys up to the `end_mapping`. -/
theorem consume_members_loop_no_nesting (consume : Ty → consumer)
    (members : List member_info) (fuel : Nat) (ms : members_state)
    (st st1 st3 st4 : consume_state) (token : token_kind) (idx : Nat)
    (m : member_info) (a : member_alts) (value : Val) (alt_idx : Nat) (alter_type : Ty)
    (member : Val)
    (h_token : st.next_token = (outcome.ok token, st1))
    (h_end : token ≠ token_kind.end_mapping)
    (h_key : names_discriminator members st1.input.mapping_key.data idx m a)
    (h_mode : a.mode = alt_mode.no_nesting)
    (h_value : consume a.parse_type token { st1 with input := st1.input.mapping_key_moved }
      = (outcome.ok value, st3))
    (h_first : first_alternative value a.alternatives alt_idx alter_type)
    (h_member : consume alter_type token_kind.begin_mapping st3 = (outcome.ok member, st4)) :
    consume_members_loop consume members (fuel + 1) ms st
      = (outcome.ok (),
          { object := ms.object.set idx member,
            found_members := ms.found_members.set idx true,
            discr_info := ms.discr_info }, st4) ∧
    (∀ (f : Nat) (alt_members : List member_info) (s : consume_state),
      alt_members.isEmpty = false →
      stc.consume (f + 1) (Ty.record alt_members) token_kind.begin_mapping s
        = consume_members (stc.consume f) alt_members f s) := by
  constructor
  · obtain ⟨h_get, h_alts, h_akey, h_before⟩ := h_key
    have h_find := find_alternative_first value a.alternatives alt_idx alter_type 0 h_first
    rw [Nat.zero_add] at h_find
    have h_try : try_consume_discriminator consume st1.input.mapping_key.data idx m token ms
        { st1 with input := st1.input.mapping_key_moved }
        = (outcome.ok alt_stat.consumed_remaining,
            { object := ms.object.set idx member,
              found_members := ms.found_members.set idx true,
              discr_info := ms.discr_info }, st4) := by
      unfold try_consume_discriminator
      simp only [h_alts, h_akey, ne_eq, not_true_eq_false, if_false, h_value, h_mode, h_find,
        h_member]
    have h_cd := consume_discriminators_first_match consume st1.input.mapping_key.data token
      members idx m h_get h_before 0 ms { st1 with input := st1.input.mapping_key_moved }
      (by rw [Nat.zero_add, h_try]; simp)
    rw [Nat.zero_add, h_try] at h_cd
    rw [consume_members_loop]
    simp only [h_token, h_end, if_false, h_cd]
  · intro f alt_members s h_ne
    simp [stc.consume, consume_class, h_ne]

/-- C11 (counterexample): on `{"file":"R","type":"rename"}` read as the class of
scenario S4, the one error is `value_unknown` at byte 19, the opening quote of
the value `"rename"`; the key anchor of the discriminator key `type` is byte
13. -/
theorem from_input_value_unknown_at_value :
    (from_input 4 (Ty.record payload_members) (json.input rename_text)).1 = outcome.ok none ∧
    (from_input 4 (Ty.record payload_members) (json.input rename_text)).2.errors
      = [doc_error.mk ⟨19, 1⟩ doc_error_kind.value_unknown] ∧
    (from_input 4 (Ty.record payload_members) (json.input rename_text)).2.input.location
        relative_loc.key = ⟨13, 1⟩ ∧
    (rename_text.drop 13).take 4 = ascii "type" ∧
    (rename_text.drop 19).take 8 = ascii "\"rename\"" :=
  ⟨rfl, by decide!, by decide!, by decide!, by decide!⟩

theorem consume_members_loop_value_unknown_witness :
    (consume_members_loop (consume 3) payload_members (1 + 1)
        ((members_state.init payload_members).fill payload_members (0, Val.string (ascii "R")))
        ((begin_state rename_text).after_value (consume 3 Ty.string))).1
      = outcome.doc_consume_exception ∧
    (consume_members_loop (consume 3) payload_members (1 + 1)
        ((members_state.init payload_members).fill payload_members (0, Val.string (ascii "R")))
        ((begin_state rename_text).after_value (consume 3 Ty.string))).2.2.errors
      = [doc_error.mk ⟨19, 1⟩ doc_error_kind.value_unknown] :=
  ⟨(consume_members_loop_value_unknown (consume 3) payload_members 1
      ((members_state.init payload_members).fill payload_members (0, Val.string (ascii "R")))
      ((begin_state rename_text).after_value (consume 3 Ty.string)) _ _
      token_kind.string 1 _ payload_alts (Val.ref ⟨ascii "rename", false⟩)
      rfl (by decide) ⟨rfl, rfl, rfl, by decide⟩ rfl (by decide)).1,
   by decide!⟩

theorem consume_members_loop_no_nesting_witness :
    consume_members_loop (consume 4) variant2_members (2 + 1)
        (members_state.init variant2_members) (begin_state variant2_text)
      = (outcome.ok (),
          { object := [Val.record [Val.integer 1, Val.integer 2]],
            found_members := [true],
            discr_info := [none] },
          (consume 4 (Ty.record B_members) token_kind.begin_mapping
            ((begin_state variant2_text).after_value (consume 4 Ty.ref_string))).2) ∧
    (from_input 5 (Ty.record variant2_members) (json.input variant2_text)).1
      = outcome.ok (some (Val.record [Val.record [Val.integer 1, Val.integer 2]])) ∧
    (from_input 5 (Ty.record variant2_members) (json.input variant2_text)).2.errors = [] ∧
    (from_input 5 (Ty.record variant2_members) (json.input variant2_text)).2.input.source = [] :=
  ⟨(consume_members_loop_no_nesting (consume 4) variant2_members 2
      (members_state.init variant2_members) (begin_state variant2_text) _
      ((begin_state variant2_text).after_value (consume 4 Ty.ref_string)) _
      token_kind.string 0 _ variant2_alts (Val.ref ⟨ascii "B", false⟩) 1 (Ty.record B_members)
      (Val.record [Val.integer 1, Val.integer 2])
      rfl (by decide) ⟨rfl, rfl, rfl, by decide⟩ rfl rfl ⟨rfl, rfl, by decide⟩ rfl).1,
   rfl, by decide!, by decide!⟩
/-- C13: `from_input_with_context` reads one token. If it is `eof` the result
is absent; otherwise the consumer of `T` is called with that token, its value
is returned, and an input failure or a consume failure raised by the cursor or
by the consumer turns into an absent result. The result is absent exactly in
these cases, and neither failure is ever the outcome of `from_input`. On the
document of two blanks the result is absent. -/
theorem from_input_with_context_returns (fuel : Nat) (T : Ty) (st : consume_state) :
    (∀ st1, st.next_token = (outcome.ok token_kind.eof, st1) →
      from_input_with_context fuel T st = (outcome.ok none, st1)) ∧
    (∀ first st1 v st2, st.next_token = (outcome.ok first, st1) → first ≠ token_kind.eof →
      consume fuel T first st1 = (outcome.ok v, st2) →
      from_input_with_context fuel T st = (outcome.ok (some v), st2)) ∧
    (∀ first st1 st2, st.next_token = (outcome.ok first, st1) → first ≠ token_kind.eof →
      (consume fuel T first st1 = (outcome.doc_input_exception, st2) ∨
        consume fuel T first st1 = (outcome.doc_consume_exception, st2)) →
      from_input_with_context fuel T st = (outcome.ok none, st2)) ∧
    (∀ st1, (st.next_token = (outcome.doc_input_exception, st1) ∨
        st.next_token = (outcome.doc_consume_exception, st1)) →
      from_input_with_context fuel T st = (outcome.ok none, st1)) ∧
    ((from_input_with_context fuel T st).1 = outcome.ok none ↔
      (st.next_token.1 = outcome.ok token_kind.eof ∨
        st.next_token.1 = outcome.doc_input_exception ∨
        st.next_token.1 = outcome.doc_consume_exception ∨
        ∃ first, st.next_token.1 = outcome.ok first ∧ first ≠ token_kind.eof ∧
          ((consume fuel T first st.next_token.2).1 = outcome.doc_input_exception ∨
            (consume fuel T first st.next_token.2).1 = outcome.doc_consume_exception))) ∧
    (from_input_with_context fuel T st).1 ≠ outcome.doc_input_exception ∧
    (from_input_with_context fuel T st).1 ≠ outcome.doc_consume_exception ∧
    (∀ input, from_input fuel T input = from_input_with_context fuel T ⟨input, []⟩) ∧
    from_input 2 (Ty.integer true 32) (json.input (ascii "  "))
      = (outcome.ok none, (consume_state.next_token ⟨json.input (ascii "  "), []⟩).2) ∧
    (consume_state.next_token ⟨json.input (ascii "  "), []⟩).1 = outcome.ok token_kind.eof := by
  refine ⟨?_, ?_, ?_, ?_, ?_, ?_, ?_, fun _ => rfl, rfl, by decide!⟩
  · intro st1 h
    simp [from_input_with_context, h]
  · intro first st1 v st2 h hne hc
    simp [from_input_with_context, h, hne, hc]
  · intro first st1 st2 h hne hc
    rcases hc with hc | hc <;> simp [from_input_with_context, h, hne, hc]
  · intro st1 h
    rcases h with h | h <;> simp [from_input_with_context, h]
  · unfold from_input_with_context
    rcases h : st.next_token with ⟨o, st1⟩
    cases o with
    | ok first =>
      by_cases hf : first = token_kind.eof
      · simp [hf]
      · rcases hc : consume fuel T first st1 with ⟨oc, st2⟩
        cases oc <;> simp [hf, hc, outcome.rethrow]
    | _ => simp [outcome.rethrow]
  · unfold from_input_with_context
    rcases h : st.next_token with ⟨o, st1⟩
    cases o with
    | ok first =>
      by_cases hf : first = token_kind.eof
      · simp [hf]
      · rcases hc : consume fuel T first st1 with ⟨oc, st2⟩
        cases oc <;> simp [hf, hc, outcome.rethrow]
    | _ => simp [outcome.rethrow]
  · unfold from_input_with_context
    rcases h : st.next_token with ⟨o, st1⟩
    cases o with
    | ok first =>
      by_cases hf : first = token_kind.eof
      · simp [hf]
      · rcases hc : consume fuel T first st1 with ⟨oc, st2⟩
        cases oc <;> simp [hf, hc, outcome.rethrow]
    | _ => simp [outcome.rethrow]
namespace json

theorem parser.pop_stack_reported (p : parser) : p.pop_stack.reported = p.reported := by
  unfold parser.pop_stack
  cases p.call_stack <;> rfl

theorem parser.parse_string_grows (raise : raiser) (h : raises_reporting raise) (p : parser) :
    sink_grows (p.parse_string raise).1 p.reported (p.parse_string raise).2.reported := by
  unfold parser.parse_string
  simp only
  split
  · exact (h _ _).2
  · rfl

theorem parser.parse_number_grows (raise : raiser) (h : raises_reporting raise) (p : parser) :
    sink_grows (p.parse_number raise).1 p.reported (p.parse_number raise).2.reported := by
  unfold parser.parse_number
  simp only
  split
  · exact (h _ _).2
  · exact (h _ _).2
  · rfl

theorem parser.parse_object_grows (raise : raiser) (h : raises_reporting raise) (p : parser) :
    sink_grows (p.parse_object raise).1 p.reported (p.parse_object raise).2.reported := by
  unfold parser.parse_object
  simp only
  split
  · exact (h _ _).2
  · rfl

theorem parser.parse_array_grows (raise : raiser) (h : raises_reporting raise) (p : parser) :
    sink_grows (p.parse_array raise).1 p.reported (p.parse_array raise).2.reported := by
  unfold parser.parse_array
  simp only
  split
  · exact (h _ _).2
  · rfl

theorem parser.parse_any_grows (raise : raiser) (h : raises_reporting raise) (p : parser) :
    sink_grows (p.parse_any raise).1 p.reported (p.parse_any raise).2.reported := by
  unfold parser.parse_any
  simp only
  split
  · exact (h _ _).2
  · split
    · exact parser.parse_object_grows raise h _
    · split
      · exact parser.parse_array_grows raise h _
      · split
        · exact parser.parse_string_grows raise h _
        · split
          · rfl
          · split
            · rfl
            · split
              · rfl
              · exact parser.parse_number_grows raise h _

theorem parser.parse_property_grows (raise : raiser) (h : raises_reporting raise)
    (allow_end : Bool) (p : parser) :
    sink_grows (p.parse_property raise allow_end).1 p.reported
      (p.parse_property raise allow_end).2.reported := by
  unfold parser.parse_property
  simp only
  split
  · exact parser.pop_stack_reported _
  · split
    · exact (h _ _).2
    · split
      · exact (h _ _).2
      · split
        · exact (h _ _).2
        · split
          · exact (h _ _).2
          · exact parser.parse_any_grows raise h _

theorem parser.parse_array_entry_grows (raise : raiser) (h : raises_reporting raise)
    (allow_end : Bool) (p : parser) :
    sink_grows (p.parse_array_entry raise allow_end).1 p.reported
      (p.parse_array_entry raise allow_end).2.reported := by
  unfold parser.parse_array_entry
  simp only
  split
  · exact parser.pop_stack_reported _
  · exact parser.parse_any_grows raise h _

theorem parser.call_grows (raise : raiser) (h : raises_reporting raise) (p : parser) :
    sink_grows (p.call raise).1 p.reported (p.call raise).2.reported := by
  unfold parser.call
  split
  · unfold parser.parse_begin
    simp only
    split
    · rfl
    · exact parser.parse_any_grows raise h _
  · rfl
  · exact parser.parse_any_grows raise h _
  · exact parser.parse_property_grows raise h _ _
  · unfold parser.parse_next_property
    simp only
    split
    · exact (h _ _).2
    · split
      · exact (h _ _).2
      · split
        · split
          · exact (h _ _).2
          · exact parser.parse_property_grows raise h _ _
        · exact parser.parse_property_grows raise h _ _
  · exact parser.parse_array_entry_grows raise h _ _
  · unfold parser.parse_next_array_entry
    simp only
    split
    · exact (h _ _).2
    · split
      · exact (h _ _).2
      · split
        · split
          · exact (h _ _).2
          · exact parser.parse_array_entry_grows raise h _ _
        · exact parser.parse_array_entry_grows raise h _ _

theorem drain_grows (next : parser → parse_result)
    (h : ∀ p, sink_grows (next p).1 p.reported (next p).2.reported) :
    ∀ (fuel : Nat) (p : parser),
      sink_grows (drain next fuel p).1 p.reported (drain next fuel p).2.reported := by
  intro fuel
  induction fuel with
  | zero => intro p; exact ⟨[], by simp [drain]⟩
  | succ f ih =>
    intro p
    have h1 := h p
    rw [drain]
    generalize next p = r at h1 ⊢
    obtain ⟨o, p1⟩ := r
    cases o with
    | ok token =>
      have h2 := ih p1
      simp only [sink_grows] at h1
      cases token <;> simp only [] <;> first
        | (rw [← h1]; exact h2)
        | exact h1
    | doc_input_exception => exact h1
    | doc_consume_exception => exact h1
    | aborted => exact h1
    | ill_formed => exact h1
    | out_of_fuel => exact h1

theorem drain_grows_of_eq (next : parser → parse_result)
    (h : ∀ p, sink_grows (next p).1 p.reported (next p).2.reported) (fuel : Nat) (q p1 : parser)
    (o : outcome Unit) (heq : drain next fuel q = (o, p1)) :
    sink_grows o q.reported p1.reported := by
  have := drain_grows next h fuel q
  rw [heq] at this
  exact this

theorem parser.raise_error_reporting (next : parser → parse_result)
    (h : ∀ p, sink_grows (next p).1 p.reported (next p).2.reported) (fuel : Nat) :
    raises_reporting (parser.raise_error next fuel) := by
  intro what p
  refine ⟨parser.raise_error_raises next fuel what p, ?_⟩
  unfold parser.raise_error
  simp only
  split
  · split
    · exact ⟨[_], by simp, rfl⟩
    · split
      · rename_i heq
        have hd := drain_grows_of_eq next h fuel _ _ _ heq
        simp only [sink_grows] at hd
        exact ⟨[_], by simp, hd⟩
      · rename_i heq
        obtain ⟨es, _, hes⟩ := drain_grows_of_eq next h fuel _ _ _ heq
        exact ⟨_ :: es, by simp, by simpa using hes⟩
      · rename_i heq
        exact (drain_grows_of_eq next h fuel _ _ _ heq).elim
      · rename_i heq
        exact (drain_grows_of_eq next h fuel _ _ _ heq).elim
      · rename_i heq
        exact (drain_grows_of_eq next h fuel _ _ _ heq).elim
      · rename_i heq
        obtain ⟨es, hes⟩ := drain_grows_of_eq next h fuel _ _ _ heq
        exact ⟨_ :: es, by simpa using hes⟩
  · exact ⟨[_], by simp, rfl⟩

theorem parser.next_token_fuel_grows :
    ∀ (fuel : Nat) (p : parser),
      sink_grows (p.next_token_fuel fuel).1 p.reported (p.next_token_fuel fuel).2.reported := by
  intro fuel
  induction fuel with
  | zero => intro p; exact ⟨[], by simp [parser.next_token_fuel]⟩
  | succ f ih =>
    intro p
    rw [parser.next_token_fuel]
    exact parser.call_grows _ (parser.raise_error_reporting _ ih f) p

theorem parser.next_token_grows (p : parser) :
    sink_grows p.next_token.1 p.reported p.next_token.2.reported :=
  parser.next_token_fuel_grows _ p

end json
theorem reports_fail {α : Type} (st : consume_state) (rel : relative_loc)
    (kind : doc_error_kind) :
    reports (fail st (st.input.location rel) kind : outcome α × consume_state).1 st
      (fail st (st.input.location rel) kind : outcome α × consume_state).2 :=
  ⟨⟨_, rfl, rel, rfl⟩, rfl⟩

theorem reports_rethrow {α β : Type} (o : outcome α) (st st' : consume_state)
    (h : reports o st st') : reports (o.rethrow : outcome β) st st' := by
  cases o <;> exact h

theorem reports_of_eq {α : Type} (o : outcome α) (st0 st1 st' : consume_state)
    (h_errors : st1.errors = st0.errors) (h_reported : st1.input.reported = st0.input.reported)
    (h : reports o st1 st') : reports o st0 st' := by
  cases o <;> simp only [reports] at h ⊢ <;> rw [← h_errors, ← h_reported] <;> exact h

theorem consume_state.next_token_reports (st : consume_state) :
    reports st.next_token.1 st st.next_token.2 := by
  have h := json.parser.next_token_grows st.input
  unfold consume_state.next_token
  simp only
  generalize st.input.next_token = r at h ⊢
  obtain ⟨o, p1⟩ := r
  cases o with
  | ok t => exact ⟨rfl, h⟩
  | doc_input_exception => exact ⟨rfl, h⟩
  | out_of_fuel => exact ⟨rfl, h⟩
  | doc_consume_exception => exact h.elim
  | aborted => exact h.elim
  | ill_formed => exact h.elim

theorem disciplined_consume_bool : disciplined consume_bool := by
  intro first st
  unfold consume_bool
  split
  · exact reports_fail _ _ _
  · exact ⟨rfl, rfl⟩

theorem disciplined_consume_integer (is_signed : Bool) (bits : Nat) :
    disciplined (consume_integer is_signed bits) := by
  intro first st
  unfold consume_integer
  simp only
  repeat' split
  all_goals first
    | exact reports_fail _ _ _
    | exact ⟨rfl, rfl⟩

theorem disciplined_consume_char : disciplined consume_char := by
  intro first st
  unfold consume_char
  simp only
  repeat' split
  all_goals first
    | exact reports_fail _ _ _
    | exact ⟨rfl, rfl⟩

theorem disciplined_consume_ref_string : disciplined consume_ref_string := by
  intro first st
  unfold consume_ref_string
  split
  · exact reports_fail _ _ _
  · exact ⟨rfl, rfl⟩

theorem disciplined_consume_string : disciplined consume_string := by
  intro first st
  unfold consume_string
  split
  · exact reports_fail _ _ _
  · exact ⟨rfl, rfl⟩

theorem disciplined_consume_optional (elem : consumer) (h_elem : disciplined elem) :
    disciplined (consume_optional elem) := by
  intro first st
  unfold consume_optional
  split
  · exact ⟨rfl, rfl⟩
  · have h := h_elem first st
    generalize elem first st = r at h ⊢
    obtain ⟨o, st1⟩ := r
    cases o <;> exact h

theorem disciplined_consume_unique_ptr (elem : consumer) (h_elem : disciplined elem) :
    disciplined (consume_unique_ptr elem) := by
  intro first st
  unfold consume_unique_ptr
  have h := h_elem first st
  generalize elem first st = r at h ⊢
  obtain ⟨o, st1⟩ := r
  cases o <;> exact h

theorem disciplined_consume_validated (inner : consumer)
    (validator : Val → Option doc_error_kind) (h_inner : disciplined inner) :
    disciplined (consume_validated inner validator) := by
  intro first st
  unfold consume_validated
  have h := h_inner first st
  generalize inner first st = r at h ⊢
  obtain ⟨o, st1⟩ := r
  cases o with
  | ok t =>
    simp only
    split
    · exact reports_of_eq _ _ _ _ h.1 h.2 (reports_fail _ _ _)
    · exact h
  | _ => exact h

theorem consume_array_loop_reports (elem : consumer) (n : Nat) (h_elem : disciplined elem) :
    ∀ (fuel : Nat) (array : List Val) (count : Nat) (st : consume_state),
      reports (consume_array_loop elem n fuel array count st).1 st
        (consume_array_loop elem n fuel array count st).2 := by
  intro fuel
  induction fuel with
  | zero => intro array count st; exact ⟨rfl, [], by simp [consume_array_loop]⟩
  | succ f ih =>
    intro array count st
    rw [consume_array_loop]
    have h1 := consume_state.next_token_reports st
    generalize st.next_token = r at h1 ⊢
    obtain ⟨o, st1⟩ := r
    cases o with
    | ok token =>
      simp only
      split
      · exact h1
      · have h2 := h_elem token st1
        generalize elem token st1 = r2 at h2 ⊢
        obtain ⟨o2, st2⟩ := r2
        cases o2 with
        | ok v =>
          exact reports_of_eq _ _ _ _ (h2.1.trans h1.1) (h2.2.trans h1.2) (ih _ _ st2)
        | _ => exact reports_of_eq _ _ _ _ h1.1 h1.2 h2
    | _ => exact h1

theorem disciplined_consume_array (elem : consumer) (n fuel : Nat) (h_elem : disciplined elem) :
    disciplined (consume_array elem n fuel) := by
  intro first st
  unfold consume_array
  split
  · exact reports_fail _ _ _
  · have h := consume_array_loop_reports elem n h_elem fuel [] 0 st
    generalize consume_array_loop elem n fuel [] 0 st = r at h ⊢
    obtain ⟨o, st1⟩ := r
    cases o with
    | ok res =>
      simp only
      split
      · exact reports_of_eq _ _ _ _ h.1 h.2 (reports_fail _ _ _)
      · exact h
    | _ => exact h

theorem consume_vector_loop_reports (elem : consumer) (h_elem : disciplined elem) :
    ∀ (fuel : Nat) (vector : List Val) (st : consume_state),
      reports (consume_vector_loop elem fuel vector st).1 st
        (consume_vector_loop elem fuel vector st).2 := by
  intro fuel
  induction fuel with
  | zero => intro vector st; exact ⟨rfl, [], by simp [consume_vector_loop]⟩
  | succ f ih =>
    intro vector st
    rw [consume_vector_loop]
    have h1 := consume_state.next_token_reports st
    generalize st.next_token = r at h1 ⊢
    obtain ⟨o, st1⟩ := r
    cases o with
    | ok token =>
      simp only
      split
      · exact h1
      · have h2 := h_elem token st1
        generalize elem token st1 = r2 at h2 ⊢
        obtain ⟨o2, st2⟩ := r2
        cases o2 with
        | ok v =>
          exact reports_of_eq _ _ _ _ (h2.1.trans h1.1) (h2.2.trans h1.2) (ih _ st2)
        | _ => exact reports_of_eq _ _ _ _ h1.1 h1.2 h2
    | _ => exact h1

theorem disciplined_consume_vector (elem : consumer) (fuel : Nat) (h_elem : disciplined elem) :
    disciplined (consume_vector elem fuel) := by
  intro first st
  unfold consume_vector
  split
  · exact reports_fail _ _ _
  · have h := consume_vector_loop_reports elem h_elem fuel [] st
    generalize consume_vector_loop elem fuel [] st = r at h ⊢
    obtain ⟨o, st1⟩ := r
    cases o <;> exact h

theorem consume_map_loop_reports (elem : consumer) (h_elem : disciplined elem) :
    ∀ (fuel : Nat) (map : List (bytes × Val)) (st : consume_state),
      reports (consume_map_loop elem fuel map st).1 st (consume_map_loop elem fuel map st).2 := by
  intro fuel
  induction fuel with
  | zero => intro map st; exact ⟨rfl, [], by simp [consume_map_loop]⟩
  | succ f ih =>
    intro map st
    rw [consume_map_loop]
    have h1 := consume_state.next_token_reports st
    generalize st.next_token = r at h1 ⊢
    obtain ⟨o, st1⟩ := r
    cases o with
    | ok token =>
      simp only
      split
      · exact h1
      · have h2 := h_elem token { st1 with input := st1.input.mapping_key_moved }
        generalize elem token { st1 with input := st1.input.mapping_key_moved } = r2 at h2 ⊢
        obtain ⟨o2, st2⟩ := r2
        cases o2 with
        | ok v =>
          exact reports_of_eq _ _ _ _ (h2.1.trans h1.1) (h2.2.trans h1.2) (ih _ st2)
        | _ => exact reports_of_eq _ _ _ _ h1.1 h1.2 h2
    | _ => exact h1

theorem disciplined_consume_map (elem : consumer) (fuel : Nat) (h_elem : disciplined elem) :
    disciplined (consume_map elem fuel) := by
  intro first st
  unfold consume_map
  split
  · exact reports_fail _ _ _
  · have h := consume_map_loop_reports elem h_elem fuel [] st
    generalize consume_map_loop elem fuel [] st = r at h ⊢
    obtain ⟨o, st1⟩ := r
    cases o <;> exact h
theorem try_consume_discriminator_reports (consume : Ty → consumer)
    (h_c : ∀ ty, disciplined (consume ty)) (key : bytes) (idx : Nat) (minfo : member_info)
    (first : token_kind) (ms : members_state) (st : consume_state) :
    reports (try_consume_discriminator consume key idx minfo first ms st).1 st
      (try_consume_discriminator consume key idx minfo first ms st).2.2 := by
  unfold try_consume_discriminator
  split
  · exact ⟨rfl, rfl⟩
  · rename_i a _
    split
    · exact ⟨rfl, rfl⟩
    · have h1 := h_c a.parse_type first st
      generalize consume a.parse_type first st = r at h1 ⊢
      obtain ⟨o, st1⟩ := r
      cases o with
      | ok value =>
        simp only
        split
        · split
          · exact h1
          · exact h1
        · try dsimp only
          split
          · rename_i alter_type _
            have h2 := h_c alter_type token_kind.begin_mapping st1
            generalize consume alter_type token_kind.begin_mapping st1 = r2 at h2 ⊢
            obtain ⟨o2, st2⟩ := r2
            cases o2 with
            | ok member => exact reports_of_eq _ _ _ _ h1.1 h1.2 h2
            | _ => exact reports_of_eq _ _ _ _ h1.1 h1.2 h2
          · exact h1
      | _ => exact h1

theorem consume_discriminators_reports (consume : Ty → consumer)
    (h_c : ∀ ty, disciplined (consume ty)) (key : bytes) (first : token_kind)
    (members : List member_info) :
    ∀ (idx : Nat) (ms : members_state) (st : consume_state),
      reports (consume_discriminators consume key first members idx ms st).1 st
        (consume_discriminators consume key first members idx ms st).2.2 := by
  induction members with
  | nil => intro idx ms st; exact ⟨rfl, rfl⟩
  | cons m rest ih =>
    intro idx ms st
    rw [consume_discriminators]
    have h1 := try_consume_discriminator_reports consume h_c key idx m first ms st
    generalize try_consume_discriminator consume key idx m first ms st = r at h1 ⊢
    obtain ⟨o, ms1, st1⟩ := r
    cases o with
    | ok status =>
      cases status with
      | skipped => exact reports_of_eq _ _ _ _ h1.1 h1.2 (ih _ ms1 st1)
      | _ => exact h1
    | _ => exact h1

theorem consume_discriminated_reports (consume : Ty → consumer)
    (h_c : ∀ ty, disciplined (consume ty)) (a : member_alts) (discr_idx : Option Nat)
    (first : token_kind) (st : consume_state) :
    ∀ r, consume_discriminated consume a discr_idx first st = some r →
      reports r.1 st r.2 := by
  intro r h
  unfold consume_discriminated at h
  split at h
  · cases h
  · split at h
    · cases h
    · cases h
      exact h_c _ _ _

theorem try_fill_member_reports (consume : Ty → consumer)
    (h_c : ∀ ty, disciplined (consume ty)) (key : bytes) (idx : Nat) (minfo : member_info)
    (first : token_kind) (ms : members_state) (st : consume_state) :
    reports (try_fill_member consume key idx minfo first ms st).1 st
      (try_fill_member consume key idx minfo first ms st).2.2 := by
  unfold try_fill_member
  simp only
  split
  · exact ⟨rfl, rfl⟩
  · split
    · exact ⟨rfl, rfl⟩
    · split
      · exact ⟨rfl, rfl⟩
      · split
        · exact ⟨rfl, rfl⟩
        · split
          · rename_i a _
            have hd := consume_discriminated_reports consume h_c a
              ((ms.found_members.set idx true, ms.discr_info).2.getD idx none) first st
            generalize consume_discriminated consume a
              ((ms.found_members.set idx true, ms.discr_info).2.getD idx none) first st = od
              at hd ⊢
            cases od with
            | none => exact ⟨rfl, rfl⟩
            | some r =>
              obtain ⟨o, st1⟩ := r
              have h1 := hd _ rfl
              cases o <;> exact h1
          · split
            · split
              · exact ⟨rfl, rfl⟩
              · rename_i type _
                have h1 := h_c type first st
                generalize consume type first st = r at h1 ⊢
                obtain ⟨o, st1⟩ := r
                cases o with
                | ok v =>
                  simp only
                  split
                  · exact h1
                  · exact h1
                | _ => exact h1
            · have h1 := h_c minfo.type first st
              generalize consume minfo.type first st = r at h1 ⊢
              obtain ⟨o, st1⟩ := r
              cases o <;> exact h1

theorem fill_members_reports (consume : Ty → consumer)
    (h_c : ∀ ty, disciplined (consume ty)) (key : bytes) (first : token_kind)
    (members : List member_info) :
    ∀ (idx : Nat) (ms : members_state) (st : consume_state),
      reports (fill_members consume key first members idx ms st).1 st
        (fill_members consume key first members idx ms st).2.2 := by
  induction members with
  | nil => intro idx ms st; exact ⟨rfl, rfl⟩
  | cons m rest ih =>
    intro idx ms st
    rw [fill_members]
    have h1 := try_fill_member_reports consume h_c key idx m first ms st
    generalize try_fill_member consume key idx m first ms st = r at h1 ⊢
    obtain ⟨o, ms1, st1⟩ := r
    cases o with
    | ok status =>
      cases status with
      | key_unknown => exact reports_of_eq _ _ _ _ h1.1 h1.2 (ih _ ms1 st1)
      | _ => exact h1
    | _ => exact h1

theorem consume_additional_reports (consume : Ty → consumer)
    (h_c : ∀ ty, disciplined (consume ty)) (members : List member_info) (key : ref_string)
    (status : fill_stat) (token : token_kind) (ms : members_state) (st : consume_state) :
    reports (consume_additional consume members key status token ms st).1 st
      (consume_additional consume members key status token ms st).2.2 := by
  unfold consume_additional
  split
  · split
    · exact ⟨rfl, rfl⟩
    · rename_i value_type _
      have h1 := h_c value_type token st
      generalize consume value_type token st = r at h1 ⊢
      obtain ⟨o, st1⟩ := r
      cases o with
      | ok v =>
        simp only
        split
        · exact h1
        · exact h1
      | _ => exact h1
  · exact reports_fail _ _ _

theorem consume_members_loop_reports (consume : Ty → consumer)
    (h_c : ∀ ty, disciplined (consume ty)) (members : List member_info) :
    ∀ (fuel : Nat) (ms : members_state) (st : consume_state),
      reports (consume_members_loop consume members fuel ms st).1 st
        (consume_members_loop consume members fuel ms st).2.2 := by
  intro fuel
  induction fuel with
  | zero => intro ms st; exact ⟨rfl, [], by simp [consume_members_loop]⟩
  | succ f ih =>
    intro ms st
    rw [consume_members_loop]
    have h1 := consume_state.next_token_reports st
    generalize st.next_token = r at h1 ⊢
    obtain ⟨o, st1⟩ := r
    cases o with
    | ok token =>
      simp only
      split
      · exact h1
      · have h2 := consume_discriminators_reports consume h_c st1.input.mapping_key.data token
          members 0 ms { st1 with input := st1.input.mapping_key_moved }
        generalize consume_discriminators consume st1.input.mapping_key.data token
          members 0 ms { st1 with input := st1.input.mapping_key_moved } = r2 at h2 ⊢
        obtain ⟨o2, ms2, st2⟩ := r2
        have e2 : ∀ (h : st2.errors = st1.errors ∧ st2.input.reported = st1.input.reported),
            st2.errors = st.errors ∧ st2.input.reported = st.input.reported :=
          fun h => ⟨h.1.trans h1.1, h.2.trans h1.2⟩
        cases o2 with
        | ok status =>
          cases status with
          | success =>
            exact reports_of_eq _ _ _ _ (e2 h2).1 (e2 h2).2 (ih ms2 st2)
          | consumed_remaining => exact e2 h2
          | unknown_alternative =>
            exact reports_of_eq _ _ _ _ (e2 h2).1 (e2 h2).2 (reports_fail _ _ _)
          | skipped =>
            simp only
            have h3 := fill_members_reports consume h_c st1.input.mapping_key.data token
              members 0 ms2 st2
            generalize fill_members consume st1.input.mapping_key.data token
              members 0 ms2 st2 = r3 at h3 ⊢
            obtain ⟨o3, ms3, st3⟩ := r3
            have e3 : ∀ (h : st3.errors = st2.errors ∧ st3.input.reported = st2.input.reported),
                st3.errors = st.errors ∧ st3.input.reported = st.input.reported :=
              fun h => ⟨h.1.trans (e2 h2).1, h.2.trans (e2 h2).2⟩
            cases o3 with
            | ok status =>
              have h_add : ∀ s : fill_stat,
                  reports (match consume_additional consume members st1.input.mapping_key s token
                      ms3 st3 with
                    | (outcome.ok _, ms, st) => consume_members_loop consume members f ms st
                    | (o, ms, st) => (o.rethrow, ms, st)).1 st
                    (match consume_additional consume members st1.input.mapping_key s token
                      ms3 st3 with
                    | (outcome.ok _, ms, st) => consume_members_loop consume members f ms st
                    | (o, ms, st) => (o.rethrow, ms, st)).2.2 := by
                intro s
                have h4 := consume_additional_reports consume h_c members
                  st1.input.mapping_key s token ms3 st3
                generalize consume_additional consume members st1.input.mapping_key s token
                  ms3 st3 = r4 at h4 ⊢
                obtain ⟨o4, ms4, st4⟩ := r4
                cases o4 with
                | ok u =>
                  exact reports_of_eq _ _ _ _ (h4.1.trans (e3 h3).1)
                    (h4.2.trans (e3 h3).2) (ih ms4 st4)
                | _ => exact reports_of_eq _ _ _ _ (e3 h3).1 (e3 h3).2 h4
              cases status with
              | success =>
                exact reports_of_eq _ _ _ _ (e3 h3).1 (e3 h3).2 (ih ms3 st3)
              | discriminator_missing =>
                exact reports_of_eq _ _ _ _ (e3 h3).1 (e3 h3).2 (reports_fail _ _ _)
              | key_unknown => exact h_add _
              | key_duplicate => exact h_add _
            | _ => exact reports_of_eq _ _ _ _ (e2 h2).1 (e2 h2).2 h3
        | _ => exact reports_of_eq _ _ _ _ h1.1 h1.2 h2
    | _ => exact h1

theorem disciplined_consume_class (consume : Ty → consumer)
    (h_c : ∀ ty, disciplined (consume ty)) (members : List member_info) (fuel : Nat) :
    disciplined (consume_class consume members fuel) := by
  intro first st
  unfold consume_class
  split
  · exact ⟨rfl, rfl⟩
  · split
    · exact reports_fail _ _ _
    · unfold consume_members
      have h := consume_members_loop_reports consume h_c members fuel
        (members_state.init members) st
      generalize consume_members_loop consume members fuel (members_state.init members) st = r
        at h ⊢
      obtain ⟨o, ms1, st1⟩ := r
      cases o with
      | ok u =>
        simp only
        split
        · exact reports_of_eq _ _ _ _ h.1 h.2 (reports_fail _ _ _)
        · exact h
      | _ => exact h

theorem disciplined_consume : ∀ (fuel : Nat) (ty : Ty), disciplined (consume fuel ty) := by
  intro fuel
  induction fuel with
  | zero => intro ty first st; exact ⟨rfl, [], by simp [consume]⟩
  | succ f ih =>
    intro ty
    cases ty with
    | boolean => exact disciplined_consume_bool
    | integer is_signed bits => exact disciplined_consume_integer is_signed bits
    | character => exact disciplined_consume_char
    | string => exact disciplined_consume_string
    | ref_string => exact disciplined_consume_ref_string
    | optional t => exact disciplined_consume_optional _ (ih t)
    | unique_ptr t => exact disciplined_consume_unique_ptr _ (ih t)
    | array t n => exact disciplined_consume_array _ n f (ih t)
    | vector t => exact disciplined_consume_vector _ f (ih t)
    | map v => exact disciplined_consume_map _ f (ih v)
    | record members => exact disciplined_consume_class _ ih members f
    | variant => intro first st; exact ⟨rfl, rfl⟩
    | validated t validator => exact disciplined_consume_validated _ validator (ih t)

theorem from_input_with_context_reports (fuel : Nat) (T : Ty) (st : consume_state) :
    (∀ v, (from_input_with_context fuel T st).1 = outcome.ok (some v) →
      (from_input_with_context fuel T st).2.errors = st.errors ∧
      (from_input_with_context fuel T st).2.input.reported = st.input.reported) ∧
    ((from_input_with_context fuel T st).1 = outcome.ok none →
      st.next_token.1 ≠ outcome.ok token_kind.eof →
      (∃ e, (from_input_with_context fuel T st).2.errors = st.errors ++ [e]) ∨
      (∃ es, es ≠ [] ∧
        (from_input_with_context fuel T st).2.input.reported = st.input.reported ++ es)) ∧
    ((from_input_with_context fuel T st).2.errors = st.errors ∨
      (from_input_with_context fuel T st).1 = outcome.ok none ∧
      (from_input_with_context fuel T st).2.input.reported = st.input.reported ∧
      ∃ e, (from_input_with_context fuel T st).2.errors = st.errors ++ [e] ∧
        ∃ rel, e.location = (from_input_with_context fuel T st).2.input.location rel) := by
  unfold from_input_with_context
  have h1 := consume_state.next_token_reports st
  generalize st.next_token = r at h1 ⊢
  obtain ⟨o, st1⟩ := r
  cases o with
  | ok first =>
    by_cases hf : first = token_kind.eof
    · simp only [hf, ne_eq, not_true_eq_false, if_false]
      exact ⟨fun v h => by simp at h, fun _ h => h.elim, Or.inl h1.1⟩
    · simp only [hf, ne_eq, not_false_eq_true, if_true]
      have h2 := disciplined_consume fuel T first st1
      generalize consume fuel T first st1 = r2 at h2 ⊢
      obtain ⟨o2, st2⟩ := r2
      cases o2 with
      | ok v =>
        exact ⟨fun _ _ => ⟨h2.1.trans h1.1, h2.2.trans h1.2⟩, fun h => by simp at h,
          Or.inl (h2.1.trans h1.1)⟩
      | doc_input_exception =>
        refine ⟨fun v h => by simp at h, fun _ _ => Or.inr ?_, Or.inl (h2.1.trans h1.1)⟩
        obtain ⟨es, hes, h3⟩ := h2.2
        exact ⟨es, hes, by rw [← h1.2]; exact h3⟩
      | doc_consume_exception =>
        obtain ⟨e, he, hrel⟩ := h2.1
        have h3 : st2.errors = st.errors ++ [e] := by rw [← h1.1]; exact he
        exact ⟨fun v h => by simp at h, fun _ _ => Or.inl ⟨e, h3⟩,
          Or.inr ⟨rfl, h2.2.trans h1.2, e, h3, hrel⟩⟩
      | aborted =>
        exact ⟨fun v h => by simp [outcome.rethrow] at h, fun h => by simp [outcome.rethrow] at h,
          Or.inl (h2.1.trans h1.1)⟩
      | ill_formed =>
        exact ⟨fun v h => by simp [outcome.rethrow] at h, fun h => by simp [outcome.rethrow] at h,
          Or.inl (h2.1.trans h1.1)⟩
      | out_of_fuel =>
        exact ⟨fun v h => by simp [outcome.rethrow] at h, fun h => by simp [outcome.rethrow] at h,
          Or.inl (h2.1.trans h1.1)⟩
  | doc_input_exception =>
    refine ⟨fun v h => by simp at h, fun _ _ => Or.inr h1.2, Or.inl h1.1⟩
  | doc_consume_exception =>
    obtain ⟨e, he, hrel⟩ := h1.1
    exact ⟨fun v h => by simp at h, fun _ _ => Or.inl ⟨e, he⟩, Or.inr ⟨rfl, h1.2, e, he, hrel⟩⟩
  | aborted =>
    exact ⟨fun v h => by simp [outcome.rethrow] at h, fun h => by simp [outcome.rethrow] at h,
      Or.inl h1.1⟩
  | ill_formed =>
    exact ⟨fun v h => by simp [outcome.rethrow] at h, fun h => by simp [outcome.rethrow] at h,
      Or.inl h1.1⟩
  | out_of_fuel =>
    exact ⟨fun v h => by simp [outcome.rethrow] at h, fun h => by simp [outcome.rethrow] at h,
      Or.inl h1.1⟩

/-- C14: if `from_input` over the JSON cursor of a text returns a value, no
error was handed to the parse-error handler and none to the `doc_error`
handler during the call. More generally a consumer that does not raise a
failure leaves both logs as they were, so every error handed to either handler
comes with a failure. -/
theorem from_input_value_without_errors (fuel : Nat) (T : Ty) (text : bytes) (v : Val)
    (st' : consume_state)
    (h : from_input fuel T (json.input text) = (outcome.ok (some v), st')) :
    st'.errors = [] ∧ st'.input.reported = [] ∧
    (∀ first st,
      ((consume fuel T first st).2.errors ≠ st.errors ∨
        (consume fuel T first st).2.input.reported ≠ st.input.reported) →
      (consume fuel T first st).1 = outcome.doc_consume_exception ∨
      (consume fuel T first st).1 = outcome.doc_input_exception ∨
      (consume fuel T first st).1 = outcome.out_of_fuel) := by
  have h1 := (from_input_with_context_reports fuel T ⟨json.input text, []⟩).1 v
    (congrArg Prod.fst h)
  unfold from_input at h
  rw [h] at h1
  refine ⟨h1.1, h1.2, ?_⟩
  intro first st h_changed
  have h2 := disciplined_consume fuel T first st
  generalize consume fuel T first st = r at h2 h_changed ⊢
  obtain ⟨o, st2⟩ := r
  cases o with
  | ok v => rcases h_changed with hc | hc
            · exact absurd h2.1 hc
            · exact absurd h2.2 hc
  | aborted => rcases h_changed with hc | hc
               · exact absurd h2.1 hc
               · exact absurd h2.2 hc
  | ill_formed => rcases h_changed with hc | hc
                  · exact absurd h2.1 hc
                  · exact absurd h2.2 hc
  | doc_consume_exception => exact Or.inl rfl
  | doc_input_exception => exact Or.inr (Or.inl rfl)
  | out_of_fuel => exact Or.inr (Or.inr rfl)

theorem from_input_value_without_errors_witness :
    (from_input 5 (Ty.record numbers_members) (json.input numbers_text)).2.errors = [] ∧
    (from_input 5 (Ty.record numbers_members) (json.input numbers_text)).2.input.reported = [] :=
  ⟨(from_input_value_without_errors 5 (Ty.record numbers_members) numbers_text
      (Val.record [Val.boolean false,
        Val.map [(ascii "one", Val.integer 1), (ascii "three", Val.integer 3),
          (ascii "two", Val.integer 2)]]) _ rfl).1,
   (from_input_value_without_errors 5 (Ty.record numbers_members) numbers_text
      (Val.record [Val.boolean false,
        Val.map [(ascii "one", Val.integer 1), (ascii "three", Val.integer 3),
          (ascii "two", Val.integer 2)]]) _ rfl).2.1⟩

/-- C15 (counterexample): on the empty document and on a document of blanks
`from_input` returns absent and neither handler has been given an error. -/
theorem from_input_empty_absent_silent :
    (from_input 2 (Ty.integer true 32) (json.input [])).1 = outcome.ok none ∧
    (from_input 2 (Ty.integer true 32) (json.input [])).2.errors = [] ∧
    (from_input 2 (Ty.integer true 32) (json.input [])).2.input.reported = [] ∧
    (from_input 4 (Ty.record example1_members) (json.input (ascii " \n "))).1
      = outcome.ok none ∧
    (from_input 4 (Ty.record example1_members) (json.input (ascii " \n "))).2.errors = [] ∧
    (from_input 4 (Ty.record example1_members) (json.input (ascii " \n "))).2.input.reported
      = [] :=
  ⟨rfl, by decide!, by decide!, rfl, by decide!, by decide!⟩

/-- C15 (amended): if `from_input` returns absent and the first token of the
document was not `eof` (the document holds more than white space), at least one
error was handed to the `doc_error` handler or to the parse-error handler. -/
theorem from_input_absent_reported (fuel : Nat) (T : Ty) (text : bytes) (st' : consume_state)
    (h : from_input fuel T (json.input text) = (outcome.ok none, st'))
    (h_first : (json.input text).next_token.1 ≠ outcome.ok token_kind.eof) :
    st'.errors ≠ [] ∨ st'.input.reported ≠ [] := by
  have h1 := (from_input_with_context_reports fuel T ⟨json.input text, []⟩).2.1
    (congrArg Prod.fst h) h_first
  unfold from_input at h
  rw [h] at h1
  rcases h1 with ⟨e, he⟩ | ⟨es, hes, hr⟩
  · left
    rw [he]
    simp
  · right
    rw [hr]
    cases es with
    | nil => exact absurd rfl hes
    | cons a as => simp [json.input, json.parser.init]

theorem from_input_absent_reported_witness :
    (from_input 4 (Ty.record example1_members) (json.input (ascii "[1]"))).2.errors ≠ [] ∨
    (from_input 4 (Ty.record example1_members) (json.input (ascii "[1]"))).2.input.reported
      ≠ [] :=
  from_input_absent_reported 4 (Ty.record example1_members) (ascii "[1]") _ rfl (by decide!)

/-- C16: during one `from_input` call at most one `doc_error` is handed to the
handler. A consumer hands one on exactly when it raises the consume failure:
then it is the only new one, no parse error was reported, and its location is
an anchor of the cursor as the consumer leaves it, so the cursor has read
nothing since; every other outcome comes without a `doc_error`. When
`from_input` has handed one on, its result is absent. -/
theorem from_input_one_doc_error (fuel : Nat) (T : Ty) (text : bytes) :
    (from_input fuel T (json.input text)).2.errors.length ≤ 1 ∧
    ((from_input fuel T (json.input text)).2.errors ≠ [] →
      (from_input fuel T (json.input text)).1 = outcome.ok none ∧
      (from_input fuel T (json.input text)).2.input.reported = [] ∧
      ∃ e rel, (from_input fuel T (json.input text)).2.errors = [e] ∧
        e.location = (from_input fuel T (json.input text)).2.input.location rel) ∧
    (∀ first st,
      ((consume fuel T first st).1 = outcome.doc_consume_exception ∧
        (consume fuel T first st).2.input.reported = st.input.reported ∧
        ∃ e rel, (consume fuel T first st).2.errors = st.errors ++ [e] ∧
          e.location = (consume fuel T first st).2.input.location rel) ∨
      ((consume fuel T first st).1 ≠ outcome.doc_consume_exception ∧
        (consume fuel T first st).2.errors = st.errors)) := by
  have h1 := (from_input_with_context_reports fuel T ⟨json.input text, []⟩).2.2
  refine ⟨?_, ?_, ?_⟩
  · unfold from_input
    rcases h1 with h1 | ⟨_, _, e, he, _⟩
    · rw [h1]; simp
    · rw [he]; simp
  · unfold from_input
    intro hne
    rcases h1 with h1 | ⟨ho, hr, e, he, rel, hrel⟩
    · exact absurd h1 hne
    · exact ⟨ho, hr, e, rel, he, hrel⟩
  · intro first st
    have h2 := disciplined_consume fuel T first st
    generalize consume fuel T first st = r at h2 ⊢
    obtain ⟨o, st2⟩ := r
    cases o with
    | doc_consume_exception =>
      obtain ⟨⟨e, he, rel, hrel⟩, hr⟩ := h2
      exact Or.inl ⟨rfl, hr, e, rel, he, hrel⟩
    | ok v => exact Or.inr ⟨by simp, h2.1⟩
    | doc_input_exception => exact Or.inr ⟨by simp, h2.1⟩
    | aborted => exact Or.inr ⟨by simp, h2.1⟩
    | ill_formed => exact Or.inr ⟨by simp, h2.1⟩
    | out_of_fuel => exact Or.inr ⟨by simp, h2.1⟩
/-- C17: the consumers of `bool`, the integer types, `char`, `std::string`,
`ref_string`, `std::array`, `std::vector`, `std::map` and a declared class over
the JSON cursor, whose `hint` always answers false: when the first token is not
of the kind the consumer tests for, it hands on exactly one `type_mismatch` at
the cursor's value anchor and raises the consume failure, and the cursor is
left as it was, so no further token has been read. -/
theorem consume_type_mismatch (fuel : Nat) (ty : Ty) (first kind : token_kind)
    (st : consume_state)
    (h_kind : ty.required_token = some kind) (h_first : first ≠ kind) :
    consume (fuel + 1) ty first st
      = (outcome.doc_consume_exception,
          { input := st.input,
            errors := st.errors ++
              [doc_error.mk (st.input.location relative_loc.value) doc_error_kind.type_mismatch] }) ∧
    (∀ (p : json.parser) (k : token_kind), p.hint k = false) := by
  refine ⟨?_, fun _ _ => rfl⟩
  cases ty with
  | boolean =>
    cases h_kind
    simp [consume, consume_bool, json.parser.hint, h_first, fail]
  | integer is_signed bits =>
    cases h_kind
    simp [consume, consume_integer, json.parser.hint, h_first, fail]
  | character =>
    cases h_kind
    simp [consume, consume_char, json.parser.hint, h_first, fail]
  | string =>
    cases h_kind
    simp [consume, consume_string, json.parser.hint, h_first, fail]
  | ref_string =>
    cases h_kind
    simp [consume, consume_ref_string, json.parser.hint, h_first, fail]
  | array t n =>
    cases h_kind
    simp [consume, consume_array, json.parser.hint, h_first, fail]
  | vector t =>
    cases h_kind
    simp [consume, consume_vector, json.parser.hint, h_first, fail]
  | map v =>
    cases h_kind
    simp [consume, consume_map, json.parser.hint, h_first, fail]
  | record members =>
    simp only [Ty.required_token] at h_kind
    split at h_kind
    · cases h_kind
    · rename_i h_ne
      cases h_kind
      simp [consume, consume_class, json.parser.hint, h_first, fail, h_ne]
  | optional t => cases h_kind
  | unique_ptr t => cases h_kind
  | variant => cases h_kind
  | validated t validator => cases h_kind

theorem consume_type_mismatch_witness :
    (consume (2 + 1) (Ty.vector (Ty.integer true 32)) token_kind.begin_mapping
        (begin_state example1_text)
      = (outcome.doc_consume_exception,
          { input := (begin_state example1_text).input,
            errors := (begin_state example1_text).errors ++
              [doc_error.mk ((begin_state example1_text).input.location relative_loc.value)
                doc_error_kind.type_mismatch] })) ∧
    (begin_state example1_text).next_token.1 = outcome.ok token_kind.number ∧
    (from_input 4 (Ty.vector (Ty.integer true 32)) (json.input example1_text)).2.errors
      = [doc_error.mk ⟨9, 2⟩ doc_error_kind.type_mismatch] :=
  ⟨(consume_type_mismatch 2 (Ty.vector (Ty.integer true 32)) token_kind.begin_mapping
      token_kind.begin_array (begin_state example1_text) rfl (by decide)).1,
   by decide!, by decide!⟩
theorem safe_integer_mul_eq_some (is_signed : Bool) (bits : Nat) (a b r : Int)
    (h : safe_integer_mul is_signed bits a b = some r) :
    r = a * b ∧ in_range is_signed bits (a * b) = true := by
  unfold safe_integer_mul at h
  split at h
  · rename_i hr
    cases h
    exact ⟨rfl, hr⟩
  · cases h

theorem safe_integer_power_loop_sound (is_signed : Bool) (bits : Nat) :
    ∀ (fuel : Nat) (result b : Int) (e : Nat) (r : Int), e < 2 ^ fuel →
      safe_integer_power_loop is_signed bits fuel result b e = some r → r = result * b ^ e := by
  intro fuel
  induction fuel with
  | zero =>
    intro result b e r he h
    have : e = 0 := by simpa using he
    subst this
    simp [safe_integer_power_loop] at h
    simp [h]
  | succ f ih =>
    intro result b e r he h
    rw [safe_integer_power_loop] at h
    split at h
    · rename_i h0
      subst h0
      cases h
      simp
    · rename_i h0
      have he2 : e / 2 < 2 ^ f := by
        rw [Nat.div_lt_iff_lt_mul (by norm_num)]
        rw [pow_succ] at he
        exact he
      have hsplit : e = 2 * (e / 2) + e % 2 := (Nat.div_add_mod e 2).symm
      simp only at h
      split at h
      · cases h
      · rename_i result1 h1
        split at h
        · cases h
        · rename_i b1 h2
          have hr := ih result1 b1 (e / 2) r he2 h
          by_cases hodd : e % 2 = 1
          · rw [if_pos hodd] at h1
            obtain ⟨hr1, _⟩ := safe_integer_mul_eq_some _ _ _ _ _ h1
            by_cases hgt : e > 1
            · rw [if_pos hgt] at h2
              obtain ⟨hb1, _⟩ := safe_integer_mul_eq_some _ _ _ _ _ h2
              rw [hr, hr1, hb1]
              conv_rhs => rw [hsplit, hodd, pow_add, pow_mul]
              ring
            · rw [if_neg hgt] at h2
              cases h2
              have he1 : e = 1 := by omega
              rw [hr, hr1, he1]
              simp
              ring
          · rw [if_neg hodd] at h1
            cases h1
            have heven : e % 2 = 0 := by omega
            have hgt : e > 1 := by omega
            rw [if_pos hgt] at h2
            obtain ⟨hb1, _⟩ := safe_integer_mul_eq_some _ _ _ _ _ h2
            rw [hr, hb1]
            conv_rhs => rw [hsplit, heven, pow_add, pow_mul]
            ring

theorem safe_integer_power10_sound (is_signed : Bool) (bits : Nat) (b : Int) (e : Nat) (r : Int)
    (he : e < 2 ^ 32) (h : safe_integer_power10 is_signed bits b e = some r) :
    r = b * 10 ^ e := by
  unfold safe_integer_power10 at h
  split at h
  · cases h
  · rename_i mul hmul
    have := safe_integer_power_loop_sound is_signed bits 32 1 10 e mul he hmul
    obtain ⟨hr, _⟩ := safe_integer_mul_eq_some _ _ _ _ _ h
    rw [hr, this]
    ring
theorem skip_digits_append (ds : bytes) (h_ds : ∀ c ∈ ds, 48 ≤ c ∧ c ≤ 57) (rest : bytes)
    (h_rest : rest = [] ∨ ¬ (48 ≤ rest.headD 0 ∧ rest.headD 0 ≤ 57)) :
    ∀ count, skip_digits (ds ++ rest) count = (rest, count + ds.length) := by
  induction ds with
  | nil =>
    intro count
    rcases h_rest with h | h
    · subst h; rfl
    · cases rest with
      | nil => rfl
      | cons c cs =>
        simp only [List.headD_cons] at h
        simp [skip_digits, h]
  | cons d ds ih =>
    intro count
    have hd := h_ds d (List.mem_cons_self _ _)
    rw [show (d :: ds) ++ rest = d :: (ds ++ rest) from rfl, skip_digits]
    simp only [hd, and_self, if_true]
    rw [ih (fun c hc => h_ds c (List.mem_cons_of_mem _ hc))]
    simp [Nat.add_assoc, Nat.add_comm 1]

theorem from_chars_lexeme (is_signed : Bool) (bits : Nat) (negative : Bool) (m_digits : bytes)
    (rest : bytes) (h_m : is_digits m_digits)
    (h_rest : rest = [] ∨ ¬ (48 ≤ rest.headD 0 ∧ rest.headD 0 ≤ 57))
    (h_neg : negative = true → is_signed = true) :
    from_chars is_signed bits ((if negative then [45] else []) ++ m_digits ++ rest)
      = if in_range is_signed bits (lexeme_mantissa negative m_digits) = true then
          { ptr := rest, ec := errc.none, value := lexeme_mantissa negative m_digits }
        else { ptr := rest, ec := errc.result_out_of_range, value := 0 } := by
  obtain ⟨h_ne, h_ds⟩ := h_m
  have h_len : 0 < m_digits.length := List.length_pos.mpr h_ne
  cases negative with
  | true =>
    have hs := h_neg rfl
    subst hs
    rw [show (if true = true then [45] else []) ++ m_digits ++ rest = 45 :: (m_digits ++ rest)
      from rfl]
    simp only [from_chars, List.headD_cons, Bool.true_and, List.tail_cons]
    simp only [ne_eq, reduceCtorEq, not_false_eq_true, and_self, decide_True, if_true]
    rw [skip_digits_append m_digits h_ds rest h_rest 0]
    simp only [Nat.zero_add, List.take_left' rfl, lexeme_mantissa, if_true]
    rw [if_neg (by omega)]
  | false =>
    obtain ⟨d, ds, rfl⟩ := List.exists_cons_of_ne_nil h_ne
    have hd := h_ds d (List.mem_cons_self _ _)
    have h45 : ¬ d = 45 := by omega
    rw [show (if false = true then [45] else []) ++ (d :: ds) ++ rest = d :: (ds ++ rest)
      from rfl]
    simp only [from_chars, List.headD_cons, h45, false_and, decide_False, Bool.and_false,
      Bool.false_eq_true, if_false]
    rw [show d :: (ds ++ rest) = (d :: ds) ++ rest from rfl,
      skip_digits_append (d :: ds) h_ds rest h_rest 0]
    simp only [Nat.zero_add, List.take_left' rfl, lexeme_mantissa, Bool.false_eq_true, if_false]
    rw [if_neg (by simp)]
theorem from_chars_digits (is_signed : Bool) (bits : Nat) (ds : bytes) (h : is_digits ds) :
    from_chars is_signed bits ds
      = if in_range is_signed bits (decimal_value ds : Int) = true then
          { ptr := [], ec := errc.none, value := (decimal_value ds : Int) }
        else { ptr := [], ec := errc.result_out_of_range, value := 0 } := by
  have := from_chars_lexeme is_signed bits false ds [] h (Or.inl rfl) (by simp)
  simpa [lexeme_mantissa] using this

theorem number_lexeme_head (negative : Bool) (m_digits : bytes)
    (exponent : Option (Nat × bytes)) (h_m : is_digits m_digits) :
    number_lexeme negative m_digits exponent ≠ [] ∧
    ((number_lexeme negative m_digits exponent).headD 0 = 45 ↔ negative = true) := by
  obtain ⟨h_ne, h_ds⟩ := h_m
  obtain ⟨d, ds, rfl⟩ := List.exists_cons_of_ne_nil h_ne
  have hd := h_ds d (List.mem_cons_self _ _)
  cases negative with
  | true => simp [number_lexeme]
  | false =>
    simp only [number_lexeme, Bool.false_eq_true, if_false, List.nil_append, List.cons_append,
      List.headD_cons, ne_eq, reduceCtorEq, not_false_eq_true, true_and, iff_false]
    omega

theorem consume_integer_lexeme (is_signed : Bool) (bits : Nat) (st : consume_state)
    (negative : Bool) (m_digits : bytes) (exponent : Option (Nat × bytes))
    (h_m : is_digits m_digits)
    (h_e : ∀ e k_digits, exponent = some (e, k_digits) → (e = 101 ∨ e = 69) ∧ is_digits k_digits)
    (h_raw : st.input.raw_number.data = number_lexeme negative m_digits exponent) :
    consume_integer is_signed bits token_kind.number st
      = if is_signed = false ∧ negative = true then
          fail { st with input := st.input.raw_number_moved }
            (st.input.raw_number_moved.location relative_loc.value) doc_error_kind.value_too_small
        else if in_range is_signed bits (lexeme_mantissa negative m_digits) = false then
          fail { st with input := st.input.raw_number_moved }
            (st.input.raw_number_moved.location relative_loc.value)
            doc_error_kind.value_out_of_bounds
        else
          match exponent with
          | none =>
            (outcome.ok (Val.integer (lexeme_mantissa negative m_digits)),
              { st with input := st.input.raw_number_moved })
          | some (_, k_digits) =>
            if in_range false 32 (decimal_value k_digits : Int) = false then
              fail { st with input := st.input.raw_number_moved }
                (st.input.raw_number_moved.location relative_loc.value)
                doc_error_kind.value_out_of_bounds
            else
              match safe_integer_power10 is_signed bits (lexeme_mantissa negative m_digits)
                  (decimal_value k_digits) with
              | none =>
                fail { st with input := st.input.raw_number_moved }
                  (st.input.raw_number_moved.location relative_loc.value)
                  doc_error_kind.value_out_of_bounds
              | some powered =>
                (outcome.ok (Val.integer powered),
                  { st with input := st.input.raw_number_moved }) := by
  obtain ⟨h_ne, h_head⟩ := number_lexeme_head negative m_digits exponent h_m
  unfold consume_integer
  simp only [ne_eq, not_true_eq_false, false_and, if_false, h_raw, h_ne, h_head]
  by_cases h_unsigned : is_signed = false ∧ negative = true
  · simp only [h_unsigned, and_self, if_true]
  · simp only [h_unsigned, if_false]
    have h_neg : negative = true → is_signed = true := by
      intro hn
      cases is_signed
      · exact absurd ⟨rfl, hn⟩ h_unsigned
      · rfl
    cases exponent with
    | none =>
      have hfc := from_chars_lexeme is_signed bits negative m_digits [] h_m (Or.inl rfl) h_neg
      simp only [number_lexeme, List.append_nil] at hfc ⊢
      rw [hfc]
      by_cases h_in : in_range is_signed bits (lexeme_mantissa negative m_digits) = true
      · simp [h_in]
      · simp [h_in]
    | some ek =>
      obtain ⟨e, k_digits⟩ := ek
      obtain ⟨h_ech, h_k⟩ := h_e e k_digits rfl
      have h_erest : (e :: k_digits = [] ∨
          ¬ (48 ≤ (e :: k_digits).headD 0 ∧ (e :: k_digits).headD 0 ≤ 57)) := by
        right
        simp only [List.headD_cons]
        omega
      have hfc := from_chars_lexeme is_signed bits negative m_digits (e :: k_digits) h_m
        h_erest h_neg
      simp only [number_lexeme] at hfc ⊢
      rw [hfc]
      by_cases h_in : in_range is_signed bits (lexeme_mantissa negative m_digits) = true
      · obtain ⟨hk_ne, hk_ds⟩ := h_k
        obtain ⟨kd, kds, rfl⟩ := List.exists_cons_of_ne_nil hk_ne
        have hkd := hk_ds kd (List.mem_cons_self _ _)
        have h46 : ¬ e = 46 := by omega
        have h45 : ¬ kd = 45 := by omega
        have hfk := from_chars_digits false 32 (kd :: kds) ⟨hk_ne, hk_ds⟩
        rw [if_pos h_in]
        dsimp only
        rw [if_neg (show ¬ in_range is_signed bits (lexeme_mantissa negative m_digits) = false
            by rw [h_in]; simp),
          if_neg (List.cons_ne_nil _ _),
          if_neg (show ¬ (e :: kd :: kds).length < 2 by simp),
          if_neg (show ¬ ((e :: kd :: kds).headD 0 = 46 ∨ (e :: kd :: kds).tail.headD 0 = 45)
            by simp only [List.headD_cons, List.tail_cons]; omega),
          List.tail_cons, hfk]
        by_cases h_kin : in_range false 32 (decimal_value (kd :: kds) : Int) = true
        · rw [if_pos h_kin,
            if_neg (show ¬ in_range false 32 (decimal_value (kd :: kds) : Int) = false
              by rw [h_kin]; simp)]
          dsimp only
          rw [Int.toNat_ofNat]
        · rw [if_neg h_kin,
            if_pos (show in_range false 32 (decimal_value (kd :: kds) : Int) = false
              by simpa using h_kin)]
      · simp [h_in]
theorem in_range_of_le (is_signed : Bool) (bits : Nat) (a b : Int) (h0 : 0 ≤ a) (hab : a ≤ b)
    (hb : in_range is_signed bits b = true) : in_range is_signed bits a = true := by
  unfold in_range at hb ⊢
  cases is_signed with
  | true =>
    simp only [if_true, decide_eq_true_eq] at hb ⊢
    have : (0 : Int) < 2 ^ (bits - 1) := by positivity
    constructor <;> omega
  | false =>
    simp only [Bool.false_eq_true, if_false, decide_eq_true_eq] at hb ⊢
    constructor <;> omega

theorem safe_integer_power_loop_zero (is_signed : Bool) (bits : Nat) (fuel : Nat)
    (result b : Int) : safe_integer_power_loop is_signed bits fuel result b 0 = some result := by
  cases fuel <;> simp [safe_integer_power_loop]

theorem safe_integer_power_loop_pos (is_signed : Bool) (bits : Nat) :
    ∀ (fuel : Nat) (result b : Int) (e : Nat), 1 ≤ result → 1 ≤ b →
      in_range is_signed bits result = true → e < 2 ^ fuel →
      safe_integer_power_loop is_signed bits fuel result b e
        = if in_range is_signed bits (result * b ^ e) = true then some (result * b ^ e)
          else none := by
  intro fuel
  induction fuel with
  | zero =>
    intro result b e hr hb hin he
    have : e = 0 := by simpa using he
    subst this
    simp [safe_integer_power_loop, hin]
  | succ f ih =>
    intro result b e hr hb hin he
    by_cases h0 : e = 0
    · subst h0
      simp [safe_integer_power_loop, hin]
    · rw [safe_integer_power_loop, if_neg h0]
      have he2 : e / 2 < 2 ^ f := by
        rw [Nat.div_lt_iff_lt_mul (by norm_num)]
        rw [pow_succ] at he
        exact he
      have hsplit : e = 2 * (e / 2) + e % 2 := (Nat.div_add_mod e 2).symm
      have hbb : (1 : Int) ≤ b * b := by nlinarith
      have hpow : ∀ n : Nat, (1 : Int) ≤ (b * b) ^ n := fun n => one_le_pow₀ hbb
      by_cases hodd : e % 2 = 1
      · have hR : result * b ^ e = b * result * (b * b) ^ (e / 2) := by
          conv_lhs => rw [hsplit, hodd, pow_add, pow_mul]
          ring
        have hbr : (1 : Int) ≤ b * result := by nlinarith
        have hle1 : b * result ≤ result * b ^ e := by
          rw [hR]
          have := hpow (e / 2)
          nlinarith
        simp only [hodd, if_true, safe_integer_mul]
        by_cases h1 : in_range is_signed bits (b * result) = true
        · simp only [h1, if_true]
          by_cases hgt : e > 1
          · simp only [hgt, if_true]
            have hle2 : b * b ≤ result * b ^ e := by
              rw [hR]
              have h21 : 1 ≤ e / 2 := by omega
              have : b * b ≤ (b * b) ^ (e / 2) := le_self_pow₀ hbb (by omega)
              nlinarith
            by_cases h2 : in_range is_signed bits (b * b) = true
            · simp only [h2, if_true]
              rw [ih (b * result) (b * b) (e / 2) hbr hbb h1 he2, hR]
            · simp only [h2, Bool.false_eq_true, if_false]
              rw [if_neg]
              intro hc
              exact h2 (in_range_of_le _ _ _ _ (by linarith) hle2 hc)
          · have he1 : e = 1 := by omega
            subst he1
            simp only [hgt, if_false, Nat.reduceDiv, safe_integer_power_loop_zero, pow_one]
            rw [mul_comm result b, if_pos h1]
        · simp only [h1, Bool.false_eq_true, if_false]
          rw [if_neg]
          intro hc
          exact h1 (in_range_of_le _ _ _ _ (by linarith) hle1 hc)
      · have heven : e % 2 = 0 := by omega
        have hgt : e > 1 := by omega
        have hR : result * b ^ e = result * (b * b) ^ (e / 2) := by
          conv_lhs => rw [hsplit, heven, pow_add, pow_mul]
          ring
        have hle2 : b * b ≤ result * b ^ e := by
          rw [hR]
          have : b * b ≤ (b * b) ^ (e / 2) := le_self_pow₀ hbb (by omega)
          nlinarith
        simp only [hodd, if_false, hgt, if_true, safe_integer_mul]
        by_cases h2 : in_range is_signed bits (b * b) = true
        · simp only [h2, if_true]
          rw [ih result (b * b) (e / 2) hr hbb hin he2, hR]
        · simp only [h2, Bool.false_eq_true, if_false]
          rw [if_neg]
          intro hc
          exact h2 (in_range_of_le _ _ _ _ (by linarith) hle2 hc)

theorem safe_integer_power10_signed (bits : Nat) (h_bits : 2 ≤ bits) (m : Int) (k : Nat)
    (hk : k < 2 ^ 32) :
    safe_integer_power10 true bits m k
      = if in_range true bits ((10 : Int) ^ k) = true ∧ in_range true bits (m * 10 ^ k) = true
        then some (m * 10 ^ k) else none := by
  have h1 : in_range true bits 1 = true := by
    simp only [in_range, if_true, decide_eq_true_eq]
    have : (2 : Int) ^ 1 ≤ 2 ^ (bits - 1) := pow_le_pow_right₀ (by norm_num) (by omega)
    constructor <;> omega
  have hloop := safe_integer_power_loop_pos true bits 32 1 10 k (le_refl _) (by norm_num) h1 hk
  simp only [one_mul] at hloop
  unfold safe_integer_power10 safe_integer_power
  rw [hloop]
  by_cases h10 : in_range true bits ((10 : Int) ^ k) = true
  · simp only [h10, if_true, true_and, safe_integer_mul]
  · simp only [h10, Bool.false_eq_true, if_false, false_and]
theorem in_range_unsigned_lt (bits : Nat) (k : Nat)
    (h : in_range false bits (k : Int) = true) : k < 2 ^ bits := by
  simp only [in_range, Bool.false_eq_true, if_false, decide_eq_true_eq] at h
  have h2 : (k : Int) < ((2 ^ bits : Nat) : Int) := by
    rw [Nat.cast_pow]
    exact h.2
  exact Int.ofNat_lt.mp h2

/-- C18: for every integer type and every number lexeme `m`, `m e k` or
`m E k` (`m` an optionally negative run of digits, `k` a run of digits):
whenever the integer consumer returns a value, that value is `m × 10^k`, with
`k = 0` for a lexeme without exponent part. -/
theorem consume_integer_value (is_signed : Bool) (bits : Nat) (first : token_kind)
    (st st' : consume_state) (negative : Bool) (m_digits : bytes)
    (exponent : Option (Nat × bytes)) (v : Val)
    (h_m : is_digits m_digits)
    (h_e : ∀ e k_digits, exponent = some (e, k_digits) → (e = 101 ∨ e = 69) ∧ is_digits k_digits)
    (h_raw : st.input.raw_number.data = number_lexeme negative m_digits exponent)
    (h : consume_integer is_signed bits first st = (outcome.ok v, st')) :
    v = Val.integer (lexeme_mantissa negative m_digits * 10 ^ lexeme_exponent exponent) := by
  by_cases h_first : first = token_kind.number
  · subst h_first
    rw [consume_integer_lexeme is_signed bits st negative m_digits exponent h_m h_e h_raw] at h
    split at h
    · exact absurd h (fail_ne_ok _ _ _ _ _)
    · split at h
      · exact absurd h (fail_ne_ok _ _ _ _ _)
      · split at h
        · cases h
          simp [lexeme_exponent]
        · rename_i e k_digits
          split at h
          · exact absurd h (fail_ne_ok _ _ _ _ _)
          · rename_i h_k
            split at h
            · exact absurd h (fail_ne_ok _ _ _ _ _)
            · rename_i powered h_pow
              cases h
              have hk : decimal_value k_digits < 2 ^ 32 :=
                in_range_unsigned_lt 32 _ (by simpa using h_k)
              rw [safe_integer_power10_sound is_signed bits _ _ _ hk h_pow]
              rfl
  · unfold consume_integer at h
    rw [if_pos ⟨h_first, rfl⟩] at h
    exact absurd h (fail_ne_ok _ _ _ _ _)

theorem consume_integer_value_witness :
    (begin_state (ascii "3e5")).input.raw_number.data = ascii "3e5" ∧
    is_digits (ascii "3") ∧ is_digits (ascii "5") ∧
    Val.integer 300000
      = Val.integer (lexeme_mantissa false (ascii "3")
          * 10 ^ lexeme_exponent (some (101, ascii "5"))) ∧
    (from_input 2 (Ty.integer true 32) (json.input (ascii "3e5"))).1
      = outcome.ok (some (Val.integer 300000)) ∧
    (from_input 2 (Ty.integer true 32) (json.input (ascii "-2e5"))).1
      = outcome.ok (some (Val.integer (-200000))) ∧
    (from_input 2 (Ty.integer false 8) (json.input (ascii "2E2"))).1
      = outcome.ok (some (Val.integer 200)) :=
  ⟨rfl, by unfold is_digits; decide, by unfold is_digits; decide,
   consume_integer_value true 32 token_kind.number (begin_state (ascii "3e5")) _ false
     (ascii "3") (some (101, ascii "5")) (Val.integer 300000)
     (by unfold is_digits; decide)
     (fun e k h => by cases h; exact ⟨Or.inl rfl, by unfold is_digits; decide⟩) rfl rfl,
   rfl, rfl, rfl⟩
theorem in_range_signed_iff (bits : Nat) (v : Int) :
    in_range true bits v = true ↔ -(2 : Int) ^ (bits - 1) ≤ v ∧ v < (2 : Int) ^ (bits - 1) := by
  simp [in_range]

theorem in_range_signed_of_mul_pow (bits : Nat) (m : Int) (k : Nat)
    (h : in_range true bits (m * 10 ^ k) = true) : in_range true bits m = true := by
  rw [in_range_signed_iff] at h ⊢
  have hp : (1 : Int) ≤ 10 ^ k := one_le_pow₀ (by norm_num)
  have hB : (0 : Int) < 2 ^ (bits - 1) := by positivity
  obtain ⟨h1, h2⟩ := h
  rcases le_or_lt 0 m with hm | hm
  · constructor
    · linarith
    · nlinarith
  · constructor
    · nlinarith
    · linarith

theorem ten_pow_ne_two_pow (k n : Nat) (hk : k ≠ 0) : (10 : Int) ^ k ≠ 2 ^ n := by
  intro h
  have h' : (10 : Nat) ^ k = 2 ^ n := by exact_mod_cast h
  have h5 : 5 ∣ (10 : Nat) ^ k := dvd_pow (by norm_num) hk
  rw [h'] at h5
  have := Nat.Prime.dvd_of_dvd_pow (by norm_num) h5
  omega

theorem in_range_signed_ten_pow (bits : Nat) (h_bits : 2 ≤ bits) (m : Int) (k : Nat)
    (hm : m ≠ 0) (h : in_range true bits (m * 10 ^ k) = true) :
    in_range true bits ((10 : Int) ^ k) = true := by
  have hp : (1 : Int) ≤ 10 ^ k := one_le_pow₀ (by norm_num)
  rcases lt_or_gt_of_ne hm with hneg | hpos
  · rw [in_range_signed_iff] at h ⊢
    obtain ⟨h1, _⟩ := h
    have hB : (0 : Int) < 2 ^ (bits - 1) := by positivity
    have hle : (10 : Int) ^ k ≤ 2 ^ (bits - 1) := by nlinarith
    refine ⟨by linarith, lt_of_le_of_ne hle ?_⟩
    by_cases hk : k = 0
    · subst hk
      have : (2 : Int) ^ 1 ≤ 2 ^ (bits - 1) := pow_le_pow_right₀ (by norm_num) (by omega)
      simp only [pow_zero, ne_eq]
      omega
    · exact ten_pow_ne_two_pow k (bits - 1) hk
  · exact in_range_of_le true bits _ _ (by linarith) (by nlinarith) h

theorem not_in_range_ten_pow (bits : Nat) (h_bits : bits ≤ 64) (k : Nat) (hk : ¬ k < 2 ^ 32) :
    in_range true bits ((10 : Int) ^ k) = false := by
  rw [← Bool.not_eq_true, in_range_signed_iff]
  intro h
  have h1 : (2 : Int) ^ (bits - 1) ≤ 2 ^ k :=
    pow_le_pow_right₀ (by norm_num) (by
      have : 64 ≤ 2 ^ 32 := by norm_num
      omega)
  have h2 : (2 : Int) ^ k ≤ 10 ^ k := pow_le_pow_left₀ (by norm_num) (by norm_num) k
  linarith [h.2]

/-- What the integer consumer computes for a lexeme with an exponent (the
behaviour behind C19): for a signed integer type of 2 to 64 bits and a number
lexeme `m e k` without fraction and with exponent digits `k`, the integer
consumer returns `m × 10^k` when both `10^k` and `m × 10^k` are values of the
type, and otherwise hands on one `value_out_of_bounds` at the value anchor and
raises the consume failure. For `m ≠ 0` the first condition follows from the
second, so the consumer succeeds exactly when `m × 10^k` is representable. -/
theorem consume_integer_exponent_bounds (bits : Nat) (st : consume_state) (negative : Bool)
    (m_digits : bytes) (e : Nat) (k_digits : bytes)
    (h_bits : 2 ≤ bits ∧ bits ≤ 64)
    (h_m : is_digits m_digits) (h_e : e = 101 ∨ e = 69) (h_k : is_digits k_digits)
    (h_raw : st.input.raw_number.data = number_lexeme negative m_digits (some (e, k_digits))) :
    consume_integer true bits token_kind.number st
      = (if in_range true bits ((10 : Int) ^ decimal_value k_digits) = true ∧
            in_range true bits
              (lexeme_mantissa negative m_digits * 10 ^ decimal_value k_digits) = true then
          (outcome.ok
            (Val.integer (lexeme_mantissa negative m_digits * 10 ^ decimal_value k_digits)),
            { st with input := st.input.raw_number_moved })
        else
          fail { st with input := st.input.raw_number_moved }
            (st.input.raw_number_moved.location relative_loc.value)
            doc_error_kind.value_out_of_bounds) ∧
    (lexeme_mantissa negative m_digits ≠ 0 →
      ((in_range true bits ((10 : Int) ^ decimal_value k_digits) = true ∧
          in_range true bits
            (lexeme_mantissa negative m_digits * 10 ^ decimal_value k_digits) = true) ↔
        in_range true bits
          (lexeme_mantissa negative m_digits * 10 ^ decimal_value k_digits) = true)) := by
  constructor
  · rw [consume_integer_lexeme true bits st negative m_digits (some (e, k_digits)) h_m
      (fun e' k' h => by cases h; exact ⟨h_e, h_k⟩) h_raw]
    rw [if_neg (by simp)]
    by_cases h_in : in_range true bits (lexeme_mantissa negative m_digits) = true
    · rw [if_neg (by rw [h_in]; simp)]
      dsimp only
      by_cases h_kin : in_range false 32 (decimal_value k_digits : Int) = true
      · rw [if_neg (by rw [h_kin]; simp),
          safe_integer_power10_signed bits h_bits.1 _ _ (in_range_unsigned_lt 32 _ h_kin)]
        by_cases hc : in_range true bits ((10 : Int) ^ decimal_value k_digits) = true ∧
            in_range true bits
              (lexeme_mantissa negative m_digits * 10 ^ decimal_value k_digits) = true
        · rw [if_pos hc, if_pos hc]
        · rw [if_neg hc, if_neg hc]
      · rw [if_pos (by simpa using h_kin), if_neg]
        intro hc
        have hk : ¬ decimal_value k_digits < 2 ^ 32 := by
          intro hlt
          apply h_kin
          simp only [in_range, Bool.false_eq_true, if_false, decide_eq_true_eq]
          refine ⟨by positivity, ?_⟩
          have : ((decimal_value k_digits : Nat) : Int) < ((2 ^ 32 : Nat) : Int) :=
            Int.ofNat_lt.mpr hlt
          rwa [Nat.cast_pow] at this
        rw [not_in_range_ten_pow bits h_bits.2 _ hk] at hc
        exact absurd hc.1 (by simp)
    · rw [if_pos (by simpa using h_in), if_neg]
      intro hc
      exact h_in (in_range_signed_of_mul_pow bits _ _ hc.2)
  · intro hm
    exact ⟨fun h => h.2, fun h => ⟨in_range_signed_ten_pow bits h_bits.1 _ _ hm h, h⟩⟩

theorem consume_integer_exponent_bounds_witness :
    (consume_integer true 32 token_kind.number (begin_state (ascii "-2e5"))).1
      = outcome.ok (Val.integer (-200000)) ∧
    (from_input 2 (Ty.integer true 32) (json.input (ascii "3e10"))).1 = outcome.ok none ∧
    (from_input 2 (Ty.integer true 32) (json.input (ascii "3e10"))).2.errors
      = [doc_error.mk ⟨0, 1⟩ doc_error_kind.value_out_of_bounds] :=
  ⟨((congrArg Prod.fst (consume_integer_exponent_bounds 32 (begin_state (ascii "-2e5")) true
      (ascii "2") 101 (ascii "5") (by decide) (by unfold is_digits; decide) (Or.inl rfl)
      (by unfold is_digits; decide) rfl).1).trans rfl),
   rfl, by decide!⟩

/-- C19 (failing input): the lexeme `0e10` read as a 32-bit signed integer.
The value `0 × 10^10 = 0` is a value of the type, and the lexemes `0`, `0e1`
and `0e9` give 0. Yet for `0e10` the consumer reports `value_out_of_bounds` at
the value and `from_input` returns nothing: `safe_integer_power10` computes
`10^10` first and fails because that power alone is no value of the type,
although the product it is asked for is 0. -/
theorem from_input_zero_mantissa_out_of_bounds :
    in_range true 32 (lexeme_mantissa false (ascii "0") * 10 ^ decimal_value (ascii "10"))
      = true ∧
    (from_input 2 (Ty.integer true 32) (json.input (ascii "0e10"))).1 = outcome.ok none ∧
    (from_input 2 (Ty.integer true 32) (json.input (ascii "0e10"))).2.errors
      = [doc_error.mk ⟨0, 1⟩ doc_error_kind.value_out_of_bounds] ∧
    (from_input 2 (Ty.integer true 32) (json.input (ascii "0"))).1
      = outcome.ok (some (Val.integer 0)) ∧
    (from_input 2 (Ty.integer true 32) (json.input (ascii "0e1"))).1
      = outcome.ok (some (Val.integer 0)) ∧
    (from_input 2 (Ty.integer true 32) (json.input (ascii "0e9"))).1
      = outcome.ok (some (Val.integer 0)) ∧
    safe_integer_power10 true 32 0 10 = none ∧
    safe_integer_power10 true 32 0 9 = some 0 :=
  ⟨by decide!, rfl, by decide!, rfl, rfl, rfl, by decide!, by decide!⟩

/-- C20 (failing input): `range_bounded<int, 1, 10>` read from `-5`. The
consumer of `range_bounded` returns the value of the inner consumer when the
checker accepts it and otherwise hands on the checker's error at the value
anchor and raises the consume failure. For a value `v ≥ 0` the checker answers
`value_too_big` for `v > Max`, `value_too_small` for `v < Min` and accepts
otherwise, so `{"height":0}` gives one `value_too_small` at the `0` and an
absent result. For a negative value of a signed type the comparison with the
`size_t` bound converts it to a large unsigned number, and the checker answers
`value_too_big` where the value is below `Min`. -/
theorem from_input_range_bounded_negative :
    (∀ (inner : consumer) (validator : Val → Option doc_error_kind) (first : token_kind)
        (st st1 : consume_state) (t : Val), inner first st = (outcome.ok t, st1) →
      consume_validated inner validator first st
        = match validator t with
          | some err => fail st1 (st1.input.location relative_loc.value) err
          | none => (outcome.ok t, st1)) ∧
    (∀ (min max : Nat) (v : Int), 0 ≤ v → v < 2 ^ 64 →
      range_bounded_checker min max (Val.integer v)
        = if (max : Int) < v then some doc_error_kind.value_too_big
          else if v < (min : Int) then some doc_error_kind.value_too_small
          else none) ∧
    (∀ (min max : Nat) (v : Int), v < 0 → -(2 : Int) ^ 63 ≤ v → max < 2 ^ 63 →
      range_bounded_checker min max (Val.integer v) = some doc_error_kind.value_too_big) ∧
    (from_input 4 (Ty.record height_members) (json.input (ascii "\x7b\"height\":0\x7d"))).1
      = outcome.ok none ∧
    (from_input 4 (Ty.record height_members) (json.input (ascii "\x7b\"height\":0\x7d"))).2.errors
      = [doc_error.mk ⟨10, 1⟩ doc_error_kind.value_too_small] ∧
    (from_input 4 (Ty.record height_members) (json.input (ascii "\x7b\"height\":180\x7d"))).1
      = outcome.ok (some (Val.record [Val.integer 180])) ∧
    (from_input 4 (Ty.record height_members)
        (json.input (ascii "\x7b\"height\":301\x7d"))).2.errors
      = [doc_error.mk ⟨10, 1⟩ doc_error_kind.value_too_big] ∧
    (from_input 4 (Ty.record bounded_members) (json.input (ascii "\x7b\"bounded\":0\x7d"))).2.errors
      = [doc_error.mk ⟨11, 1⟩ doc_error_kind.value_too_small] ∧
    (from_input 4 (Ty.record bounded_members) (json.input (ascii "\x7b\"bounded\":-5\x7d"))).1
      = outcome.ok none ∧
    (from_input 4 (Ty.record bounded_members)
        (json.input (ascii "\x7b\"bounded\":-5\x7d"))).2.errors
      = [doc_error.mk ⟨11, 1⟩ doc_error_kind.value_too_big] := by
  refine ⟨?_, ?_, ?_, rfl, by decide!, rfl, by decide!, by decide!, rfl, by decide!⟩
  · intro inner validator first st st1 t h
    unfold consume_validated
    rw [h]
  · intro min max v h0 h1
    have hmod : v % 2 ^ size_t_bits = v := Int.emod_eq_of_lt h0 (by simpa [size_t_bits] using h1)
    simp only [range_bounded_checker, hmod]
    have hv : ((v.toNat : Nat) : Int) = v := Int.toNat_of_nonneg h0
    by_cases hbig : (max : Int) < v
    · rw [if_pos (by omega), if_pos hbig]
    · rw [if_neg (by omega), if_neg hbig]
      by_cases hsmall : v < (min : Int)
      · rw [if_pos (by omega), if_pos hsmall]
      · rw [if_neg (by omega), if_neg hsmall]
  · intro min max v h0 h1 hmax
    have hmod : v % 2 ^ size_t_bits = v + 2 ^ 64 := by
      rw [show v = (v + 2 ^ 64) + (-1) * 2 ^ size_t_bits by simp [size_t_bits],
        Int.add_mul_emod_self]
      simp only [size_t_bits]
      rw [Int.emod_eq_of_lt (by omega) (by omega)]
      omega
    simp only [range_bounded_checker, hmod]
    rw [if_pos (by omega)]

namespace json

theorem string_literal_scan_ordinary (pre : bytes) (h_pre : ∀ b ∈ pre, b ≠ 34 ∧ 32 ≤ b) :
    ∀ (rest : bytes) (needs_escape : Bool),
      string_literal_scan (pre ++ rest) needs_escape
        = string_literal_scan rest (needs_escape || decide (92 ∈ pre)) := by
  induction pre with
  | nil => intro rest needs_escape; simp
  | cons b bs ih =>
    intro rest needs_escape
    have hb := h_pre b (List.mem_cons_self _ _)
    have ih' := ih (fun c hc => h_pre c (List.mem_cons_of_mem _ hc))
    have h_ctl : is_control_char b = false := by
      simp only [is_control_char, decide_eq_false_iff_not]
      omega
    rw [List.cons_append, string_literal_scan]
    by_cases h92 : b = 92
    · subst h92
      simp only [ne_eq, not_true_eq_false, false_and, if_false, h_ctl, Bool.false_eq_true]
      rw [if_neg (by decide), if_pos trivial, ih']
      simp
    · have h10 : b ≠ 10 := by omega
      rw [if_pos ⟨h92, hb.1, h_ctl⟩, ih']
      congr 1
      simp [List.mem_cons, Ne.symm h92]

theorem string_literal_scan_stop (c : Nat) (rest : bytes) (needs_escape : Bool) :
    (c = 10 → string_literal_scan (c :: rest) needs_escape
      = (some parse_error_kind.string_invalid_newline, needs_escape, c :: rest)) ∧
    (c < 32 → c ≠ 10 → string_literal_scan (c :: rest) needs_escape
      = (some parse_error_kind.string_invalid_char, needs_escape, c :: rest)) ∧
    (c = 34 → string_literal_scan (c :: rest) needs_escape = (none, needs_escape, c :: rest)) := by
  refine ⟨?_, ?_, ?_⟩
  · intro h
    subst h
    simp [string_literal_scan, is_control_char]
  · intro h32 h10
    have h_ctl : is_control_char c = true := by simp [is_control_char, h32]
    rw [string_literal_scan, if_neg (by simp [h_ctl]), if_neg h10, if_pos h_ctl]
  · intro h
    subst h
    simp [string_literal_scan, is_control_char]

theorem length_append_sub (pre rest : bytes) :
    (pre ++ rest).take ((pre ++ rest).length - rest.length) = pre := by
  rw [List.length_append, Nat.add_sub_cancel]
  exact List.take_left' rfl

theorem parse_string_literal_quote (pre rest : bytes) (h_pre : ∀ b ∈ pre, b ≠ 34 ∧ 32 ≤ b) :
    parse_string_literal (pre ++ 34 :: rest)
      = (Sum.inr (if 92 ∈ pre then ref_string.make_copy (unescape_string pre)
          else ref_string.of_view pre), rest) := by
  unfold parse_string_literal
  rw [string_literal_scan_ordinary pre h_pre, (string_literal_scan_stop 34 rest _).2.2 rfl]
  simp only [Bool.false_or, length_append_sub, List.tail_cons]
  by_cases h : 92 ∈ pre
  · simp [h]
  · simp [h]

/-- C26: scanning the body of a string literal, with `pre` the bytes before
the first byte that is a quote or below 32 (a backslash does not hide the byte
behind it): a line feed there gives `string_invalid_newline`, another byte
below 32 `string_invalid_char`, both with the view left in front of that byte;
a quote ends the literal and the view is left behind it; and a body without
such a byte gives `eof_unexpected`. -/
theorem parse_string_literal_first_stop (pre : bytes) (h_pre : ∀ b ∈ pre, b ≠ 34 ∧ 32 ≤ b) :
    (∀ rest, parse_string_literal (pre ++ 10 :: rest)
      = (Sum.inl parse_error_kind.string_invalid_newline, 10 :: rest)) ∧
    (∀ c rest, c < 32 → c ≠ 10 → parse_string_literal (pre ++ c :: rest)
      = (Sum.inl parse_error_kind.string_invalid_char, c :: rest)) ∧
    (∀ rest, parse_string_literal (pre ++ 34 :: rest)
      = (Sum.inr (if 92 ∈ pre then ref_string.make_copy (unescape_string pre)
          else ref_string.of_view pre), rest)) ∧
    parse_string_literal pre = (Sum.inl parse_error_kind.eof_unexpected, []) := by
  refine ⟨?_, ?_, ?_, ?_⟩
  · intro rest
    unfold parse_string_literal
    rw [string_literal_scan_ordinary pre h_pre, (string_literal_scan_stop 10 rest _).1 rfl]
  · intro c rest h32 h10
    unfold parse_string_literal
    rw [string_literal_scan_ordinary pre h_pre, (string_literal_scan_stop c rest _).2.1 h32 h10]
  · intro rest
    exact parse_string_literal_quote pre rest h_pre
  · unfold parse_string_literal
    have := string_literal_scan_ordinary pre h_pre [] false
    rw [List.append_nil] at this
    rw [this]
    simp [string_literal_scan]

theorem parse_string_literal_first_stop_witness :
    parse_string_literal (ascii "no end quote," ++ 10 :: ascii "  \"c\" : null")
      = (Sum.inl parse_error_kind.string_invalid_newline, 10 :: ascii "  \"c\" : null") ∧
    parse_string_literal (ascii "no end quote," ++ 34 :: ascii " ")
      = (Sum.inr (ref_string.of_view (ascii "no end quote,")), ascii " ") :=
  ⟨(parse_string_literal_first_stop (ascii "no end quote,") (by decide)).1 _,
   (parse_string_literal_first_stop (ascii "no end quote,") (by decide)).2.2.1 _⟩

/-- C22: a string literal whose body holds no backslash, no quote and no byte
below 32. `parse_string_literal` returns the non-owning `ref_string` of exactly
the body and leaves the view behind the closing quote, and `parse_string`
delivers the token `string` with this `ref_string` as its payload. -/
theorem parse_string_borrowed (raise : raiser) (p : parser) (body rest : bytes)
    (h_body : ∀ b ∈ body, b ≠ 92 ∧ b ≠ 34 ∧ 32 ≤ b)
    (h_source : p.source = 34 :: (body ++ 34 :: rest)) :
    parse_string_literal (body ++ 34 :: rest) = (Sum.inr (ref_string.of_view body), rest) ∧
    p.parse_string raise
      = (outcome.ok token_kind.string,
          { p with source := rest, current_string := ref_string.of_view body }) ∧
    (p.parse_string raise).2.string.data = body ∧
    (p.parse_string raise).2.string.is_allocated = false := by
  have h_pre : ∀ b ∈ body, b ≠ 34 ∧ 32 ≤ b := fun b hb => (h_body b hb).2
  have h92 : ¬ 92 ∈ body := fun h => (h_body 92 h).1 rfl
  have h_lit : parse_string_literal (body ++ 34 :: rest)
      = (Sum.inr (ref_string.of_view body), rest) := by
    rw [parse_string_literal_quote body rest h_pre, if_neg h92]
  have h_tok : p.parse_string raise
      = (outcome.ok token_kind.string,
          { p with source := rest, current_string := ref_string.of_view body }) := by
    unfold parser.parse_string
    simp only [h_source, List.tail_cons, h_lit]
  refine ⟨h_lit, h_tok, ?_, ?_⟩
  · rw [h_tok]; rfl
  · rw [h_tok]; rfl

theorem parse_string_borrowed_witness :
    ((json.input (ascii "\"string\"")).next_token.1 = outcome.ok token_kind.string ∧
      (json.input (ascii "\"string\"")).next_token.2.string = ⟨ascii "string", false⟩ ∧
      (json.input (ascii "\"string\"")).next_token.2.source = []) ∧
    parse_string_literal (ascii "string" ++ 34 :: [])
      = (Sum.inr (ref_string.of_view (ascii "string")), []) :=
  ⟨⟨by decide!, by decide!, by decide!⟩,
   (parse_string_borrowed (fun _ q => (outcome.doc_input_exception, q))
      { json.input (ascii "\"string\"") with source := ascii "\"string\"" }
      (ascii "string") [] (by decide) rfl).1⟩

/-- C23 (failing input): the document `"a\"b"`. The scan of
`parse_string_literal` goes on with the byte right behind a backslash as with
any other byte, so the quote of `\"` ends the literal: for every body `pre`
without backslash, quote or control byte, the literal `pre\"...` is
`unescape_string` of `pre\`. The document yields the string token `a\` and then
`eof`, without an error; `unescape_string` itself would turn `a\"b` into
`a"b`. -/
theorem next_token_escaped_quote_ends_literal :
    (∀ pre rest : bytes, (∀ b ∈ pre, b ≠ 92 ∧ b ≠ 34 ∧ 32 ≤ b) →
      parse_string_literal (pre ++ 92 :: 34 :: rest)
        = (Sum.inr (ref_string.make_copy (unescape_string (pre ++ [92]))), rest)) ∧
    (json.input (ascii "\"a\\\"b\"")).next_token.1 = outcome.ok token_kind.string ∧
    (json.input (ascii "\"a\\\"b\"")).next_token.2.string = ⟨ascii "a\\", true⟩ ∧
    (json.input (ascii "\"a\\\"b\"")).next_token.2.source = ascii "b\"" ∧
    (json.input (ascii "\"a\\\"b\"")).next_token.2.next_token.1 = outcome.ok token_kind.eof ∧
    (json.input (ascii "\"a\\\"b\"")).next_token.2.next_token.2.reported = [] ∧
    unescape_string (ascii "a\\\"b") = ascii "a\"b" := by
  refine ⟨?_, by decide!, by decide!, by decide!, by decide!, by decide!, by decide!⟩
  intro pre rest h_pre
  have h1 : ∀ b ∈ pre ++ [92], b ≠ 34 ∧ 32 ≤ b := by
    intro b hb
    rcases List.mem_append.mp hb with h | h
    · exact (h_pre b h).2
    · simp only [List.mem_singleton] at h
      subst h
      decide
  have := parse_string_literal_quote (pre ++ [92]) rest h1
  rw [List.append_assoc, List.singleton_append] at this
  rw [this, if_pos (by simp)]

end json
namespace json

theorem specials_index_none (c : Nat)
    (h : c ≠ 34 ∧ c ≠ 92 ∧ c ≠ 47 ∧ c ≠ 98 ∧ c ≠ 102 ∧ c ≠ 110 ∧ c ≠ 114 ∧ c ≠ 116)
    (h0 : c ≠ 0) : specials_index c = none := by
  obtain ⟨h1, h2, h3, h4, h5, h6, h7, h8⟩ := h
  simp [specials_index, h1, h2, h3, h4, h5, h6, h7, h8, h0]

theorem unescape_string_loop_copy (fuel : Nat) (c0 : Nat) (rest result : bytes) (h : c0 ≠ 92) :
    unescape_string_loop (fuel + 1) (c0 :: rest) result
      = unescape_string_loop fuel rest (result ++ [c0]) := by
  rw [unescape_string_loop]
  simp [h]

/-- C24: in `unescape_string`, a backslash followed by a byte `c1` of the
literal (32 or above) that is none of quote, backslash, slash, `b`, `f`, `n`,
`r`, `t` and does not start a `\u` or `\U` with four hexadecimal digits: the
backslash and `c1` are both appended to the result as they are; and a byte
that is no backslash is appended as it is. -/
theorem unescape_string_loop_unknown_escape (fuel : Nat) (c1 : Nat) (rest result : bytes)
    (h_c1 : c1 ≠ 34 ∧ c1 ≠ 92 ∧ c1 ≠ 47 ∧ c1 ≠ 98 ∧ c1 ≠ 102 ∧ c1 ≠ 110 ∧ c1 ≠ 114 ∧ c1 ≠ 116)
    (h_byte : 32 ≤ c1)
    (h_hex : (c1 = 117 ∨ c1 = 85) → number_from_hex 16 4 rest 0 = none) :
    unescape_string_loop (fuel + 2) (92 :: c1 :: rest) result
      = unescape_string_loop fuel rest (result ++ [92, c1]) ∧
    (∀ (c0 : Nat) (rest' result' : bytes), c0 ≠ 92 →
      unescape_string_loop (fuel + 1) (c0 :: rest') result'
        = unescape_string_loop fuel rest' (result' ++ [c0])) := by
  refine ⟨?_, fun c0 rest' result' h => unescape_string_loop_copy fuel c0 rest' result' h⟩
  have h_sp := specials_index_none c1 h_c1 (by omega)
  rw [unescape_string_loop]
  simp only [List.length_cons, ne_eq, not_true_eq_false, or_false, List.headD_cons, h_sp,
    List.drop_succ_cons, List.drop_zero]
  rw [if_neg (by omega)]
  have h_hex1 : (if 6 ≤ rest.length + 1 + 1 ∧ (c1 = 117 ∨ c1 = 85) then
      number_from_hex 16 4 rest 0 else none) = none := by
    split
    · rename_i hc
      exact h_hex hc.2
    · rfl
  rw [h_hex1]
  simp only
  rw [unescape_string_loop_copy fuel c1 rest _ h_c1.2.1]
  simp

theorem unescape_string_loop_unknown_escape_witness :
    unescape_string_loop (0 + 2) (92 :: 122 :: []) []
      = unescape_string_loop 0 [] ([] ++ [92, 122]) ∧
    unescape_string (ascii "\\z") = ascii "\\z" ∧
    unescape_string (ascii "\\U123 ") = ascii "\\U123 " ∧
    unescape_string (ascii "abc \\t \\n\\f \\\\ \\z \\U123 ")
      = ascii "abc \t \n\x0c \\ \\z \\U123 " :=
  ⟨(unescape_string_loop_unknown_escape 0 122 [] [] (by decide) (by decide) (by decide)).1,
   by decide!, by decide!, by decide!⟩

end json
theorem is_surrogate1_iff (cp : Nat) : is_surrogate1 cp = true ↔ 0xD800 ≤ cp ∧ cp ≤ 0xDBFF := by
  simp only [is_surrogate1, decide_eq_true_eq, Nat.shiftRight_eq_div_pow]
  omega

theorem is_surrogate2_iff (cp : Nat) : is_surrogate2 cp = true ↔ 0xDC00 ≤ cp ∧ cp ≤ 0xDFFF := by
  simp only [is_surrogate2, decide_eq_true_eq, Nat.shiftRight_eq_div_pow]
  omega

theorem from_surrogate_pair_eq (cp1 cp2 : Nat) (h1 : 0xD800 ≤ cp1 ∧ cp1 ≤ 0xDBFF)
    (h2 : 0xDC00 ≤ cp2 ∧ cp2 ≤ 0xDFFF) :
    from_surrogate_pair cp1 cp2 = 0x10000 + (cp1 - 0xD800) * 0x400 + (cp2 - 0xDC00) := by
  unfold from_surrogate_pair
  have e1 : cp1 &&& 0b1111111111 = cp1 % 2 ^ 10 := Nat.and_pow_two_sub_one_eq_mod cp1 10
  have e2 : cp2 &&& 0b1111111111 = cp2 % 2 ^ 10 := Nat.and_pow_two_sub_one_eq_mod cp2 10
  rw [e1, e2, Nat.shiftLeft_eq]
  have h3 : cp2 % 2 ^ 10 < 2 ^ 10 := Nat.mod_lt _ (by norm_num)
  rw [Nat.mul_comm, ← Nat.mul_add_lt_is_or h3]
  omega

theorem encode_utf8_four (cp : Nat) (h : 0x10000 ≤ cp) (h' : cp < 0x200000) :
    encode_utf8 cp
      = [0xF0 + cp / 0x40000, 0x80 + cp / 0x1000 % 0x40, 0x80 + cp / 0x40 % 0x40,
          0x80 + cp % 0x40] := by
  have or_80 : ∀ x < 64, x ||| 0x80 = 0x80 + x := by decide
  have or_f0 : ∀ x < 8, x ||| 0xF0 = 0xF0 + x := by decide
  have and_3f : ∀ x : Nat, x &&& 0x3F = x % 64 := fun x => Nat.and_pow_two_sub_one_eq_mod x 6
  unfold encode_utf8
  rw [if_neg (by omega), if_neg (by omega), if_neg (by omega)]
  simp only [Nat.shiftRight_eq_div_pow, and_3f]
  rw [or_f0 _ (by omega), or_80 _ (Nat.mod_lt _ (by norm_num)),
    or_80 _ (Nat.mod_lt _ (by norm_num)), or_80 _ (Nat.mod_lt _ (by norm_num))]
  have m1 : (0xF0 + cp / 2 ^ 18) % 256 = 0xF0 + cp / 0x40000 := by omega
  have m2 : ∀ x, (0x80 + x % 64) % 256 = 0x80 + x % 0x40 := by intro x; omega
  rw [m1, m2, m2, m2]

namespace json

/-- C25: in `unescape_string`, `\u` or `\U` with four hexadecimal digits of
value `cp1`. When `cp1` is in D800..DBFF and is followed by another `\u` or
`\U` with four hexadecimal digits of value `cp2` in DC00..DFFF, all 12 bytes
are taken for the four bytes `encode_utf8` gives for the code point
`0x10000 + ((cp1 & 0x3FF) << 10 | (cp2 & 0x3FF))`, which is
`0x10000 + (cp1 - 0xD800) * 0x400 + (cp2 - 0xDC00)`. In every other case
exactly 6 bytes are taken for `encode_utf8 cp1`. For a code point from 0x10000
on `encode_utf8` gives the four bytes of UTF-8. -/
theorem unescape_string_loop_unicode (fuel : Nat) (u : Nat) (rest result : bytes) (cp1 : Nat)
    (h_u : u = 117 ∨ u = 85) (h_len : 4 ≤ rest.length)
    (h_hex : number_from_hex 16 4 rest 0 = some cp1) :
    (∀ cp2, 0xD800 ≤ cp1 ∧ cp1 ≤ 0xDBFF → 10 ≤ rest.length → (rest.drop 4).headD 0 = 92 →
      ((rest.drop 5).headD 0 = 117 ∨ (rest.drop 5).headD 0 = 85) →
      number_from_hex 16 4 (rest.drop 6) 0 = some cp2 → 0xDC00 ≤ cp2 ∧ cp2 ≤ 0xDFFF →
      unescape_string_loop (fuel + 1) (92 :: u :: rest) result
        = unescape_string_loop fuel (rest.drop 10)
            (result ++ encode_utf8 (0x10000 + (((cp1 &&& 0x3FF) <<< 10) ||| (cp2 &&& 0x3FF)))) ∧
      (encode_utf8 (0x10000 + (((cp1 &&& 0x3FF) <<< 10) ||| (cp2 &&& 0x3FF)))).length = 4 ∧
      0x10000 + (((cp1 &&& 0x3FF) <<< 10) ||| (cp2 &&& 0x3FF))
        = 0x10000 + (cp1 - 0xD800) * 0x400 + (cp2 - 0xDC00)) ∧
    (¬ (0xD800 ≤ cp1 ∧ cp1 ≤ 0xDBFF ∧ 10 ≤ rest.length ∧ (rest.drop 4).headD 0 = 92 ∧
        ((rest.drop 5).headD 0 = 117 ∨ (rest.drop 5).headD 0 = 85) ∧
        ∃ cp2, number_from_hex 16 4 (rest.drop 6) 0 = some cp2 ∧ 0xDC00 ≤ cp2 ∧ cp2 ≤ 0xDFFF) →
      unescape_string_loop (fuel + 1) (92 :: u :: rest) result
        = unescape_string_loop fuel (rest.drop 4) (result ++ encode_utf8 cp1)) ∧
    (∀ cp, 0x10000 ≤ cp → cp < 0x200000 →
      encode_utf8 cp
        = [0xF0 + cp / 0x40000, 0x80 + cp / 0x1000 % 0x40, 0x80 + cp / 0x40 % 0x40,
            0x80 + cp % 0x40]) := by
  have h_sp : specials_index u = none := by
    rcases h_u with h | h <;> subst h <;> decide
  have h_step : unescape_string_loop (fuel + 1) (92 :: u :: rest) result
      = match (if 12 ≤ rest.length + 2 ∧ (rest.drop 4).headD 0 = 92 ∧
              ((rest.drop 5).headD 0 = 117 ∨ (rest.drop 5).headD 0 = 85) ∧
              is_surrogate1 cp1 = true then
            match number_from_hex 16 4 (rest.drop 6) 0 with
            | some codepoint2 => if is_surrogate2 codepoint2 = true then some codepoint2 else none
            | none => none
          else none) with
        | some codepoint2 =>
          unescape_string_loop fuel (rest.drop 10)
            (result ++ encode_utf8 (from_surrogate_pair cp1 codepoint2))
        | none => unescape_string_loop fuel (rest.drop 4) (result ++ encode_utf8 cp1) := by
    rw [unescape_string_loop]
    simp only [List.length_cons, ne_eq, not_true_eq_false, or_false, List.headD_cons, h_sp,
      List.drop_succ_cons, List.drop_zero]
    rw [if_neg (by omega), if_pos ⟨by omega, h_u⟩, h_hex]
  refine ⟨?_, ?_, fun cp h h' => encode_utf8_four cp h h'⟩
  · intro cp2 h1 h10 h92 hu2 hhex2 h2
    have hfs := from_surrogate_pair_eq cp1 cp2 h1 h2
    have hform : 0x10000 + (((cp1 &&& 0x3FF) <<< 10) ||| (cp2 &&& 0x3FF))
        = from_surrogate_pair cp1 cp2 := by
      unfold from_surrogate_pair
      rw [Nat.add_comm]
    rw [h_step, if_pos ⟨by omega, h92, hu2, (is_surrogate1_iff cp1).mpr h1⟩, hhex2]
    simp only [(is_surrogate2_iff cp2).mpr h2, if_true]
    rw [hform]
    refine ⟨rfl, ?_, hfs⟩
    rw [encode_utf8_four _ (by rw [hfs]; omega) (by rw [hfs]; omega)]
    rfl
  · intro h_not
    rw [h_step]
    have h_none : (if 12 ≤ rest.length + 2 ∧ (rest.drop 4).headD 0 = 92 ∧
              ((rest.drop 5).headD 0 = 117 ∨ (rest.drop 5).headD 0 = 85) ∧
              is_surrogate1 cp1 = true then
            match number_from_hex 16 4 (rest.drop 6) 0 with
            | some codepoint2 => if is_surrogate2 codepoint2 = true then some codepoint2 else none
            | none => none
          else none) = none := by
      split
      · rename_i hc
        obtain ⟨hl, h92, hu2, hs1⟩ := hc
        have h1 := (is_surrogate1_iff cp1).mp hs1
        cases hh : number_from_hex 16 4 (rest.drop 6) 0 with
        | none => rfl
        | some cp2 =>
          simp only
          split
          · rename_i hs2
            exact absurd ⟨h1.1, h1.2, by omega, h92, hu2, cp2, hh,
              (is_surrogate2_iff cp2).mp hs2⟩ h_not
          · rfl
      · rfl
    rw [h_none]

theorem unescape_string_loop_unicode_witness :
    unescape_string_loop (11 + 1) (92 :: 117 :: ascii "D834\\uDD1E") []
      = unescape_string_loop 11 ((ascii "D834\\uDD1E").drop 10)
          ([] ++ encode_utf8 (0x10000 + (((0xD834 &&& 0x3FF) <<< 10) ||| (0xDD1E &&& 0x3FF)))) ∧
    unescape_string (ascii "\\uD834\\uDD1E") = [0xF0, 0x9D, 0x84, 0x9E] ∧
    encode_utf8 0x1D11E = [0xF0, 0x9D, 0x84, 0x9E] ∧
    unescape_string (ascii "\\U2191") = encode_utf8 0x2191 ∧
    encode_utf8 0x2191 = [0xE2, 0x86, 0x91] ∧
    unescape_string (ascii "\\uD834x") = encode_utf8 0xD834 ++ ascii "x" :=
  ⟨((unescape_string_loop_unicode 11 117 (ascii "D834\\uDD1E") [] 0xD834 (Or.inl rfl)
      (by decide) (by decide)).1 0xDD1E (by decide) (by decide) (by decide) (by decide)
      (by decide) (by decide)).1,
   by decide!, by decide!, by decide!, by decide!, by decide!⟩

end json
theorem expect_digits_append (ds rest : bytes) (h_ds : is_digits ds)
    (h_rest : rest = [] ∨ ¬ (48 ≤ rest.headD 0 ∧ rest.headD 0 ≤ 57)) :
    expect_digits (ds ++ rest) = (number_validation_result.success, rest) := by
  unfold expect_digits
  rw [skip_digits_append ds h_ds.2 rest h_rest 0]
  have : 0 < ds.length := List.length_pos.mpr h_ds.1
  simp only [Nat.zero_add]
  rw [if_neg (by omega)]

theorem skip_digits_spec : ∀ (s : bytes) (count : Nat),
    ∃ ds, s = ds ++ (skip_digits s count).1 ∧ (∀ c ∈ ds, 48 ≤ c ∧ c ≤ 57) ∧
      (skip_digits s count).2 = count + ds.length := by
  intro s
  induction s with
  | nil => intro count; exact ⟨[], rfl, by simp, rfl⟩
  | cons c cs ih =>
    intro count
    rw [skip_digits]
    by_cases hc : 48 ≤ c ∧ c ≤ 57
    · rw [if_pos hc]
      obtain ⟨ds, h1, h2, h3⟩ := ih (count + 1)
      refine ⟨c :: ds, by rw [List.cons_append, ← h1], ?_, by rw [h3, List.length_cons]; omega⟩
      intro x hx
      rcases List.mem_cons.mp hx with h | h
      · rw [h]; exact hc
      · exact h2 x h
    · rw [if_neg hc]
      exact ⟨[], rfl, by simp, rfl⟩

theorem expect_digits_success (s rest : bytes)
    (h : expect_digits s = (number_validation_result.success, rest)) :
    ∃ ds, is_digits ds ∧ s = ds ++ rest := by
  unfold expect_digits at h
  obtain ⟨ds, h1, h2, h3⟩ := skip_digits_spec s 0
  simp only at h
  split at h
  · split at h <;> cases h
  · rename_i hne
    simp only [Prod.mk.injEq, true_and] at h
    rw [h] at h1
    refine ⟨ds, ⟨?_, h2⟩, h1⟩
    intro hnil
    rw [hnil] at h3
    simp at h3
    exact hne h3
theorem exponent_text_head (exponent : Option (Nat × Bool × bytes))
    (h_e : ∀ e neg k, exponent = some (e, neg, k) → (e = 101 ∨ e = 69) ∧ is_digits k) :
    exponent_text exponent = [] ∨
      ((exponent_text exponent).headD 0 = 101 ∨ (exponent_text exponent).headD 0 = 69) := by
  cases exponent with
  | none => left; rfl
  | some ek =>
    obtain ⟨e, neg, k⟩ := ek
    right
    exact (h_e e neg k rfl).1

theorem expect_number_exponent (exponent : Option (Nat × Bool × bytes))
    (h_e : ∀ e neg k, exponent = some (e, neg, k) → (e = 101 ∨ e = 69) ∧ is_digits k) :
    (if exponent_text exponent ≠ [] ∧
        ((exponent_text exponent).headD 0 = 101 ∨ (exponent_text exponent).headD 0 = 69) then
        if (exponent_text exponent).tail = [] then
          (number_validation_result.eof, (exponent_text exponent).tail)
        else
          expect_digits (if (exponent_text exponent).tail.headD 0 = 45 then
            (exponent_text exponent).tail.tail else (exponent_text exponent).tail)
      else (number_validation_result.success, exponent_text exponent))
      = (number_validation_result.success, []) := by
  cases exponent with
  | none => simp [exponent_text]
  | some ek =>
    obtain ⟨e, neg, k⟩ := ek
    obtain ⟨h_ech, h_k⟩ := h_e e neg k rfl
    obtain ⟨d, ds, rfl⟩ := List.exists_cons_of_ne_nil h_k.1
    have hd := h_k.2 d (List.mem_cons_self _ _)
    have hk := expect_digits_append (d :: ds) [] h_k (Or.inl rfl)
    rw [List.append_nil] at hk
    have h45 : ¬ d = 45 := by omega
    cases neg with
    | true => simp [exponent_text, h_ech, hk]
    | false => simp [exponent_text, h_ech, hk, h45]

theorem expect_number_text (negative : Bool) (int_digits : bytes) (fraction : Option bytes)
    (exponent : Option (Nat × Bool × bytes)) (h_int : is_digits int_digits)
    (h_f : ∀ f, fraction = some f → is_digits f)
    (h_e : ∀ e neg k, exponent = some (e, neg, k) → (e = 101 ∨ e = 69) ∧ is_digits k) :
    expect_number (number_text negative int_digits fraction exponent)
      = (number_validation_result.success, []) := by
  have h_exp := expect_number_exponent exponent h_e
  have h_head := exponent_text_head exponent h_e
  unfold number_text
  generalize exponent_text exponent = E at h_exp h_head ⊢
  have h_Ehead : E = [] ∨ ¬ (48 ≤ E.headD 0 ∧ E.headD 0 ≤ 57) := by
    rcases h_head with h | h
    · exact Or.inl h
    · right; omega
  have h_E46 : ¬ (E ≠ [] ∧ E.headD 0 = 46) := by
    rcases h_head with h | h
    · exact fun h' => h'.1 h
    · omega
  obtain ⟨d, ds, h_ds⟩ := List.exists_cons_of_ne_nil h_int.1
  have hd : 48 ≤ d ∧ d ≤ 57 := h_int.2 d (by rw [h_ds]; exact List.mem_cons_self _ _)
  have h_sign : ∀ tl : bytes,
      (if ((if negative then [45] else []) ++ (int_digits ++ tl)).headD 0 = 45 then
        ((if negative then [45] else []) ++ (int_digits ++ tl)).tail
      else (if negative then [45] else []) ++ (int_digits ++ tl))
      = int_digits ++ tl := by
    intro tl
    cases negative with
    | true => simp
    | false =>
      rw [h_ds]
      have h45 : ¬ d = 45 := by omega
      simp [h45]
  unfold expect_number
  simp only [h_sign]
  cases fraction with
  | none =>
    simp only [fraction_text, List.nil_append]
    rw [expect_digits_append int_digits E h_int h_Ehead]
    simp only
    rw [if_neg h_E46]
    exact h_exp
  | some f =>
    have hf := h_f f rfl
    rw [expect_digits_append int_digits _ h_int
      (Or.inr (by simp only [fraction_text, List.cons_append, List.headD_cons]; omega))]
    simp only [fraction_text, List.cons_append, ne_eq, reduceCtorEq, not_false_eq_true,
      List.headD_cons, and_self, if_true, List.tail_cons]
    rw [expect_digits_append f E hf h_Ehead]
    exact h_exp
theorem sign_split (s : bytes) :
    ∃ neg : Bool, s = (if neg then [45] else []) ++ (if s.headD 0 = 45 then s.tail else s) := by
  cases s with
  | nil => exact ⟨false, by simp⟩
  | cons c cs =>
    by_cases hc : c = 45
    · exact ⟨true, by simp [hc]⟩
    · exact ⟨false, by simp [hc]⟩

theorem fraction_stage (s1 s2 : bytes)
    (h : (if s1 ≠ [] ∧ s1.headD 0 = 46 then expect_digits s1.tail
      else (number_validation_result.success, s1)) = (number_validation_result.success, s2)) :
    ∃ fraction : Option bytes, (∀ f, fraction = some f → is_digits f) ∧
      s1 = fraction_text fraction ++ s2 := by
  by_cases hc : s1 ≠ [] ∧ s1.headD 0 = 46
  · rw [if_pos hc] at h
    obtain ⟨f, hf, h_eq⟩ := expect_digits_success _ _ h
    refine ⟨some f, ?_, ?_⟩
    · intro f' hf'
      cases hf'
      exact hf
    · obtain ⟨c, cs, rfl⟩ := List.exists_cons_of_ne_nil hc.1
      simp only [List.headD_cons, List.tail_cons] at hc h_eq
      rw [hc.2, h_eq]
      rfl
  · rw [if_neg hc] at h
    refine ⟨none, ?_, ?_⟩
    · intro f hf; cases hf
    · simp only [Prod.mk.injEq, true_and] at h
      rw [h]; rfl

theorem exponent_stage (s2 rest : bytes)
    (h : (if s2 ≠ [] ∧ (s2.headD 0 = 101 ∨ s2.headD 0 = 69) then
        if s2.tail = [] then (number_validation_result.eof, s2.tail)
        else expect_digits (if s2.tail.headD 0 = 45 then s2.tail.tail else s2.tail)
      else (number_validation_result.success, s2)) = (number_validation_result.success, rest)) :
    ∃ exponent : Option (Nat × Bool × bytes),
      (∀ e neg k, exponent = some (e, neg, k) → (e = 101 ∨ e = 69) ∧ is_digits k) ∧
      s2 = exponent_text exponent ++ rest := by
  by_cases hc : s2 ≠ [] ∧ (s2.headD 0 = 101 ∨ s2.headD 0 = 69)
  · rw [if_pos hc] at h
    by_cases ht : s2.tail = []
    · rw [if_pos ht] at h
      cases h
    · rw [if_neg ht] at h
      obtain ⟨k, hk, h_eq⟩ := expect_digits_success _ _ h
      obtain ⟨neg, h_neg⟩ := sign_split s2.tail
      obtain ⟨c, cs, rfl⟩ := List.exists_cons_of_ne_nil hc.1
      simp only [List.headD_cons, List.tail_cons] at hc h_eq h_neg
      refine ⟨some (c, neg, k), ?_, ?_⟩
      · intro e neg' k' h'
        cases h'
        exact ⟨hc.2, hk⟩
      · rw [h_eq] at h_neg
        simp only [exponent_text, List.cons_append, List.append_assoc]
        rw [← h_neg]
  · rw [if_neg hc] at h
    refine ⟨none, ?_, ?_⟩
    · intro e neg k h'; cases h'
    · simp only [Prod.mk.injEq, true_and] at h
      rw [h]; rfl

theorem expect_number_success (source rest : bytes)
    (h : expect_number source = (number_validation_result.success, rest)) :
    ∃ consumed, is_number_text consumed ∧ source = consumed ++ rest := by
  unfold expect_number at h
  obtain ⟨neg, h_neg⟩ := sign_split source
  generalize (if source.headD 0 = 45 then source.tail else source) = s0 at h h_neg
  simp only at h
  cases h1 : expect_digits s0 with
  | mk r1 s1 =>
    rw [h1] at h
    cases r1 with
    | eof => cases h
    | invalid_char => cases h
    | success =>
      simp only at h
      obtain ⟨ds, h_ds, h_s0⟩ := expect_digits_success _ _ h1
      cases h2 : (if s1 ≠ [] ∧ s1.headD 0 = 46 then expect_digits s1.tail
          else (number_validation_result.success, s1)) with
      | mk r2 s2 =>
        rw [h2] at h
        cases r2 with
        | eof => cases h
        | invalid_char => cases h
        | success =>
          simp only at h
          obtain ⟨fraction, h_f, h_s1⟩ := fraction_stage _ _ h2
          obtain ⟨exponent, h_e, h_s2⟩ := exponent_stage _ _ h
          refine ⟨number_text neg ds fraction exponent, ⟨neg, ds, fraction, exponent, h_ds, h_f, h_e, rfl⟩, ?_⟩
          rw [h_neg, h_s0, h_s1, h_s2]
          simp only [number_text, List.append_assoc]
theorem number_text_head (n : bytes) (h : is_number_text n) :
    ∃ c cs, n = c :: cs ∧ (c = 45 ∨ (48 ≤ c ∧ c ≤ 57)) := by
  obtain ⟨negative, int_digits, fraction, exponent, h_int, _, _, rfl⟩ := h
  obtain ⟨d, ds, rfl⟩ := List.exists_cons_of_ne_nil h_int.1
  have hd := h_int.2 d (List.mem_cons_self _ _)
  cases negative with
  | true => exact ⟨45, _, rfl, Or.inl rfl⟩
  | false => exact ⟨d, _, rfl, Or.inr hd⟩

namespace json

theorem parser.parse_any_number (raise : raiser) (p : parser) (c : Nat) (cs : bytes)
    (h_src : p.source = c :: cs) (hc : c = 45 ∨ (48 ≤ c ∧ c ≤ 57)) :
    p.parse_any raise = ({ p with value_begin := some p.pos } : parser).parse_number raise := by
  obtain ⟨buf, source, reported, line, next_call, call_stack, property_begin, value_begin,
    current_property, current_string, current_number, current_bool, error_count⟩ := p
  simp only at h_src
  subst h_src
  have h_ws : skip_whitespaces (c :: cs) line = (c :: cs, line) := by
    rw [skip_whitespaces, if_pos (by omega)]
  unfold parser.parse_any
  simp only [h_ws]
  rw [if_neg (by simp)]
  simp only [List.headD_cons]
  rw [if_neg (by omega), if_neg (by omega), if_neg (by omega)]
  rw [if_neg (by intro h; have := congrArg (fun l => l.headD 0) h; simp at this; omega)]
  rw [if_neg (by intro h; have := congrArg (fun l => l.headD 0) h; simp at this; omega)]
  rw [if_neg (by intro h; have := congrArg (fun l => l.headD 0) h; simp at this; omega)]

end json
namespace json

/-- C27: for every text `n` of the grammar `-? digits (. digits)? ([eE] -? digits)?`
the document `n` yields one number token whose raw text is `n`, without a
parse error, and then eof; and whenever `expect_number` succeeds on a non-empty
view, the bytes it consumed form a text of the grammar and `parse_number` stores
exactly them as the raw text of the number token. -/
theorem next_token_number_text (n : bytes) (h : is_number_text n) :
    (∃ p1, (input n).next_token = (outcome.ok token_kind.number, p1) ∧
      p1.raw_number = ref_string.of_view n ∧ p1.source = [] ∧ p1.reported = [] ∧
      p1.next_token = (outcome.ok token_kind.eof, p1)) ∧
    (∀ (raise : raiser) (p : parser) (rest : bytes), p.source ≠ [] →
      expect_number p.source = (number_validation_result.success, rest) →
      ∃ consumed, is_number_text consumed ∧ p.source = consumed ++ rest ∧
        p.parse_number raise = (outcome.ok token_kind.number,
          { p with source := rest, current_number := ref_string.of_view consumed })) := by
  constructor
  · obtain ⟨c, cs, h_n, hc⟩ := number_text_head n h
    have h_exp : expect_number n = (number_validation_result.success, []) := by
      obtain ⟨negative, int_digits, fraction, exponent, h_int, h_f, h_e, rfl⟩ := h
      exact expect_number_text negative int_digits fraction exponent h_int h_f h_e
    have h_ws : skip_whitespaces n 1 = (n, 1) := by
      rw [h_n, skip_whitespaces, if_pos (by omega)]
    have h_ne : n ≠ [] := by rw [h_n]; exact List.cons_ne_nil _ _
    refine ⟨{
        buf := n, source := [], reported := [], line := 1,
        next_call := parse_func.parse_eof, call_stack := [], property_begin := none,
        value_begin := some 0, current_property := ref_string.empty,
        current_string := ref_string.empty, current_number := ref_string.of_view n,
        current_bool := false, error_count := 0 }, ?_, rfl, rfl, rfl, rfl⟩
    unfold input parser.next_token
    rw [show (parser.init n).buf.length + max_errors + 2
      = ((parser.init n).buf.length + max_errors + 1) + 1 from rfl, parser.next_token_fuel]
    unfold parser.init
    simp only [h_ws]
    unfold parser.call
    simp only
    unfold parser.parse_begin
    simp only
    rw [if_neg h_ne]
    rw [parser.parse_any_number _ _ c cs h_n hc]
    unfold parser.parse_number
    simp only [h_exp, parser.pos, List.length_nil, Nat.sub_zero, Nat.sub_self, List.take_length]
  · intro raise p rest _ h_exp
    obtain ⟨consumed, h_c, h_src⟩ := expect_number_success _ _ h_exp
    refine ⟨consumed, h_c, h_src, ?_⟩
    unfold parser.parse_number
    simp only [h_exp]
    rw [h_src]
    simp [ref_string.of_view]

theorem next_token_number_text_witness :
    is_number_text (ascii "123.0e-3") ∧
    ((∃ p1, (input (ascii "123.0e-3")).next_token = (outcome.ok token_kind.number, p1) ∧
      p1.raw_number = ref_string.of_view (ascii "123.0e-3") ∧ p1.source = [] ∧
      p1.reported = [] ∧ p1.next_token = (outcome.ok token_kind.eof, p1)) ∧
    (∀ (raise : raiser) (p : parser) (rest : bytes), p.source ≠ [] →
      expect_number p.source = (number_validation_result.success, rest) →
      ∃ consumed, is_number_text consumed ∧ p.source = consumed ++ rest ∧
        p.parse_number raise = (outcome.ok token_kind.number,
          { p with source := rest, current_number := ref_string.of_view consumed }))) :=
  have h : is_number_text (ascii "123.0e-3") :=
    ⟨false, ascii "123", some (ascii "0"), some (101, true, ascii "3"),
      ⟨by decide, by decide⟩, fun f hf => by cases hf; exact ⟨by decide, by decide⟩,
      fun e neg k hk => by cases hk; exact ⟨Or.inl rfl, by decide, by decide⟩, by decide⟩
  ⟨h, next_token_number_text (ascii "123.0e-3") h⟩

end json
namespace json

theorem suffix_length_lt_of_tail (s src : bytes) (h : s <:+ src.tail) (h_ne : src ≠ []) :
    s.length < src.length := by
  have := h.length_le
  cases src with
  | nil => exact absurd rfl h_ne
  | cons c cs =>
    simp only [List.tail_cons] at this
    simp only [List.length_cons]
    omega

theorem ne_nil_of_headD (s : bytes) (c : Nat) (h : s.headD 0 = c) (hc : c ≠ 0) : s ≠ [] := by
  intro hs
  rw [hs] at h
  exact hc h.symm

theorem ne_nil_of_take (s : bytes) (n : Nat) (c : Nat) (cs : bytes) (h : s.take n = c :: cs) :
    s ≠ [] := by
  intro hs
  rw [hs] at h
  simp at h

theorem string_literal_scan_quiet : ∀ (s : bytes) (needs_escape : Bool),
    ∃ pre, s = pre ++ (string_literal_scan s needs_escape).2.2 ∧ 10 ∉ pre ∧
      ((string_literal_scan s needs_escape).1 = none →
        (string_literal_scan s needs_escape).2.2.headD 0 = 34) := by
  intro s
  induction s with
  | nil => intro ne; exact ⟨[], rfl, by simp, by simp [string_literal_scan]⟩
  | cons ch rest ih =>
    intro ne
    unfold string_literal_scan
    split
    · rename_i hc
      obtain ⟨pre, h1, h2, h3⟩ := ih ne
      refine ⟨ch :: pre, by rw [List.cons_append, ← h1], ?_, h3⟩
      intro hmem
      rcases List.mem_cons.mp hmem with h | h
      · have : is_control_char ch = false := hc.2.2
        rw [← h] at this
        simp [is_control_char] at this
      · exact h2 h
    · split
      · exact ⟨[], rfl, by simp, by simp⟩
      · split
        · exact ⟨[], rfl, by simp, by simp⟩
        · split
          · rename_i h10 _ h92
            obtain ⟨pre, h1, h2, h3⟩ := ih true
            refine ⟨ch :: pre, by rw [List.cons_append, ← h1], ?_, h3⟩
            intro hmem
            rcases List.mem_cons.mp hmem with h | h
            · exact h10 h.symm
            · exact h2 h
          · rename_i hc h10 hctl h92
            refine ⟨[], rfl, by simp, ?_⟩
            intro _
            simp only [List.headD_cons]
            by_contra h34
            exact hc ⟨h92, h34, by simpa using hctl⟩

theorem parse_string_literal_quiet (s : bytes) :
    ∃ pre, s = pre ++ (parse_string_literal s).2 ∧ 10 ∉ pre := by
  obtain ⟨pre, h1, h2, h3⟩ := string_literal_scan_quiet s false
  unfold parse_string_literal
  split
  · rename_i error ne rest h_eq
    rw [h_eq] at h1
    exact ⟨pre, h1, h2⟩
  · rename_i ne rest h_eq
    rw [h_eq] at h1 h3
    simp only [true_implies] at h3
    have h_out : ∀ (a b : (parse_error_kind ⊕ ref_string)),
        (if ne = true then (a, rest.tail) else (b, rest.tail)).2 = rest.tail := by
      intro a b
      split <;> rfl
    simp only [h_out]
    cases rest with
    | nil => simp at h3
    | cons c cs =>
      simp only [List.headD_cons] at h3
      refine ⟨pre ++ [c], by rw [h1]; simp, ?_⟩
      intro hmem
      rcases List.mem_append.mp hmem with h | h
      · exact h2 h
      · simp at h
        omega

theorem parse_string_literal_suffix (s : bytes) : (parse_string_literal s).2 <:+ s := by
  obtain ⟨pre, h1, _⟩ := parse_string_literal_quiet s
  exact ⟨pre, h1.symm⟩

theorem expect_number_suffix (s rest : bytes)
    (h : expect_number s = (number_validation_result.success, rest)) :
    rest <:+ s ∧ rest.length < s.length := by
  obtain ⟨consumed, h_c, h_s⟩ := expect_number_success s rest h
  obtain ⟨c, cs, h_n, _⟩ := number_text_head consumed h_c
  refine ⟨⟨consumed, h_s.symm⟩, ?_⟩
  rw [h_s, h_n]
  simp only [List.cons_append, List.length_cons, List.length_append]
  omega

theorem parser.parse_any_ok (raise : raiser) (h : raises raise) (p p' : parser) (t : token_kind)
    (h_tok : p.parse_any raise = (outcome.ok t, p')) : ok_step t p p' := by
  unfold parser.parse_any at h_tok
  simp only at h_tok
  have h_ws := skip_whitespaces_suffix p.source p.line
  split at h_tok
  · exact absurd (congrArg Prod.fst h_tok) (h _ _ _)
  · rename_i h_ne
    split at h_tok
    · rename_i h_ch
      unfold parser.parse_object at h_tok
      simp only at h_tok
      split at h_tok
      · exact absurd (congrArg Prod.fst h_tok) (h _ _ _)
      · simp only [Prod.mk.injEq, outcome.ok.injEq] at h_tok
        obtain ⟨rfl, rfl⟩ := h_tok
        have h_ws2 := skip_whitespaces_suffix
          (skip_whitespaces p.source p.line).1.tail (skip_whitespaces p.source p.line).2
        refine ⟨rfl, rfl, (h_ws2.trans (List.tail_suffix _)).trans h_ws,
          Or.inr ⟨_, h_ws, h_ws2.trans (List.tail_suffix _),
            suffix_length_lt_of_tail _ _ h_ws2 h_ne, rfl, h_ch⟩, Or.inl rfl, rfl⟩
    · split at h_tok
      · rename_i h_ch
        unfold parser.parse_array at h_tok
        simp only at h_tok
        split at h_tok
        · exact absurd (congrArg Prod.fst h_tok) (h _ _ _)
        · simp only [Prod.mk.injEq, outcome.ok.injEq] at h_tok
          obtain ⟨rfl, rfl⟩ := h_tok
          have h_ws2 := skip_whitespaces_suffix
            (skip_whitespaces p.source p.line).1.tail (skip_whitespaces p.source p.line).2
          refine ⟨rfl, rfl, (h_ws2.trans (List.tail_suffix _)).trans h_ws,
            Or.inr ⟨_, h_ws, h_ws2.trans (List.tail_suffix _),
              suffix_length_lt_of_tail _ _ h_ws2 h_ne, rfl, h_ch⟩, Or.inl rfl, rfl⟩
      · split at h_tok
        · rename_i h_ch
          unfold parser.parse_string at h_tok
          simp only at h_tok
          have h_lit := parse_string_literal_suffix (skip_whitespaces p.source p.line).1.tail
          split at h_tok
          · exact absurd (congrArg Prod.fst h_tok) (h _ _ _)
          · rename_i s rest h_eq
            simp only [Prod.mk.injEq, outcome.ok.injEq] at h_tok
            obtain ⟨rfl, rfl⟩ := h_tok
            rw [h_eq] at h_lit
            simp only at h_lit
            refine ⟨rfl, rfl, (h_lit.trans (List.tail_suffix _)).trans h_ws,
              Or.inr ⟨_, h_ws, h_lit.trans (List.tail_suffix _),
                suffix_length_lt_of_tail _ _ h_lit h_ne, rfl, h_ch⟩, Or.inl rfl, rfl⟩
        · split at h_tok
          · rename_i h_take
            simp only [parser.parse_bool, Prod.mk.injEq, outcome.ok.injEq] at h_tok
            obtain ⟨rfl, rfl⟩ := h_tok
            refine ⟨rfl, rfl, (List.drop_suffix _ _).trans h_ws,
              Or.inr ⟨_, h_ws, List.drop_suffix _ _, ?_, rfl, trivial⟩, Or.inl rfl, rfl⟩
            have := congrArg List.length h_take
            simp only [List.length_take, List.length_cons, List.length_nil] at this
            simp only [if_true, List.length_drop]
            omega
          · split at h_tok
            · rename_i h_take
              simp only [parser.parse_bool, Prod.mk.injEq, outcome.ok.injEq] at h_tok
              obtain ⟨rfl, rfl⟩ := h_tok
              refine ⟨rfl, rfl, (List.drop_suffix _ _).trans h_ws,
                Or.inr ⟨_, h_ws, List.drop_suffix _ _, ?_, rfl, trivial⟩, Or.inl rfl, rfl⟩
              have := congrArg List.length h_take
              simp only [List.length_take, List.length_cons, List.length_nil] at this
              simp only [Bool.false_eq_true, if_false, List.length_drop]
              omega
            · split at h_tok
              · rename_i h_take
                simp only [parser.parse_null, Prod.mk.injEq, outcome.ok.injEq] at h_tok
                obtain ⟨rfl, rfl⟩ := h_tok
                refine ⟨rfl, rfl, (List.drop_suffix _ _).trans h_ws,
                  Or.inr ⟨_, h_ws, List.drop_suffix _ _, ?_, rfl, trivial⟩, Or.inl rfl, rfl⟩
                have := congrArg List.length h_take
                simp only [List.length_take, List.length_cons, List.length_nil] at this
                simp only [List.length_drop]
                omega
              · unfold parser.parse_number at h_tok
                simp only at h_tok
                split at h_tok
                · exact absurd (congrArg Prod.fst h_tok) (h _ _ _)
                · exact absurd (congrArg Prod.fst h_tok) (h _ _ _)
                · rename_i rest h_eq
                  simp only [Prod.mk.injEq, outcome.ok.injEq] at h_tok
                  obtain ⟨rfl, rfl⟩ := h_tok
                  obtain ⟨h1, h2⟩ := expect_number_suffix _ _ h_eq
                  exact ⟨rfl, rfl, h1.trans h_ws,
                    Or.inr ⟨_, h_ws, h1, h2, rfl, trivial⟩, Or.inl rfl, rfl⟩

end json
namespace json

theorem ok_step_of_advance (t : token_kind) (p q p' : parser) (h_buf : q.buf = p.buf)
    (h_rep : q.reported = p.reported) (h_src : q.source <:+ p.source)
    (h_val : q.value_begin = p.value_begin)
    (h_key : q.property_begin = p.property_begin ∨
      ∃ src : bytes, src <:+ p.source ∧ q.source <:+ src ∧
        q.property_begin = some (p.buf.length - src.length))
    (h_nc : q.next_call.kind = p.next_call.kind) (h_stack : q.call_stack = p.call_stack)
    (h : ok_step t q p') : ok_step t p p' := by
  obtain ⟨h1, h2, h3, h4, h5, h6⟩ := h
  have h_frames : q.frames = p.frames := by
    unfold parser.frames
    rw [h_nc, h_stack]
  refine ⟨h1.trans h_buf, h2.trans h_rep, h3.trans h_src, ?_, ?_, ?_⟩
  · rcases h4 with ⟨ht, hv⟩ | ⟨src, hs1, hs2, hs3, hs4, hs5⟩
    · exact Or.inl ⟨ht, hv.trans h_val⟩
    · exact Or.inr ⟨src, hs1.trans h_src, hs2, hs3, by rw [hs4, h_buf], hs5⟩
  · rcases h5 with hk | ⟨src, hs1, hs2, hs3⟩
    · rcases h_key with hk' | ⟨src, hs1, hs2, hs3⟩
      · exact Or.inl (hk.trans hk')
      · exact Or.inr ⟨src, hs1, h3.trans hs2, hk.trans hs3⟩
    · exact Or.inr ⟨src, hs1.trans h_src, hs2, by rw [hs3, h_buf]⟩
  · unfold frames_step at h6 ⊢
    cases t <;> simp only at h6 ⊢ <;>
      first
      | (rw [← h_frames]; exact h6)
      | (rw [← h_frames, ← h_nc]; exact h6)
      | (rw [← h_frames, ← h_nc, ← h_stack]; exact h6)

theorem parser.parse_property_ok (raise : raiser) (h : raises raise) (allow_end : Bool)
    (p p' : parser) (t : token_kind) (h_kind : p.next_call.kind = frame_kind.mapping)
    (h_tok : p.parse_property raise allow_end = (outcome.ok t, p')) : ok_step t p p' := by
  unfold parser.parse_property at h_tok
  simp only at h_tok
  split at h_tok
  · rename_i hc
    simp only [Prod.mk.injEq, outcome.ok.injEq] at h_tok
    obtain ⟨rfl, rfl⟩ := h_tok
    have h_ne : p.source ≠ [] := ne_nil_of_headD _ _ hc.2 (by decide)
    unfold parser.pop_stack
    cases h_st : p.call_stack with
    | nil =>
      simp only [h_st]
      refine ⟨rfl, rfl, List.tail_suffix _, Or.inr ⟨_, List.suffix_refl _, List.tail_suffix _,
        suffix_length_lt_of_tail _ _ (List.suffix_refl _) h_ne, rfl, hc.2⟩, Or.inl rfl, h_kind, ?_⟩
      intro hne
      exact absurd h_st hne
    | cons e stack =>
      simp only [h_st]
      refine ⟨rfl, rfl, List.tail_suffix _, Or.inr ⟨_, List.suffix_refl _, List.tail_suffix _,
        suffix_length_lt_of_tail _ _ (List.suffix_refl _) h_ne, rfl, hc.2⟩, Or.inl rfl, h_kind, ?_⟩
      intro _
      simp [parser.frames, h_st]
  · split at h_tok
    · exact absurd (congrArg Prod.fst h_tok) (h _ _ _)
    · have h_lit := parse_string_literal_suffix p.source.tail
      split at h_tok
      · exact absurd (congrArg Prod.fst h_tok) (h _ _ _)
      · rename_i s rest h_eq
        rw [h_eq] at h_lit
        simp only at h_lit
        have h_ws := skip_whitespaces_suffix rest p.line
        split at h_tok
        · exact absurd (congrArg Prod.fst h_tok) (h _ _ _)
        · split at h_tok
          · exact absurd (congrArg Prod.fst h_tok) (h _ _ _)
          · have h_any := parser.parse_any_ok raise h _ p' t h_tok
            refine ok_step_of_advance t p _ p' ?_ ?_ ?_ ?_ ?_ ?_ ?_ h_any
            · rfl
            · rfl
            · exact (((List.tail_suffix _).trans h_ws).trans h_lit).trans (List.tail_suffix _)
            · rfl
            · exact Or.inr ⟨p.source.tail, List.tail_suffix _,
                ((List.tail_suffix _).trans h_ws).trans h_lit, rfl⟩
            · exact h_kind.symm
            · rfl

theorem parser.parse_array_entry_ok (raise : raiser) (h : raises raise) (allow_end : Bool)
    (p p' : parser) (t : token_kind) (h_kind : p.next_call.kind = frame_kind.array)
    (h_tok : p.parse_array_entry raise allow_end = (outcome.ok t, p')) : ok_step t p p' := by
  unfold parser.parse_array_entry at h_tok
  simp only at h_tok
  split at h_tok
  · rename_i hc
    simp only [Prod.mk.injEq, outcome.ok.injEq] at h_tok
    obtain ⟨rfl, rfl⟩ := h_tok
    have h_ne : p.source ≠ [] := ne_nil_of_headD _ _ hc.2 (by decide)
    unfold parser.pop_stack
    cases h_st : p.call_stack with
    | nil =>
      simp only [h_st]
      refine ⟨rfl, rfl, List.tail_suffix _, Or.inr ⟨_, List.suffix_refl _, List.tail_suffix _,
        suffix_length_lt_of_tail _ _ (List.suffix_refl _) h_ne, rfl, hc.2⟩, Or.inl rfl, h_kind, ?_⟩
      intro hne
      exact absurd h_st hne
    | cons e stack =>
      simp only [h_st]
      refine ⟨rfl, rfl, List.tail_suffix _, Or.inr ⟨_, List.suffix_refl _, List.tail_suffix _,
        suffix_length_lt_of_tail _ _ (List.suffix_refl _) h_ne, rfl, hc.2⟩, Or.inl rfl, h_kind, ?_⟩
      intro _
      simp [parser.frames, h_st]
  · have h_any := parser.parse_any_ok raise h _ p' t h_tok
    refine ok_step_of_advance t p _ p' ?_ ?_ ?_ ?_ ?_ ?_ ?_ h_any
    · rfl
    · rfl
    · exact (List.suffix_refl _)
    · rfl
    · exact Or.inl rfl
    · exact h_kind.symm
    · rfl

theorem parser.call_ok (raise : raiser) (h : raises raise) (p p' : parser) (t : token_kind)
    (h_tok : p.call raise = (outcome.ok t, p')) : ok_step t p p' := by
  unfold parser.call at h_tok
  split at h_tok
  · rename_i h_nc
    unfold parser.parse_begin at h_tok
    simp only at h_tok
    split at h_tok
    · simp only [parser.parse_eof, Prod.mk.injEq, outcome.ok.injEq] at h_tok
      obtain ⟨rfl, rfl⟩ := h_tok
      refine ⟨rfl, rfl, List.suffix_refl _, Or.inl ⟨rfl, rfl⟩, Or.inl rfl, ?_, ?_⟩
      · rw [h_nc]; rfl
      · simp [parser.frames, h_nc, parse_func.kind]
    · have h_any := parser.parse_any_ok raise h _ p' t h_tok
      refine ok_step_of_advance t p _ p' ?_ ?_ ?_ ?_ ?_ ?_ ?_ h_any
      · rfl
      · rfl
      · exact (List.suffix_refl _)
      · rfl
      · exact Or.inl rfl
      · exact (by rw [h_nc]; rfl)
      · rfl
  · rename_i h_nc
    simp only [parser.parse_eof, Prod.mk.injEq, outcome.ok.injEq] at h_tok
    obtain ⟨rfl, rfl⟩ := h_tok
    exact ⟨rfl, rfl, List.suffix_refl _, Or.inl ⟨rfl, rfl⟩, Or.inl rfl, by rw [h_nc]; rfl, rfl⟩
  · exact parser.parse_any_ok raise h p p' t h_tok
  · rename_i allow_end h_nc
    exact parser.parse_property_ok raise h allow_end p p' t (by rw [h_nc]; rfl) h_tok
  · rename_i h_nc
    unfold parser.parse_next_property at h_tok
    simp only at h_tok
    have h_ws := skip_whitespaces_suffix p.source p.line
    split at h_tok
    · exact absurd (congrArg Prod.fst h_tok) (h _ _ _)
    · split at h_tok
      · exact absurd (congrArg Prod.fst h_tok) (h _ _ _)
      · split at h_tok
        · have h_ws2 := skip_whitespaces_suffix
            (skip_whitespaces p.source p.line).1.tail (skip_whitespaces p.source p.line).2
          split at h_tok
          · exact absurd (congrArg Prod.fst h_tok) (h _ _ _)
          · have h_pr := parser.parse_property_ok raise h false _ p' t
              (by simp only; rw [h_nc]; rfl) h_tok
            refine ok_step_of_advance t p _ p' ?_ ?_ ?_ ?_ ?_ ?_ ?_ h_pr
            · rfl
            · rfl
            · exact ((h_ws2.trans (List.tail_suffix _)).trans h_ws)
            · rfl
            · exact Or.inl rfl
            · exact rfl
            · rfl
        · have h_pr := parser.parse_property_ok raise h true _ p' t
            (by simp only; rw [h_nc]; rfl) h_tok
          refine ok_step_of_advance t p _ p' ?_ ?_ ?_ ?_ ?_ ?_ ?_ h_pr
          · rfl
          · rfl
          · exact h_ws
          · rfl
          · exact Or.inl rfl
          · exact rfl
          · rfl
  · rename_i allow_end h_nc
    exact parser.parse_array_entry_ok raise h allow_end p p' t (by rw [h_nc]; rfl) h_tok
  · rename_i h_nc
    unfold parser.parse_next_array_entry at h_tok
    simp only at h_tok
    have h_ws := skip_whitespaces_suffix p.source p.line
    split at h_tok
    · exact absurd (congrArg Prod.fst h_tok) (h _ _ _)
    · split at h_tok
      · exact absurd (congrArg Prod.fst h_tok) (h _ _ _)
      · split at h_tok
        · have h_ws2 := skip_whitespaces_suffix
            (skip_whitespaces p.source p.line).1.tail (skip_whitespaces p.source p.line).2
          split at h_tok
          · exact absurd (congrArg Prod.fst h_tok) (h _ _ _)
          · have h_pr := parser.parse_array_entry_ok raise h false _ p' t
              (by simp only; rw [h_nc]; rfl) h_tok
            refine ok_step_of_advance t p _ p' ?_ ?_ ?_ ?_ ?_ ?_ ?_ h_pr
            · rfl
            · rfl
            · exact ((h_ws2.trans (List.tail_suffix _)).trans h_ws)
            · rfl
            · exact Or.inl rfl
            · exact rfl
            · rfl
        · have h_pr := parser.parse_array_entry_ok raise h true _ p' t
            (by simp only; rw [h_nc]; rfl) h_tok
          refine ok_step_of_advance t p _ p' ?_ ?_ ?_ ?_ ?_ ?_ ?_ h_pr
          · rfl
          · rfl
          · exact h_ws
          · rfl
          · exact Or.inl rfl
          · exact rfl
          · rfl

theorem parser.next_token_ok (p p' : parser) (t : token_kind)
    (h_tok : p.next_token = (outcome.ok t, p')) : ok_step t p p' := by
  unfold parser.next_token at h_tok
  rw [show p.buf.length + max_errors + 2 = (p.buf.length + max_errors + 1) + 1 from rfl] at h_tok
  unfold parser.next_token_fuel at h_tok
  exact parser.call_ok _ (parser.raise_error_raises _ _) p p' t h_tok

end json
theorem get?_of_suffix (buf src : bytes) (h : src <:+ buf) (h_ne : src ≠ []) :
    buf.get? (buf.length - src.length) = some (src.headD 0) := by
  obtain ⟨pre, h_pre⟩ := h
  have h_len : buf.length - src.length = pre.length := by
    rw [← h_pre, List.length_append]
    omega
  rw [h_len, ← h_pre]
  obtain ⟨c, cs, rfl⟩ := List.exists_cons_of_ne_nil h_ne
  rw [List.get?_eq_getElem?, List.getElem?_append_right (le_refl _)]
  simp

theorem array_store_fold (n : Nat) : ∀ (vs array : List Val),
    array.length + vs.length ≤ n →
    vs.foldl (fun (ac : List Val × Nat) v => (array_store n ac.1 ac.2 v, ac.2 + 1))
      (array, array.length) = (array ++ vs, array.length + vs.length) := by
  intro vs
  induction vs with
  | nil => intro array _; simp
  | cons v vs ih =>
    intro array h_le
    simp only [List.length_cons] at h_le
    have h_lt : array.length < n := by omega
    have h_store : array_store n array array.length v = array ++ [v] := by
      unfold array_store
      rw [if_pos h_lt]
    rw [List.foldl_cons]
    simp only [h_store]
    have := ih (array ++ [v]) (by simp only [List.length_append, List.length_singleton]; omega)
    simp only [List.length_append, List.length_singleton] at this
    rw [this]
    simp only [List.append_assoc, List.singleton_append, List.length_cons, Prod.mk.injEq,
      true_and]
    omega

theorem array_store_fold_count (n : Nat) : ∀ (vs array : List Val) (count : Nat),
    (vs.foldl (fun (ac : List Val × Nat) v => (array_store n ac.1 ac.2 v, ac.2 + 1))
      (array, count)).2 = count + vs.length := by
  intro vs
  induction vs with
  | nil => intro array count; simp
  | cons v vs ih =>
    intro array count
    rw [List.foldl_cons, ih, List.length_cons]
    omega

theorem consume_array_loop_delivers (elem : consumer) (n : Nat) (st_next st_end : consume_state)
    (h_end : st_next.next_token = (outcome.ok token_kind.end_array, st_end)) :
    ∀ (vs : List Val) (fuel : Nat) (array : List Val) (count : Nat) (st : consume_state),
    delivers_entries elem st vs st_next → vs.length < fuel →
    consume_array_loop elem n fuel array count st =
      (outcome.ok (vs.foldl (fun (ac : List Val × Nat) v => (array_store n ac.1 ac.2 v, ac.2 + 1))
        (array, count)), st_end) := by
  intro vs
  induction vs with
  | nil =>
    intro fuel array count st h_d h_fuel
    obtain ⟨fuel, rfl⟩ : ∃ f, fuel = f + 1 := ⟨fuel - 1, by simp at h_fuel; omega⟩
    have h_st : st_next = st := h_d
    rw [h_st] at h_end
    unfold consume_array_loop
    rw [h_end]
    simp
  | cons v vs ih =>
    intro fuel array count st h_d h_fuel
    obtain ⟨fuel, rfl⟩ : ∃ f, fuel = f + 1 := ⟨fuel - 1, by simp at h_fuel; omega⟩
    obtain ⟨token, st1, st2, h_tok, h_ne, h_elem, h_rest⟩ := h_d
    unfold consume_array_loop
    rw [h_tok]
    simp only [h_ne, if_false, h_elem]
    rw [ih fuel _ _ st2 h_rest (by simp only [List.length_cons] at h_fuel; omega)]
    rfl

/-- C21: the `std::array<T, N>` consumer with `N ≥ 1`, on an array whose
elements the cursor delivers as the values `vs` and whose `end_array` token
leaves the state `st_end`: with exactly `N` elements it returns them in source
order, otherwise it hands on `too_few_elements` (fewer) or `too_many_elements`
(more) and raises the consume failure, in the state after the whole array and
located at the value anchor, which is the offset of the closing `]`. So it
succeeds exactly when the array has `N` elements. -/
theorem consume_array_exact (elem : consumer) (n fuel : Nat) (st st_next st_end : consume_state)
    (vs : List Val) (h_n : 1 ≤ n) (h_entries : delivers_entries elem st vs st_next)
    (h_end : st_next.next_token = (outcome.ok token_kind.end_array, st_end))
    (h_suffix : st_next.input.source <:+ st_next.input.buf) (h_fuel : vs.length < fuel) :
    consume_array elem n fuel token_kind.begin_array st =
      (if vs.length = n then (outcome.ok (Val.seq vs), st_end)
       else fail st_end (st_end.input.location relative_loc.value)
        (if vs.length < n then doc_error_kind.too_few_elements
          else doc_error_kind.too_many_elements)) ∧
    ((∃ v st', consume_array elem n fuel token_kind.begin_array st = (outcome.ok v, st')) ↔
      vs.length = n) ∧
    st_end.input.buf = st_next.input.buf ∧
    st_end.input.buf.get? (st_end.input.location relative_loc.value).byte = some 93 := by
  have h_eq : consume_array elem n fuel token_kind.begin_array st =
      (if vs.length = n then (outcome.ok (Val.seq vs), st_end)
       else fail st_end (st_end.input.location relative_loc.value)
        (if vs.length < n then doc_error_kind.too_few_elements
          else doc_error_kind.too_many_elements)) := by
    have _ := h_n
    unfold consume_array
    rw [if_neg (by simp)]
    rw [consume_array_loop_delivers elem n st_next st_end h_end vs fuel [] 0 st h_entries h_fuel]
    have h_count := array_store_fold_count n vs [] 0
    by_cases h_len : vs.length = n
    · have h_fold := array_store_fold n vs [] (by simp only [List.length_nil]; omega)
      simp only [List.length_nil, List.nil_append, Nat.zero_add] at h_fold
      rw [h_fold, if_pos h_len]
      simp only [h_len, ne_eq, not_true_eq_false, if_false]
    · rw [if_neg h_len]
      generalize vs.foldl (fun (ac : List Val × Nat) v => (array_store n ac.1 ac.2 v, ac.2 + 1))
        ([], 0) = r at h_count
      obtain ⟨array, count⟩ := r
      simp only [Nat.zero_add] at h_count
      subst h_count
      simp only [ne_eq, h_len, not_false_eq_true, if_true]
  refine ⟨h_eq, ?_, ?_⟩
  · rw [h_eq]
    constructor
    · rintro ⟨v, st', h⟩
      by_contra h_len
      rw [if_neg h_len] at h
      simp [fail] at h
    · intro h_len
      rw [if_pos h_len]
      exact ⟨_, _, rfl⟩
  · have h_tok : st_next.input.next_token = (outcome.ok token_kind.end_array, st_end.input) := by
      unfold consume_state.next_token at h_end
      simp only [Prod.mk.injEq] at h_end
      rw [← h_end.2]
      exact Prod.ext h_end.1 rfl
    obtain ⟨h1, _, _, h4, _, _⟩ := json.parser.next_token_ok _ _ _ h_tok
    refine ⟨h1, ?_⟩
    rcases h4 with ⟨h_eof, _⟩ | ⟨src, hs1, hs2, hs3, hs4, hs5⟩
    · cases h_eof
    · unfold json.parser.location json.parser.location_at
      simp only [hs4, Option.getD_some, h1]
      have h_ne : src ≠ [] := by
        intro h; rw [h] at hs3; simp at hs3
      rw [get?_of_suffix _ _ (hs1.trans h_suffix) h_ne]
      exact congrArg some hs5
theorem consume_array_exact_witness :
    (consume_array (consume_integer true 32) 2 3 token_kind.begin_array
        (begin_state (ascii "[1,2]"))).1
      = outcome.ok (Val.seq [Val.integer 1, Val.integer 2]) ∧
    (consume_array (consume_integer true 32) 3 3 token_kind.begin_array
        (begin_state (ascii "[1,2]"))).1
      = outcome.doc_consume_exception ∧
    (consume_array (consume_integer true 32) 3 3 token_kind.begin_array
        (begin_state (ascii "[1,2]"))).2.errors
      = [doc_error.mk ⟨4, 1⟩ doc_error_kind.too_few_elements] ∧
    (consume_array (consume_integer true 32) 1 3 token_kind.begin_array
        (begin_state (ascii "[1,2]"))).2.errors
      = [doc_error.mk ⟨4, 1⟩ doc_error_kind.too_many_elements] :=
  ⟨congrArg Prod.fst (consume_array_exact (consume_integer true 32) 2 3
      (begin_state (ascii "[1,2]")) _ _ [Val.integer 1, Val.integer 2] (by decide)
      ⟨_, _, _, rfl, by decide, rfl, _, _, _, rfl, by decide, rfl, rfl⟩ rfl
      ⟨ascii "[1,2", rfl⟩ (by decide)).1,
   congrArg Prod.fst (consume_array_exact (consume_integer true 32) 3 3
      (begin_state (ascii "[1,2]")) _ _ [Val.integer 1, Val.integer 2] (by decide)
      ⟨_, _, _, rfl, by decide, rfl, _, _, _, rfl, by decide, rfl, rfl⟩ rfl
      ⟨ascii "[1,2", rfl⟩ (by decide)).1,
   by decide!, by decide!⟩
namespace json

theorem frames_step_bracket (t : token_kind) (p p' : parser) (opened : List token_kind)
    (h_frames : p.frames = opened.map token_kind.frame ++ [frame_kind.top])
    (h_step : frames_step t p p') :
    ∃ o, bracket_step t opened = some o ∧
      p'.frames = o.map token_kind.frame ++ [frame_kind.top] ∧
      (t = token_kind.eof → opened = []) := by
  have h_head : p.next_call.kind = (opened.map token_kind.frame ++ [frame_kind.top]).headD
      frame_kind.top := by
    rw [← h_frames]; rfl
  have h_stack : p.call_stack.length = opened.length := by
    have := congrArg List.length h_frames
    simp only [parser.frames, List.length_cons, List.length_map, List.length_append,
      List.length_nil] at this
    omega
  unfold frames_step at h_step
  cases t <;> simp only at h_step
  case eof =>
    refine ⟨opened, rfl, by rw [h_step.2, h_frames], ?_⟩
    intro _
    cases opened with
    | nil => rfl
    | cons o rest =>
      rw [h_step.1] at h_head
      cases o <;> simp [token_kind.frame] at h_head
  case begin_mapping =>
    exact ⟨_, rfl, by rw [h_step, h_frames]; rfl, by intro h; cases h⟩
  case begin_array =>
    exact ⟨_, rfl, by rw [h_step, h_frames]; rfl, by intro h; cases h⟩
  case end_mapping =>
    cases opened with
    | nil =>
      rw [h_step.1] at h_head
      simp at h_head
    | cons o rest =>
      have h_ne : p.call_stack ≠ [] := by
        intro h
        rw [h] at h_stack
        simp at h_stack
      rw [h_step.1] at h_head
      have h_o : o = token_kind.begin_mapping := by
        cases o <;> simp [token_kind.frame] at h_head ⊢
      subst h_o
      exact ⟨rest, rfl, by rw [h_step.2 h_ne, h_frames]; rfl, by intro h; cases h⟩
  case end_array =>
    cases opened with
    | nil =>
      rw [h_step.1] at h_head
      simp at h_head
    | cons o rest =>
      have h_ne : p.call_stack ≠ [] := by
        intro h
        rw [h] at h_stack
        simp at h_stack
      rw [h_step.1] at h_head
      have h_o : o = token_kind.begin_array := by
        cases o <;> simp [token_kind.frame] at h_head ⊢
      subst h_o
      exact ⟨rest, rfl, by rw [h_step.2 h_ne, h_frames]; rfl, by intro h; cases h⟩
  all_goals exact ⟨opened, rfl, by rw [h_step, h_frames], by intro h; cases h⟩

theorem tokens_until_eof_bracketed : ∀ (fuel : Nat) (p : parser) (opened : List token_kind)
    (ts : List token_kind) (p_end : parser),
    p.frames = opened.map token_kind.frame ++ [frame_kind.top] →
    tokens_until_eof fuel p = some (ts, p_end) →
    p_end.reported = p.reported ∧ well_bracketed ts opened = true := by
  intro fuel
  induction fuel with
  | zero =>
    intro p opened ts p_end _ h
    simp [tokens_until_eof] at h
  | succ fuel ih =>
    intro p opened ts p_end h_frames h
    unfold tokens_until_eof at h
    split at h
    · rename_i t p' h_tok
      have h_ok := parser.next_token_ok p p' t h_tok
      obtain ⟨o, h_o, h_frames', h_eof⟩ := frames_step_bracket t p p' opened h_frames h_ok.2.2.2.2.2
      split at h
      · rename_i h_t
        simp only [Option.some.injEq, Prod.mk.injEq] at h
        obtain ⟨rfl, rfl⟩ := h
        refine ⟨h_ok.2.1, ?_⟩
        rw [h_eof h_t]
        rfl
      · split at h
        · rename_i ts' q h_run
          simp only [Option.some.injEq, Prod.mk.injEq] at h
          obtain ⟨rfl, rfl⟩ := h
          obtain ⟨h1, h2⟩ := ih p' o ts' _ h_frames' h_run
          refine ⟨h1.trans h_ok.2.1, ?_⟩
          unfold well_bracketed
          rw [h_o]
          exact h2
        · cases h
    · cases h

/-- C28: when the user of a cursor on the document `text` reads tokens up to
and including `eof` and every call returns a token, no parse error has been
handed to the sink and the token sequence is well-bracketed: every
`end_mapping` closes the innermost open `begin_mapping`, every `end_array` the
innermost open `begin_array`, no end token comes without its begin, and every
begin token has been closed when `eof` is delivered. -/
theorem tokens_until_eof_well_bracketed (text : bytes) (fuel : Nat) (ts : List token_kind)
    (p_end : parser) (h : tokens_until_eof fuel (input text) = some (ts, p_end)) :
    p_end.reported = [] ∧ well_bracketed ts [] = true :=
  tokens_until_eof_bracketed fuel (input text) [] ts p_end rfl h

end json
namespace json

theorem tokens_until_eof_well_bracketed_witness :
    tokens_until_eof 12 (input nested_text) = some (nested_tokens, nested_end) ∧
    nested_end.reported = [] ∧ well_bracketed nested_tokens [] = true :=
  ⟨by decide!, tokens_until_eof_well_bracketed nested_text 12 nested_tokens nested_end
    (by decide!)⟩

end json
namespace json

theorem synced_cons (buf : bytes) (c : Nat) (rest : bytes) (line : Nat)
    (h : synced buf (c :: rest) line) :
    synced buf rest (if c = 10 then (line + 1) % 2 ^ 32 else line) := by
  obtain ⟨pre, h1, h2⟩ := h
  refine ⟨pre ++ [c], by rw [h1]; simp, ?_⟩
  rw [List.count_append]
  by_cases hc : c = 10
  · rw [if_pos hc, hc, h2]
    simp only [List.count_singleton_self]
    omega
  · rw [if_neg hc, h2]
    have : List.count 10 [c] = 0 := by
      rw [List.count_eq_zero]
      simp only [List.mem_singleton]
      exact fun h => hc h.symm
    rw [this, Nat.add_zero]

theorem synced_quiet (buf s s' : bytes) (line : Nat) (h : synced buf s line)
    (hq : quiet_between s s') : synced buf s' line := by
  obtain ⟨pre, h1, h2⟩ := h
  obtain ⟨mid, h3, h4⟩ := hq
  refine ⟨pre ++ mid, by rw [h1, h3]; simp, ?_⟩
  rw [List.count_append, List.count_eq_zero.mpr h4, Nat.add_zero]
  exact h2

theorem quiet_between.refl (s : bytes) : quiet_between s s := ⟨[], rfl, by simp⟩

theorem quiet_between.trans {s s' s'' : bytes} (h1 : quiet_between s s')
    (h2 : quiet_between s' s'') : quiet_between s s'' := by
  obtain ⟨a, ha, ha'⟩ := h1
  obtain ⟨b, hb, hb'⟩ := h2
  refine ⟨a ++ b, by rw [ha, hb]; simp, ?_⟩
  intro h
  rcases List.mem_append.mp h with h | h
  · exact ha' h
  · exact hb' h

theorem quiet_between_tail (s : bytes) (h : s.headD 0 ≠ 10) : quiet_between s s.tail := by
  cases s with
  | nil => exact quiet_between.refl _
  | cons c cs =>
    refine ⟨[c], rfl, ?_⟩
    simp only [List.headD_cons] at h
    simp only [List.mem_singleton]
    exact fun h' => h h'.symm

theorem quiet_between_drop (s : bytes) (n : Nat) (h : 10 ∉ s.take n) :
    quiet_between s (s.drop n) :=
  ⟨s.take n, (List.take_append_drop n s).symm, h⟩

theorem synced_skip_whitespaces (buf : bytes) : ∀ (s : bytes) (line : Nat),
    synced buf s line → synced buf (skip_whitespaces s line).1 (skip_whitespaces s line).2 := by
  intro s
  induction s with
  | nil => intro line h; exact h
  | cons c rest ih =>
    intro line h
    have h_cons := synced_cons buf c rest line h
    unfold skip_whitespaces
    split
    · exact h
    · split
      · rename_i hc
        rw [if_pos hc] at h_cons
        exact ih _ h_cons
      · rename_i hc
        rw [if_neg hc] at h_cons
        exact ih _ h_cons

theorem synced_skip_container_loop (buf : bytes) : ∀ (s : bytes) (line level : Nat)
    (inside_string : Bool) (last_char : Nat), synced buf s line →
    synced buf (skip_container_loop s line level inside_string last_char).1
      (skip_container_loop s line level inside_string last_char).2 := by
  intro s
  induction s with
  | nil => intro line level inside last h; exact h
  | cons c rest ih =>
    intro line level inside last h
    have h_cons := synced_cons buf c rest line h
    unfold skip_container_loop
    split
    · rename_i hc
      rw [if_neg (by omega)] at h_cons
      exact h_cons
    · split
      · rw [if_neg (by omega)] at h_cons
        exact ih _ _ _ _ h_cons
      · split
        · rw [if_neg (by omega)] at h_cons
          exact ih _ _ _ _ h_cons
        · split
          · rw [if_neg (by omega)] at h_cons
            exact ih _ _ _ _ h_cons
          · split
            · rename_i hc
              rw [if_pos hc] at h_cons
              exact ih _ _ _ _ h_cons
            · rename_i hc
              rw [if_neg hc] at h_cons
              exact ih _ _ _ _ h_cons

theorem synced_of_entry (buf : bytes) (e : stack_entry) (h : entry_ok buf e) :
    synced buf (buf.drop e.src) e.line :=
  ⟨buf.take e.src, (List.take_append_drop _ _).symm, h.2⟩

theorem synced_pos (p : parser) (h : synced p.buf p.source p.line) :
    p.pos ≤ p.buf.length ∧ p.line = line_at p.buf p.pos % 2 ^ 32 ∧ p.line < 2 ^ 32 := by
  obtain ⟨pre, h1, h2⟩ := h
  have h_pos : p.pos = pre.length := by
    unfold parser.pos
    rw [h1, List.length_append]
    omega
  refine ⟨by unfold parser.pos; omega, ?_, ?_⟩
  · rw [h_pos, h2]
    unfold line_at
    rw [h1, List.take_left]
  · rw [h2]
    exact Nat.mod_lt _ (by norm_num)

theorem location_at_pos (p : parser) (h : synced p.buf p.source p.line) :
    location_ok p.buf (p.location_at p.pos) := by
  obtain ⟨h1, h2, h3⟩ := synced_pos p h
  unfold parser.location_at location_ok
  simp only [Nat.sub_self, List.take_zero, List.count_nil, Int.ofNat_zero, Nat.cast_zero,
    sub_zero]
  refine ⟨h1, ?_⟩
  rw [← h2]
  have : ((p.line : Int) % 2 ^ 32) = (p.line : Int) :=
    Int.emod_eq_of_lt (by omega) (by exact_mod_cast h3)
  rw [this]
  simp

end json
namespace json

theorem expect_digits_quiet (s : bytes) : quiet_between s (expect_digits s).2 := by
  obtain ⟨ds, h1, h2, _⟩ := skip_digits_spec s 0
  have h_out : (expect_digits s).2 = (skip_digits s 0).1 := by
    unfold expect_digits
    simp only
    split
    · split <;> rfl
    · rfl
  rw [h_out]
  refine ⟨ds, h1, ?_⟩
  intro h
  have := h2 10 h
  omega

theorem quiet_between_sign (s : bytes) (c : Nat) (hc : c ≠ 10) :
    quiet_between s (if s.headD 0 = c then s.tail else s) := by
  split
  · rename_i h
    exact quiet_between_tail s (by rw [h]; exact hc)
  · exact quiet_between.refl s

theorem expect_number_quiet (s : bytes) : quiet_between s (expect_number s).2 := by
  unfold expect_number
  simp only
  have h0 := quiet_between_sign s 45 (by decide)
  generalize (if s.headD 0 = 45 then s.tail else s) = s0 at h0
  have h1 := expect_digits_quiet s0
  cases h_d : expect_digits s0 with
  | mk r1 s1 =>
    rw [h_d] at h1
    simp only at h1
    have h01 := h0.trans h1
    cases r1 with
    | eof => exact h01
    | invalid_char => exact h01
    | success =>
      simp only
      have h2 : quiet_between s1 (if s1 ≠ [] ∧ s1.headD 0 = 46 then expect_digits s1.tail
          else (number_validation_result.success, s1)).2 := by
        split
        · rename_i hc
          exact (quiet_between_tail s1 (by rw [hc.2]; decide)).trans (expect_digits_quiet _)
        · exact quiet_between.refl _
      cases h_f : (if s1 ≠ [] ∧ s1.headD 0 = 46 then expect_digits s1.tail
          else (number_validation_result.success, s1)) with
      | mk r2 s2 =>
        rw [h_f] at h2
        simp only at h2
        have h02 := h01.trans h2
        cases r2 with
        | eof => exact h02
        | invalid_char => exact h02
        | success =>
          simp only
          split
          · rename_i hc
            have h3 : quiet_between s2 s2.tail :=
              quiet_between_tail s2 (by rcases hc.2 with h | h <;> rw [h] <;> decide)
            split
            · exact h02.trans h3
            · exact (h02.trans h3).trans
                ((quiet_between_sign s2.tail 45 (by decide)).trans (expect_digits_quiet _))
          · exact h02

theorem take_eq_quiet (s : bytes) (n : Nat) (l : bytes) (h : s.take n = l) (hl : 10 ∉ l) :
    quiet_between s (s.drop n) :=
  quiet_between_drop s n (by rw [h]; exact hl)

theorem tracked_pop_stack (p : parser) (h : tracked p) : tracked p.pop_stack := by
  unfold parser.pop_stack
  cases h_st : p.call_stack with
  | nil => exact h
  | cons e stack =>
    refine ⟨h.1, ?_, h.2.2⟩
    intro e' he'
    exact h.2.1 e' (by rw [h_st]; exact List.mem_cons_of_mem _ he')

theorem entry_ok_push (buf source : bytes) (line : Nat) (stack : List stack_entry)
    (nc : parse_func) (h : synced buf source line) (h_stack : ∀ e ∈ stack, entry_ok buf e) :
    ∀ e ∈ (stack_entry.mk (buf.length - source.length) nc line :: stack), entry_ok buf e := by
  intro e he
  rcases List.mem_cons.mp he with rfl | he
  · obtain ⟨pre, h1, h2⟩ := h
    have h_len : buf.length - source.length = pre.length := by
      rw [h1, List.length_append]
      omega
    refine ⟨Nat.sub_le _ _, ?_⟩
    simp only [h_len]
    unfold line_at
    rw [h2, h1, List.take_left]
  · exact h_stack e he

theorem parser.parse_any_tracks (raise : raiser) (h : handles raise) (p : parser)
    (hp : tracked p) : keeps_track p (p.parse_any raise) := by
  obtain ⟨h_sync, h_stack, h_rep⟩ := hp
  have h1 := synced_skip_whitespaces p.buf p.source p.line h_sync
  unfold parser.parse_any
  simp only
  split
  · exact h _ _ ⟨h1, h_stack, h_rep⟩
  · split
    · rename_i h_ch
      have h2 := synced_skip_whitespaces p.buf _ _
        (synced_quiet _ _ _ _ h1 (quiet_between_tail _ (by rw [h_ch]; decide)))
      unfold parser.parse_object
      simp only
      split
      · exact h _ _ ⟨h2, h_stack, h_rep⟩
      · exact ⟨⟨h2, entry_ok_push _ _ _ _ _ h2 h_stack, h_rep⟩, rfl⟩
    · split
      · rename_i h_ch
        have h2 := synced_skip_whitespaces p.buf _ _
          (synced_quiet _ _ _ _ h1 (quiet_between_tail _ (by rw [h_ch]; decide)))
        unfold parser.parse_array
        simp only
        split
        · exact h _ _ ⟨h2, h_stack, h_rep⟩
        · exact ⟨⟨h2, entry_ok_push _ _ _ _ _ h2 h_stack, h_rep⟩, rfl⟩
      · split
        · rename_i h_ch
          have h2 := synced_quiet _ _ _ _ h1
            ((quiet_between_tail _ (by rw [h_ch]; decide)).trans
              (parse_string_literal_quiet (skip_whitespaces p.source p.line).1.tail))
          unfold parser.parse_string
          simp only
          split
          · rename_i error rest h_eq
            rw [h_eq] at h2
            exact h _ _ ⟨h2, h_stack, h_rep⟩
          · rename_i s rest h_eq
            rw [h_eq] at h2
            exact ⟨⟨h2, h_stack, h_rep⟩, rfl⟩
        · split
          · rename_i h_take
            exact ⟨⟨synced_quiet _ _ _ _ h1 (take_eq_quiet _ _ _ h_take (by decide)),
              h_stack, h_rep⟩, rfl⟩
          · split
            · rename_i h_take
              exact ⟨⟨synced_quiet _ _ _ _ h1 (take_eq_quiet _ _ _ h_take (by decide)),
                h_stack, h_rep⟩, rfl⟩
            · split
              · rename_i h_take
                exact ⟨⟨synced_quiet _ _ _ _ h1 (take_eq_quiet _ _ _ h_take (by decide)),
                  h_stack, h_rep⟩, rfl⟩
              · have h2 := synced_quiet _ _ _ _ h1
                  (expect_number_quiet (skip_whitespaces p.source p.line).1)
                unfold parser.parse_number
                simp only
                split
                · rename_i rest h_eq
                  rw [h_eq] at h2
                  exact h _ _ ⟨h2, h_stack, h_rep⟩
                · rename_i rest h_eq
                  rw [h_eq] at h2
                  exact h _ _ ⟨h2, h_stack, h_rep⟩
                · rename_i rest h_eq
                  rw [h_eq] at h2
                  exact ⟨⟨h2, h_stack, h_rep⟩, rfl⟩

end json
namespace json

theorem parser.parse_property_tracks (raise : raiser) (h : handles raise) (allow_end : Bool)
    (p : parser) (hp : tracked p) : keeps_track p (p.parse_property raise allow_end) := by
  obtain ⟨h_sync, h_stack, h_rep⟩ := hp
  unfold parser.parse_property
  simp only
  split
  · rename_i hc
    have h1 := synced_quiet _ _ _ _ h_sync (quiet_between_tail _ (by rw [hc.2]; decide))
    have h_pop := tracked_pop_stack
      { p with value_begin := some p.pos, source := p.source.tail } ⟨h1, h_stack, h_rep⟩
    refine ⟨h_pop, ?_⟩
    exact (parser.pop_stack_fields _).1
  · split
    · exact h _ _ ⟨h_sync, h_stack, h_rep⟩
    · rename_i h_ch
      have h_ch' : p.source.headD 0 = 34 := by
        by_contra h'
        exact h_ch h'
      have h1 := synced_quiet _ _ _ _ h_sync
        ((quiet_between_tail _ (by rw [h_ch']; decide)).trans
          (parse_string_literal_quiet p.source.tail))
      split
      · rename_i error rest h_eq
        rw [h_eq] at h1
        exact h _ _ ⟨h1, h_stack, h_rep⟩
      · rename_i s rest h_eq
        rw [h_eq] at h1
        simp only at h1
        have h2 := synced_skip_whitespaces p.buf _ _ h1
        split
        · exact h _ _ ⟨h2, h_stack, h_rep⟩
        · split
          · exact h _ _ ⟨h2, h_stack, h_rep⟩
          · rename_i h_colon
            have h_colon' : (skip_whitespaces rest p.line).1.headD 0 = 58 := by
              by_contra h'
              exact h_colon h'
            have h3 := synced_quiet _ _ _ _ h2 (quiet_between_tail _ (by rw [h_colon']; decide))
            exact parser.parse_any_tracks raise h _ ⟨h3, h_stack, h_rep⟩

theorem parser.parse_array_entry_tracks (raise : raiser) (h : handles raise) (allow_end : Bool)
    (p : parser) (hp : tracked p) : keeps_track p (p.parse_array_entry raise allow_end) := by
  obtain ⟨h_sync, h_stack, h_rep⟩ := hp
  unfold parser.parse_array_entry
  simp only
  split
  · rename_i hc
    have h1 := synced_quiet _ _ _ _ h_sync (quiet_between_tail _ (by rw [hc.2]; decide))
    have h_pop := tracked_pop_stack
      { p with value_begin := some p.pos, source := p.source.tail } ⟨h1, h_stack, h_rep⟩
    refine ⟨h_pop, ?_⟩
    exact (parser.pop_stack_fields _).1
  · exact parser.parse_any_tracks raise h _ ⟨h_sync, h_stack, h_rep⟩

theorem parser.call_tracks (raise : raiser) (h : handles raise) (p : parser)
    (hp : tracked p) : keeps_track p (p.call raise) := by
  have hp' := hp
  obtain ⟨h_sync, h_stack, h_rep⟩ := hp
  unfold parser.call
  split
  · unfold parser.parse_begin
    simp only
    split
    · exact ⟨⟨h_sync, h_stack, h_rep⟩, rfl⟩
    · exact parser.parse_any_tracks raise h _ ⟨h_sync, h_stack, h_rep⟩
  · exact ⟨hp', rfl⟩
  · exact parser.parse_any_tracks raise h p hp'
  · exact parser.parse_property_tracks raise h _ p hp'
  · have h1 := synced_skip_whitespaces p.buf p.source p.line h_sync
    unfold parser.parse_next_property
    simp only
    split
    · exact h _ _ ⟨h1, h_stack, h_rep⟩
    · split
      · exact h _ _ ⟨h1, h_stack, h_rep⟩
      · split
        · rename_i h_ch
          have h2 := synced_skip_whitespaces p.buf _ _
            (synced_quiet _ _ _ _ h1 (quiet_between_tail _ (by rw [h_ch]; decide)))
          split
          · exact h _ _ ⟨h2, h_stack, h_rep⟩
          · exact parser.parse_property_tracks raise h false _ ⟨h2, h_stack, h_rep⟩
        · exact parser.parse_property_tracks raise h true _ ⟨h1, h_stack, h_rep⟩
  · exact parser.parse_array_entry_tracks raise h _ p hp'
  · have h1 := synced_skip_whitespaces p.buf p.source p.line h_sync
    unfold parser.parse_next_array_entry
    simp only
    split
    · exact h _ _ ⟨h1, h_stack, h_rep⟩
    · split
      · exact h _ _ ⟨h1, h_stack, h_rep⟩
      · split
        · rename_i h_ch
          have h2 := synced_skip_whitespaces p.buf _ _
            (synced_quiet _ _ _ _ h1 (quiet_between_tail _ (by rw [h_ch]; decide)))
          split
          · exact h _ _ ⟨h2, h_stack, h_rep⟩
          · exact parser.parse_array_entry_tracks raise h false _ ⟨h2, h_stack, h_rep⟩
        · exact parser.parse_array_entry_tracks raise h true _ ⟨h1, h_stack, h_rep⟩

theorem drain_tracks (next : parser → parse_result)
    (h_next : ∀ p, tracked p → keeps_track p (next p)) :
    ∀ (fuel : Nat) (p : parser), tracked p →
      tracked (drain next fuel p).2 ∧ (drain next fuel p).2.buf = p.buf := by
  intro fuel
  induction fuel with
  | zero => intro p hp; exact ⟨hp, rfl⟩
  | succ fuel ih =>
    intro p hp
    have h1 := h_next p hp
    unfold drain
    split
    · rename_i q h_eq
      rw [h_eq] at h1
      exact h1
    · rename_i t q _ h_eq
      rw [h_eq] at h1
      obtain ⟨h2, h3⟩ := ih q h1.1
      exact ⟨h2, h3.trans h1.2⟩
    all_goals
      rename_i q h_eq
      rw [h_eq] at h1
      exact h1

theorem parser.raise_error_handles (next : parser → parse_result)
    (h_next : ∀ p, tracked p → keeps_track p (next p)) (fuel : Nat) :
    handles (parser.raise_error next fuel) := by
  intro what p hp
  obtain ⟨h_sync, h_stack, h_rep⟩ := hp
  have h_rep' : ∀ e ∈ p.reported ++ [parse_error.mk what (p.location_at p.pos)],
      location_ok p.buf e.location := by
    intro e he
    rcases List.mem_append.mp he with he | he
    · exact h_rep e he
    · simp only [List.mem_singleton] at he
      rw [he]
      exact location_at_pos p h_sync
  unfold parser.raise_error
  simp only
  split
  · split
    · exact ⟨⟨h_sync, h_stack, h_rep'⟩, rfl⟩
    · rename_i e stack h_st
      have h_e : entry_ok p.buf e := h_stack e (by rw [h_st]; exact List.mem_cons_self _ _)
      have h_stack' : ∀ e' ∈ stack, entry_ok p.buf e' := by
        intro e' he'
        exact h_stack e' (by rw [h_st]; exact List.mem_cons_of_mem _ he')
      have h1 := synced_skip_container_loop p.buf _ _ 0 false 0 (synced_of_entry p.buf e h_e)
      have h_d := drain_tracks next h_next fuel
        { p with reported := p.reported ++ [parse_error.mk what (p.location_at p.pos)],
                 error_count := p.error_count + 1,
                 source := (skip_container (p.buf.drop e.src) e.line).1,
                 line := (skip_container (p.buf.drop e.src) e.line).2,
                 next_call := e.next_call, call_stack := stack }
        ⟨h1, h_stack', h_rep'⟩
      split
      all_goals
        rename_i h_eq
        simp only [h_eq] at h_d
        exact h_d
  · exact ⟨⟨h_sync, h_stack, h_rep'⟩, rfl⟩

theorem parser.next_token_fuel_tracks : ∀ (fuel : Nat) (p : parser), tracked p →
    keeps_track p (parser.next_token_fuel fuel p) := by
  intro fuel
  induction fuel with
  | zero => intro p hp; exact ⟨hp, rfl⟩
  | succ fuel ih =>
    intro p hp
    unfold parser.next_token_fuel
    exact parser.call_tracks _ (parser.raise_error_handles _ ih fuel) p hp

theorem parser.next_token_tracks (p : parser) (hp : tracked p) :
    keeps_track p p.next_token :=
  parser.next_token_fuel_tracks _ p hp

theorem input_tracked (text : bytes) : tracked (input text) ∧ (input text).buf = text := by
  refine ⟨⟨?_, ?_, ?_⟩, rfl⟩
  · exact synced_skip_whitespaces text text 1 ⟨[], rfl, by simp⟩
  · intro e he
    simp [input, parser.init] at he
  · intro e he
    simp [input, parser.init] at he

theorem parser.calls_tracked : ∀ (n : Nat) (p : parser), tracked p →
    tracked (parser.calls n p) ∧ (parser.calls n p).buf = p.buf := by
  intro n
  induction n with
  | zero => intro p hp; exact ⟨hp, rfl⟩
  | succ n ih =>
    intro p hp
    obtain ⟨h1, h2⟩ := parser.next_token_tracks p hp
    obtain ⟨h3, h4⟩ := ih _ h1
    exact ⟨h3, h4.trans h2⟩

end json
namespace json

theorem location_at_ok (p : parser) (hp : tracked p) (a : Nat) (ha : a ≤ p.pos) :
    location_ok p.buf (p.location_at a) := by
  obtain ⟨pre, h1, h2⟩ := hp.1
  have h_pos : p.pos = pre.length := by
    unfold parser.pos
    rw [h1, List.length_append]
    omega
  rw [h_pos] at ha
  have h_take : p.buf.take a = pre.take a := by
    rw [h1, List.take_append_of_le_length ha]
  have h_mid : (p.buf.drop a).take (p.pos - a) = pre.drop a := by
    rw [h_pos, h1, List.drop_append_of_le_length ha]
    rw [List.take_append_of_le_length (by rw [List.length_drop])]
    rw [List.take_of_length_le (by rw [List.length_drop])]
  have h_count : pre.count 10 = (pre.take a).count 10 + (pre.drop a).count 10 := by
    rw [← List.count_append, List.take_append_drop]
  unfold parser.location_at location_ok
  simp only [h_mid]
  refine ⟨by rw [h1, List.length_append]; omega, ?_⟩
  unfold line_at
  rw [h_take, h2, h_count]
  generalize (pre.take a).count 10 = ca
  generalize (pre.drop a).count 10 = ex
  omega

/-- The anchors of a parser do not lie behind the view. -/
theorem ok_step_anchored (t : token_kind) (p p' : parser) (h : ok_step t p p')
    (h_suffix : p.source <:+ p.buf) (h_value : p.value_begin.getD 0 ≤ p.pos)
    (h_key : p.property_begin.getD 0 ≤ p.pos) :
    p'.source <:+ p'.buf ∧ p'.value_begin.getD 0 ≤ p'.pos ∧
      p'.property_begin.getD 0 ≤ p'.pos := by
  obtain ⟨h1, _, h3, h4, h5, _⟩ := h
  have h_len := h3.length_le
  unfold parser.pos at h_value h_key ⊢
  rw [h1]
  refine ⟨h3.trans h_suffix, ?_, ?_⟩
  · rcases h4 with ⟨_, hv⟩ | ⟨src, _, hs2, _, hs4, _⟩
    · rw [hv]; omega
    · have := hs2.length_le
      rw [hs4]
      simp only [Option.getD_some]
      omega
  · rcases h5 with hk | ⟨src, _, hs2, hs3⟩
    · rw [hk]; omega
    · have := hs2.length_le
      rw [hs3]
      simp only [Option.getD_some]
      omega

theorem parser.after_tokens_anchored : ∀ (n : Nat) (p q : parser), tracked p →
    p.value_begin.getD 0 ≤ p.pos → p.property_begin.getD 0 ≤ p.pos →
    parser.after_tokens n p = some q →
    tracked q ∧ q.buf = p.buf ∧ q.value_begin.getD 0 ≤ q.pos ∧
      q.property_begin.getD 0 ≤ q.pos := by
  intro n
  induction n with
  | zero =>
    intro p q hp hv hk h
    simp only [parser.after_tokens, Option.some.injEq] at h
    subst h
    exact ⟨hp, rfl, hv, hk⟩
  | succ n ih =>
    intro p q hp hv hk h
    unfold parser.after_tokens at h
    split at h
    · rename_i t p' h_tok
      have h_track := parser.next_token_tracks p hp
      rw [h_tok] at h_track
      have h_suffix : p.source <:+ p.buf := by
        obtain ⟨pre, h1, _⟩ := hp.1
        exact ⟨pre, h1.symm⟩
      obtain ⟨_, hv', hk'⟩ := ok_step_anchored t p p' (parser.next_token_ok p p' t h_tok)
        h_suffix hv hk
      obtain ⟨h1, h2, h3, h4⟩ := ih p' q h_track.1 hv' hk' h
      exact ⟨h1, h2.trans h_track.2, h3, h4⟩
    · cases h

/-- C29: on every document `text`, however often the user calls `next_token`
(also after a raised failure), every parse error handed to the sink carries an
offset `byte ≤ |text|` and as line the 32-bit counter value of one plus the
number of LF bytes in `text[0..byte)`; the same holds for the locations the
cursor answers for the value anchor and for the key anchor after any number of
calls that all returned a token. The line is a 32-bit counter: in a text with
fewer than `2^32 - 1` LF bytes its value is one plus the number of LF bytes
itself. -/
theorem locations_count_lines (text : bytes) :
    (∀ (n : Nat), ∀ e ∈ (parser.calls n (input text)).reported,
      e.location.byte ≤ text.length ∧
      e.location.line = line_at text e.location.byte % 2 ^ 32) ∧
    (∀ (n : Nat) (p : parser) (rel : relative_loc),
      parser.after_tokens n (input text) = some p →
      (p.location rel).byte ≤ text.length ∧
      (p.location rel).line = line_at text (p.location rel).byte % 2 ^ 32) ∧
    (1 + text.count 10 < 2 ^ 32 →
      ∀ offset : Nat, line_at text offset % 2 ^ 32 = 1 + (text.take offset).count 10) := by
  obtain ⟨h_in, h_buf⟩ := input_tracked text
  refine ⟨?_, ?_, ?_⟩
  · intro n e he
    obtain ⟨h1, h2⟩ := parser.calls_tracked n (input text) h_in
    have := h1.2.2 e he
    rw [h2, h_buf] at this
    exact this
  · intro n p rel h
    obtain ⟨h1, h2, h3, h4⟩ := parser.after_tokens_anchored n (input text) p h_in
      (Nat.zero_le _) (Nat.zero_le _) h
    have h_loc : location_ok p.buf (p.location rel) := by
      cases rel with
      | value => exact location_at_ok p h1 _ h3
      | key => exact location_at_ok p h1 _ h4
    rw [h2, h_buf] at h_loc
    exact h_loc
  · intro h_few offset
    unfold line_at
    have h_le : (text.take offset).count 10 ≤ text.count 10 :=
      (List.take_sublist offset text).count_le 10
    exact Nat.mod_eq_of_lt (by omega)

end json
namespace json

theorem locations_count_lines_witness :
    (parser.calls 4 (input recovery_text)).reported
      = [parse_error.mk parse_error_kind.string_invalid_newline ⟨67, 4⟩,
         parse_error.mk parse_error_kind.expected_key ⟨124, 8⟩,
         parse_error.mk parse_error_kind.eof_unexpected ⟨146, 10⟩] ∧
    recovery_text.length = 146 ∧
    (∀ e ∈ (parser.calls 4 (input recovery_text)).reported,
      e.location.byte ≤ recovery_text.length ∧
      e.location.line = line_at recovery_text e.location.byte % 2 ^ 32) :=
  ⟨by decide!, by decide!, (locations_count_lines recovery_text).1 4⟩

/-- C30 (failing input): on the document `[["]",x]]` the cursor delivers
`begin_array`, `begin_array` and the string `]` without an error; the fourth
call finds the syntax error at the `x` (byte 6), hands it to the sink and
recovers: it goes back to the start of the inner array and skips to the first
closing bracket, which is the `]` inside the string (byte 3), so the next error
it hands to the sink is `expected_separator` at byte 4, before the first one.
On the document of the test `Error handling and recovery` the three errors do
arrive in source order. -/
theorem next_token_errors_out_of_order :
    (parser.calls 3 (input bracket_in_string_text)).reported = [] ∧
    (parser.calls 3 (input bracket_in_string_text)).next_token.1
      = outcome.doc_input_exception ∧
    (parser.calls 4 (input bracket_in_string_text)).reported
      = [parse_error.mk parse_error_kind.string_invalid_char ⟨6, 1⟩,
         parse_error.mk parse_error_kind.expected_separator ⟨4, 1⟩] ∧
    skip_container (bracket_in_string_text.drop 2) 1 = (bracket_in_string_text.drop 4, 1) ∧
    ((parser.calls 4 (input recovery_text)).reported.map (fun e => e.location.byte))
      = [67, 124, 146] := by
  refine ⟨by decide!, by decide!, by decide!, by decide!, by decide!⟩

end json

namespace json

theorem shaped_of_advance (f g : raiser → parse_result) (p q : parser)
    (h_from : raised_from p q) (h_eq : ∀ raise, g raise = f raise) (h : shaped f q) :
    shaped g p := by
  obtain ⟨h1, h2, h3, h4, h5⟩ := h_from
  rcases h with ⟨t, p', h_ok, h_ec⟩ | ⟨what, q', h_raise, h1', h2', h3', h4', h5'⟩
  · exact Or.inl ⟨t, p', fun raise => (h_eq raise).trans (h_ok raise), h_ec.trans h3⟩
  · exact Or.inr ⟨what, q', fun raise => (h_eq raise).trans (h_raise raise),
      h1'.trans h1, h2'.trans h2, h3'.trans h3, h4'.trans h4, h5'.trans h5⟩

theorem shaped_raise (f : raiser → parse_result) (p q : parser) (what : parse_error_kind)
    (h_from : raised_from p q) (h_eq : ∀ raise, f raise = raise what q) : shaped f p :=
  Or.inr ⟨what, q, h_eq, h_from⟩

theorem shaped_ok (f : raiser → parse_result) (p p' : parser) (t : token_kind)
    (h_ec : p'.error_count = p.error_count) (h_eq : ∀ raise, f raise = (outcome.ok t, p')) :
    shaped f p :=
  Or.inl ⟨t, p', h_eq, h_ec⟩

theorem parser.parse_object_shaped (p : parser) : shaped (fun raise => p.parse_object raise) p := by
  have h_ws := skip_whitespaces_suffix p.source.tail p.line
  by_cases h : (skip_whitespaces p.source.tail p.line).1 = []
  · refine shaped_raise _ p
      { p with source := (skip_whitespaces p.source.tail p.line).1,
               line := (skip_whitespaces p.source.tail p.line).2 }
      parse_error_kind.eof_unexpected
      ⟨rfl, rfl, rfl, rfl, h_ws.trans (List.tail_suffix _)⟩ ?_
    intro raise
    simp only [parser.parse_object]
    rw [if_pos h]
  · refine shaped_ok _ p
      { (parser.push_stack
          { p with source := (skip_whitespaces p.source.tail p.line).1,
                   line := (skip_whitespaces p.source.tail p.line).2 }) with
        next_call := parse_func.parse_property true }
      token_kind.begin_mapping rfl ?_
    intro raise
    simp only [parser.parse_object]
    rw [if_neg h]

theorem parser.parse_array_shaped (p : parser) : shaped (fun raise => p.parse_array raise) p := by
  have h_ws := skip_whitespaces_suffix p.source.tail p.line
  by_cases h : (skip_whitespaces p.source.tail p.line).1 = []
  · refine shaped_raise _ p
      { p with source := (skip_whitespaces p.source.tail p.line).1,
               line := (skip_whitespaces p.source.tail p.line).2 }
      parse_error_kind.eof_unexpected
      ⟨rfl, rfl, rfl, rfl, h_ws.trans (List.tail_suffix _)⟩ ?_
    intro raise
    simp only [parser.parse_array]
    rw [if_pos h]
  · refine shaped_ok _ p
      { (parser.push_stack
          { p with source := (skip_whitespaces p.source.tail p.line).1,
                   line := (skip_whitespaces p.source.tail p.line).2 }) with
        next_call := parse_func.parse_array_entry true }
      token_kind.begin_array rfl ?_
    intro raise
    simp only [parser.parse_array]
    rw [if_neg h]

theorem parser.parse_string_shaped (p : parser) : shaped (fun raise => p.parse_string raise) p := by
  have h_lit := parse_string_literal_suffix p.source.tail
  cases h_eq : parse_string_literal p.source.tail with
  | mk res rest =>
    rw [h_eq] at h_lit
    cases res with
    | inl error =>
      refine shaped_raise _ p { p with source := rest } error
        ⟨rfl, rfl, rfl, rfl, h_lit.trans (List.tail_suffix _)⟩ ?_
      intro raise
      simp only [parser.parse_string, h_eq]
    | inr s =>
      refine shaped_ok _ p { p with source := rest, current_string := s } token_kind.string rfl ?_
      intro raise
      simp only [parser.parse_string, h_eq]

theorem parser.parse_number_shaped (p : parser) : shaped (fun raise => p.parse_number raise) p := by
  obtain ⟨pre, h_pre, _⟩ := expect_number_quiet p.source
  have h_suffix : (expect_number p.source).2 <:+ p.source := ⟨pre, h_pre.symm⟩
  cases h_eq : expect_number p.source with
  | mk res rest =>
    rw [h_eq] at h_suffix
    cases res with
    | eof =>
      refine shaped_raise _ p { p with source := rest } parse_error_kind.eof_unexpected
        ⟨rfl, rfl, rfl, rfl, h_suffix⟩ ?_
      intro raise
      simp only [parser.parse_number, h_eq]
    | invalid_char =>
      refine shaped_raise _ p { p with source := rest } parse_error_kind.string_invalid_char
        ⟨rfl, rfl, rfl, rfl, h_suffix⟩ ?_
      intro raise
      simp only [parser.parse_number, h_eq]
    | success =>
      refine shaped_ok _ p
        { p with source := rest,
                 current_number :=
                   ref_string.of_view (p.source.take (p.source.length - rest.length)) }
        token_kind.number rfl ?_
      intro raise
      simp only [parser.parse_number, h_eq]

end json
namespace json

theorem parser.parse_any_shaped (p : parser) : shaped (fun raise => p.parse_any raise) p := by
  have h_ws := skip_whitespaces_suffix p.source p.line
  have h_from : raised_from p p.value_start := ⟨rfl, rfl, rfl, rfl, h_ws⟩
  by_cases h0 : (skip_whitespaces p.source p.line).1 = []
  · refine shaped_raise _ p
      { p with source := (skip_whitespaces p.source p.line).1,
               line := (skip_whitespaces p.source p.line).2 }
      parse_error_kind.eof_unexpected ⟨rfl, rfl, rfl, rfl, h_ws⟩ ?_
    intro raise
    simp only [parser.parse_any]
    rw [if_pos h0]
  by_cases h1 : (skip_whitespaces p.source p.line).1.headD 0 = 123
  · refine shaped_of_advance (fun raise => p.value_start.parse_object raise) _ p p.value_start
      h_from ?_ (parser.parse_object_shaped _)
    intro raise
    simp only [parser.parse_any]
    rw [if_neg h0, if_pos h1]
    rfl
  by_cases h2 : (skip_whitespaces p.source p.line).1.headD 0 = 91
  · refine shaped_of_advance (fun raise => p.value_start.parse_array raise) _ p p.value_start
      h_from ?_ (parser.parse_array_shaped _)
    intro raise
    simp only [parser.parse_any]
    rw [if_neg h0, if_neg h1, if_pos h2]
    rfl
  by_cases h3 : (skip_whitespaces p.source p.line).1.headD 0 = 34
  · refine shaped_of_advance (fun raise => p.value_start.parse_string raise) _ p p.value_start
      h_from ?_ (parser.parse_string_shaped _)
    intro raise
    simp only [parser.parse_any]
    rw [if_neg h0, if_neg h1, if_neg h2, if_pos h3]
    rfl
  by_cases h4 : (skip_whitespaces p.source p.line).1.take 4 = [116, 114, 117, 101]
  · refine shaped_ok _ p (p.value_start.parse_bool true).2 token_kind.boolean rfl ?_
    intro raise
    simp only [parser.parse_any]
    rw [if_neg h0, if_neg h1, if_neg h2, if_neg h3, if_pos h4]
    rfl
  by_cases h5 : (skip_whitespaces p.source p.line).1.take 5 = [102, 97, 108, 115, 101]
  · refine shaped_ok _ p (p.value_start.parse_bool false).2 token_kind.boolean rfl ?_
    intro raise
    simp only [parser.parse_any]
    rw [if_neg h0, if_neg h1, if_neg h2, if_neg h3, if_neg h4, if_pos h5]
    rfl
  by_cases h6 : (skip_whitespaces p.source p.line).1.take 4 = [110, 117, 108, 108]
  · refine shaped_ok _ p p.value_start.parse_null.2 token_kind.null rfl ?_
    intro raise
    simp only [parser.parse_any]
    rw [if_neg h0, if_neg h1, if_neg h2, if_neg h3, if_neg h4, if_neg h5, if_pos h6]
    rfl
  · refine shaped_of_advance (fun raise => p.value_start.parse_number raise) _ p p.value_start
      h_from ?_ (parser.parse_number_shaped _)
    intro raise
    simp only [parser.parse_any]
    rw [if_neg h0, if_neg h1, if_neg h2, if_neg h3, if_neg h4, if_neg h5, if_neg h6]
    rfl

end json
namespace json

theorem parser.pop_stack_error_count (p : parser) :
    p.pop_stack.error_count = p.error_count := by
  unfold parser.pop_stack
  cases p.call_stack <;> rfl

theorem parser.parse_property_shaped (allow_end : Bool) (p : parser) :
    shaped (fun raise => p.parse_property raise allow_end) p := by
  by_cases h0 : allow_end = true ∧ p.source.headD 0 = 125
  · refine shaped_ok _ p
      (parser.pop_stack { p with value_begin := some p.pos, source := p.source.tail })
      token_kind.end_mapping (parser.pop_stack_error_count _) ?_
    intro raise
    simp only [parser.parse_property]
    rw [if_pos h0]
  by_cases h1 : p.source.headD 0 ≠ 34
  · refine shaped_raise _ p p parse_error_kind.expected_key
      ⟨rfl, rfl, rfl, rfl, List.suffix_refl _⟩ ?_
    intro raise
    simp only [parser.parse_property]
    rw [if_neg h0, if_pos h1]
  have h_lit := parse_string_literal_suffix p.source.tail
  cases h_eq : parse_string_literal p.source.tail with
  | mk res rest =>
    rw [h_eq] at h_lit
    simp only at h_lit
    have h_rest : rest <:+ p.source := h_lit.trans (List.tail_suffix _)
    cases res with
    | inl error =>
      refine shaped_raise _ p
        { p with source := rest, property_begin := some (p.buf.length - p.source.tail.length) }
        error ⟨rfl, rfl, rfl, rfl, h_rest⟩ ?_
      intro raise
      simp only [parser.parse_property]
      rw [if_neg h0, if_neg h1]
      simp only [h_eq]
      rfl
    | inr s =>
      have h_ws := skip_whitespaces_suffix rest p.line
      by_cases h2 : (skip_whitespaces rest p.line).1 = []
      · refine shaped_raise _ p
          { p with source := (skip_whitespaces rest p.line).1,
                   line := (skip_whitespaces rest p.line).2,
                   property_begin := some (p.buf.length - p.source.tail.length),
                   current_property := s }
          parse_error_kind.eof_unexpected ⟨rfl, rfl, rfl, rfl, h_ws.trans h_rest⟩ ?_
        intro raise
        simp only [parser.parse_property]
        rw [if_neg h0, if_neg h1]
        simp only [h_eq]
        rw [if_pos h2]
        rfl
      by_cases h3 : (skip_whitespaces rest p.line).1.headD 0 ≠ 58
      · refine shaped_raise _ p
          { p with source := (skip_whitespaces rest p.line).1,
                   line := (skip_whitespaces rest p.line).2,
                   property_begin := some (p.buf.length - p.source.tail.length),
                   current_property := s }
          parse_error_kind.expected_colon ⟨rfl, rfl, rfl, rfl, h_ws.trans h_rest⟩ ?_
        intro raise
        simp only [parser.parse_property]
        rw [if_neg h0, if_neg h1]
        simp only [h_eq]
        rw [if_neg h2, if_pos h3]
        rfl
      · have hq := parser.parse_any_shaped
          { p with source := (skip_whitespaces rest p.line).1.tail,
                   line := (skip_whitespaces rest p.line).2,
                   property_begin := some (p.buf.length - p.source.tail.length),
                   current_property := s,
                   next_call := parse_func.parse_next_property }
        refine shaped_of_advance _ _ p _ ?_ ?_ hq
        · exact ⟨rfl, rfl, rfl, rfl, ((List.tail_suffix _).trans h_ws).trans h_rest⟩
        intro raise
        simp only [parser.parse_property]
        rw [if_neg h0, if_neg h1]
        simp only [h_eq]
        rw [if_neg h2, if_neg h3]
        rfl

theorem parser.parse_array_entry_shaped (allow_end : Bool) (p : parser) :
    shaped (fun raise => p.parse_array_entry raise allow_end) p := by
  by_cases h0 : allow_end = true ∧ p.source.headD 0 = 93
  · refine shaped_ok _ p
      (parser.pop_stack { p with value_begin := some p.pos, source := p.source.tail })
      token_kind.end_array (parser.pop_stack_error_count _) ?_
    intro raise
    simp only [parser.parse_array_entry]
    rw [if_pos h0]
  · have hq := parser.parse_any_shaped { p with next_call := parse_func.parse_next_array_entry }
    refine shaped_of_advance _ _ p _ ?_ ?_ hq
    · exact ⟨rfl, rfl, rfl, rfl, List.suffix_refl _⟩
    intro raise
    simp only [parser.parse_array_entry]
    rw [if_neg h0]

end json
namespace json

theorem parser.parse_next_property_shaped (p : parser) :
    shaped (fun raise => p.parse_next_property raise) p := by
  have h_ws := skip_whitespaces_suffix p.source p.line
  by_cases h0 : (skip_whitespaces p.source p.line).1 = []
  · refine shaped_raise _ p
      { p with source := (skip_whitespaces p.source p.line).1,
               line := (skip_whitespaces p.source p.line).2 }
      parse_error_kind.eof_unexpected ⟨rfl, rfl, rfl, rfl, h_ws⟩ ?_
    intro raise
    simp only [parser.parse_next_property]
    rw [if_pos h0]
  by_cases h1 : (skip_whitespaces p.source p.line).1.headD 0 ≠ 44 ∧
      (skip_whitespaces p.source p.line).1.headD 0 ≠ 125
  · refine shaped_raise _ p
      { p with source := (skip_whitespaces p.source p.line).1,
               line := (skip_whitespaces p.source p.line).2 }
      parse_error_kind.expected_separator ⟨rfl, rfl, rfl, rfl, h_ws⟩ ?_
    intro raise
    simp only [parser.parse_next_property]
    rw [if_neg h0, if_pos h1]
  by_cases h2 : (skip_whitespaces p.source p.line).1.headD 0 = 44
  · have h_ws2 := skip_whitespaces_suffix
      (skip_whitespaces p.source p.line).1.tail (skip_whitespaces p.source p.line).2
    by_cases h3 : (skip_whitespaces (skip_whitespaces p.source p.line).1.tail
        (skip_whitespaces p.source p.line).2).1 = []
    · refine shaped_raise _ p
        { p with source := (skip_whitespaces (skip_whitespaces p.source p.line).1.tail
                   (skip_whitespaces p.source p.line).2).1,
                 line := (skip_whitespaces (skip_whitespaces p.source p.line).1.tail
                   (skip_whitespaces p.source p.line).2).2 }
        parse_error_kind.eof_unexpected
        ⟨rfl, rfl, rfl, rfl, (h_ws2.trans (List.tail_suffix _)).trans h_ws⟩ ?_
      intro raise
      simp only [parser.parse_next_property]
      rw [if_neg h0, if_neg h1, if_pos h2, if_pos h3]
    · have hq := parser.parse_property_shaped false
        { p with source := (skip_whitespaces (skip_whitespaces p.source p.line).1.tail
                   (skip_whitespaces p.source p.line).2).1,
                 line := (skip_whitespaces (skip_whitespaces p.source p.line).1.tail
                   (skip_whitespaces p.source p.line).2).2 }
      refine shaped_of_advance _ _ p _ ?_ ?_ hq
      · exact ⟨rfl, rfl, rfl, rfl, (h_ws2.trans (List.tail_suffix _)).trans h_ws⟩
      intro raise
      simp only [parser.parse_next_property]
      rw [if_neg h0, if_neg h1, if_pos h2, if_neg h3]
  · have hq := parser.parse_property_shaped true
      { p with source := (skip_whitespaces p.source p.line).1,
               line := (skip_whitespaces p.source p.line).2 }
    refine shaped_of_advance _ _ p _ ?_ ?_ hq
    · exact ⟨rfl, rfl, rfl, rfl, h_ws⟩
    intro raise
    simp only [parser.parse_next_property]
    rw [if_neg h0, if_neg h1, if_neg h2]

theorem parser.parse_next_array_entry_shaped (p : parser) :
    shaped (fun raise => p.parse_next_array_entry raise) p := by
  have h_ws := skip_whitespaces_suffix p.source p.line
  by_cases h0 : (skip_whitespaces p.source p.line).1 = []
  · refine shaped_raise _ p
      { p with source := (skip_whitespaces p.source p.line).1,
               line := (skip_whitespaces p.source p.line).2 }
      parse_error_kind.eof_unexpected ⟨rfl, rfl, rfl, rfl, h_ws⟩ ?_
    intro raise
    simp only [parser.parse_next_array_entry]
    rw [if_pos h0]
  by_cases h1 : (skip_whitespaces p.source p.line).1.headD 0 ≠ 44 ∧
      (skip_whitespaces p.source p.line).1.headD 0 ≠ 93
  · refine shaped_raise _ p
      { p with source := (skip_whitespaces p.source p.line).1,
               line := (skip_whitespaces p.source p.line).2 }
      parse_error_kind.expected_separator ⟨rfl, rfl, rfl, rfl, h_ws⟩ ?_
    intro raise
    simp only [parser.parse_next_array_entry]
    rw [if_neg h0, if_pos h1]
  by_cases h2 : (skip_whitespaces p.source p.line).1.headD 0 = 44
  · have h_ws2 := skip_whitespaces_suffix
      (skip_whitespaces p.source p.line).1.tail (skip_whitespaces p.source p.line).2
    by_cases h3 : (skip_whitespaces (skip_whitespaces p.source p.line).1.tail
        (skip_whitespaces p.source p.line).2).1 = []
    · refine shaped_raise _ p
        { p with source := (skip_whitespaces (skip_whitespaces p.source p.line).1.tail
                   (skip_whitespaces p.source p.line).2).1,
                 line := (skip_whitespaces (skip_whitespaces p.source p.line).1.tail
                   (skip_whitespaces p.source p.line).2).2 }
        parse_error_kind.eof_unexpected
        ⟨rfl, rfl, rfl, rfl, (h_ws2.trans (List.tail_suffix _)).trans h_ws⟩ ?_
      intro raise
      simp only [parser.parse_next_array_entry]
      rw [if_neg h0, if_neg h1, if_pos h2, if_pos h3]
    · have hq := parser.parse_array_entry_shaped false
        { p with source := (skip_whitespaces (skip_whitespaces p.source p.line).1.tail
                   (skip_whitespaces p.source p.line).2).1,
                 line := (skip_whitespaces (skip_whitespaces p.source p.line).1.tail
                   (skip_whitespaces p.source p.line).2).2 }
      refine shaped_of_advance _ _ p _ ?_ ?_ hq
      · exact ⟨rfl, rfl, rfl, rfl, (h_ws2.trans (List.tail_suffix _)).trans h_ws⟩
      intro raise
      simp only [parser.parse_next_array_entry]
      rw [if_neg h0, if_neg h1, if_pos h2, if_neg h3]
  · have hq := parser.parse_array_entry_shaped true
      { p with source := (skip_whitespaces p.source p.line).1,
               line := (skip_whitespaces p.source p.line).2 }
    refine shaped_of_advance _ _ p _ ?_ ?_ hq
    · exact ⟨rfl, rfl, rfl, rfl, h_ws⟩
    intro raise
    simp only [parser.parse_next_array_entry]
    rw [if_neg h0, if_neg h1, if_neg h2]

theorem parser.call_shaped (p : parser) : shaped (fun raise => p.call raise) p := by
  cases h_nc : p.next_call with
  | parse_begin =>
    by_cases h0 : p.source = []
    · refine shaped_ok _ p { p with next_call := parse_func.parse_eof } token_kind.eof rfl ?_
      intro raise
      simp only [parser.call, h_nc, parser.parse_begin]
      rw [if_pos h0]
      rfl
    · have hq := parser.parse_any_shaped { p with next_call := parse_func.parse_eof }
      refine shaped_of_advance _ _ p _ ?_ ?_ hq
      · exact ⟨rfl, rfl, rfl, rfl, List.suffix_refl _⟩
      intro raise
      simp only [parser.call, h_nc, parser.parse_begin]
      rw [if_neg h0]
  | parse_eof =>
    refine shaped_ok _ p p token_kind.eof rfl ?_
    intro raise
    simp only [parser.call, h_nc, parser.parse_eof]
  | parse_any =>
    refine shaped_of_advance _ _ p p ⟨rfl, rfl, rfl, rfl, List.suffix_refl _⟩ ?_
      (parser.parse_any_shaped p)
    intro raise
    simp only [parser.call, h_nc]
  | parse_property allow_end =>
    refine shaped_of_advance _ _ p p ⟨rfl, rfl, rfl, rfl, List.suffix_refl _⟩ ?_
      (parser.parse_property_shaped allow_end p)
    intro raise
    simp only [parser.call, h_nc]
  | parse_next_property =>
    refine shaped_of_advance _ _ p p ⟨rfl, rfl, rfl, rfl, List.suffix_refl _⟩ ?_
      (parser.parse_next_property_shaped p)
    intro raise
    simp only [parser.call, h_nc]
  | parse_array_entry allow_end =>
    refine shaped_of_advance _ _ p p ⟨rfl, rfl, rfl, rfl, List.suffix_refl _⟩ ?_
      (parser.parse_array_entry_shaped allow_end p)
    intro raise
    simp only [parser.call, h_nc]
  | parse_next_array_entry =>
    refine shaped_of_advance _ _ p p ⟨rfl, rfl, rfl, rfl, List.suffix_refl _⟩ ?_
      (parser.parse_next_array_entry_shaped p)
    intro raise
    simp only [parser.call, h_nc]

end json
namespace json

theorem skip_container_loop_suffix : ∀ (s : bytes) (line level : Nat) (inside_string : Bool)
    (last_char : Nat), (skip_container_loop s line level inside_string last_char).1 <:+ s := by
  intro s
  induction s with
  | nil => intro line level inside last; exact List.suffix_refl _
  | cons c rest ih =>
    intro line level inside last
    unfold skip_container_loop
    split
    · exact List.suffix_cons _ _
    · split
      · exact (ih _ _ _ _).trans (List.suffix_cons _ _)
      · split
        · exact (ih _ _ _ _).trans (List.suffix_cons _ _)
        · split
          · exact (ih _ _ _ _).trans (List.suffix_cons _ _)
          · split
            · exact (ih _ _ _ _).trans (List.suffix_cons _ _)
            · exact (ih _ _ _ _).trans (List.suffix_cons _ _)

theorem parser.call_ok_fields (raise : raiser) (h : raises raise) (p p' : parser) (t : token_kind)
    (h_tok : p.call raise = (outcome.ok t, p')) :
    p'.buf = p.buf ∧ p'.error_count = p.error_count ∧ p'.reported = p.reported ∧
      (t ≠ token_kind.eof → p'.source.length < p.source.length) := by
  obtain ⟨h1, h2, _, h4, _, _⟩ := parser.call_ok raise h p p' t h_tok
  refine ⟨h1, ?_, h2, ?_⟩
  · rcases parser.call_shaped p with ⟨t', p'', h_ok, h_ec⟩ | ⟨what, q, h_raise, _⟩
    · have := h_ok raise
      simp only at this
      rw [h_tok] at this
      simp only [Prod.mk.injEq, outcome.ok.injEq] at this
      rw [this.2]
      exact h_ec
    · have := h_raise raise
      simp only at this
      rw [h_tok] at this
      exact absurd (congrArg Prod.fst this).symm (h _ _ _)
  · intro h_t
    rcases h4 with ⟨h_eof, _⟩ | ⟨src, hs1, _, hs3, _, _⟩
    · exact absurd h_eof h_t
    · have := hs1.length_le
      omega

theorem drain_never_stalls (next : parser → parse_result) (buf : bytes) (ec : Nat)
    (h_ok : ∀ q t q', next q = (outcome.ok t, q') →
      q'.buf = q.buf ∧ q'.error_count = q.error_count ∧
        (t ≠ token_kind.eof → q'.source.length < q.source.length))
    (h_no : ∀ q, q.buf = buf → q.error_count = ec → (next q).1 ≠ outcome.out_of_fuel) :
    ∀ (rounds : Nat) (q : parser), q.buf = buf → q.error_count = ec →
      q.source.length < rounds → (drain next rounds q).1 ≠ outcome.out_of_fuel := by
  intro rounds
  induction rounds with
  | zero => intro q _ _ h; omega
  | succ rounds ih =>
    intro q h_buf h_ec h_len
    have h_q := h_no q h_buf h_ec
    unfold drain
    split
    · simp
    · rename_i t q' h_ne h_eq
      obtain ⟨h1, h2, h3⟩ := h_ok q t q' h_eq
      have h_t : t ≠ token_kind.eof := by
        intro h
        exact h_ne h
      have := h3 h_t
      exact ih q' (h1.trans h_buf) (h2.trans h_ec) (by omega)
    · simp
    · simp
    · simp
    · simp
    · rename_i q' h_eq
      rw [h_eq] at h_q
      exact absurd rfl h_q

theorem parser.raise_error_never_stalls (next : parser → parse_result) (fuel : Nat)
    (what : parse_error_kind) (q : parser)
    (h_drain : ∀ q', q'.buf = q.buf → q'.error_count = q.error_count + 1 →
      q'.source.length ≤ q.buf.length → q.error_count < max_errors →
      (drain next fuel q').1 ≠ outcome.out_of_fuel) :
    (parser.raise_error next fuel what q).1 ≠ outcome.out_of_fuel := by
  unfold parser.raise_error
  simp only
  split
  · rename_i h_c
    split
    · simp
    · rename_i e stack h_st
      have h_len : (skip_container (q.buf.drop e.src) e.line).1.length ≤ q.buf.length := by
        have := (skip_container_loop_suffix (q.buf.drop e.src) e.line 0 false 0).length_le
        have h2 := List.length_drop e.src q.buf
        unfold skip_container
        omega
      have h_d := h_drain
        { q with reported := q.reported ++ [parse_error.mk what (q.location_at q.pos)],
                 error_count := q.error_count + 1,
                 source := (skip_container (q.buf.drop e.src) e.line).1,
                 line := (skip_container (q.buf.drop e.src) e.line).2,
                 next_call := e.next_call, call_stack := stack }
        rfl rfl h_len h_c.1
      split
      · intro h; cases h
      · intro h; cases h
      · intro h; cases h
      · intro h; cases h
      · intro h; cases h
      · rename_i h_eq
        rw [h_eq] at h_d
        exact absurd rfl h_d
  · simp

theorem parser.next_token_fuel_ok_fields (fuel : Nat) (q q' : parser) (t : token_kind)
    (h : parser.next_token_fuel fuel q = (outcome.ok t, q')) :
    q'.buf = q.buf ∧ q'.error_count = q.error_count ∧ q'.reported = q.reported ∧
      (t ≠ token_kind.eof → q'.source.length < q.source.length) := by
  cases fuel with
  | zero => simp [parser.next_token_fuel] at h
  | succ f =>
    unfold parser.next_token_fuel at h
    exact parser.call_ok_fields _ (parser.raise_error_raises _ _) q q' t h

/-- Fuel for the largest document part a recovery can rescan, once for each
recovery that is still allowed, is enough. -/
theorem parser.next_token_fuel_never_stalls : ∀ (fuel : Nat) (p : parser),
    p.buf.length + (max_errors - p.error_count) + 2 ≤ fuel →
    (parser.next_token_fuel fuel p).1 ≠ outcome.out_of_fuel := by
  intro fuel
  induction fuel with
  | zero => intro p h; omega
  | succ f ih =>
    intro p h_fuel
    unfold parser.next_token_fuel
    rcases parser.call_shaped p with ⟨t, p', h_ok, _⟩ | ⟨what, q, h_raise, h1, _, h3, _, _⟩
    · have := h_ok (parser.raise_error (parser.next_token_fuel f) f)
      simp only at this
      rw [this]
      simp
    · have := h_raise (parser.raise_error (parser.next_token_fuel f) f)
      simp only at this
      rw [this]
      apply parser.raise_error_never_stalls
      intro q' h_buf h_ec h_len h_lt
      rw [h1] at h_buf h_len
      rw [h3] at h_ec h_lt
      refine drain_never_stalls (parser.next_token_fuel f) p.buf (p.error_count + 1) ?_ ?_ f q'
        h_buf h_ec (by omega)
      · intro q1 t q2 h_eq
        obtain ⟨h_a, h_b, _, h_d⟩ := parser.next_token_fuel_ok_fields f q1 q2 t h_eq
        exact ⟨h_a, h_b, h_d⟩
      · intro q1 h_b1 h_e1
        apply ih
        rw [h_b1, h_e1]
        omega

end json
namespace json

theorem drain_more_fuel (next next' : parser → parse_result)
    (h_next : ∀ q, (next q).1 ≠ outcome.out_of_fuel → next' q = next q) :
    ∀ (rounds : Nat) (q : parser), (drain next rounds q).1 ≠ outcome.out_of_fuel →
      drain next' (rounds + 1) q = drain next rounds q := by
  intro rounds
  induction rounds with
  | zero => intro q h; exact absurd rfl h
  | succ rounds ih =>
    intro q h
    have h_q : (next q).1 ≠ outcome.out_of_fuel := by
      intro h_oof
      apply h
      unfold drain
      cases h_eq : next q with
      | mk o q' =>
        rw [h_eq] at h_oof
        simp only at h_oof
        subst h_oof
        rfl
    have h_same := h_next q h_q
    rw [drain, h_same]
    conv_rhs => rw [drain]
    rw [drain] at h
    cases h_eq : next q with
    | mk o q' =>
      rw [h_eq] at h
      cases o with
      | ok t =>
        cases t <;> first | rfl | exact ih q' h
      | doc_input_exception => rfl
      | doc_consume_exception => rfl
      | aborted => rfl
      | ill_formed => rfl
      | out_of_fuel => rfl

theorem parser.raise_error_more_fuel (next next' : parser → parse_result) (fuel : Nat)
    (h_next : ∀ q, (next q).1 ≠ outcome.out_of_fuel → next' q = next q)
    (what : parse_error_kind) (q : parser)
    (h : (parser.raise_error next fuel what q).1 ≠ outcome.out_of_fuel) :
    parser.raise_error next' (fuel + 1) what q = parser.raise_error next fuel what q := by
  unfold parser.raise_error at h ⊢
  simp only at h ⊢
  split
  · rename_i h_c
    rw [if_pos h_c] at h
    split
    · rfl
    · rename_i e stack h_st
      simp only [h_st] at h
      have h_d : (drain next fuel
          { q with reported := q.reported ++ [parse_error.mk what (q.location_at q.pos)],
                   error_count := q.error_count + 1,
                   source := (skip_container (q.buf.drop e.src) e.line).1,
                   line := (skip_container (q.buf.drop e.src) e.line).2,
                   next_call := e.next_call, call_stack := stack }).1
          ≠ outcome.out_of_fuel := by
        intro h_oof
        apply h
        cases h_dr : drain next fuel
          { q with reported := q.reported ++ [parse_error.mk what (q.location_at q.pos)],
                   error_count := q.error_count + 1,
                   source := (skip_container (q.buf.drop e.src) e.line).1,
                   line := (skip_container (q.buf.drop e.src) e.line).2,
                   next_call := e.next_call, call_stack := stack } with
        | mk o q' =>
          rw [h_dr] at h_oof
          simp only at h_oof
          subst h_oof
          rfl
      rw [drain_more_fuel next next' h_next fuel _ h_d]
  · rfl

theorem parser.next_token_fuel_succ : ∀ (fuel : Nat) (p : parser),
    (parser.next_token_fuel fuel p).1 ≠ outcome.out_of_fuel →
    parser.next_token_fuel (fuel + 1) p = parser.next_token_fuel fuel p := by
  intro fuel
  induction fuel with
  | zero => intro p h; exact absurd rfl h
  | succ f ih =>
    intro p h
    rw [parser.next_token_fuel] at h
    rw [parser.next_token_fuel]
    conv_rhs => rw [parser.next_token_fuel]
    rcases parser.call_shaped p with ⟨t, p', h_ok, _⟩ | ⟨what, q, h_raise, _⟩
    · have h1 := h_ok (parser.raise_error (parser.next_token_fuel (f + 1)) (f + 1))
      have h2 := h_ok (parser.raise_error (parser.next_token_fuel f) f)
      simp only at h1 h2
      rw [h1, h2]
    · have h1 := h_raise (parser.raise_error (parser.next_token_fuel (f + 1)) (f + 1))
      have h2 := h_raise (parser.raise_error (parser.next_token_fuel f) f)
      simp only at h1 h2
      rw [h2] at h
      rw [h1, h2]
      exact parser.raise_error_more_fuel _ _ f ih what q h

/-- With at least the fuel `next_token` takes, the result is the one of
`next_token`. -/
theorem parser.next_token_fuel_eq (p : parser) : ∀ (extra : Nat),
    parser.next_token_fuel (p.buf.length + max_errors + 2 + extra) p = p.next_token := by
  intro extra
  induction extra with
  | zero => rfl
  | succ n ih =>
    rw [← ih]
    apply parser.next_token_fuel_succ
    apply parser.next_token_fuel_never_stalls
    show p.buf.length + (max_errors - p.error_count) + 2 ≤ p.buf.length + max_errors + 2 + n
    unfold max_errors
    omega

theorem parser.next_token_never_stalls (p : parser) :
    p.next_token.1 ≠ outcome.out_of_fuel := by
  apply parser.next_token_fuel_never_stalls
  unfold max_errors
  omega

end json
namespace json

theorem drain_settles (next : parser → parse_result)
    (h_next : ∀ q, (next q).1 = outcome.doc_input_exception →
      (next q).2.next_call = parse_func.parse_eof) :
    ∀ (rounds : Nat) (q : parser), (drain next rounds q).1 = outcome.doc_input_exception →
      (drain next rounds q).2.next_call = parse_func.parse_eof := by
  intro rounds
  induction rounds with
  | zero => intro q h; simp [drain] at h
  | succ rounds ih =>
    intro q
    have h_q := h_next q
    rw [drain]
    cases h_eq : next q with
    | mk o q' =>
      rw [h_eq] at h_q
      cases o with
      | ok t =>
        cases t
        case eof => intro h; cases h
        all_goals exact ih q'
      | doc_input_exception => intro _; exact h_q rfl
      | doc_consume_exception => intro h; cases h
      | aborted => intro h; cases h
      | ill_formed => intro h; cases h
      | out_of_fuel => intro h; cases h

theorem parser.raise_error_settles (next : parser → parse_result)
    (h_next : ∀ q, (next q).1 = outcome.doc_input_exception →
      (next q).2.next_call = parse_func.parse_eof)
    (fuel : Nat) (what : parse_error_kind) (q : parser)
    (h : (parser.raise_error next fuel what q).1 = outcome.doc_input_exception) :
    (parser.raise_error next fuel what q).2.next_call = parse_func.parse_eof := by
  unfold parser.raise_error at h ⊢
  simp only at h ⊢
  split
  · rename_i h_c
    rw [if_pos h_c] at h
    split
    · rfl
    · rename_i e stack h_st
      simp only [h_st] at h
      have h_d := drain_settles next h_next fuel
        { q with reported := q.reported ++ [parse_error.mk what (q.location_at q.pos)],
                 error_count := q.error_count + 1,
                 source := (skip_container (q.buf.drop e.src) e.line).1,
                 line := (skip_container (q.buf.drop e.src) e.line).2,
                 next_call := e.next_call, call_stack := stack }
      cases h_dr : drain next fuel
        { q with reported := q.reported ++ [parse_error.mk what (q.location_at q.pos)],
                 error_count := q.error_count + 1,
                 source := (skip_container (q.buf.drop e.src) e.line).1,
                 line := (skip_container (q.buf.drop e.src) e.line).2,
                 next_call := e.next_call, call_stack := stack } with
      | mk o q' =>
        rw [h_dr] at h h_d
        cases o with
        | ok u => rfl
        | doc_input_exception => exact h_d rfl
        | doc_consume_exception => cases h
        | aborted => cases h
        | ill_formed => cases h
        | out_of_fuel => cases h
  · rfl

theorem parser.next_token_fuel_settles : ∀ (fuel : Nat) (p : parser),
    (parser.next_token_fuel fuel p).1 = outcome.doc_input_exception →
    (parser.next_token_fuel fuel p).2.next_call = parse_func.parse_eof := by
  intro fuel
  induction fuel with
  | zero => intro p h; simp [parser.next_token_fuel] at h
  | succ f ih =>
    intro p
    rw [parser.next_token_fuel]
    rcases parser.call_shaped p with ⟨t, p', h_ok, _⟩ | ⟨what, q, h_raise, _⟩
    · have h1 := h_ok (parser.raise_error (parser.next_token_fuel f) f)
      simp only at h1
      rw [h1]
      intro h
      cases h
    · have h1 := h_raise (parser.raise_error (parser.next_token_fuel f) f)
      simp only at h1
      rw [h1]
      exact parser.raise_error_settles _ ih f what q

theorem parser.next_token_outcome (p : parser) :
    (∃ t, p.next_token.1 = outcome.ok t ∧ p.next_token.2.reported = p.reported) ∨
    (p.next_token.1 = outcome.doc_input_exception ∧
      p.next_token.2.next_call = parse_func.parse_eof ∧
      ∃ es, es ≠ [] ∧ p.next_token.2.reported = p.reported ++ es) := by
  have h_grow := parser.next_token_grows p
  have h_stall := parser.next_token_never_stalls p
  have h_settle := parser.next_token_fuel_settles (p.buf.length + max_errors + 2) p
  change p.next_token.1 = outcome.doc_input_exception → _ at h_settle
  cases h_o : p.next_token.1 with
  | ok t =>
    rw [h_o] at h_grow
    exact Or.inl ⟨t, rfl, h_grow⟩
  | doc_input_exception =>
    rw [h_o] at h_grow
    exact Or.inr ⟨rfl, h_settle h_o, h_grow⟩
  | doc_consume_exception => rw [h_o] at h_grow; exact h_grow.elim
  | aborted => rw [h_o] at h_grow; exact h_grow.elim
  | ill_formed => rw [h_o] at h_grow; exact h_grow.elim
  | out_of_fuel => exact absurd h_o h_stall

theorem parser.next_token_stopped (p : parser) (h : p.next_call = parse_func.parse_eof) :
    p.next_token = (outcome.ok token_kind.eof, p) := by
  unfold parser.next_token
  rw [show p.buf.length + max_errors + 2 = (p.buf.length + max_errors + 1) + 1 from rfl,
    parser.next_token_fuel]
  simp only [parser.call, h, parser.parse_eof]

theorem parser.calls_stopped : ∀ (n : Nat) (p : parser), p.next_call = parse_func.parse_eof →
    parser.calls n p = p := by
  intro n
  induction n with
  | zero => intro p _; rfl
  | succ n ih =>
    intro p h
    rw [parser.calls, parser.next_token_stopped p h]
    exact ih p h

end json
namespace json

theorem drain_counted (next : parser → parse_result)
    (h_next : ∀ q, counted q → counted (next q).2) :
    ∀ (rounds : Nat) (q : parser), counted q → counted (drain next rounds q).2 := by
  intro rounds
  induction rounds with
  | zero => intro q h; exact h
  | succ rounds ih =>
    intro q h
    have h_q := h_next q h
    rw [drain]
    cases h_eq : next q with
    | mk o q' =>
      rw [h_eq] at h_q
      cases o with
      | ok t =>
        cases t
        case eof => exact h_q
        all_goals exact ih q' h_q
      | doc_input_exception => exact h_q
      | doc_consume_exception => exact h_q
      | aborted => exact h_q
      | ill_formed => exact h_q
      | out_of_fuel => exact h_q

theorem parser.raise_error_counted (next : parser → parse_result)
    (h_next : ∀ q, counted q → counted (next q).2)
    (fuel : Nat) (what : parse_error_kind) (q : parser)
    (h_ec : q.error_count ≤ max_errors) (h_len : q.reported.length = q.error_count) :
    counted (parser.raise_error next fuel what q).2 := by
  have h_dead : ∀ q' : parser, q'.error_count = q.error_count →
      q'.reported = q.reported ++ [parse_error.mk what (q.location_at q.pos)] →
      q'.next_call = parse_func.parse_eof → counted q' := by
    intro q' h1 h2 h3
    refine ⟨by rw [h1]; exact h_ec, Or.inr ⟨?_, h3⟩⟩
    rw [h2, h1, List.length_append, h_len]
    rfl
  unfold parser.raise_error
  simp only
  split
  · rename_i h_c
    split
    · exact h_dead _ rfl rfl rfl
    · rename_i e stack h_st
      have h_d := drain_counted next h_next fuel
        { q with reported := q.reported ++ [parse_error.mk what (q.location_at q.pos)],
                 error_count := q.error_count + 1,
                 source := (skip_container (q.buf.drop e.src) e.line).1,
                 line := (skip_container (q.buf.drop e.src) e.line).2,
                 next_call := e.next_call, call_stack := stack }
        ⟨h_c.1, Or.inl (by
          simp only [List.length_append, List.length_singleton]
          rw [h_len])⟩
      cases h_dr : drain next fuel
        { q with reported := q.reported ++ [parse_error.mk what (q.location_at q.pos)],
                 error_count := q.error_count + 1,
                 source := (skip_container (q.buf.drop e.src) e.line).1,
                 line := (skip_container (q.buf.drop e.src) e.line).2,
                 next_call := e.next_call, call_stack := stack } with
      | mk o q' =>
        rw [h_dr] at h_d
        cases o with
        | ok u =>
          refine ⟨h_d.1, ?_⟩
          rcases h_d.2 with h | h
          · exact Or.inl h
          · exact Or.inr ⟨h.1, rfl⟩
        | doc_input_exception => exact h_d
        | doc_consume_exception => exact h_d
        | aborted => exact h_d
        | ill_formed => exact h_d
        | out_of_fuel => exact h_d
  · exact h_dead _ rfl rfl rfl

theorem parser.next_token_fuel_counted : ∀ (fuel : Nat) (p : parser), counted p →
    counted (parser.next_token_fuel fuel p).2 := by
  intro fuel
  induction fuel with
  | zero => intro p h; exact h
  | succ f ih =>
    intro p h
    rw [parser.next_token_fuel]
    rcases h.2 with h_alive | ⟨_, h_eof⟩
    · rcases parser.call_shaped p with ⟨t, p', h_ok, h_ec⟩ | ⟨what, q, h_raise, _, h2, h3, _⟩
      · have h1 := h_ok (parser.raise_error (parser.next_token_fuel f) f)
        simp only at h1
        have h_rep := (parser.call_ok_fields _ (parser.raise_error_raises _ _) p p' t h1).2.2.1
        rw [h1]
        exact ⟨by rw [h_ec]; exact h.1, Or.inl (by rw [h_rep, h_ec]; exact h_alive)⟩
      · have h1 := h_raise (parser.raise_error (parser.next_token_fuel f) f)
        simp only at h1
        rw [h1]
        exact parser.raise_error_counted _ ih f what q (by rw [h3]; exact h.1)
          (by rw [h2, h3]; exact h_alive)
    · simp only [parser.call, h_eof, parser.parse_eof]
      exact h

theorem parser.calls_counted : ∀ (n : Nat) (p : parser), counted p →
    counted (parser.calls n p) := by
  intro n
  induction n with
  | zero => intro p h; exact h
  | succ n ih =>
    intro p h
    exact ih _ (parser.next_token_fuel_counted _ p h)

/-- C32: for every document, over any number of `next_token` calls (also calls
made after a raised failure), the parser recovers at most `max_errors` = 16
times (`error_count` counts the recoveries), and the parse-error sink has been
invoked at most once more than it has recovered, so at most 17 times. -/
theorem calls_reported_bounded (text : bytes) (n : Nat) :
    max_errors = 16 ∧
    (parser.calls n (input text)).error_count ≤ 16 ∧
    (parser.calls n (input text)).reported.length
      ≤ (parser.calls n (input text)).error_count + 1 ∧
    (parser.calls n (input text)).reported.length ≤ 17 := by
  have h := parser.calls_counted n (input text) ⟨Nat.zero_le _, Or.inl rfl⟩
  obtain ⟨h1, h2⟩ := h
  have h16 : max_errors = 16 := rfl
  rw [h16] at h1
  refine ⟨rfl, h1, ?_, ?_⟩
  · rcases h2 with h | h
    · omega
    · omega
  · rcases h2 with h | h
    · omega
    · omega

end json
namespace json

theorem parser.next_token_stops (p : parser)
    (h : p.reported ≠ [] → p.next_call = parse_func.parse_eof) :
    p.next_token.2.reported ≠ [] → p.next_token.2.next_call = parse_func.parse_eof := by
  intro h_rep
  rcases parser.next_token_outcome p with ⟨t, _, h_same⟩ | ⟨_, h_eof, _⟩
  · rw [h_same] at h_rep
    have h_nc := h h_rep
    rw [parser.next_token_stopped p h_nc]
    exact h_nc
  · exact h_eof

theorem parser.calls_stop : ∀ (n : Nat) (p : parser),
    (p.reported ≠ [] → p.next_call = parse_func.parse_eof) →
    (parser.calls n p).reported ≠ [] → (parser.calls n p).next_call = parse_func.parse_eof := by
  intro n
  induction n with
  | zero => intro p h; exact h
  | succ n ih =>
    intro p h
    exact ih _ (parser.next_token_stops p h)

/-- C33: a `next_token` call returns a token or raises the input failure. A
call that returns a token has not invoked the parse-error sink; a call during
which the sink is invoked raises the input failure (also when it recovered and
scanned on), and it raises only after invoking the sink. After a raised failure
every later call answers `eof` and leaves the parser, and with it the list of
reported errors, as it is. So for the user of a cursor on any document: once
an error has been reported every call answers `eof`, and every other token was
delivered while nothing had been reported. -/
theorem next_token_error_stops :
    (∀ p : parser,
      ((∃ t, p.next_token.1 = outcome.ok t) ∨ p.next_token.1 = outcome.doc_input_exception) ∧
      (∀ t, p.next_token.1 = outcome.ok t → p.next_token.2.reported = p.reported) ∧
      (p.next_token.2.reported ≠ p.reported → p.next_token.1 = outcome.doc_input_exception) ∧
      (p.next_token.1 = outcome.doc_input_exception →
        p.next_token.2.reported ≠ p.reported ∧
        ∀ n, parser.calls n p.next_token.2 = p.next_token.2 ∧
          (parser.calls n p.next_token.2).next_token
            = (outcome.ok token_kind.eof, p.next_token.2))) ∧
    (∀ (text : bytes) (n : Nat), (parser.calls n (input text)).reported ≠ [] →
      (parser.calls n (input text)).next_token
        = (outcome.ok token_kind.eof, parser.calls n (input text))) ∧
    (∀ (text : bytes) (n : Nat) (t : token_kind),
      (parser.calls n (input text)).next_token.1 = outcome.ok t → t ≠ token_kind.eof →
      (parser.calls n (input text)).reported = [] ∧
      (parser.calls (n + 1) (input text)).reported = []) := by
  have h_user : ∀ (text : bytes) (n : Nat), (parser.calls n (input text)).reported ≠ [] →
      (parser.calls n (input text)).next_token
        = (outcome.ok token_kind.eof, parser.calls n (input text)) := by
    intro text n h
    exact parser.next_token_stopped _
      (parser.calls_stop n (input text) (fun h' => absurd rfl h') h)
  have h_calls_succ : ∀ (n : Nat) (p : parser),
      parser.calls (n + 1) p = (parser.calls n p).next_token.2 := by
    intro n
    induction n with
    | zero => intro p; rfl
    | succ n ih =>
      intro p
      rw [parser.calls, ih, parser.calls]
  refine ⟨?_, h_user, ?_⟩
  · intro p
    rcases parser.next_token_outcome p with ⟨t, h_t, h_same⟩ | ⟨h_die, h_eof, es, h_es, h_rep⟩
    · refine ⟨Or.inl ⟨t, h_t⟩, fun _ _ => h_same, fun h => absurd h_same h, ?_⟩
      intro h
      rw [h_t] at h
      cases h
    · have h_ne : p.next_token.2.reported ≠ p.reported := by
        rw [h_rep]
        intro h
        have := congrArg List.length h
        rw [List.length_append] at this
        have h_pos : 0 < es.length := List.length_pos.mpr h_es
        omega
      refine ⟨Or.inr h_die, ?_, fun _ => h_die, fun _ => ⟨h_ne, ?_⟩⟩
      · intro t h
        rw [h_die] at h
        cases h
      · intro n
        have h_c := parser.calls_stopped n p.next_token.2 h_eof
        rw [h_c]
        exact ⟨rfl, parser.next_token_stopped _ h_eof⟩
  · intro text n t h_t h_ne
    have h_before : (parser.calls n (input text)).reported = [] := by
      by_contra h
      have := h_user text n h
      rw [this] at h_t
      simp only [outcome.ok.injEq] at h_t
      exact h_ne h_t.symm
    refine ⟨h_before, ?_⟩
    rw [h_calls_succ]
    rcases parser.next_token_outcome (parser.calls n (input text)) with
      ⟨_, _, h_same⟩ | ⟨h_die, _⟩
    · rw [h_same]
      exact h_before
    · rw [h_die] at h_t
      cases h_t

/-- C38: every `next_token` call ends, by returning a token or by raising the
input failure. The embedding bounds the recursion between `next_token` and
`raise_error` by fuel; the fuel `next_token` takes is never used up, and the
result is the same for every amount of fuel from the length of the document
plus two plus the number of recoveries still allowed (`max_errors` less
`error_count`), which each recovery lowers by one. The scanning loops leave a
rest of their input, and every token other than `eof` shortens the view. -/
theorem next_token_terminates (p : parser) :
    ((∃ t p', p.next_token = (outcome.ok t, p')) ∨
      (∃ p', p.next_token = (outcome.doc_input_exception, p'))) ∧
    (∀ fuel, p.buf.length + (max_errors - p.error_count) + 2 ≤ fuel →
      parser.next_token_fuel fuel p = p.next_token) ∧
    (∀ t p', p.next_token = (outcome.ok t, p') → t ≠ token_kind.eof →
      p'.source.length < p.source.length) ∧
    (∀ (s : bytes) (line : Nat), (skip_whitespaces s line).1 <:+ s ∧
      (skip_container s line).1 <:+ s ∧ (parse_string_literal s).2 <:+ s ∧
      (expect_number s).2 <:+ s) := by
  refine ⟨?_, ?_, ?_, ?_⟩
  · rcases parser.next_token_outcome p with ⟨t, h_t, _⟩ | ⟨h_die, _⟩
    · exact Or.inl ⟨t, _, Prod.ext h_t rfl⟩
    · exact Or.inr ⟨_, Prod.ext h_die rfl⟩
  · have h_up : ∀ k, parser.next_token_fuel
        (p.buf.length + (max_errors - p.error_count) + 2 + k) p
        = parser.next_token_fuel (p.buf.length + (max_errors - p.error_count) + 2) p := by
      intro k
      induction k with
      | zero => rfl
      | succ k ih =>
        rw [← ih]
        apply parser.next_token_fuel_succ
        apply parser.next_token_fuel_never_stalls
        show p.buf.length + (max_errors - p.error_count) + 2
          ≤ p.buf.length + (max_errors - p.error_count) + 2 + k
        omega
    intro fuel h_fuel
    obtain ⟨k, rfl⟩ : ∃ k, fuel = p.buf.length + (max_errors - p.error_count) + 2 + k :=
      ⟨fuel - (p.buf.length + (max_errors - p.error_count) + 2), by omega⟩
    obtain ⟨k', h_k'⟩ : ∃ k', p.buf.length + max_errors + 2
        = p.buf.length + (max_errors - p.error_count) + 2 + k' :=
      ⟨p.buf.length + max_errors + 2 - (p.buf.length + (max_errors - p.error_count) + 2),
        by omega⟩
    rw [h_up k]
    unfold parser.next_token
    rw [h_k', h_up k']
  · intro t p' h_tok h_t
    exact (parser.next_token_fuel_ok_fields _ p p' t h_tok).2.2.2 h_t
  · intro s line
    refine ⟨skip_whitespaces_suffix s line, skip_container_loop_suffix s line 0 false 0,
      parse_string_literal_suffix s, ?_⟩
    obtain ⟨pre, h_pre, _⟩ := expect_number_quiet s
    exact ⟨pre, h_pre.symm⟩

end json
namespace json

theorem parser.raise_error_no_recovery (next : parser → parse_result) (fuel : Nat)
    (what : parse_error_kind) (p : parser) (h : p.call_stack.length < 2) :
    parser.raise_error next fuel what p
      = (outcome.doc_input_exception,
          { p with reported := p.reported ++ [parse_error.mk what (p.location_at p.pos)],
                   next_call := parse_func.parse_eof }) := by
  unfold parser.raise_error
  simp only
  rw [if_neg (by omega)]

theorem parser.tokens_read_frames : ∀ (n : Nat) (p q : parser) (opened ts : List token_kind),
    p.frames = opened.map token_kind.frame ++ [frame_kind.top] →
    parser.tokens_read n p = some (ts, q) →
    ∃ o, opened_after ts opened = some o ∧
      q.frames = o.map token_kind.frame ++ [frame_kind.top] := by
  intro n
  induction n with
  | zero =>
    intro p q opened ts h_frames h
    simp only [parser.tokens_read, Option.some.injEq, Prod.mk.injEq] at h
    obtain ⟨rfl, rfl⟩ := h
    exact ⟨opened, rfl, h_frames⟩
  | succ n ih =>
    intro p q opened ts h_frames h
    unfold parser.tokens_read at h
    split at h
    · rename_i t p' h_tok
      have h_ok := parser.next_token_ok p p' t h_tok
      obtain ⟨o, h_o, h_frames', _⟩ :=
        frames_step_bracket t p p' opened h_frames h_ok.2.2.2.2.2
      split at h
      · rename_i ts' q' h_run
        simp only [Option.some.injEq, Prod.mk.injEq] at h
        obtain ⟨rfl, rfl⟩ := h
        obtain ⟨o', h1, h2⟩ := ih p' q' o ts' h_frames' h_run
        refine ⟨o', ?_, h2⟩
        unfold opened_after
        rw [h_o]
        exact h1
      · cases h
    · cases h

/-- C36: with fewer than two saved frames `raise_error` does not recover: it
hands the one error to the sink, located at the position of the view, sets
`next_call` to `parse_eof` and raises the input failure, without a scan and
without a call of `next_token` (the result does not depend on them). So a
`next_token` call on a parser with fewer than two saved frames returns a token
or reports exactly one error, at the position where the view is left, and
raises. The saved frames are the open containers: after tokens read from a
document there are as many as begin tokens are open. -/
theorem raise_error_without_recovery :
    (∀ (next : parser → parse_result) (fuel : Nat) (what : parse_error_kind) (p : parser),
      p.call_stack.length < 2 →
      parser.raise_error next fuel what p
        = (outcome.doc_input_exception,
            { p with reported := p.reported ++ [parse_error.mk what (p.location_at p.pos)],
                     next_call := parse_func.parse_eof })) ∧
    (∀ p : parser, p.call_stack.length < 2 →
      (∃ t p', p.next_token = (outcome.ok t, p')) ∨
      (∃ what q, raised_from p q ∧
        p.next_token
          = (outcome.doc_input_exception,
              { q with reported := p.reported ++ [parse_error.mk what (q.location_at q.pos)],
                       next_call := parse_func.parse_eof }))) ∧
    (∀ (text : bytes) (n : Nat) (ts : List token_kind) (p : parser),
      parser.tokens_read n (input text) = some (ts, p) →
      ∃ opened, opened_after ts [] = some opened ∧ p.call_stack.length = opened.length) := by
  refine ⟨parser.raise_error_no_recovery, ?_, ?_⟩
  · intro p h
    unfold parser.next_token
    rw [show p.buf.length + max_errors + 2 = (p.buf.length + max_errors + 1) + 1 from rfl,
      parser.next_token_fuel]
    rcases parser.call_shaped p with ⟨t, p', h_ok, _⟩ | ⟨what, q, h_raise, h_from⟩
    · exact Or.inl ⟨t, p', h_ok _⟩
    · refine Or.inr ⟨what, q, h_from, ?_⟩
      have h1 := h_raise (parser.raise_error
        (parser.next_token_fuel (p.buf.length + max_errors + 1)) (p.buf.length + max_errors + 1))
      simp only at h1
      rw [h1, parser.raise_error_no_recovery _ _ what q (by rw [h_from.2.2.2.1]; exact h),
        h_from.2.1]
  · intro text n ts p h
    obtain ⟨o, h1, h2⟩ := parser.tokens_read_frames n (input text) p [] ts rfl h
    refine ⟨o, h1, ?_⟩
    have := congrArg List.length h2
    simp only [parser.frames, List.length_cons, List.length_map, List.length_append,
      List.length_nil] at this
    omega

theorem raise_error_without_recovery_witness :
    parser.tokens_read 1 (input (ascii "[1 x]"))
      = some ([token_kind.begin_array], (input (ascii "[1 x]")).next_token.2) ∧
    (parser.calls 2 (input (ascii "[1 x]"))).next_token
      = (outcome.doc_input_exception,
          { (parser.calls 2 (input (ascii "[1 x]"))) with
            source := ascii "x]",
            reported := [parse_error.mk parse_error_kind.expected_separator ⟨3, 1⟩],
            next_call := parse_func.parse_eof }) ∧
    ((∃ t p', (parser.calls 2 (input (ascii "[1 x]"))).next_token = (outcome.ok t, p')) ∨
      (∃ what q, raised_from (parser.calls 2 (input (ascii "[1 x]"))) q ∧
        (parser.calls 2 (input (ascii "[1 x]"))).next_token
          = (outcome.doc_input_exception,
              { q with reported := (parser.calls 2 (input (ascii "[1 x]"))).reported
                          ++ [parse_error.mk what (q.location_at q.pos)],
                       next_call := parse_func.parse_eof }))) :=
  ⟨by decide!, by decide!,
    raise_error_without_recovery.2.1 (parser.calls 2 (input (ascii "[1 x]"))) (by decide!)⟩

end json
/-- C31: `std::vector<person>` read from `json_text1` of `examples/example4.cpp`
(as written there, and without its blanks and line breaks). The parse-error
sink receives exactly two errors, in source order: `expected_key` at the first
`?` and `expected_colon` at the `1` of the `170` that follows `"height"`. After
the second error the recovery reads the closing `]` and `eof` without another
error, so the whole document has been read. No consume error is reported and
`from_input` returns nothing. -/
theorem from_input_example4_two_errors :
    (from_input 6 (Ty.vector (Ty.record person_members)) (json.input example4_compact)).1
      = outcome.ok none ∧
    (from_input 6 (Ty.vector (Ty.record person_members))
        (json.input example4_compact)).2.input.reported
      = [json.parse_error.mk json.parse_error_kind.expected_key ⟨30, 1⟩,
         json.parse_error.mk json.parse_error_kind.expected_colon ⟨60, 1⟩] ∧
    (from_input 6 (Ty.vector (Ty.record person_members)) (json.input example4_compact)).2.errors
      = [] ∧
    (from_input 6 (Ty.vector (Ty.record person_members))
        (json.input example4_compact)).2.input.source = [] ∧
    example4_compact.drop 30 = ascii "????\x7d,\x7b\"name\":\"Bert\",\"height\" 170,\"custom\":9\x7d]" ∧
    example4_compact.drop 60 = ascii "170,\"custom\":9\x7d]" ∧
    returned_nothing
      (from_input 6 (Ty.vector (Ty.record person_members)) (json.input example4_text)) = true ∧
    (from_input 6 (Ty.vector (Ty.record person_members))
        (json.input example4_text)).2.input.reported
      = [json.parse_error.mk json.parse_error_kind.expected_key ⟨57, 3⟩,
         json.parse_error.mk json.parse_error_kind.expected_colon ⟨104, 4⟩] ∧
    (from_input 6 (Ty.vector (Ty.record person_members)) (json.input example4_text)).2.errors
      = [] := by
  refine ⟨rfl, by decide!, by decide!, by decide!, by decide!, by decide!, by decide!, by decide!,
    by decide!⟩

/-- C31 (counterexample): on the document of the claim the sink receives two
errors, not three, and none of them is `eof_unexpected`; a user who goes on
calling `next_token` after the failure gets no further error either. -/
theorem from_input_example4_no_third_error :
    (from_input 6 (Ty.vector (Ty.record person_members))
        (json.input example4_compact)).2.input.reported.length = 2 ∧
    (∀ e ∈ (from_input 6 (Ty.vector (Ty.record person_members))
        (json.input example4_compact)).2.input.reported,
      e.what ≠ json.parse_error_kind.eof_unexpected) ∧
    (json.parser.calls 10 (json.input example4_compact)).reported.length = 2 ∧
    (json.parser.calls 10 (json.input example4_text)).reported.length = 2 := by
  refine ⟨by decide!, by decide!, by decide!, by decide!⟩
namespace json

theorem skip_container_loop_balanced (body : bytes) (h : balanced body) :
    34 ∉ body → ∀ (tl : bytes) (line level last_char : Nat),
    ∃ line' last', skip_container_loop (body ++ tl) line level false last_char
      = skip_container_loop tl line' level false last' := by
  induction h with
  | nil => intro _ tl line level last; exact ⟨line, last, rfl⟩
  | other c rest h1 h2 h3 h4 _ ih =>
    intro h_q tl line level last
    have h_c : c ≠ 34 := fun h => h_q (by rw [h]; exact List.mem_cons_self _ _)
    have h_rest : 34 ∉ rest := fun h => h_q (List.mem_cons_of_mem _ h)
    rw [List.cons_append, skip_container_loop]
    rw [if_neg (by omega), if_neg (by omega), if_neg (by omega), if_neg h_c]
    by_cases h10 : c = 10
    · rw [if_pos h10]
      exact ih h_rest tl _ level c
    · rw [if_neg h10]
      exact ih h_rest tl _ level c
  | nest o cl inner rest h_o h_cl _ _ ih_inner ih_rest =>
    intro h_q tl line level last
    have h_inner : 34 ∉ inner := by
      intro h
      exact h_q (List.mem_cons_of_mem _ (List.mem_append_left _ h))
    have h_rest : 34 ∉ rest := by
      intro h
      exact h_q (List.mem_cons_of_mem _
        (List.mem_append_right _ (List.mem_cons_of_mem _ h)))
    rw [show (o :: (inner ++ cl :: rest)) ++ tl = o :: (inner ++ (cl :: (rest ++ tl))) by simp]
    rw [skip_container_loop, if_neg (by omega), if_pos h_o]
    obtain ⟨line1, last1, h1⟩ := ih_inner h_inner (cl :: (rest ++ tl)) line (level + 1) o
    rw [h1, skip_container_loop, if_neg (by omega), if_neg (by omega), if_pos h_cl]
    simp only [Bool.false_eq_true, if_false, Nat.add_sub_cancel]
    exact ih_rest h_rest tl line1 level cl

/-- C35 (failing inputs): `skip_container` stops behind the first `]` or `}`
that it meets at level 0, whether or not it is inside a string literal, and it
raises the level at every `[` and `{`, also inside a string literal; only a
`]` or `}` inside a string literal is passed over when it lowers the level. So
on `"]",1]rest` it stops behind the bracket inside the string, and on
`"[",1]x]y` it takes the bracket that closes the container for the one that
closes the `[` inside the string and stops behind the next one. For a text
without quotes it does what the claim says: with a balanced `body` in front of
the closing bracket, it consumes `body` and the bracket. -/
theorem skip_container_in_string :
    skip_container (ascii "\"]\",1]rest") 1 = (ascii "\",1]rest", 1) ∧
    skip_container (ascii "\"[\",1]x]y") 1 = (ascii "y", 1) ∧
    skip_container (ascii "\"[\",1]rest") 1 = ([], 1) ∧
    skip_container (ascii "[\"]\"],2]rest") 1 = (ascii "rest", 1) ∧
    skip_container (ascii "\"a\",[1,\x7b\"b\":2\x7d]]rest") 1 = (ascii "rest", 1) ∧
    (∀ (body rest : bytes) (c line : Nat), balanced body → 34 ∉ body → (c = 93 ∨ c = 125) →
      (skip_container (body ++ c :: rest) line).1 = rest) := by
  refine ⟨by decide!, by decide!, by decide!, by decide!, by decide!, ?_⟩
  intro body rest c line h_b h_q h_c
  unfold skip_container
  obtain ⟨line', last', h⟩ := skip_container_loop_balanced body h_b h_q (c :: rest) line 0 0
  rw [h, skip_container_loop, if_pos ⟨rfl, h_c⟩]

end json
theorem bytes_lt_irrefl : ∀ x : bytes, bytes_lt x x = false := by
  intro x
  induction x with
  | nil => rfl
  | cons a as ih =>
    rw [bytes_lt, if_neg (lt_irrefl a), if_neg (lt_irrefl a)]
    exact ih

theorem bytes_lt_iff : ∀ x y : bytes, bytes_lt x y = true ↔
    ((∃ c tl, y = x ++ c :: tl) ∨
      (∃ pre a b x' y', x = pre ++ a :: x' ∧ y = pre ++ b :: y' ∧ a < b)) := by
  intro x
  induction x with
  | nil =>
    intro y
    cases y with
    | nil =>
      simp only [bytes_lt, Bool.false_eq_true, false_iff]
      rintro (⟨c, tl, h⟩ | ⟨pre, a, b, x', y', h, _⟩)
      · simp at h
      · simp at h
    | cons b bs =>
      simp only [bytes_lt, true_iff]
      exact Or.inl ⟨b, bs, rfl⟩
  | cons a as ih =>
    intro y
    cases y with
    | nil =>
      simp only [bytes_lt, Bool.false_eq_true, false_iff]
      rintro (⟨c, tl, h⟩ | ⟨pre, a', b, x', y', _, h, _⟩)
      · simp at h
      · simp at h
    | cons b bs =>
      rw [bytes_lt]
      by_cases h1 : a < b
      · rw [if_pos h1]
        simp only [true_iff]
        exact Or.inr ⟨[], a, b, as, bs, rfl, rfl, h1⟩
      · rw [if_neg h1]
        by_cases h2 : b < a
        · rw [if_pos h2]
          simp only [Bool.false_eq_true, false_iff]
          rintro (⟨c, tl, h⟩ | ⟨pre, a', b', x', y', hx, hy, hlt⟩)
          · simp only [List.cons_append, List.cons.injEq] at h
            omega
          · cases pre with
            | nil =>
              simp only [List.nil_append, List.cons.injEq] at hx hy
              omega
            | cons p pre =>
              simp only [List.cons_append, List.cons.injEq] at hx hy
              omega
        · rw [if_neg h2]
          have h_ab : a = b := by omega
          subst h_ab
          rw [ih bs]
          constructor
          · rintro (⟨c, tl, h⟩ | ⟨pre, a', b', x', y', hx, hy, hlt⟩)
            · exact Or.inl ⟨c, tl, by rw [h]; rfl⟩
            · exact Or.inr ⟨a :: pre, a', b', x', y', by rw [hx]; rfl, by rw [hy]; rfl, hlt⟩
          · rintro (⟨c, tl, h⟩ | ⟨pre, a', b', x', y', hx, hy, hlt⟩)
            · simp only [List.cons_append, List.cons.injEq, true_and] at h
              exact Or.inl ⟨c, tl, h⟩
            · cases pre with
              | nil =>
                simp only [List.nil_append, List.cons.injEq] at hx hy
                omega
              | cons p pre =>
                simp only [List.cons_append, List.cons.injEq] at hx hy
                exact Or.inr ⟨pre, a', b', x', y', hx.2, hy.2, hlt⟩

theorem allocated_bit_eq (w : Nat) (hw : 1 ≤ w) : allocated_bit w = 2 ^ (w - 1) := by
  unfold allocated_bit
  rw [Nat.shiftLeft_eq, Nat.one_mul]
  apply Nat.mod_eq_of_lt
  exact Nat.pow_lt_pow_right (by norm_num) (by omega)

theorem not_allocated_bit_eq (w : Nat) (hw : 1 ≤ w) :
    2 ^ w - 1 - allocated_bit w = 2 ^ (w - 1) - 1 := by
  rw [allocated_bit_eq w hw]
  have : 2 ^ w = 2 * 2 ^ (w - 1) := by
    rw [← pow_succ']
    congr 1
    omega
  omega

theorem and_two_pow_of_lt (n k : Nat) (h : n < 2 ^ k) : n &&& 2 ^ k = 0 := by
  apply Nat.eq_of_testBit_eq
  intro i
  rw [Nat.testBit_and, Nat.zero_testBit, Nat.testBit_two_pow]
  by_cases hi : k = i
  · subst hi
    rw [Nat.testBit_lt_two_pow h]
    rfl
  · simp [hi]

theorem or_two_pow_of_lt (n k : Nat) (h : n < 2 ^ k) : n ||| 2 ^ k = 2 ^ k + n := by
  have := Nat.mul_add_lt_is_or h 1
  rw [Nat.mul_one] at this
  rw [this, Nat.or_comm]

theorem two_pow_add_and (n k : Nat) (h : n < 2 ^ k) : (2 ^ k + n) &&& 2 ^ k ≠ 0 := by
  intro h0
  have h1 : ((2 ^ k + n) &&& 2 ^ k).testBit k = true := by
    rw [Nat.testBit_and, Nat.testBit_two_pow_add_eq, Nat.testBit_lt_two_pow h,
      Nat.testBit_two_pow_self]
    rfl
  rw [h0] at h1
  simp at h1
/-- C34: for a `size_t` of `w` bits and every byte string `s` shorter than
`2^(w-1)`: `ref_string(s)` is not owning and `make_copy(s)` is owning, both
have the size `|s|` and, as a `std::string_view`, the bytes of `s`; `operator==`
and `operator<` compare these views only, byte by byte (`operator<`
lexicographically: a proper initial part is less, otherwise the first byte that
differs decides), so `ref_string(s)` and `make_copy(s)` are equal and neither is
less than the other. The embedding's `ref_string` keeps exactly the view and the
ownership. -/
theorem ref_string_object_bytes_only (w : Nat) (hw : 1 ≤ w) (s : bytes)
    (h : s.length < 2 ^ (w - 1)) :
    (ref_string_object.of_view w s).is_allocated w = false ∧
    (ref_string_object.make_copy w s).is_allocated w = true ∧
    (ref_string_object.of_view w s).size w = s.length ∧
    (ref_string_object.make_copy w s).size w = s.length ∧
    (ref_string_object.of_view w s).view w = s ∧
    (ref_string_object.make_copy w s).view w = s ∧
    (∀ a b : ref_string_object, a.equal w b = true ↔ a.view w = b.view w) ∧
    (∀ a b : ref_string_object, a.less w b = true ↔
      ((∃ c tl, b.view w = a.view w ++ c :: tl) ∨
        (∃ pre x y a' b', a.view w = pre ++ x :: a' ∧ b.view w = pre ++ y :: b' ∧ x < y))) ∧
    (ref_string_object.of_view w s).equal w (ref_string_object.make_copy w s) = true ∧
    (ref_string_object.of_view w s).less w (ref_string_object.make_copy w s) = false ∧
    (ref_string_object.make_copy w s).less w (ref_string_object.of_view w s) = false ∧
    (ref_string_object.of_view w s).abstract w = ref_string.of_view s ∧
    (ref_string_object.make_copy w s).abstract w = ref_string.make_copy s := by
  have h_lt : 2 ^ (w - 1) < 2 ^ w := Nat.pow_lt_pow_right (by norm_num) (by omega)
  have h_mod : s.length % 2 ^ w = s.length := Nat.mod_eq_of_lt (by omega)
  have h_alloc1 : (ref_string_object.of_view w s).is_allocated w = false := by
    unfold ref_string_object.is_allocated ref_string_object.of_view
    simp only [h_mod, allocated_bit_eq w hw, and_two_pow_of_lt _ _ h]
    decide
  have h_alloc2 : (ref_string_object.make_copy w s).is_allocated w = true := by
    unfold ref_string_object.is_allocated ref_string_object.make_copy
    simp only [h_mod, allocated_bit_eq w hw, or_two_pow_of_lt _ _ h]
    exact decide_eq_true (two_pow_add_and _ _ h)
  have h_size1 : (ref_string_object.of_view w s).size w = s.length := by
    unfold ref_string_object.size ref_string_object.of_view
    simp only [h_mod, not_allocated_bit_eq w hw, Nat.and_pow_two_sub_one_eq_mod]
    exact Nat.mod_eq_of_lt h
  have h_size2 : (ref_string_object.make_copy w s).size w = s.length := by
    unfold ref_string_object.size ref_string_object.make_copy
    simp only
    rw [not_allocated_bit_eq w hw, allocated_bit_eq w hw, h_mod, or_two_pow_of_lt _ _ h,
      Nat.and_pow_two_sub_one_eq_mod, Nat.add_mod_left]
    exact Nat.mod_eq_of_lt h
  have h_view1 : (ref_string_object.of_view w s).view w = s := by
    unfold ref_string_object.view
    rw [h_size1]
    exact List.take_length s
  have h_view2 : (ref_string_object.make_copy w s).view w = s := by
    unfold ref_string_object.view
    rw [h_size2]
    exact List.take_length s
  refine ⟨h_alloc1, h_alloc2, h_size1, h_size2, h_view1, h_view2, ?_, ?_, ?_, ?_, ?_, ?_, ?_⟩
  · intro a b
    unfold ref_string_object.equal
    exact decide_eq_true_iff
  · intro a b
    unfold ref_string_object.less
    exact bytes_lt_iff _ _
  · unfold ref_string_object.equal
    rw [h_view1, h_view2]
    exact decide_eq_true rfl
  · unfold ref_string_object.less
    rw [h_view1, h_view2]
    exact bytes_lt_irrefl s
  · unfold ref_string_object.less
    rw [h_view1, h_view2]
    exact bytes_lt_irrefl s
  · unfold ref_string_object.abstract
    rw [h_view1, h_alloc1]
    rfl
  · unfold ref_string_object.abstract
    rw [h_view2, h_alloc2]
    rfl

theorem ref_string_object_bytes_only_witness :
    (ref_string_object.of_view 64 (ascii "abc")).is_allocated 64 = false ∧
    (ref_string_object.make_copy 64 (ascii "abc")).is_allocated 64 = true ∧
    (ref_string_object.make_copy 64 (ascii "abc")).length = 2 ^ 63 + 3 ∧
    (ref_string_object.of_view 64 (ascii "abc")).equal 64
      (ref_string_object.make_copy 64 (ascii "abc")) = true ∧
    (ref_string_object.of_view 64 (ascii "ab")).less 64
      (ref_string_object.make_copy 64 (ascii "abc")) = true :=
  ⟨(ref_string_object_bytes_only 64 (by decide) (ascii "abc") (by decide)).1,
   (ref_string_object_bytes_only 64 (by decide) (ascii "abc") (by decide)).2.1,
   by decide!,
   (ref_string_object_bytes_only 64 (by decide) (ascii "abc") (by decide)).2.2.2.2.2.2.2.2.1,
   by decide!⟩
theorem bytes_lt_trans : ∀ x y z : bytes, bytes_lt x y = true → bytes_lt y z = true →
    bytes_lt x z = true := by
  intro x
  induction x with
  | nil =>
    intro y z h1 h2
    cases y with
    | nil => simp [bytes_lt] at h1
    | cons b bs =>
      cases z with
      | nil => simp [bytes_lt] at h2
      | cons c cs => rfl
  | cons a as ih =>
    intro y z h1 h2
    cases y with
    | nil => simp [bytes_lt] at h1
    | cons b bs =>
      cases z with
      | nil => simp [bytes_lt] at h2
      | cons c cs =>
        rw [bytes_lt] at h1 h2 ⊢
        by_cases hab : a < b
        · by_cases hbc : b < c
          · rw [if_pos (by omega)]
          · rw [if_neg hbc] at h2
            by_cases hcb : c < b
            · rw [if_pos hcb] at h2
              cases h2
            · rw [if_pos (by omega)]
        · rw [if_neg hab] at h1
          by_cases hba : b < a
          · rw [if_pos hba] at h1
            cases h1
          · rw [if_neg hba] at h1
            have h_ab : a = b := by omega
            subst h_ab
            by_cases hac : a < c
            · rw [if_pos hac]
            · rw [if_neg hac] at h2 ⊢
              by_cases hca : c < a
              · rw [if_pos hca] at h2
                cases h2
              · rw [if_neg hca] at h2 ⊢
                exact ih bs cs h1 h2

theorem bytes_lt_of_not : ∀ x y : bytes, x ≠ y → bytes_lt x y = false → bytes_lt y x = true := by
  intro x
  induction x with
  | nil =>
    intro y h1 h2
    cases y with
    | nil => exact absurd rfl h1
    | cons b bs => simp [bytes_lt] at h2
  | cons a as ih =>
    intro y h1 h2
    cases y with
    | nil => rfl
    | cons b bs =>
      rw [bytes_lt] at h2 ⊢
      by_cases hab : a < b
      · rw [if_pos hab] at h2
        cases h2
      · rw [if_neg hab] at h2
        by_cases hba : b < a
        · rw [if_pos hba]
        · rw [if_neg hba] at h2
          rw [if_neg hba, if_neg hab]
          have h_ab : a = b := by omega
          subst h_ab
          exact ih bs (fun h => h1 (by rw [h])) h2

theorem bytes_lt_ne (x y : bytes) (h : bytes_lt x y = true) : x ≠ y := by
  intro h_eq
  rw [h_eq, bytes_lt_irrefl] at h
  cases h

theorem map_find_of_lt : ∀ (m : List (bytes × Val)) (key : bytes),
    (∀ e ∈ m, bytes_lt key e.1 = true) → map_find m key = none := by
  intro m
  induction m with
  | nil => intro key _; rfl
  | cons e rest ih =>
    intro key h
    obtain ⟨k, v⟩ := e
    rw [map_find, if_neg (bytes_lt_ne _ _ (h (k, v) (List.mem_cons_self _ _)))]
    exact ih key (fun e he => h e (List.mem_cons_of_mem _ he))

theorem map_emplace_mem : ∀ (m : List (bytes × Val)) (key : bytes) (value : Val),
    ∀ e ∈ map_emplace m key value, e ∈ m ∨ e = (key, value) := by
  intro m
  induction m with
  | nil =>
    intro key value e he
    simp only [map_emplace, List.mem_singleton] at he
    exact Or.inr he
  | cons e0 rest ih =>
    intro key value e he
    obtain ⟨k, v⟩ := e0
    rw [map_emplace] at he
    split at he
    · exact Or.inl he
    · split at he
      · rcases List.mem_cons.mp he with h | h
        · exact Or.inr h
        · exact Or.inl h
      · rcases List.mem_cons.mp he with h | h
        · exact Or.inl (by rw [h]; exact List.mem_cons_self _ _)
        · rcases ih key value e h with h' | h'
          · exact Or.inl (List.mem_cons_of_mem _ h')
          · exact Or.inr h'

theorem map_assign_mem : ∀ (m : List (bytes × Val)) (key : bytes) (value : Val),
    ∀ e ∈ map_assign m key value, e ∈ m ∨ e = (key, value) := by
  intro m
  induction m with
  | nil =>
    intro key value e he
    simp only [map_assign, List.mem_singleton] at he
    exact Or.inr he
  | cons e0 rest ih =>
    intro key value e he
    obtain ⟨k, v⟩ := e0
    rw [map_assign] at he
    split at he
    · rename_i h_k
      rcases List.mem_cons.mp he with h | h
      · exact Or.inr (by rw [h, h_k])
      · exact Or.inl (List.mem_cons_of_mem _ h)
    · split at he
      · rcases List.mem_cons.mp he with h | h
        · exact Or.inr h
        · exact Or.inl h
      · rcases List.mem_cons.mp he with h | h
        · exact Or.inl (by rw [h]; exact List.mem_cons_self _ _)
        · rcases ih key value e h with h' | h'
          · exact Or.inl (List.mem_cons_of_mem _ h')
          · exact Or.inr h'

theorem map_emplace_spec : ∀ (m : List (bytes × Val)) (key : bytes) (value : Val),
    map_sorted m →
    map_sorted (map_emplace m key value) ∧
    map_find (map_emplace m key value) key = some ((map_find m key).getD value) ∧
    (∀ other, other ≠ key → map_find (map_emplace m key value) other = map_find m other) := by
  intro m
  induction m with
  | nil =>
    intro key value _
    refine ⟨List.pairwise_singleton _ _, by simp [map_emplace, map_find], ?_⟩
    intro other h
    simp [map_emplace, map_find, h]
  | cons e0 rest ih =>
    intro key value h_sorted
    obtain ⟨k, v⟩ := e0
    have h_rest : map_sorted rest := (List.pairwise_cons.mp h_sorted).2
    have h_head : ∀ e ∈ rest, bytes_lt k e.1 = true := (List.pairwise_cons.mp h_sorted).1
    rw [map_emplace]
    by_cases h1 : key = k
    · rw [if_pos h1]
      refine ⟨h_sorted, by simp [map_find, h1], fun _ _ => rfl⟩
    · rw [if_neg h1]
      by_cases h2 : bytes_lt key k = true
      · rw [if_pos h2]
        have h_all : ∀ e ∈ (k, v) :: rest, bytes_lt key e.1 = true := by
          intro e he
          rcases List.mem_cons.mp he with h | h
          · rw [h]; exact h2
          · exact bytes_lt_trans _ _ _ h2 (h_head e h)
        refine ⟨List.pairwise_cons.mpr ⟨h_all, h_sorted⟩, ?_, ?_⟩
        · rw [map_find_of_lt _ key h_all]
          simp [map_find]
        · intro other h
          rw [map_find, if_neg h]
      · rw [if_neg h2]
        have h_lt : bytes_lt k key = true :=
          bytes_lt_of_not key k h1 (by simpa using h2)
        obtain ⟨ih1, ih2, ih3⟩ := ih key value h_rest
        refine ⟨List.pairwise_cons.mpr ⟨?_, ih1⟩, ?_, ?_⟩
        · intro e he
          rcases map_emplace_mem rest key value e he with h | h
          · exact h_head e h
          · rw [h]; exact h_lt
        · rw [map_find, if_neg h1, ih2, map_find, if_neg h1]
        · intro other h
          rw [map_find, map_find]
          by_cases h3 : other = k
          · rw [if_pos h3, if_pos h3]
          · rw [if_neg h3, if_neg h3]
            exact ih3 other h

theorem map_assign_spec : ∀ (m : List (bytes × Val)) (key : bytes) (value : Val),
    map_sorted m →
    map_sorted (map_assign m key value) ∧
    map_find (map_assign m key value) key = some value ∧
    (∀ other, other ≠ key → map_find (map_assign m key value) other = map_find m other) := by
  intro m
  induction m with
  | nil =>
    intro key value _
    refine ⟨List.pairwise_singleton _ _, by simp [map_assign, map_find], ?_⟩
    intro other h
    simp [map_assign, map_find, h]
  | cons e0 rest ih =>
    intro key value h_sorted
    obtain ⟨k, v⟩ := e0
    have h_rest : map_sorted rest := (List.pairwise_cons.mp h_sorted).2
    have h_head : ∀ e ∈ rest, bytes_lt k e.1 = true := (List.pairwise_cons.mp h_sorted).1
    rw [map_assign]
    by_cases h1 : key = k
    · rw [if_pos h1]
      refine ⟨List.pairwise_cons.mpr ⟨h_head, h_rest⟩, by simp [map_find, h1], ?_⟩
      intro other h
      rw [map_find, map_find]
      by_cases h3 : other = k
      · exact absurd (h3.trans h1.symm) h
      · rw [if_neg h3, if_neg h3]
    · rw [if_neg h1]
      by_cases h2 : bytes_lt key k = true
      · rw [if_pos h2]
        have h_all : ∀ e ∈ (k, v) :: rest, bytes_lt key e.1 = true := by
          intro e he
          rcases List.mem_cons.mp he with h | h
          · rw [h]; exact h2
          · exact bytes_lt_trans _ _ _ h2 (h_head e h)
        refine ⟨List.pairwise_cons.mpr ⟨h_all, h_sorted⟩, by simp [map_find], ?_⟩
        intro other h
        rw [map_find, if_neg h]
      · rw [if_neg h2]
        have h_lt : bytes_lt k key = true :=
          bytes_lt_of_not key k h1 (by simpa using h2)
        obtain ⟨ih1, ih2, ih3⟩ := ih key value h_rest
        refine ⟨List.pairwise_cons.mpr ⟨?_, ih1⟩, ?_, ?_⟩
        · intro e he
          rcases map_assign_mem rest key value e he with h | h
          · exact h_head e h
          · rw [h]; exact h_lt
        · rw [map_find, if_neg h1, ih2]
        · intro other h
          rw [map_find, map_find]
          by_cases h3 : other = k
          · rw [if_pos h3, if_pos h3]
          · rw [if_neg h3, if_neg h3]
            exact ih3 other h
/-- C37: a key that no member takes (unknown, or a duplicate of a filled
member) goes, in a record with an `additional_keys` member, through
`consume_additional`: the value is consumed first, by the consumer of the map's
value type, and the state that consumer leaves is the state returned, so
nothing is reported beyond what the value itself reports; the pair is then
put into the map with `map_emplace`. On a map in key order `map_emplace` leaves
the value of a key that is already there and every other key as they were,
whereas `map_assign`, which is what each round of the plain mapping consumer
`consume_map_loop` applies, stores the new value. Both keep the key order. On
the document `{"x":1,"y":2,"x":3}` the record with the one member `rest` gets
`x ↦ 1, y ↦ 2`, the plain mapping gets `x ↦ 3, y ↦ 2`, both without an error and
with all of the document read; on `{"x":1,"x":"s"}` the second value, which
would not be stored, is still consumed and reported as a type mismatch. -/
theorem additional_keys_keep_first :
    (∀ (consume : Ty → consumer) (members : List member_info) (key : ref_string)
        (status : fill_stat) (token : token_kind) (ms : members_state) (st st1 : consume_state)
        (add_idx : Nat) (value_type : Ty) (value : Val) (map_member : List (bytes × Val)),
      add_keys_idx members 0 = some add_idx →
      ((members.get? add_idx).map member_info.type).bind Ty.mapped_type = some value_type →
      consume value_type token st = (outcome.ok value, st1) →
      ms.object.getD add_idx Val.absent = Val.map map_member →
      consume_additional consume members key status token ms st
        = (outcome.ok (),
            { ms with
              object := ms.object.set add_idx
                (Val.map (map_emplace map_member key.data value)) },
            st1)) ∧
    (∀ (m : List (bytes × Val)) (key : bytes) (first value : Val),
      map_sorted m → map_find m key = some first →
      map_find (map_emplace m key value) key = some first) ∧
    (∀ (m : List (bytes × Val)) (key : bytes) (value : Val),
      map_sorted m → map_find m key = none →
      map_find (map_emplace m key value) key = some value) ∧
    (∀ (m : List (bytes × Val)) (key : bytes) (value : Val),
      map_sorted m → map_find (map_assign m key value) key = some value) ∧
    (∀ (m : List (bytes × Val)) (key other : bytes) (value : Val),
      map_sorted m → other ≠ key →
      map_find (map_emplace m key value) other = map_find m other ∧
      map_find (map_assign m key value) other = map_find m other) ∧
    (∀ (m : List (bytes × Val)) (key : bytes) (value : Val),
      map_sorted m →
      map_sorted (map_emplace m key value) ∧ map_sorted (map_assign m key value)) ∧
    map_sorted [] ∧
    (∀ (elem : consumer) (fuel : Nat) (map : List (bytes × Val)) (st st1 st2 : consume_state)
        (token : token_kind) (v : Val),
      st.next_token = (outcome.ok token, st1) → token ≠ token_kind.end_mapping →
      elem token { st1 with input := st1.input.mapping_key_moved } = (outcome.ok v, st2) →
      consume_map_loop elem (fuel + 1) map st
        = consume_map_loop elem fuel (map_assign map st1.input.mapping_key.data v) st2) ∧
    (from_input 5 (Ty.record rest_members) (json.input repeated_text)).1
      = outcome.ok (some (Val.record
          [Val.map [(ascii "x", Val.integer 1), (ascii "y", Val.integer 2)]])) ∧
    (from_input 5 (Ty.record rest_members) (json.input repeated_text)).2.errors = [] ∧
    (from_input 5 (Ty.record rest_members) (json.input repeated_text)).2.input.reported = [] ∧
    (from_input 5 (Ty.record rest_members) (json.input repeated_text)).2.input.source = [] ∧
    (from_input 5 (Ty.map (Ty.integer true 32)) (json.input repeated_text)).1
      = outcome.ok (some (Val.map [(ascii "x", Val.integer 3), (ascii "y", Val.integer 2)])) ∧
    (from_input 5 (Ty.map (Ty.integer true 32)) (json.input repeated_text)).2.errors = [] ∧
    (from_input 5 (Ty.map (Ty.integer true 32)) (json.input repeated_text)).2.input.reported
      = [] ∧
    (from_input 5 (Ty.map (Ty.integer true 32)) (json.input repeated_text)).2.input.source
      = [] ∧
    (from_input 5 (Ty.record rest_members)
        (json.input (ascii "\x7b\"x\":1,\"x\":\"s\"\x7d"))).2.errors
      = [doc_error.mk ⟨11, 1⟩ doc_error_kind.type_mismatch] := by
  refine ⟨?_, ?_, ?_, ?_, ?_, ?_, List.Pairwise.nil, ?_, rfl, by decide!, by decide!,
    by decide!, rfl, by decide!, by decide!, by decide!, by decide!⟩
  · intro consume members key status token ms st st1 add_idx value_type value map_member
      h_idx h_type h_value h_map
    unfold consume_additional
    simp only [h_idx, h_type, h_value, h_map]
  · intro m key first value h_sorted h_find
    rw [(map_emplace_spec m key value h_sorted).2.1, h_find]
    rfl
  · intro m key value h_sorted h_find
    rw [(map_emplace_spec m key value h_sorted).2.1, h_find]
    rfl
  · intro m key value h_sorted
    exact (map_assign_spec m key value h_sorted).2.1
  · intro m key other value h_sorted h_ne
    exact ⟨(map_emplace_spec m key value h_sorted).2.2 other h_ne,
      (map_assign_spec m key value h_sorted).2.2 other h_ne⟩
  · intro m key value h_sorted
    exact ⟨(map_emplace_spec m key value h_sorted).1, (map_assign_spec m key value h_sorted).1⟩
  · intro elem fuel map st st1 st2 token v h_next h_ne h_elem
    rw [consume_map_loop]
    simp only [h_next, if_neg h_ne, h_elem]
theorem in_range_iff (is_signed : Bool) (bits : Nat) (v : Int) :
    in_range is_signed bits v = true ↔
      if is_signed = true then -(2 : Int) ^ (bits - 1) ≤ v ∧ v < (2 : Int) ^ (bits - 1)
      else 0 ≤ v ∧ v < (2 : Int) ^ bits := by
  cases is_signed <;> simp [in_range]

theorem in_range_one_of_bits (is_signed : Bool) (bits : Nat) (h_bits : 2 ≤ bits) :
    in_range is_signed bits 1 = true := by
  rw [in_range_iff]
  have h1 : (2 : Int) ^ 1 ≤ 2 ^ (bits - 1) := pow_le_pow_right₀ (by norm_num) (by omega)
  have h2 : (2 : Int) ^ 1 ≤ 2 ^ bits := pow_le_pow_right₀ (by norm_num) (by omega)
  rw [pow_one] at h1 h2
  split
  · constructor <;> omega
  · constructor <;> omega

theorem in_range_pow_le (is_signed : Bool) (bits : Nat) (b : Int) (n E : Nat)
    (h_one : in_range is_signed bits 1 = true) (h_b : in_range is_signed bits b = true)
    (h_E : in_range is_signed bits (b ^ E) = true) (h_n : n ≤ E) :
    in_range is_signed bits (b ^ n) = true := by
  rcases Nat.eq_or_lt_of_le h_n with h_eq | h_lt
  · rw [h_eq]; exact h_E
  · by_cases h_small : |b| ≤ 1
    · have h_cases : b = 0 ∨ b = 1 ∨ b = -1 := by
        rw [abs_le] at h_small
        omega
      rcases h_cases with h | h | h
      · subst h
        rcases Nat.eq_zero_or_pos n with h0 | h0
        · rw [h0, pow_zero]; exact h_one
        · rw [zero_pow (by omega)]
          rw [in_range_iff] at h_one ⊢
          split at h_one <;> rename_i hs
          · rw [if_pos hs]; constructor <;> omega
          · rw [if_neg hs]; constructor <;> omega
      · subst h
        rw [one_pow]; exact h_one
      · subst h
        rcases neg_one_pow_eq_or Int n with h | h
        · rw [h]; exact h_one
        · rw [h]; exact h_b
    · have h_big : 2 ≤ |b| := by
        have : 1 < |b| := not_le.mp h_small
        omega
      have h_split : b ^ E = b ^ n * b ^ (E - n) := by
        rw [← pow_add]
        congr 1
        omega
      have h_y : 2 ≤ |b ^ (E - n)| := by
        rw [abs_pow]
        calc (2 : Int) ≤ |b| := h_big
          _ = |b| ^ 1 := (pow_one _).symm
          _ ≤ |b| ^ (E - n) := pow_le_pow_right₀ (by omega) (by omega)
      have h_abs : |b ^ n| * 2 ≤ |b ^ E| := by
        rw [h_split, abs_mul]
        exact mul_le_mul_of_nonneg_left h_y (abs_nonneg _)
      rw [in_range_iff] at h_E h_b ⊢
      split at h_E <;> rename_i hs
      · rw [if_pos hs]
        have hP : (0 : Int) < 2 ^ (bits - 1) := by positivity
        have h_le : |b ^ E| ≤ 2 ^ (bits - 1) := abs_le.mpr ⟨h_E.1, le_of_lt h_E.2⟩
        have h_x : |b ^ n| < 2 ^ (bits - 1) := by
          have := abs_nonneg (b ^ n)
          omega
        rw [abs_lt] at h_x
        exact ⟨le_of_lt h_x.1, h_x.2⟩
      · rw [if_neg hs] at h_b ⊢
        have h_x0 : 0 ≤ b ^ n := pow_nonneg h_b.1 n
        refine ⟨h_x0, ?_⟩
        have h1 : |b ^ n| = b ^ n := abs_of_nonneg h_x0
        have h2 : |b ^ E| = b ^ E := abs_of_nonneg h_E.1
        rw [h1, h2] at h_abs
        omega

theorem safe_integer_power_loop_in_range (is_signed : Bool) (bits : Nat) :
    ∀ (fuel : Nat) (result b : Int) (e : Nat) (r : Int),
      in_range is_signed bits result = true →
      safe_integer_power_loop is_signed bits fuel result b e = some r →
      in_range is_signed bits r = true := by
  intro fuel
  induction fuel with
  | zero =>
    intro result b e r h_in h
    simp only [safe_integer_power_loop, Option.some.injEq] at h
    rw [← h]; exact h_in
  | succ f ih =>
    intro result b e r h_in h
    rw [safe_integer_power_loop] at h
    by_cases h0 : e = 0
    · rw [if_pos h0] at h
      cases h
      exact h_in
    · rw [if_neg h0] at h
      simp only at h
      split at h
      · cases h
      · rename_i result1 h_step1
        have h_in1 : in_range is_signed bits result1 = true := by
          split at h_step1
          · exact (safe_integer_mul_eq_some _ _ _ _ _ h_step1).1 ▸
              (safe_integer_mul_eq_some _ _ _ _ _ h_step1).2
          · cases h_step1
            exact h_in
        split at h
        · cases h
        · exact ih _ _ _ _ h_in1 h

theorem safe_integer_power_loop_exact (is_signed : Bool) (bits : Nat) (b0 : Int)
    (h_one : in_range is_signed bits 1 = true) (h_b : in_range is_signed bits b0 = true) :
    ∀ (fuel m j e : Nat) (b : Int), e < 2 ^ fuel → in_range is_signed bits (b0 ^ m) = true →
      (e ≠ 0 → b = b0 ^ 2 ^ j) →
      safe_integer_power_loop is_signed bits fuel (b0 ^ m) b e
        = if in_range is_signed bits (b0 ^ (m + 2 ^ j * e)) = true
          then some (b0 ^ (m + 2 ^ j * e)) else none := by
  intro fuel
  induction fuel with
  | zero =>
    intro m j e b he h_m _
    have : e = 0 := by simpa using he
    subst this
    simp [safe_integer_power_loop, h_m]
  | succ f ih =>
    intro m j e b he h_m h_sq
    by_cases h0 : e = 0
    · subst h0
      rw [safe_integer_power_loop_zero]
      simp [h_m]
    · have h_bb : b = b0 ^ 2 ^ j := h_sq h0
      subst h_bb
      have h_half : e / 2 < 2 ^ f := by
        rw [pow_succ] at he
        omega
      by_cases h_E : in_range is_signed bits (b0 ^ (m + 2 ^ j * e)) = true
      · rw [if_pos h_E]
        have h_le : ∀ n, n ≤ m + 2 ^ j * e → in_range is_signed bits (b0 ^ n) = true :=
          fun n hn => in_range_pow_le is_signed bits b0 n _ h_one h_b h_E hn
        have h_pos : 1 ≤ 2 ^ j := Nat.one_le_two_pow
        have h_mul : 2 ^ j * 1 ≤ 2 ^ j * e := Nat.mul_le_mul_left _ (by omega)
        rw [safe_integer_power_loop, if_neg h0]
        by_cases h_odd : e % 2 = 1
        · have h_m2 : in_range is_signed bits (b0 ^ (m + 2 ^ j)) = true := h_le _ (by omega)
          have h_prod : b0 ^ 2 ^ j * b0 ^ m = b0 ^ (m + 2 ^ j) := by
            rw [← pow_add, Nat.add_comm]
          simp only [if_pos h_odd, safe_integer_mul, h_prod, h_m2, if_true]
          by_cases h_gt : e > 1
          · have h_mul2 : 2 ^ j * 2 ≤ 2 ^ j * e := Nat.mul_le_mul_left _ (by omega)
            have h_sq2 : b0 ^ 2 ^ j * b0 ^ 2 ^ j = b0 ^ 2 ^ (j + 1) := by
              rw [← pow_add, pow_succ]
              congr 1
              omega
            have h_sq_in : in_range is_signed bits (b0 ^ 2 ^ (j + 1)) = true :=
              h_le _ (by rw [pow_succ]; omega)
            simp only [if_pos h_gt, h_sq2, h_sq_in, if_true]
            rw [ih (m + 2 ^ j) (j + 1) (e / 2) _ h_half h_m2 (fun _ => rfl)]
            have h_exp : m + 2 ^ j + 2 ^ (j + 1) * (e / 2) = m + 2 ^ j * e := by
              rw [pow_succ, Nat.mul_assoc]
              have : 2 * (e / 2) = e - 1 := by omega
              rw [this, Nat.mul_sub, Nat.mul_one]
              omega
            rw [h_exp, if_pos h_E]
          · have h_e1 : e = 1 := by omega
            subst h_e1
            simp only [if_neg h_gt]
            rw [show (1 : Nat) / 2 = 0 from rfl, safe_integer_power_loop_zero, Nat.mul_one]
        · have h_gt : e > 1 := by omega
          have h_mul2 : 2 ^ j * 2 ≤ 2 ^ j * e := Nat.mul_le_mul_left _ (by omega)
          have h_sq2 : b0 ^ 2 ^ j * b0 ^ 2 ^ j = b0 ^ 2 ^ (j + 1) := by
            rw [← pow_add, pow_succ]
            congr 1
            omega
          have h_sq_in : in_range is_signed bits (b0 ^ 2 ^ (j + 1)) = true :=
            h_le _ (by rw [pow_succ]; omega)
          simp only [if_neg h_odd, if_pos h_gt, safe_integer_mul, h_sq2, h_sq_in, if_true]
          rw [ih m (j + 1) (e / 2) _ h_half h_m (fun _ => rfl)]
          have h_exp : m + 2 ^ (j + 1) * (e / 2) = m + 2 ^ j * e := by
            rw [pow_succ, Nat.mul_assoc]
            have : 2 * (e / 2) = e := by omega
            rw [this]
          rw [h_exp, if_pos h_E]
      · rw [if_neg h_E]
        cases h_run : safe_integer_power_loop is_signed bits (f + 1) (b0 ^ m) (b0 ^ 2 ^ j) e with
        | none => rfl
        | some r =>
          exfalso
          apply h_E
          have h_r := safe_integer_power_loop_sound is_signed bits (f + 1) _ _ e r he h_run
          have h_in := safe_integer_power_loop_in_range is_signed bits (f + 1) _ _ e r h_m h_run
          rw [h_r, ← pow_mul, ← pow_add] at h_in
          exact h_in

/-- C39: for an integer type of at least two bits, a base `b` of the type and an
exponent `e` of the type `unsigned`: `safe_integer_power` returns `b ^ e` when
that is a value of the type and fails otherwise, so it succeeds exactly when
`b ^ e` is representable; and when `b ^ e` is representable so is every power
`b ^ n` with `n ≤ e`, among them each partial product and each square the loop
forms, which is why none of its multiplications fails. -/
theorem safe_integer_power_exact (is_signed : Bool) (bits : Nat) (b : Int) (e : Nat)
    (h_bits : 2 ≤ bits) (h_b : in_range is_signed bits b = true) (h_e : e < 2 ^ 32) :
    safe_integer_power is_signed bits b e
      = (if in_range is_signed bits (b ^ e) = true then some (b ^ e) else none) ∧
    ((∃ r, safe_integer_power is_signed bits b e = some r) ↔
      in_range is_signed bits (b ^ e) = true) ∧
    (∀ r, safe_integer_power is_signed bits b e = some r → r = b ^ e) ∧
    (in_range is_signed bits (b ^ e) = true →
      ∀ n, n ≤ e → in_range is_signed bits (b ^ n) = true) := by
  have h_one := in_range_one_of_bits is_signed bits h_bits
  have h_run : safe_integer_power is_signed bits b e
      = (if in_range is_signed bits (b ^ e) = true then some (b ^ e) else none) := by
    have h := safe_integer_power_loop_exact is_signed bits b h_one h_b 32 0 0 e b h_e
      (by rw [pow_zero]; exact h_one) (fun _ => by rw [pow_zero, pow_one])
    rw [pow_zero, pow_zero, Nat.zero_add, Nat.one_mul] at h
    exact h
  refine ⟨h_run, ?_, ?_, ?_⟩
  · rw [h_run]
    by_cases h : in_range is_signed bits (b ^ e) = true
    · rw [if_pos h]
      exact ⟨fun _ => h, fun _ => ⟨_, rfl⟩⟩
    · rw [if_neg h]
      exact ⟨fun h1 => h1.elim (fun _ hr => by cases hr), fun h2 => absurd h2 h⟩
  · intro r hr
    rw [h_run] at hr
    split at hr
    · cases hr; rfl
    · cases hr
  · intro h_E n h_n
    exact in_range_pow_le is_signed bits b n e h_one h_b h_E h_n

theorem safe_integer_power_exact_witness :
    safe_integer_power true 32 (-2) 31 = some (-2147483648) ∧
    safe_integer_power true 32 (-2) 32 = none ∧
    safe_integer_power false 8 3 5 = some 243 ∧
    safe_integer_power false 8 3 6 = none ∧
    (∀ n, n ≤ 31 → in_range true 32 ((-2 : Int) ^ n) = true) :=
  ⟨(safe_integer_power_exact true 32 (-2) 31 (by decide) (by decide) (by decide)).1,
   (safe_integer_power_exact true 32 (-2) 32 (by decide) (by decide) (by decide)).1,
   (safe_integer_power_exact false 8 3 5 (by decide) (by decide) (by decide)).1,
   (safe_integer_power_exact false 8 3 6 (by decide) (by decide) (by decide)).1,
   (safe_integer_power_exact true 32 (-2) 31 (by decide) (by decide) (by decide)).2.2.2
     (by decide)⟩
/-- C40 (evaluation): the document `[["[\""]]` is read as an array of arrays of
strings. The literal ends at the quote behind the backslash, so the quote at
byte 6 is reported as a missing separator; the recovery then scans from the
inner array, counts the `[` inside the literal and takes the bracket at byte 8,
the one that closes the top-level array, for the end of the inner array. The
bytes behind it are read next: with nothing behind it the end of the input is
reported at byte 9, with `]` behind it nothing more is reported, with `x`
behind it a second missing separator is reported at byte 9. The result is
absent each time. On `[["a"]]` the bytes `x]` behind the closing bracket are
left unread and change neither the result nor the errors. -/
theorem from_input_reads_past_close :
    quoted_bracket_text = [91, 91, 34, 91, 92, 34, 34, 93, 93] ∧
    (json.skip_container (ascii "\"[\\\"\"]]x") 1).1 = ascii "x" ∧
    (from_input 6 (Ty.vector (Ty.vector Ty.string))
        (json.input quoted_bracket_text)).2.input.reported
      = [json.parse_error.mk json.parse_error_kind.expected_separator ⟨6, 1⟩,
         json.parse_error.mk json.parse_error_kind.eof_unexpected ⟨9, 1⟩] ∧
    (from_input 6 (Ty.vector (Ty.vector Ty.string))
        (json.input (quoted_bracket_text ++ ascii "]"))).2.input.reported
      = [json.parse_error.mk json.parse_error_kind.expected_separator ⟨6, 1⟩] ∧
    (from_input 6 (Ty.vector (Ty.vector Ty.string))
        (json.input (quoted_bracket_text ++ ascii "x"))).2.input.reported
      = [json.parse_error.mk json.parse_error_kind.expected_separator ⟨6, 1⟩,
         json.parse_error.mk json.parse_error_kind.expected_separator ⟨9, 1⟩] ∧
    (from_input 6 (Ty.vector (Ty.vector Ty.string)) (json.input quoted_bracket_text)).1
      = outcome.ok none ∧
    (from_input 6 (Ty.vector (Ty.vector Ty.string))
        (json.input (quoted_bracket_text ++ ascii "]"))).1 = outcome.ok none ∧
    (from_input 6 (Ty.vector (Ty.vector Ty.string))
        (json.input (quoted_bracket_text ++ ascii "x"))).1 = outcome.ok none ∧
    (from_input 6 (Ty.vector (Ty.vector Ty.string))
        (json.input (quoted_bracket_text ++ ascii "]"))).2.errors = [] ∧
    (from_input 6 (Ty.vector (Ty.vector Ty.string))
        (json.input (quoted_bracket_text ++ ascii "x"))).2.errors = [] ∧
    (from_input 6 (Ty.vector (Ty.vector Ty.string)) (json.input (ascii "[[\"a\"]]"))).1
      = outcome.ok (some (Val.seq [Val.seq [Val.string (ascii "a")]])) ∧
    (from_input 6 (Ty.vector (Ty.vector Ty.string)) (json.input (ascii "[[\"a\"]]x]"))).1
      = outcome.ok (some (Val.seq [Val.seq [Val.string (ascii "a")]])) ∧
    (from_input 6 (Ty.vector (Ty.vector Ty.string))
        (json.input (ascii "[[\"a\"]]x]"))).2.input.source = ascii "x]" ∧
    (from_input 6 (Ty.vector (Ty.vector Ty.string))
        (json.input (ascii "[[\"a\"]]x]"))).2.input.reported = [] ∧
    (from_input 6 (Ty.vector (Ty.vector Ty.string))
        (json.input (ascii "[[\"a\"]]x]"))).2.errors = [] :=
  ⟨by decide, by decide!, by decide!, by decide!, by decide!, rfl, rfl, rfl, by decide!,
    by decide!, rfl, rfl, by decide!, by decide!, by decide!⟩

theorem has_flag_multiple_repeat (flags : Nat)
    (h : has_flag flags member_flag.multiple = true) :
    has_flag flags (member_flag.last_of_multiple ||| member_flag.multiple) = true := by
  simp only [has_flag, decide_eq_true_eq, ne_eq] at h ⊢
  intro h0
  apply h
  have h1 : flags &&& member_flag.multiple
      = (flags &&& (member_flag.last_of_multiple ||| member_flag.multiple))
          &&& member_flag.multiple := by
    rw [Nat.and_assoc]
    rfl
  rw [h1, h0, Nat.zero_and]

theorem try_fill_member_null_multiple (consume : Ty → consumer) (key : bytes) (idx : Nat)
    (m : member_info) (ms : members_state) (st : consume_state)
    (h_name : matching_name m key = true)
    (h_multi : has_flag m.flags member_flag.multiple = true)
    (h_default : has_flag m.flags member_flag.maybe_default = true) :
    try_fill_member consume key idx m token_kind.null ms st
      = (outcome.ok fill_stat.success, ms, st) := by
  have h_rep := has_flag_multiple_repeat _ h_multi
  cases h_f : ms.found_members.getD idx false with
  | false => exact try_fill_member_null consume key idx m ms st h_name h_f h_default
  | true =>
    cases h_first : has_flag m.flags member_flag.first_of_multiple with
    | false =>
      unfold try_fill_member
      simp only [h_name, h_f, h_first, h_rep, h_default, Bool.true_eq_false,
        Bool.false_eq_true, false_and, and_false, and_self, and_true, if_false, if_true]
    | true =>
      unfold try_fill_member
      simp only [h_name, h_f, h_first, Bool.true_eq_false, and_self, if_false, if_true]

theorem consume_members_loop_null_multiple (consume : Ty → consumer)
    (members : List member_info) (fuel : Nat) (ms : members_state) (st st1 : consume_state)
    (idx : Nat) (m : member_info)
    (h_token : st.next_token = (outcome.ok token_kind.null, st1))
    (h_member : names_member members st1.input.mapping_key.data idx m)
    (h_multi : has_flag m.flags member_flag.multiple = true)
    (h_default : has_flag m.flags member_flag.maybe_default = true) :
    consume_members_loop consume members (fuel + 1) ms st
      = consume_members_loop consume members fuel ms
          { st1 with input := st1.input.mapping_key_moved } := by
  obtain ⟨h_get, h_name, h_before, h_discr⟩ := h_member
  have h_null := try_fill_member_null_multiple consume st1.input.mapping_key.data idx m ms
    { st1 with input := st1.input.mapping_key_moved } h_name h_multi h_default
  have h_fm := fill_members_first_match consume st1.input.mapping_key.data token_kind.null
    members idx m h_get h_before 0 ms { st1 with input := st1.input.mapping_key_moved }
    (by rw [Nat.zero_add, h_null]; simp)
  rw [Nat.zero_add, h_null] at h_fm
  rw [consume_members_loop]
  have h_end : token_kind.null ≠ token_kind.end_mapping := by decide
  simp only [h_token, h_end, if_false,
    consume_discriminators_skipped consume st1.input.mapping_key.data _ members h_discr, h_fm]

/-- C5 (amended): a member flagged `multiple` whose field is a sequence. In a
mapping whose keys name members without alternatives (a key may come again
only for a member flagged `last_of_multiple` or `multiple` and not
`first_of_multiple`; no value is a null passed over under `maybe_default`) and
list every required member, each occurrence of the member's key has one value
of the element type consumed, and the record `consume_members` returns holds
the default sequence `xs` followed by these values in source order. When the
member is also flagged `maybe_default`, an occurrence of its key whose value is
null is passed over, whether the member has been found before or not: nothing
is consumed or appended, the found marks stay, and the loop goes on with the
next key. -/
theorem consume_members_multiple_appends (consume : Ty → consumer)
    (members : List member_info) (idx : Nat) (m : member_info)
    (h_get : members.get? idx = some m)
    (h_multi : has_flag m.flags member_flag.multiple = true) :
    (∀ (fuel : Nat) (st st_end : consume_state) (entries : List (Nat × Val)) (xs : List Val),
      m.init = Val.seq xs →
      holds_sequences members (members.map member_info.init) →
      delivers consume members st entries st_end →
      repeats_allowed members (members_state.init members).found_members entries →
      (∀ i, i < members.length →
        (members.get? i).map member_info.required = some true → i ∈ entries.map Prod.fst) →
      entries.length < fuel →
      ∃ fields,
        consume_members consume members fuel st = (outcome.ok (Val.record fields), st_end) ∧
        fields.get? idx
          = some (Val.seq
              (xs ++ (entries.filter (fun e => decide (e.1 = idx))).map Prod.snd))) ∧
    (has_flag m.flags member_flag.maybe_default = true →
      ∀ (fuel : Nat) (ms : members_state) (st st1 : consume_state),
        st.next_token = (outcome.ok token_kind.null, st1) →
        names_member members st1.input.mapping_key.data idx m →
        consume_members_loop consume members (fuel + 1) ms st
          = consume_members_loop consume members fuel ms
              { st1 with input := st1.input.mapping_key_moved }) :=
  ⟨fun fuel st st_end entries xs h_init h_seq h_delivers h_rep h_required h_fuel =>
      consume_members_multiple_in_order consume members fuel st st_end entries idx m xs h_get
        h_multi h_init h_seq h_delivers h_rep h_required h_fuel,
    fun h_default fuel ms st st1 h_token h_member =>
      consume_members_loop_null_multiple consume members fuel ms st st1 idx m h_token h_member
        h_multi h_default⟩

theorem consume_members_multiple_appends_witness :
    (∃ fields,
      consume_members (consume 3) opt_members 3 (begin_state opt_text)
        = (outcome.ok (Val.record fields),
            (((begin_state opt_text).after_value (consume 3 Ty.string)).after_value
              (consume 3 Ty.string)).next_token.2) ∧
      fields.get? 0
        = some (Val.seq ([] ++
            ([(0, Val.string (ascii "medium")), (0, Val.string (ascii "with salami"))].filter
              (fun e => decide (e.1 = 0))).map Prod.snd))) ∧
    consume_members_loop (consume 3) xs_members (2 + 1)
        ((members_state.init xs_members).fill xs_members (0, Val.integer 1))
        ((begin_state xs_null_text).after_value (consume 3 (Ty.integer true 32)))
      = consume_members_loop (consume 3) xs_members 2
          ((members_state.init xs_members).fill xs_members (0, Val.integer 1))
          ((begin_state xs_null_text).after_value (consume 3 (Ty.integer true 32))).at_value :=
  ⟨(consume_members_multiple_appends (consume 3) opt_members 0 _ rfl rfl).1 3
      (begin_state opt_text) _
      [(0, Val.string (ascii "medium")), (0, Val.string (ascii "with salami"))] []
      rfl (by unfold holds_sequences; decide) opt_delivers
      ⟨fun h => absurd h (by decide), fun _ => ⟨_, rfl, rfl, rfl⟩, trivial⟩
      (by decide) (by decide),
    (consume_members_multiple_appends (consume 3) xs_members 0 _ rfl rfl).2 rfl 2
      ((members_state.init xs_members).fill xs_members (0, Val.integer 1))
      ((begin_state xs_null_text).after_value (consume 3 (Ty.integer true 32))) _
      rfl ⟨rfl, rfl, by decide, by decide⟩⟩

/-- C5 (counterexample): the member `xs` is flagged `multiple` and
`maybe_default`; on `{"xs":1,"xs":null,"xs":3}` the key occurs three times and
the consume succeeds without an error, yet the field holds two elements: the
occurrence with null is passed over. This is so for `std::vector<int>` and also
for `std::vector<std::optional<int>>`, whose element type takes a null (the
array `[1,null,3]` gives three elements). -/
theorem from_input_multiple_null_skipped :
    (from_input 6 (Ty.record xs_members) (json.input xs_null_text)).1
      = outcome.ok (some (Val.record [Val.seq [Val.integer 1, Val.integer 3]])) ∧
    (from_input 6 (Ty.record xs_members) (json.input xs_null_text)).2.errors = [] ∧
    (from_input 6 (Ty.record xs_members) (json.input xs_null_text)).2.input.reported = [] ∧
    (from_input 6 (Ty.record xs_optional_members) (json.input xs_null_text)).1
      = outcome.ok (some (Val.record
          [Val.seq [Val.present (Val.integer 1), Val.present (Val.integer 3)]])) ∧
    (from_input 6 (Ty.record xs_optional_members) (json.input xs_null_text)).2.errors = [] ∧
    (from_input 6 (Ty.vector (Ty.optional (Ty.integer true 32)))
        (json.input (ascii "[1,null,3]"))).1
      = outcome.ok (some (Val.seq
          [Val.present (Val.integer 1), Val.absent, Val.present (Val.integer 3)])) :=
  ⟨rfl, by decide!, by decide!, rfl, by decide!, rfl⟩
theorem consume_members_loop_null_unfound (consume : Ty → consumer)
    (members : List member_info) (fuel : Nat) (ms : members_state) (st st1 : consume_state)
    (idx : Nat) (m : member_info)
    (h_token : st.next_token = (outcome.ok token_kind.null, st1))
    (h_member : names_member members st1.input.mapping_key.data idx m)
    (h_found : ms.found_members.getD idx false = false)
    (h_default : has_flag m.flags member_flag.maybe_default = true) :
    consume_members_loop consume members (fuel + 1) ms st
      = consume_members_loop consume members fuel ms
          { st1 with input := st1.input.mapping_key_moved } := by
  obtain ⟨h_get, h_name, h_before, h_discr⟩ := h_member
  have h_null := try_fill_member_null consume st1.input.mapping_key.data idx m ms
    { st1 with input := st1.input.mapping_key_moved } h_name h_found h_default
  have h_fm := fill_members_first_match consume st1.input.mapping_key.data token_kind.null
    members idx m h_get h_before 0 ms { st1 with input := st1.input.mapping_key_moved }
    (by rw [Nat.zero_add, h_null]; simp)
  rw [Nat.zero_add, h_null] at h_fm
  rw [consume_members_loop]
  have h_end : token_kind.null ≠ token_kind.end_mapping := by decide
  simp only [h_token, h_end, if_false,
    consume_discriminators_skipped consume st1.input.mapping_key.data _ members h_discr, h_fm]

/-- C10 (amended): in a mapping whose keys so far named members without
alternatives (so none was a discriminator key), a key that names a member with
an `alts` attribute. When the value is no null passed over (the member is not
flagged `maybe_default`, or the token is not null), `consume_members` reports
`type_unspecified` at the key anchor, once, and throws. When the member is
flagged `maybe_default` and the value is null, the key is passed over: nothing
is reported, the member is not marked found, and the loop goes on behind the
key with the members as the earlier keys left them. -/
theorem consume_members_own_key_first (consume : Ty → consumer)
    (members : List member_info) (fuel : Nat) (st0 st st1 : consume_state)
    (entries : List (Nat × Val)) (token : token_kind) (idx : Nat) (m : member_info)
    (a : member_alts)
    (h_seq : holds_sequences members (members.map member_info.init))
    (h_keys : delivers_keys consume members st0 entries st)
    (h_rep : repeats_allowed members (members_state.init members).found_members entries)
    (h_token : st.next_token = (outcome.ok token, st1))
    (h_end : token ≠ token_kind.end_mapping)
    (h_member : names_member members st1.input.mapping_key.data idx m)
    (h_alts : m.alts = some a)
    (h_fuel : entries.length < fuel) :
    (¬ (has_flag m.flags member_flag.maybe_default = true ∧ token = token_kind.null) →
      consume_members consume members fuel st0
        = (outcome.doc_consume_exception,
            { input := st1.input.mapping_key_moved,
              errors := st.errors ++
                [doc_error.mk (st1.input.location relative_loc.key)
                  doc_error_kind.type_unspecified] })) ∧
    (has_flag m.flags member_flag.maybe_default = true ∧ token = token_kind.null →
      consume_members_loop consume members fuel (members_state.init members) st0
        = consume_members_loop consume members (fuel - entries.length - 1)
            (entries.foldl (members_state.fill members) (members_state.init members))
            { st1 with input := st1.input.mapping_key_moved } ∧
      (entries.foldl (members_state.fill members)
        (members_state.init members)).found_members.getD idx false = false ∧
      st1.errors = st.errors) := by
  refine ⟨fun h_null => consume_members_type_unspecified consume members fuel st0 st st1 entries
    token idx m a h_seq h_keys h_rep h_token h_end h_member h_alts h_null h_fuel, ?_⟩
  rintro ⟨h_default, h_tok⟩
  subst h_tok
  obtain ⟨f, rfl⟩ : ∃ f, fuel = (f + 1) + entries.length :=
    ⟨fuel - entries.length - 1, by omega⟩
  have h_not : idx ∉ entries.map Prod.fst := by
    intro hmem
    have := (delivers_keys_members consume members entries st0 st h_keys idx hmem).2
    rw [h_member.1, Option.map_some', h_alts] at this
    cases this
  have h_found : (entries.foldl (members_state.fill members)
      (members_state.init members)).found_members.getD idx false = false := by
    rw [List.getD_eq_getElem?_getD,
      (members_state.foldl_fill_other members entries idx h_not _).2,
      ← List.getD_eq_getElem?_getD]
    exact members_state.init_found members idx
  refine ⟨?_, h_found, consume_state.next_token_errors_of st st1 _ h_token⟩
  have h_sub : f + 1 + entries.length - entries.length - 1 = f := by omega
  rw [h_sub, consume_members_loop_keys consume members entries (members_state.init members)
      st0 st (f + 1) h_keys h_rep h_seq]
  exact consume_members_loop_null_unfound consume members f _ st st1 idx m h_token h_member
    h_found h_default

theorem payload_null_first_keys :
    delivers_keys (consume 3) payload_default_members (begin_state payload_null_first_text)
      [(0, Val.string (ascii "R"))]
      ((begin_state payload_null_first_text).after_value (consume 3 Ty.string)) :=
  ⟨token_kind.string, _, _, Ty.string, _, rfl, by decide,
    ⟨rfl, rfl, by decide, by decide⟩, rfl, by decide, rfl, rfl, rfl⟩

theorem consume_members_own_key_first_witness :
    consume_members (consume 3) payload_members 3 (begin_state payload_early_text)
      = (outcome.doc_consume_exception,
          { input := ((begin_state payload_early_text).after_value
              (consume 3 Ty.string)).next_token.2.input.mapping_key_moved,
            errors := [doc_error.mk ⟨13, 1⟩ doc_error_kind.type_unspecified] }) ∧
    consume_members_loop (consume 3) payload_default_members 4
        (members_state.init payload_default_members) (begin_state payload_null_first_text)
      = consume_members_loop (consume 3) payload_default_members 2
          ((members_state.init payload_default_members).fill payload_default_members
            (0, Val.string (ascii "R")))
          ((begin_state payload_null_first_text).after_value (consume 3 Ty.string)).at_value :=
  ⟨(consume_members_own_key_first (consume 3) payload_members 3
      (begin_state payload_early_text)
      ((begin_state payload_early_text).after_value (consume 3 Ty.string)) _
      [(0, Val.string (ascii "R"))] token_kind.begin_mapping 1 _ payload_alts
      (by unfold holds_sequences; decide) payload_early_keys
      ⟨fun h => absurd h (by decide), trivial⟩
      rfl (by decide) ⟨rfl, rfl, by decide, by decide⟩ rfl (by decide)).1 (by decide),
    ((consume_members_own_key_first (consume 3) payload_default_members 4
      (begin_state payload_null_first_text)
      ((begin_state payload_null_first_text).after_value (consume 3 Ty.string)) _
      [(0, Val.string (ascii "R"))] token_kind.null 1 _ payload_alts
      (by unfold holds_sequences; decide) payload_null_first_keys
      ⟨fun h => absurd h (by decide), trivial⟩
      rfl (by decide) ⟨rfl, rfl, by decide, by decide⟩ rfl (by decide)).2 ⟨rfl, rfl⟩).1⟩

/-- C10 (counterexample): the member `payload` has an `alts` attribute and is
flagged `maybe_default`. On
`{"file":"R","payload":null,"type":"write","payload":{"new_content":"hi"}}` its
own key comes before the discriminator key `type`, yet no `type_unspecified`
is reported: the null is passed over and the consume succeeds, the later
`payload` being consumed as a `write_entry`. On `{"file":"R","payload":null}`
the consume succeeds as well, with `payload` left at its default. -/
theorem from_input_own_key_null_unreported :
    (from_input 7 (Ty.record payload_default_members) (json.input payload_null_first_text)).1
      = outcome.ok (some (Val.record
          [Val.string (ascii "R"), Val.record [Val.string (ascii "hi")]])) ∧
    (from_input 7 (Ty.record payload_default_members)
        (json.input payload_null_first_text)).2.errors = [] ∧
    (from_input 7 (Ty.record payload_default_members) (json.input payload_only_null_text)).1
      = outcome.ok (some (Val.record [Val.string (ascii "R"), Val.record [Val.string []]])) ∧
    (from_input 7 (Ty.record payload_default_members)
        (json.input payload_only_null_text)).2.errors = [] :=
  ⟨rfl, by decide!, rfl, by decide!⟩
end stc
